import Mathlib

/-!
# MiniOs: allocator, scheduler, synchronisation, I/O and the simulation loop

A shallow embedding of `src/src/memory.c`, `src/src/queue.c`, `src/src/pcb.c`,
`src/src/scheduler.c`, `src/src/sync.c`, `src/src/io.c`, `src/src/trace.c` and of the
simulation loop of `src/src/main.c`, followed by the properties proved about it.

Conventions of the embedding.

* `size_t` values are natural numbers; every `size_t` addition of the source is
  followed by `% SIZE_MOD` (64-bit target).  Pointers are natural numbers as
  well (`0` is `NULL`) and pointer additions wrap the same way.
* `int` counters (`allocations`, `total_context_switches`, ...) are integers;
  signed overflow is undefined in C and is not modelled.
* A singly linked list of the source is a Lean `List`; the identity of a node is
  its position in the list.
* Calls to `malloc` for metadata are assumed to succeed unless a function takes
  an explicit flag for them.
* The loop of `main` is a function from a state to the list of the states after each
  of its statements; the results of `rand()` are a stream given to the loop, and one
  turn of the loop is one tick.
-/

namespace MiniOs

/-! ## memory.h / memory.c -/

/-- Number of values of a 64-bit `size_t` (and of a 64-bit pointer). -/
def SIZE_MOD : Nat := 2 ^ 64

/-- The value of `sizeof(MemoryBlock)` on a 64-bit target: a pointer, a `size_t`,
a padded `bool` and a pointer. -/
def SIZEOF_MEMORYBLOCK : Nat := 32

/-- The record `struct MemoryBlock` without its `next` link, which is the position
in the list. -/
structure MemoryBlock where
  start : Nat
  size : Nat
  is_free : Bool
deriving DecidableEq, Repr

/-- The record `struct MemoryManager`; `heap` is the address returned by `malloc`. -/
structure MemoryManager where
  heap : Nat
  total_size : Nat
  free_list : List MemoryBlock
  allocations : Int
  deallocations : Int
deriving DecidableEq, Repr

/-- Pointer plus byte count, as in `(char*)p + n`. -/
def ptr_add (p n : Nat) : Nat := (p + n) % SIZE_MOD

/-- The list `l` with the nodes at positions `i, ..., k-1` unlinked and the nodes
`repl` linked in their place. -/
def splice (l : List MemoryBlock) (i k : Nat) (repl : List MemoryBlock) : List MemoryBlock :=
  l.take i ++ repl ++ l.drop k

/-- The function `memory_init(size)`, where `heap` is what `malloc(size)` returned
(`0` when it failed); the two metadata allocations succeed. -/
def memory_init (heap size : Nat) : Option MemoryManager :=
  if heap = 0 then none
  else some
    { heap := heap
      total_size := size
      free_list := [{ start := heap, size := size, is_free := true }]
      allocations := 0
      deallocations := 0 }

/-- The loop of `find_block`: position and contents of the first node whose `start`
is `ptr`; the position counter starts at `i`. -/
def find_block_from (ptr : Nat) : List MemoryBlock → Nat → Option (Nat × MemoryBlock)
  | [], _ => none
  | current :: rest, i =>
    if current.start = ptr then some (i, current) else find_block_from ptr rest (i + 1)

/-- The function `find_block(mm, ptr)`. -/
def find_block (mm : MemoryManager) (ptr : Nat) : Option (Nat × MemoryBlock) :=
  find_block_from ptr mm.free_list 0

/-- The search loop of `memory_allocate` (lines 78-85): `best` is the candidate kept
so far, `i` the position of `current`. -/
def best_fit_loop (size : Nat) :
    List MemoryBlock → Nat → Option (Nat × MemoryBlock) → Option (Nat × MemoryBlock)
  | [], _, best => best
  | current :: rest, i, best =>
    if current.is_free = true ∧ current.size ≥ size then
      match best with
      | none => best_fit_loop size rest (i + 1) (some (i, current))
      | some (k, b) =>
        if current.size < b.size then best_fit_loop size rest (i + 1) (some (i, current))
        else best_fit_loop size rest (i + 1) (some (k, b))
    else best_fit_loop size rest (i + 1) best

/-- The size after `size = (size + 7) & ~7`. -/
def align8 (size : Nat) : Nat := (size + 7) % SIZE_MOD / 8 * 8

/-- The function `memory_allocate(mm, size)`; the result is the returned pointer
(`0` for `NULL`) and the manager after the call.  `new_block_ok` tells whether the
`malloc` of the split's metadata record succeeds. -/
def memory_allocate (mm : MemoryManager) (size : Nat) (new_block_ok : Bool) :
    Nat × MemoryManager :=
  if size = 0 then (0, mm)
  else
    let size := align8 size
    match best_fit_loop size mm.free_list 0 none with
    | none => (0, mm)
    | some (i, best) =>
      if best.size > (size + SIZEOF_MEMORYBLOCK) % SIZE_MOD then
        if new_block_ok = false then (0, mm)
        else
          let new_block : MemoryBlock :=
            { start := ptr_add best.start size, size := best.size - size, is_free := true }
          let best1 : MemoryBlock := { start := best.start, size := size, is_free := false }
          (best.start,
            { mm with
              free_list := splice mm.free_list i (i + 1) [best1, new_block]
              allocations := mm.allocations + 1 })
      else
        (best.start,
          { mm with
            free_list := splice mm.free_list i (i + 1) [{ best with is_free := false }]
            allocations := mm.allocations + 1 })

/-- What the coalescing loop of `memory_free` finds: nothing, a node `current` that
ends where `block` starts, or a node `current` that starts where `block` ends. -/
inductive Merge where
  | no_merge : Merge
  | into_current : Nat → MemoryBlock → Merge
  | into_block : Nat → MemoryBlock → Merge
deriving DecidableEq, Repr

/-- The coalescing loop of `memory_free` (lines 125-150) up to its first `return`:
`j` is the position of `block`, `i` the position of `current`. -/
def merge_scan (block : MemoryBlock) (j : Nat) : List MemoryBlock → Nat → Merge
  | [], _ => Merge.no_merge
  | current :: rest, i =>
    if current.is_free = true ∧ i ≠ j then
      if ptr_add current.start current.size = block.start then Merge.into_current i current
      else if ptr_add block.start block.size = current.start then Merge.into_block i current
      else merge_scan block j rest (i + 1)
    else merge_scan block j rest (i + 1)

/-- The function `memory_free(mm, ptr)`: the returned flag and the manager after the
call.

The two merges relink the list.  `current->next = block->next; free(block)` unlinks
`block` and the nodes between `current` and it when `current` comes first in the list.
`block->next = current->next; free(current)` unlinks `current` and the nodes between
`block` and it when `block` comes first.  In the opposite orders the assignment
closes a cycle and leaves a link to a freed node: the list is no longer a list, and
the result is `none`. -/
def memory_free (mm : MemoryManager) (ptr : Nat) : Option (Bool × MemoryManager) :=
  if ptr = 0 then some (false, mm)
  else
    match find_block mm ptr with
    | none => some (false, mm)
    | some (j, found) =>
      if found.is_free = true then some (false, mm)
      else
        let block : MemoryBlock := { found with is_free := true }
        let marked := splice mm.free_list j (j + 1) [block]
        match merge_scan block j marked 0 with
        | Merge.no_merge =>
          some (true, { mm with free_list := marked, deallocations := mm.deallocations + 1 })
        | Merge.into_current i current =>
          if i < j then
            some (true,
              { mm with
                free_list := splice marked i (j + 1)
                  [{ current with size := (current.size + block.size) % SIZE_MOD }]
                deallocations := mm.deallocations + 1 })
          else none
        | Merge.into_block i current =>
          if j < i then
            some (true,
              { mm with
                free_list := splice marked j (i + 1)
                  [{ block with size := (block.size + current.size) % SIZE_MOD }]
                deallocations := mm.deallocations + 1 })
          else none

/-! ### Well-formedness of the block list -/

/-- Sum of the sizes of the nodes of a list. -/
def total_sizes : List MemoryBlock → Nat
  | [] => 0
  | b :: rest => b.size + total_sizes rest

/-- The nodes of the list lie one after the other from address `a` on: the first
starts at `a` and every other node starts where the node before it ends. -/
def Chained : Nat → List MemoryBlock → Prop
  | _, [] => True
  | a, b :: rest => b.start = a ∧ Chained (a + b.size) rest

/-- No free node of size zero directly follows a node of size zero; `prev_zero` tells
whether the node before the list has size zero. -/
def NoZeroRun : Bool → List MemoryBlock → Prop
  | _, [] => True
  | prev_zero, b :: rest =>
    ¬ (prev_zero = true ∧ b.is_free = true ∧ b.size = 0) ∧ NoZeroRun (decide (b.size = 0)) rest

/-- What a successful `malloc(size)` returning `heap` guarantees on a 64-bit target:
the address is not `NULL` and the region ends at least one metadata record below the
top of the address space. -/
def ValidRegion (heap size : Nat) : Prop :=
  heap ≠ 0 ∧ heap + size + SIZEOF_MEMORYBLOCK ≤ SIZE_MOD

/-- Well-formed managers: the region is valid, the list is not empty, its nodes tile
the region in list order, and no free node of size zero follows a node of size zero. -/
structure HeapInv (mm : MemoryManager) : Prop where
  region : ValidRegion mm.heap mm.total_size
  nonempty : mm.free_list ≠ []
  chained : Chained mm.heap mm.free_list
  total : total_sizes mm.free_list = mm.total_size
  no_zero_run : NoZeroRun false mm.free_list

/-- The managers that `memory_init(total)` followed by calls of `memory_allocate` and
`memory_free` can produce, `heap` being the address of the region. -/
inductive Reachable (heap total : Nat) : MemoryManager → Prop where
  | init (mm : MemoryManager) : memory_init heap total = some mm → Reachable heap total mm
  | allocate (mm : MemoryManager) (size : Nat) (new_block_ok : Bool) :
      Reachable heap total mm → Reachable heap total (memory_allocate mm size new_block_ok).2
  | free (mm : MemoryManager) (ptr : Nat) (ok : Bool) (mm1 : MemoryManager) :
      Reachable heap total mm → memory_free mm ptr = some (ok, mm1) → Reachable heap total mm1

/-- Flag handed to the nodes after `l`: whether the last node before them has size
zero. -/
def last_zero (prev_zero : Bool) : List MemoryBlock → Bool
  | [] => prev_zero
  | b :: rest => last_zero (decide (b.size = 0)) rest

/-- A node at position `pos` that the coalescing loop passes over: it is `block`
itself, or in use, or not adjacent to `block`. -/
def Skipped (block : MemoryBlock) (j pos : Nat) (c : MemoryBlock) : Prop :=
  ¬ (c.is_free = true ∧ pos ≠ j ∧
      (ptr_add c.start c.size = block.start ∨ ptr_add block.start block.size = c.start))

/-- The test of the search loop: the node is free and large enough. -/
def Fits (size : Nat) (c : MemoryBlock) : Prop := c.is_free = true ∧ size ≤ c.size

/-- The manager after a successful `memory_allocate` that splits `best`, found at
position `i`, for the aligned size `r`. -/
def after_split (mm : MemoryManager) (i r : Nat) (best : MemoryBlock) : MemoryManager :=
  { mm with
    free_list := splice mm.free_list i (i + 1)
      [{ start := best.start, size := r, is_free := false },
       { start := ptr_add best.start r, size := best.size - r, is_free := true }]
    allocations := mm.allocations + 1 }

/-- The manager after a successful `memory_allocate` that takes `best`, found at
position `i`, whole. -/
def after_take (mm : MemoryManager) (i : Nat) (best : MemoryBlock) : MemoryManager :=
  { mm with
    free_list := splice mm.free_list i (i + 1) [{ best with is_free := false }]
    allocations := mm.allocations + 1 }

/-- The manager after `memory_free` has relinked the list to `l`. -/
def after_free (mm : MemoryManager) (l : List MemoryBlock) : MemoryManager :=
  { mm with free_list := l, deallocations := mm.deallocations + 1 }

/-- The node `found` once `block->is_free = true` is executed. -/
def freed (found : MemoryBlock) : MemoryBlock := { found with is_free := true }

/-- The list once `block->is_free = true` is executed on the node at position `j`. -/
def marked_list (mm : MemoryManager) (j : Nat) (found : MemoryBlock) : List MemoryBlock :=
  splice mm.free_list j (j + 1) [freed found]

/-- The node `current` after `current->size += block->size`. -/
def grown (current block : MemoryBlock) : MemoryBlock :=
  { current with size := (current.size + block.size) % SIZE_MOD }

/-- A manager reached by one allocation of 64 bytes in a region of 256 bytes at
address 4096. -/
def heap_one_alloc : MemoryManager :=
  { heap := 4096
    total_size := 256
    free_list := [{ start := 4096, size := 64, is_free := false },
                  { start := 4160, size := 192, is_free := true }]
    allocations := 1
    deallocations := 0 }

/-- The fresh manager of a region of 256 bytes at address 4096. -/
def heap_fresh : MemoryManager :=
  { heap := 4096
    total_size := 256
    free_list := [{ start := 4096, size := 256, is_free := true }]
    allocations := 0
    deallocations := 0 }

/-- The manager reached from `heap_fresh` by `memory_allocate(mm, SIZE_MAX)`: the
aligned size wraps to zero and the split leaves an in-use node of size zero. -/
def heap_zero_alloc : MemoryManager :=
  { heap := 4096
    total_size := 256
    free_list := [{ start := 4096, size := 0, is_free := false },
                  { start := 4096, size := 256, is_free := true }]
    allocations := 1
    deallocations := 0 }

/-- The manager with the given block list and counters, in the region of 256 bytes at
address 4096. -/
def heap_with (l : List MemoryBlock) (allocations deallocations : Int) : MemoryManager :=
  { heap := 4096
    total_size := 256
    free_list := l
    allocations := allocations
    deallocations := deallocations }

/-! ## pcb.h / pcb.c -/

/-- The enumeration `ProcessState`. -/
inductive ProcessState where
  | STATE_NEW : ProcessState
  | STATE_READY : ProcessState
  | STATE_RUNNING : ProcessState
  | STATE_BLOCKED : ProcessState
  | STATE_TERMINATED : ProcessState
deriving DecidableEq, Repr

/-- The record `struct PCB`.  The pointers `stack` and `allocated_memory` are addresses
(`0` for `NULL`); `mutex_held` is the address of the mutex held, if any. -/
structure PCB where
  pid : Int
  state : ProcessState
  priority : Int
  arrival_time : Int
  start_time : Int
  finish_time : Int
  remaining_time : Int
  total_time : Int
  wait_time : Int
  blocked_time : Int
  stack : Nat
  stack_size : Int
  allocated_memory : Nat
  memory_size : Int
  io_device : Int
  io_end_time : Int
  mutex_held : Option Nat
  semaphore_id : Int
  context_switches : Int
  last_run_time : Int
deriving DecidableEq

/-- The PCBs of the program: the record found at each address.  A non-null `PCB*` of
the source is an address. -/
abbrev PCBStore := Nat → PCB

/-- The function `pcb_create(pid, priority, total_time)`, as the record it fills in;
`stack` is the address returned by `malloc(4096)`. -/
def pcb_create (pid priority total_time : Int) (stack : Nat) : PCB :=
  { pid := pid
    state := ProcessState.STATE_NEW
    priority := priority
    arrival_time := 0
    start_time := -1
    finish_time := -1
    remaining_time := total_time
    total_time := total_time
    wait_time := 0
    blocked_time := 0
    stack := stack
    stack_size := 4096
    allocated_memory := 0
    memory_size := 0
    io_device := -1
    io_end_time := -1
    mutex_held := none
    semaphore_id := -1
    context_switches := 0
    last_run_time := 0 }

/-- The function `pcb_set_state(pcb, state)` on the PCB at address `pcb`. -/
def pcb_set_state (pcbs : PCBStore) (pcb : Nat) (state : ProcessState) : PCBStore :=
  Function.update pcbs pcb { pcbs pcb with state := state }

/-! ## queue.h / queue.c -/

/-- The record `struct Queue`: the PCB addresses held by the nodes from `head` to
`tail`, and the counter `size`. -/
structure Queue where
  nodes : List Nat
  size : Int
deriving DecidableEq, Repr

/-- The function `queue_create()`. -/
def queue_create : Queue := { nodes := [], size := 0 }

/-- The function `queue_enqueue(queue, pcb)` for a non-null `pcb`. -/
def queue_enqueue (queue : Queue) (pcb : Nat) : Queue :=
  { nodes := queue.nodes ++ [pcb], size := queue.size + 1 }

/-- The function `queue_dequeue(queue)`: the PCB returned, if any, and the queue after
the call. -/
def queue_dequeue (queue : Queue) : Option Nat × Queue :=
  match queue.nodes with
  | [] => (none, queue)
  | pcb :: rest => (some pcb, { nodes := rest, size := queue.size - 1 })

/-! ## scheduler.h / scheduler.c -/

/-- The enumeration `SchedulerType`. -/
inductive SchedulerType where
  | SCHED_FCFS : SchedulerType
  | SCHED_RR : SchedulerType
  | SCHED_PRIORITY : SchedulerType
deriving DecidableEq, Repr

/-- The record `struct Scheduler`; `current_process` is `none` for `NULL`. -/
structure Scheduler where
  type : SchedulerType
  ready_queue : Queue
  quantum : Int
  quantum_remaining : Int
  current_process : Option Nat
  total_context_switches : Int
deriving DecidableEq, Repr

/-- The function `scheduler_create(type, quantum)`. -/
def scheduler_create (type : SchedulerType) (quantum : Int) : Scheduler :=
  { type := type
    ready_queue := queue_create
    quantum := quantum
    quantum_remaining := quantum
    current_process := none
    total_context_switches := 0 }

/-- The insertion of `scheduler_add_process` under `SCHED_PRIORITY` (lines 37-59): the
walk passes every node whose PCB has a priority at least that of `pcb` and links the
new node before the first other node, or at the tail. -/
def insert_by_priority (pcbs : PCBStore) (pcb : Nat) : List Nat → List Nat
  | [] => [pcb]
  | current :: rest =>
    if (pcbs current).priority ≥ (pcbs pcb).priority then
      current :: insert_by_priority pcbs pcb rest
    else pcb :: current :: rest

/-- The function `scheduler_add_process(sched, pcb)` for a non-null `pcb`. -/
def scheduler_add_process (sched : Scheduler) (pcbs : PCBStore) (pcb : Nat) : Scheduler :=
  if sched.type = SchedulerType.SCHED_PRIORITY then
    { sched with
      ready_queue :=
        { nodes := insert_by_priority pcbs pcb sched.ready_queue.nodes
          size := sched.ready_queue.size + 1 } }
  else { sched with ready_queue := queue_enqueue sched.ready_queue pcb }

/-- The test of lines 71-74 of `scheduler_get_next`: the current process goes on with
its Round Robin slice. -/
def continues_slice (sched : Scheduler) (pcbs : PCBStore) : Bool :=
  match sched.current_process with
  | none => false
  | some cur =>
    decide (sched.type = SchedulerType.SCHED_RR) && decide (sched.quantum_remaining > 0) &&
      decide ((pcbs cur).remaining_time > 0) &&
      decide ((pcbs cur).state = ProcessState.STATE_RUNNING)

/-- Lines 84-92 of `scheduler_get_next`: what happens to the process that was current
when `next` is taken from the queue. -/
def save_previous (sched : Scheduler) (pcbs : PCBStore) (next : Nat) : Scheduler × PCBStore :=
  match sched.current_process with
  | none => (sched, pcbs)
  | some cur =>
    if cur ≠ next ∧ (pcbs cur).state = ProcessState.STATE_RUNNING then
      ((if sched.type = SchedulerType.SCHED_RR ∧ (pcbs cur).remaining_time > 0 then
          scheduler_add_process sched pcbs cur
        else sched),
        Function.update pcbs cur
          { pcbs cur with context_switches := (pcbs cur).context_switches + 1 })
    else (sched, pcbs)

/-- The function `scheduler_get_next(sched, current_time)`: the PCB returned, if any,
the scheduler and the PCBs after the call. -/
def scheduler_get_next (sched : Scheduler) (pcbs : PCBStore) (current_time : Int) :
    Option Nat × Scheduler × PCBStore :=
  if continues_slice sched pcbs = true then (sched.current_process, sched, pcbs)
  else
    match queue_dequeue sched.ready_queue with
    | (none, queue) => (none, { sched with ready_queue := queue }, pcbs)
    | (some next, queue) =>
      let saved := save_previous { sched with ready_queue := queue } pcbs next
      let sched1 : Scheduler :=
        { saved.1 with
          current_process := some next
          quantum_remaining := saved.1.quantum
          total_context_switches := saved.1.total_context_switches + 1 }
      let pcbs1 : PCBStore :=
        if (saved.2 next).start_time = -1 then
          Function.update saved.2 next { saved.2 next with start_time := current_time }
        else saved.2
      (some next, sched1, pcb_set_state pcbs1 next ProcessState.STATE_RUNNING)

/-- The function `scheduler_preempt(sched)`. -/
def scheduler_preempt (sched : Scheduler) (pcbs : PCBStore) : Scheduler × PCBStore :=
  match sched.current_process with
  | none => (sched, pcbs)
  | some pcb =>
    if sched.type = SchedulerType.SCHED_RR then
      if sched.quantum_remaining ≤ 0 ∧ (pcbs pcb).remaining_time > 0 then
        let pcbs1 := pcb_set_state pcbs pcb ProcessState.STATE_READY
        ({ scheduler_add_process sched pcbs1 pcb with current_process := none }, pcbs1)
      else (sched, pcbs)
    else (sched, pcbs)

/-- The queue is in non-increasing order of priority: every PCB has a priority at least
that of every PCB queued behind it. -/
def PrioritySorted (pcbs : PCBStore) (nodes : List Nat) : Prop :=
  List.Pairwise (fun a b => (pcbs a).priority ≥ (pcbs b).priority) nodes

/-- The schedulers, with the PCBs of the program, that `scheduler_create(type, quantum)`
followed by calls of `scheduler_add_process`, `scheduler_get_next` and
`scheduler_preempt` can produce, when between the calls the driver may assign
`current_process` and `quantum_remaining` and may change the PCBs in any way that
leaves the priority of every queued PCB as it is. -/
inductive SchedReachable (type : SchedulerType) (quantum : Int) :
    Scheduler → PCBStore → Prop where
  | create (pcbs : PCBStore) : SchedReachable type quantum (scheduler_create type quantum) pcbs
  | add (sched : Scheduler) (pcbs : PCBStore) (pcb : Nat) :
      SchedReachable type quantum sched pcbs →
      SchedReachable type quantum (scheduler_add_process sched pcbs pcb) pcbs
  | get_next (sched : Scheduler) (pcbs : PCBStore) (now : Int) :
      SchedReachable type quantum sched pcbs →
      SchedReachable type quantum (scheduler_get_next sched pcbs now).2.1
        (scheduler_get_next sched pcbs now).2.2
  | preempt (sched : Scheduler) (pcbs : PCBStore) :
      SchedReachable type quantum sched pcbs →
      SchedReachable type quantum (scheduler_preempt sched pcbs).1
        (scheduler_preempt sched pcbs).2
  | driver (sched : Scheduler) (pcbs pcbs1 : PCBStore) (cur : Option Nat) (remaining : Int) :
      SchedReachable type quantum sched pcbs →
      (∀ p ∈ sched.ready_queue.nodes, (pcbs1 p).priority = (pcbs p).priority) →
      SchedReachable type quantum
        { sched with current_process := cur, quantum_remaining := remaining } pcbs1

/-- PCBs for the examples: the PCB at address `a` has pid `a`, priority `a % 5 + 1` and
10 ticks of work. -/
def pcbs_example : PCBStore := fun a => pcb_create a (a % 5 + 1) 10 0

/-- A scheduler of the given policy with quantum 5 whose ready queue holds the PCBs at
addresses 1 and 2. -/
def sched_example (type : SchedulerType) : Scheduler :=
  { scheduler_create type 5 with ready_queue := { nodes := [1, 2], size := 2 } }

/-! ## sync.h / sync.c -/

/-- The function `queue_is_empty(queue)` for a non-null queue: the test `size == 0`. -/
def queue_is_empty (queue : Queue) : Bool := decide (queue.size = 0)

/-- The record `struct Mutex`; `owner` is `none` for `NULL`. -/
structure Mutex where
  id : Int
  locked : Bool
  owner : Option Nat
  wait_queue : Queue
deriving DecidableEq, Repr

/-- The record `struct Semaphore`. -/
structure Semaphore where
  id : Int
  count : Int
  max_count : Int
  wait_queue : Queue
deriving DecidableEq, Repr

/-- The function `mutex_create(id)`. -/
def mutex_create (id : Int) : Mutex :=
  { id := id, locked := false, owner := none, wait_queue := queue_create }

/-- The function `mutex_lock(mutex, pcb, current_time)` for a non-null mutex at address
`self` and a non-null `pcb`: the returned flag, the mutex and the PCBs after the call.
The parameter `current_time` is not used by the source. -/
def mutex_lock (self : Nat) (mutex : Mutex) (pcbs : PCBStore) (pcb : Nat) :
    Bool × Mutex × PCBStore :=
  if mutex.locked = false then
    (true, { mutex with locked := true, owner := some pcb },
      Function.update pcbs pcb { pcbs pcb with mutex_held := some self })
  else
    (false, { mutex with wait_queue := queue_enqueue mutex.wait_queue pcb },
      pcb_set_state pcbs pcb ProcessState.STATE_BLOCKED)

/-- Lines 51-53 of `mutex_unlock`: `mutex_held` of the owner, if any, is cleared. -/
def clear_owner (mutex : Mutex) (pcbs : PCBStore) : PCBStore :=
  match mutex.owner with
  | none => pcbs
  | some owner => Function.update pcbs owner { pcbs owner with mutex_held := none }

/-- The function `mutex_unlock(mutex, current_time)` for a non-null mutex at address
`self`: the returned flag, the mutex and the PCBs after the call. -/
def mutex_unlock (self : Nat) (mutex : Mutex) (pcbs : PCBStore) : Bool × Mutex × PCBStore :=
  if mutex.locked = false then (false, mutex, pcbs)
  else
    match queue_dequeue mutex.wait_queue with
    | (none, queue) =>
      (true, { mutex with locked := false, owner := none, wait_queue := queue },
        clear_owner mutex pcbs)
    | (some next, queue) =>
      (true, { mutex with locked := true, owner := some next, wait_queue := queue },
        pcb_set_state
          (Function.update (clear_owner mutex pcbs) next
            { clear_owner mutex pcbs next with mutex_held := some self })
          next ProcessState.STATE_READY)

/-- The function `mutex_is_locked(mutex)` for a non-null mutex. -/
def mutex_is_locked (mutex : Mutex) : Bool := mutex.locked

/-- The function `semaphore_create(id, initial_count)`. -/
def semaphore_create (id initial_count : Int) : Semaphore :=
  { id := id, count := initial_count, max_count := initial_count, wait_queue := queue_create }

/-- The function `semaphore_wait(sem, pcb, current_time)` for a non-null semaphore and
a non-null `pcb`: the returned flag, the semaphore and the PCBs after the call. -/
def semaphore_wait (sem : Semaphore) (pcbs : PCBStore) (pcb : Nat) :
    Bool × Semaphore × PCBStore :=
  if sem.count > 0 then
    (true, { sem with count := sem.count - 1 },
      Function.update pcbs pcb { pcbs pcb with semaphore_id := sem.id })
  else
    (false, { sem with wait_queue := queue_enqueue sem.wait_queue pcb },
      Function.update (pcb_set_state pcbs pcb ProcessState.STATE_BLOCKED) pcb
        { pcb_set_state pcbs pcb ProcessState.STATE_BLOCKED pcb with semaphore_id := sem.id })

/-- The function `semaphore_signal(sem, current_time)` for a non-null semaphore: the
returned flag, the semaphore and the PCBs after the call. -/
def semaphore_signal (sem : Semaphore) (pcbs : PCBStore) : Bool × Semaphore × PCBStore :=
  if queue_is_empty sem.wait_queue = false then
    match queue_dequeue sem.wait_queue with
    | (none, queue) => (true, { sem with wait_queue := queue }, pcbs)
    | (some pcb, queue) =>
      (true, { sem with wait_queue := queue },
        Function.update (pcb_set_state pcbs pcb ProcessState.STATE_READY) pcb
          { pcb_set_state pcbs pcb ProcessState.STATE_READY pcb with semaphore_id := -1 })
  else if sem.count < sem.max_count then (true, { sem with count := sem.count + 1 }, pcbs)
  else (true, sem, pcbs)

/-- The function `semaphore_get_count(sem)` for a non-null semaphore. -/
def semaphore_get_count (sem : Semaphore) : Int := sem.count

/-- The invariant of a mutex: it is locked exactly when it has an owner. -/
def MutexInv (mutex : Mutex) : Prop := mutex.locked = true ↔ mutex.owner ≠ none

/-- The counter `size` of a queue equals the number of its nodes, as it does in every
queue built by `queue_create`, `queue_enqueue` and `queue_dequeue`. -/
def QueueWF (queue : Queue) : Prop := queue.size = queue.nodes.length

/-- The invariant of a semaphore: the count lies between 0 and `max_count`, PCBs wait
only when the count is 0, and the queue counter is right. -/
structure SemInv (sem : Semaphore) : Prop where
  nonneg : 0 ≤ sem.count
  le_max : sem.count ≤ sem.max_count
  waiting : sem.wait_queue.nodes ≠ [] → sem.count = 0
  queue_wf : QueueWF sem.wait_queue

/-- The semaphores that `semaphore_create(id, initial_count)` followed by calls of
`semaphore_wait` and `semaphore_signal`, on any PCBs, can produce. -/
inductive SemReachable (id initial_count : Int) : Semaphore → Prop where
  | create : SemReachable id initial_count (semaphore_create id initial_count)
  | wait (sem : Semaphore) (pcbs : PCBStore) (pcb : Nat) :
      SemReachable id initial_count sem →
      SemReachable id initial_count (semaphore_wait sem pcbs pcb).2.1
  | signal (sem : Semaphore) (pcbs : PCBStore) :
      SemReachable id initial_count sem →
      SemReachable id initial_count (semaphore_signal sem pcbs).2.1

/-! ## io.h / io.c -/

/-- The constant `MAX_IO_DEVICES`. -/
def MAX_IO_DEVICES : Int := 4

/-- The record `struct IODevice`; `current_process` is `none` for `NULL`. -/
structure IODevice where
  device_id : Int
  is_busy : Bool
  current_process : Option Nat
  end_time : Int
deriving DecidableEq, Repr

/-- The record `struct IOManager`; `devices i` is the slot `devices[i]` of the array. -/
structure IOManager where
  devices : Nat → IODevice
  io_queue : Queue
  device_count : Int

/-- The function `io_init(device_count)`; `memory` is what the slots that the function
does not initialise hold. -/
def io_init (device_count : Int) (memory : Nat → IODevice) : IOManager :=
  { devices := fun i =>
      if (i : Int) < (if device_count > MAX_IO_DEVICES then MAX_IO_DEVICES else device_count) then
        { device_id := i, is_busy := false, current_process := none, end_time := -1 }
      else memory i
    io_queue := queue_create
    device_count := if device_count > MAX_IO_DEVICES then MAX_IO_DEVICES else device_count }

/-- The least value of the type `int` of the source (32 bits). -/
def INT_MIN : Int := -2147483648

/-- The greatest value of the type `int` of the source (32 bits). -/
def INT_MAX : Int := 2147483647

/-- The function `io_request(io, pcb, device_id, duration, current_time)` for a non-null
manager and a non-null `pcb`: the returned flag, the manager and the PCBs after the
call.  The sum `current_time + duration` of two `int` is held as its mathematical
value: that is the value of the C expression whenever it lies between `INT_MIN` and
`INT_MAX`; outside that range the addition overflows, which is undefined in C, and the
definition says nothing about the program. -/
def io_request (io : IOManager) (pcbs : PCBStore) (pcb : Nat)
    (device_id duration current_time : Int) : Bool × IOManager × PCBStore :=
  if device_id < 0 ∨ device_id ≥ io.device_count then (false, io, pcbs)
  else
    let pcbs1 : PCBStore := Function.update pcbs pcb
      { pcbs pcb with io_device := device_id, io_end_time := current_time + duration }
    if (io.devices device_id.toNat).is_busy = false then
      (true,
        { io with
          devices := Function.update io.devices device_id.toNat
            { io.devices device_id.toNat with
              is_busy := true
              current_process := some pcb
              end_time := current_time + duration } },
        pcb_set_state pcbs1 pcb ProcessState.STATE_BLOCKED)
    else
      (false, { io with io_queue := queue_enqueue io.io_queue pcb },
        pcb_set_state pcbs1 pcb ProcessState.STATE_BLOCKED)

/-- Lines 71-76 of `io_update`: the process that held the device, if any, gets
`io_device = -1`, `io_end_time = -1` and the state `READY`. -/
def io_complete (pcbs : PCBStore) (holder : Option Nat) : PCBStore :=
  match holder with
  | none => pcbs
  | some pcb =>
    pcb_set_state
      (Function.update pcbs pcb { pcbs pcb with io_device := -1, io_end_time := -1 })
      pcb ProcessState.STATE_READY

/-- One turn of the loop of `io_update` (lines 67-89), for the device `i`. -/
def io_update_device (current_time : Int) (i : Nat) (st : IOManager × PCBStore) :
    IOManager × PCBStore :=
  if (st.1.devices i).is_busy = true ∧ (st.1.devices i).end_time ≤ current_time then
    let pcbs1 := io_complete st.2 (st.1.devices i).current_process
    let idle : IODevice :=
      { st.1.devices i with is_busy := false, current_process := none, end_time := -1 }
    match queue_dequeue st.1.io_queue with
    | (none, queue) =>
      ({ st.1 with devices := Function.update st.1.devices i idle, io_queue := queue }, pcbs1)
    | (some next, queue) =>
      if (pcbs1 next).io_device = i then
        ({ st.1 with
            devices := Function.update st.1.devices i
              { idle with
                is_busy := true
                current_process := some next
                end_time := (pcbs1 next).io_end_time }
            io_queue := queue }, pcbs1)
      else
        ({ st.1 with devices := Function.update st.1.devices i idle, io_queue := queue }, pcbs1)
  else st

/-- The function `io_update(io, current_time)` for a non-null manager: the manager and
the PCBs after the call. -/
def io_update (io : IOManager) (pcbs : PCBStore) (current_time : Int) : IOManager × PCBStore :=
  (List.range io.device_count.toNat).foldl (fun st i => io_update_device current_time i st)
    (io, pcbs)

/-- The function `io_is_device_busy(io, device_id)` for a non-null manager. -/
def io_is_device_busy (io : IOManager) (device_id : Int) : Bool :=
  if device_id < 0 ∨ device_id ≥ io.device_count then false
  else (io.devices device_id.toNat).is_busy

/-! ## trace.h / trace.c -/

/-- The strings passed as `event_type` to `trace_event`. -/
inductive EventType where
  | ARRIVAL : EventType
  | EXECUTE : EventType
  | IO_REQUEST : EventType
  | IO_COMPLETE : EventType
  | MUTEX_LOCK : EventType
  | SEM_WAIT : EventType
  | TERMINATE : EventType
deriving DecidableEq, Repr

/-- The record `struct TraceEvent`; `state` stands for the string that
`pcb_state_to_string` gives for it. -/
structure TraceEvent where
  time : Int
  pid : Int
  event_type : EventType
  state : ProcessState
  remaining_time : Int
  wait_time : Int
deriving DecidableEq, Repr

/-- The record `struct TraceManager` without its file: `events` holds the first
`event_count` entries of the array. -/
structure TraceManager where
  events : List TraceEvent
  event_count : Int
  event_capacity : Int
  total_processes : Int
  total_time : Int
deriving DecidableEq, Repr

/-- The function `trace_init(filename)` when the file opens. -/
def trace_init : TraceManager :=
  { events := [], event_count := 0, event_capacity := 1000, total_processes := 0,
    total_time := 0 }

/-- The function `trace_event(tm, time, pid, event_type, state, remaining_time,
wait_time)` for a non-null manager, `realloc` succeeding. -/
def trace_event (tm : TraceManager) (time pid : Int) (event_type : EventType)
    (state : ProcessState) (remaining_time wait_time : Int) : TraceManager :=
  { tm with
    events := tm.events ++
      [{ time := time, pid := pid, event_type := event_type, state := state,
         remaining_time := remaining_time, wait_time := wait_time }]
    event_count := tm.event_count + 1
    event_capacity :=
      if tm.event_count ≥ tm.event_capacity then tm.event_capacity * 2 else tm.event_capacity }

/-! ## main.c -/

/-- The global variables of `main.c` that the simulation loop uses, with the PCBs they
point to and the local `active_processes` of `main`.  `processes` holds the addresses
`processes[0]`, ..., `processes[process_count - 1]`; the mutex `mutexes[i]` is taken to
be at address `i`; `rand_calls` counts the calls of `rand()` made by the loop. -/
structure Sim where
  scheduler : Scheduler
  io_manager : IOManager
  trace_manager : TraceManager
  processes : List Nat
  pcbs : PCBStore
  current_time : Int
  max_time : Int
  mutexes : List Mutex
  semaphores : List Semaphore
  active_processes : Int
  rand_calls : Nat

/-- A piece of code of `main.c`: from the state before it, the states after each of its
statements, in the order in which they are executed. -/
abbrev Block := Sim → List Sim

/-- The state after the statements whose states are listed, `s` being the state before
them. -/
def final : List Sim → Sim → Sim
  | [], s => s
  | t :: rest, _ => final rest t

/-- A single statement. -/
def atom (f : Sim → Sim) : Block := fun s => [f s]

/-- The empty piece of code. -/
def skip : Block := fun _ => []

/-- The piece of code `a` followed by `b`. -/
def seq (a b : Block) : Block := fun s => a s ++ b (final (a s) s)

/-- The pieces of code of the list, one after the other. -/
def block : List Block → Block
  | [] => skip
  | a :: rest => seq a (block rest)

/-- A loop over the PCBs of the list: `body p` for each of them in turn. -/
def for_each (body : Nat → Block) : List Nat → Block
  | [] => skip
  | p :: rest => seq (body p) (for_each body rest)

/-- The call `trace_event(trace_manager, time, pcb->pid, event_type,
pcb_state_to_string(pcb->state), remaining, pcb->wait_time)`. -/
def trace_pcb (time : Int) (pcb : Nat) (event_type : EventType) (remaining : Int) (s : Sim) :
    Sim :=
  { s with
    trace_manager := trace_event s.trace_manager time (s.pcbs pcb).pid event_type
      (s.pcbs pcb).state remaining (s.pcbs pcb).wait_time }

/-- An assignment to fields of the PCB at address `pcb`. -/
def assign_pcb (pcb : Nat) (f : PCB → PCB) (s : Sim) : Sim :=
  { s with pcbs := Function.update s.pcbs pcb (f (s.pcbs pcb)) }

/-- One turn of the admission loop of `main` (lines 220-228), for `processes[i] = pcb`. -/
def admission (pcb : Nat) : Block := fun s =>
  if (s.pcbs pcb).state = ProcessState.STATE_NEW ∧ (s.pcbs pcb).arrival_time ≤ s.current_time then
    block
      [atom (fun t => { t with pcbs := pcb_set_state t.pcbs pcb ProcessState.STATE_READY }),
       atom (fun t => { t with scheduler := scheduler_add_process t.scheduler t.pcbs pcb }),
       atom (fun t => trace_pcb t.current_time pcb EventType.ARRIVAL
         (t.pcbs pcb).remaining_time t)] s
  else []

/-- One turn of the loop of `check_and_unblock_processes` (lines 127-139). -/
def unblock (pcb : Nat) : Block := fun s =>
  if (s.pcbs pcb).state = ProcessState.STATE_BLOCKED ∧ (s.pcbs pcb).io_end_time > 0 then
    if s.current_time ≥ (s.pcbs pcb).io_end_time then
      block
        [atom (assign_pcb pcb (fun r => { r with io_end_time := -1 })),
         atom (assign_pcb pcb (fun r => { r with io_device := -1 })),
         atom (fun t => { t with pcbs := pcb_set_state t.pcbs pcb ProcessState.STATE_READY }),
         atom (fun t => { t with scheduler := scheduler_add_process t.scheduler t.pcbs pcb }),
         atom (fun t => trace_pcb t.current_time pcb EventType.IO_COMPLETE
           (t.pcbs pcb).remaining_time t)] s
    else []
  else []

/-- The function `check_and_unblock_processes()`. -/
def check_and_unblock_processes : Block := fun s =>
  seq
    (atom (fun t =>
      { t with
        io_manager := (io_update t.io_manager t.pcbs t.current_time).1
        pcbs := (io_update t.io_manager t.pcbs t.current_time).2 }))
    (fun t => for_each unblock t.processes t) s

/-- Lines 87-93 of `simulate_process_execution`: the I/O request, after the test
`action < 20 && pcb->remaining_time > 0`; `rand` gives the results of `rand()`. -/
def simulate_io (rand : Nat → Nat) (pcb : Nat) : Block := fun s =>
  block
    [atom (fun t => { t with rand_calls := t.rand_calls + 1 }),
     atom (fun t => { t with rand_calls := t.rand_calls + 1 }),
     atom (fun t =>
      { t with
        io_manager := (io_request t.io_manager t.pcbs pcb
          ((rand s.rand_calls : Int) % s.io_manager.device_count)
          ((rand (s.rand_calls + 1) : Int) % 10 + 5) t.current_time).2.1
        pcbs := (io_request t.io_manager t.pcbs pcb
          ((rand s.rand_calls : Int) % s.io_manager.device_count)
          ((rand (s.rand_calls + 1) : Int) % 10 + 5) t.current_time).2.2 }),
     atom (fun t => trace_pcb t.current_time pcb EventType.IO_REQUEST
       (t.pcbs pcb).remaining_time t)] s

/-- Lines 94-101 of `simulate_process_execution`: the mutex acquisition, after the test
`action < 30 && mutex_count > 0 && pcb->remaining_time > 0`. -/
def simulate_mutex (rand : Nat → Nat) (pcb : Nat) : Block := fun s =>
  seq (atom (fun t => { t with rand_calls := t.rand_calls + 1 }))
    (fun t =>
      match t.mutexes[rand s.rand_calls % s.mutexes.length]? with
      | none => []
      | some mutex =>
        if mutex_is_locked mutex = false then
          block
            [atom (fun u =>
              { u with
                mutexes := u.mutexes.set (rand s.rand_calls % s.mutexes.length)
                  (mutex_lock (rand s.rand_calls % s.mutexes.length) mutex u.pcbs pcb).2.1
                pcbs := (mutex_lock (rand s.rand_calls % s.mutexes.length) mutex u.pcbs pcb).2.2 }),
             atom (fun u => trace_pcb u.current_time pcb EventType.MUTEX_LOCK
               (u.pcbs pcb).remaining_time u)] t
        else []) s

/-- Lines 102-108 of `simulate_process_execution`: the semaphore wait, after the test
`action < 40 && semaphore_count > 0 && pcb->remaining_time > 0`. -/
def simulate_semaphore (rand : Nat → Nat) (pcb : Nat) : Block := fun s =>
  seq (atom (fun t => { t with rand_calls := t.rand_calls + 1 }))
    (fun t =>
      match t.semaphores[rand s.rand_calls % s.semaphores.length]? with
      | none => []
      | some sem =>
        block
          [atom (fun u =>
            { u with
              semaphores := u.semaphores.set (rand s.rand_calls % s.semaphores.length)
                (semaphore_wait sem u.pcbs pcb).2.1
              pcbs := (semaphore_wait sem u.pcbs pcb).2.2 }),
           atom (fun u => trace_pcb u.current_time pcb EventType.SEM_WAIT
             (u.pcbs pcb).remaining_time u)] t) s

/-- Lines 85-108 of `simulate_process_execution`: the draw of `action` and the event it
selects. -/
def simulate_action (rand : Nat → Nat) (pcb : Nat) : Block := fun s =>
  seq (atom (fun t => { t with rand_calls := t.rand_calls + 1 }))
    (fun t =>
      if rand s.rand_calls % 100 < 20 ∧ (t.pcbs pcb).remaining_time > 0 then
        simulate_io rand pcb t
      else if rand s.rand_calls % 100 < 30 ∧ t.mutexes.length > 0 ∧
          (t.pcbs pcb).remaining_time > 0 then
        simulate_mutex rand pcb t
      else if rand s.rand_calls % 100 < 40 ∧ t.semaphores.length > 0 ∧
          (t.pcbs pcb).remaining_time > 0 then
        simulate_semaphore rand pcb t
      else []) s

/-- The value of `execution` in `simulate_process_execution`. -/
def execution (time_slice remaining_time : Int) : Int :=
  if time_slice < remaining_time then time_slice else remaining_time

/-- The function `simulate_process_execution(pcb, time_slice)` for a non-null `pcb`. -/
def simulate_process_execution (rand : Nat → Nat) (pcb : Nat) (time_slice : Int) : Block :=
  fun s =>
    block
      [atom (assign_pcb pcb (fun r =>
        { r with
          remaining_time :=
            r.remaining_time - execution time_slice (s.pcbs pcb).remaining_time })),
       atom (assign_pcb pcb (fun r =>
        { r with
          last_run_time := r.last_run_time + execution time_slice (s.pcbs pcb).remaining_time })),
       simulate_action rand pcb] s

/-- The value of `time_slice` in `main` (lines 238-244). -/
def time_slice (sched : Scheduler) (remaining_time : Int) : Int :=
  if (if sched.type = SchedulerType.SCHED_RR then sched.quantum_remaining else remaining_time)
      > remaining_time then remaining_time
  else if sched.type = SchedulerType.SCHED_RR then sched.quantum_remaining else remaining_time

/-- Lines 255-269 of `main`: what becomes of the process after its slice. -/
def after_slice (current : Nat) : Block := fun s =>
  if (s.pcbs current).remaining_time ≤ 0 then
    block
      [atom (fun t => { t with pcbs := pcb_set_state t.pcbs current ProcessState.STATE_TERMINATED }),
       atom (fun t => assign_pcb current (fun r => { r with finish_time := t.current_time + 1 }) t),
       atom (fun t => { t with active_processes := t.active_processes - 1 }),
       atom (fun t => trace_pcb (t.current_time + 1) current EventType.TERMINATE 0 t),
       atom (fun t => { t with scheduler := { t.scheduler with current_process := none } })] s
  else if (s.pcbs current).state = ProcessState.STATE_BLOCKED then
    atom (fun t => { t with scheduler := { t.scheduler with current_process := none } }) s
  else if s.scheduler.type = SchedulerType.SCHED_RR ∧ s.scheduler.quantum_remaining ≤ 0 then
    atom (fun t =>
      { t with
        scheduler := (scheduler_preempt t.scheduler t.pcbs).1
        pcbs := (scheduler_preempt t.scheduler t.pcbs).2 }) s
  else []

/-- Lines 237-269 of `main`: the body of `if (current && current->state ==
STATE_RUNNING)`. -/
def run_current (rand : Nat → Nat) (current : Nat) : Block := fun s =>
  block
    [simulate_process_execution rand current
      (time_slice s.scheduler (s.pcbs current).remaining_time),
     fun t =>
      if t.scheduler.type = SchedulerType.SCHED_RR then
        atom (fun u =>
          { u with
            scheduler :=
              { u.scheduler with
                quantum_remaining := u.scheduler.quantum_remaining
                  - time_slice s.scheduler (s.pcbs current).remaining_time } }) t
      else [],
     atom (fun t => trace_pcb t.current_time current EventType.EXECUTE
       (t.pcbs current).remaining_time t),
     after_slice current] s

/-- Lines 234-270 of `main`: the call of `scheduler_get_next` and the execution of the
process it returns. -/
def dispatch (rand : Nat → Nat) : Block := fun s =>
  seq
    (atom (fun t =>
      { t with
        scheduler := (scheduler_get_next t.scheduler t.pcbs t.current_time).2.1
        pcbs := (scheduler_get_next t.scheduler t.pcbs t.current_time).2.2 }))
    (fun t =>
      match (scheduler_get_next s.scheduler s.pcbs s.current_time).1 with
      | none => []
      | some current =>
        if (t.pcbs current).state = ProcessState.STATE_RUNNING then run_current rand current t
        else []) s

/-- One turn of the loop of `update_wait_times`. -/
def update_wait_time (pcb : Nat) : Block := fun s =>
  if (s.pcbs pcb).state = ProcessState.STATE_READY then
    atom (assign_pcb pcb (fun r => { r with wait_time := r.wait_time + 1 })) s
  else if (s.pcbs pcb).state = ProcessState.STATE_BLOCKED then
    atom (assign_pcb pcb (fun r => { r with blocked_time := r.blocked_time + 1 })) s
  else []

/-- The function `update_wait_times()`. -/
def update_wait_times : Block := fun s => for_each update_wait_time s.processes s

/-- The body of the simulation loop of `main` (lines 219-275). -/
def loop_body (rand : Nat → Nat) : Block :=
  block
    [fun s => for_each admission s.processes s,
     check_and_unblock_processes,
     dispatch rand,
     update_wait_times,
     atom (fun t => { t with current_time := t.current_time + 1 })]

/-- The test of the simulation loop of `main` (line 218). -/
def loop_test (s : Sim) : Bool :=
  decide (s.current_time < s.max_time) && decide (s.active_processes > 0)

/-- The state of the simulation loop of `main` after its first `n` turns, or when it
has ended if it takes fewer. -/
def main_loop (rand : Nat → Nat) : Nat → Sim → Sim
  | 0, s => s
  | n + 1, s => if loop_test s = true then main_loop rand n (final (loop_body rand s) s) else s

/-- The state in which `main` enters its simulation loop, for the policy, the quantum
and the time limit of the command line and the roster `processes` left in `pcbs` by
`create_processes`; `memory` is what `malloc` returned for the I/O manager. -/
def main_init (type : SchedulerType) (quantum max_time : Int) (processes : List Nat)
    (pcbs : PCBStore) (memory : Nat → IODevice) : Sim :=
  { scheduler := scheduler_create type quantum
    io_manager := io_init 4 memory
    trace_manager := trace_init
    processes := processes
    pcbs := pcbs
    current_time := 0
    max_time := max_time
    mutexes := [mutex_create 0, mutex_create 1, mutex_create 2]
    semaphores := [semaphore_create 0 2, semaphore_create 1 2]
    active_processes := processes.length
    rand_calls := 0 }

/-- The property of C12 at one state: at most one PCB of the roster is `RUNNING`, and a
PCB of the roster that is `RUNNING` is the `current_process` of the scheduler. -/
def RunningOk (s : Sim) : Prop :=
  (∀ p ∈ s.processes, ∀ q ∈ s.processes,
    (s.pcbs p).state = ProcessState.STATE_RUNNING →
    (s.pcbs q).state = ProcessState.STATE_RUNNING → p = q) ∧
  (∀ p ∈ s.processes, (s.pcbs p).state = ProcessState.STATE_RUNNING →
    s.scheduler.current_process = some p)

/-- No process is current and no PCB of the roster is `RUNNING`. -/
def Idle (s : Sim) : Prop :=
  s.scheduler.current_process = none ∧
  ∀ p ∈ s.processes, (s.pcbs p).state ≠ ProcessState.STATE_RUNNING

/-- The process `c` is current and no other PCB of the roster is `RUNNING`. -/
def Exec (c : Nat) (s : Sim) : Prop :=
  s.scheduler.current_process = some c ∧
  ∀ p ∈ s.processes, p ≠ c → (s.pcbs p).state ≠ ProcessState.STATE_RUNNING

/-- The process `c` is current, no other PCB of the roster is `RUNNING`, and the policy,
the rest of the quantum and the remaining time of `c` are the given ones. -/
def ExecAt (c : Nat) (type : SchedulerType) (quantum_remaining remaining_time : Int)
    (s : Sim) : Prop :=
  Exec c s ∧ s.scheduler.type = type ∧ s.scheduler.quantum_remaining = quantum_remaining ∧
  (s.pcbs c).remaining_time = remaining_time

/-- From a state that satisfies `P`, every state that the piece of code goes through
satisfies `I` and the state it ends in satisfies `Q`. -/
def Triple (I P Q : Sim → Prop) (b : Block) : Prop :=
  ∀ s, P s → (∀ t ∈ b s, I t) ∧ Q (final (b s) s)

/-- From a state that satisfies `J`, every state that the piece of code goes through
satisfies `J`. -/
def Keeps (J : Sim → Prop) (b : Block) : Prop :=
  ∀ s, J s → ∀ t ∈ b s, J t

/-- The step from `s` to `t` keeps the roster and the current process and makes no PCB
`RUNNING`. -/
def Calm (s t : Sim) : Prop :=
  t.processes = s.processes ∧
  t.scheduler.current_process = s.scheduler.current_process ∧
  ∀ q, (t.pcbs q).state = ProcessState.STATE_RUNNING →
    (s.pcbs q).state = ProcessState.STATE_RUNNING

/-- The step from `s` to `t` keeps the roster and the scheduler, changes no PCB but `c`
and keeps the remaining time of `c`. -/
def Touches (c : Nat) (s t : Sim) : Prop :=
  t.processes = s.processes ∧ t.scheduler = s.scheduler ∧
  (∀ q, q ≠ c → t.pcbs q = s.pcbs q) ∧
  (t.pcbs c).remaining_time = (s.pcbs c).remaining_time

/-- The process `c` is current, and no PCB of the roster is `RUNNING`. -/
def Stopped (c : Nat) (s : Sim) : Prop :=
  s.scheduler.current_process = some c ∧
  ∀ p ∈ s.processes, (s.pcbs p).state ≠ ProcessState.STATE_RUNNING

/-- Memory for the examples, as `malloc` may return it for the array of devices. -/
def memory_example : Nat → IODevice := fun _ =>
  { device_id := 0, is_busy := false, current_process := none, end_time := 0 }

/-- A stream of `rand()` results for the examples. -/
def rand_example : Nat → Nat := fun n => 7 * n + 3

/-- The function `queue_peek(queue)`. -/
def queue_peek (queue : Queue) : Option Nat :=
  match queue.nodes with
  | [] => none
  | pcb :: _ => some pcb

/-- The function `queue_size(queue)` for a non-null queue. -/
def queue_size (queue : Queue) : Int := queue.size

/-- The function `queue_remove(queue, pcb)` for a non-null `pcb`: the first node that
holds `pcb`, if there is one, is unlinked. -/
def queue_remove (queue : Queue) (pcb : Nat) : Queue :=
  if pcb ∈ queue.nodes then { nodes := queue.nodes.erase pcb, size := queue.size - 1 }
  else queue

/-- The queues that `queue_create`, `queue_enqueue`, `queue_dequeue` and `queue_remove`
produce. -/
inductive QueueReachable : Queue → Prop where
  | create : QueueReachable queue_create
  | enqueue (queue : Queue) (pcb : Nat) :
      QueueReachable queue → QueueReachable (queue_enqueue queue pcb)
  | dequeue (queue : Queue) : QueueReachable queue → QueueReachable (queue_dequeue queue).2
  | remove (queue : Queue) (pcb : Nat) :
      QueueReachable queue → QueueReachable (queue_remove queue pcb)

/-- The results of `n` successive calls of `queue_dequeue`, and the queue after them. -/
def dequeue_times : Nat → Queue → List (Option Nat) × Queue
  | 0, queue => ([], queue)
  | n + 1, queue =>
    ((queue_dequeue queue).1 :: (dequeue_times n (queue_dequeue queue).2).1,
      (dequeue_times n (queue_dequeue queue).2).2)

/-- Two PCBs, at addresses 1 and 2, that requested device 0 at tick 0, for 5 and for 7
ticks: the first holds the device, the second waits in the queue. -/
def io_two_requests : Bool × IOManager × PCBStore :=
  io_request
    (io_request (io_init 4 memory_example) pcbs_example 1 0 5 0).2.1
    (io_request (io_init 4 memory_example) pcbs_example 1 0 5 0).2.2 2 0 7 0

/-- A stream of `rand()` results that are all 0: every slice that leaves work draws the
action 0, an I/O request for device 0 that lasts 5 ticks. -/
def rand_zero : Nat → Nat := fun _ => 0

/-- A run under Round Robin with quantum 2 and at most 100 ticks on the roster that
holds the PCB at address 1 alone (pid 1, 10 ticks of work, arrival at tick 0), at the
head of tick 5: the PCB requested device 0 at tick 0, for 5 ticks. -/
def sim_io_due : Sim :=
  main_loop rand_zero 5
    (main_init SchedulerType.SCHED_RR 2 100 [1] pcbs_example memory_example)

/-- The policy and the quantum of the scheduler are `type` and `quantum`. -/
def SchedConst (type : SchedulerType) (quantum : Int) (s : Sim) : Prop :=
  s.scheduler.type = type ∧ s.scheduler.quantum = quantum

/-- The number of records of the type `event_type` in the trace. -/
def trace_count (tm : TraceManager) (event_type : EventType) : Nat :=
  (tm.events.filter (fun e => decide (e.event_type = event_type))).length

/-- The time, the pid and the type of the records of the trace, in order. -/
def trace_log (tm : TraceManager) : List (Int × Int × EventType) :=
  tm.events.map (fun e => (e.time, e.pid, e.event_type))

/-- The default `DEFAULT_QUANTUM` of `main.c`. -/
def DEFAULT_QUANTUM : Int := 5

/-- The default `DEFAULT_TIME` of `main.c`. -/
def DEFAULT_TIME : Int := 100

/-- A stream of `rand()` results that are all 40: no drawn action is below 40. -/
def rand_quiet : Nat → Nat := fun _ => 40

/-- The roster of one PCB, at address 1: pid 1, priority 1, 5 ticks of work, arrival at
tick 0. -/
def pcbs_single : PCBStore := fun _ => pcb_create 1 1 5 0

/-- The state in which the loop starts under FCFS with at most 20 ticks on the roster
`pcbs_single`. -/
def sim_single : Sim :=
  main_init SchedulerType.SCHED_FCFS DEFAULT_QUANTUM 20 [1] pcbs_single memory_example

/-- The roster of two PCBs: at address 1, pid 1 with priority 1, 10 ticks of work and
arrival at tick 0; at address 2, pid 2 with priority 5, 3 ticks of work and arrival at
tick 2. -/
def pcbs_pair : PCBStore := fun a =>
  if a = 1 then pcb_create 1 1 10 0 else { pcb_create 2 5 3 0 with arrival_time := 2 }

/-- The state in which the loop starts under the Priority policy on the roster
`pcbs_pair`. -/
def sim_pair : Sim :=
  main_init SchedulerType.SCHED_PRIORITY DEFAULT_QUANTUM DEFAULT_TIME [1, 2] pcbs_pair
    memory_example

/-- The roster of three PCBs, at addresses 1, 2 and 3: the PCB at address `a` has pid
`a`, 6 ticks of work and arrival at tick 0. -/
def pcbs_trio : PCBStore := fun a => pcb_create a 1 6 0

/-- The state in which the loop starts under Round Robin with quantum 2 on the roster
`pcbs_trio`. -/
def sim_trio : Sim :=
  main_init SchedulerType.SCHED_RR 2 DEFAULT_TIME [1, 2, 3] pcbs_trio memory_example

/-- The pids of the `EXECUTE` records of the trace, in order. -/
def execute_pids (tm : TraceManager) : List Int :=
  (tm.events.filter (fun e => decide (e.event_type = EventType.EXECUTE))).map (fun e => e.pid)

/-- The assertion that holds of every state. -/
def Any : Sim → Prop := fun _ => True

/-- What the run keeps true of the roster `roster`, of the ready queue and of the
mutexes: the quantum is at least 1; no PCB has work below 0; a `TERMINATED` PCB has no
work left and finished after its arrival; a `NEW` or `BLOCKED` PCB has work left; a
`BLOCKED` PCB has arrived; the ready queue holds PCBs of the roster that are `READY`,
have work left and have arrived, each once; a locked mutex has an owner, a PCB of the
roster that is not `NEW`. -/
structure Sound (roster : List Nat) (s : Sim) : Prop where
  roster_eq : s.processes = roster
  quantum_pos : 1 ≤ s.scheduler.quantum
  rem_nonneg : ∀ p ∈ roster, 0 ≤ (s.pcbs p).remaining_time
  done : ∀ p ∈ roster, (s.pcbs p).state = ProcessState.STATE_TERMINATED →
    (s.pcbs p).remaining_time = 0 ∧ (s.pcbs p).arrival_time < (s.pcbs p).finish_time
  waiting : ∀ p ∈ roster,
    ((s.pcbs p).state = ProcessState.STATE_NEW ∨
      (s.pcbs p).state = ProcessState.STATE_BLOCKED) → 0 < (s.pcbs p).remaining_time
  blocked : ∀ p ∈ roster, (s.pcbs p).state = ProcessState.STATE_BLOCKED →
    (s.pcbs p).arrival_time ≤ s.current_time
  queued : ∀ q ∈ s.scheduler.ready_queue.nodes,
    q ∈ roster ∧ (s.pcbs q).state = ProcessState.STATE_READY ∧
      0 < (s.pcbs q).remaining_time ∧ (s.pcbs q).arrival_time ≤ s.current_time
  nodup : s.scheduler.ready_queue.nodes.Nodup
  owners : ∀ m ∈ s.mutexes, m.locked = true →
    ∃ p, m.owner = some p ∧ p ∈ roster ∧ (s.pcbs p).state ≠ ProcessState.STATE_NEW

/-- The step from `s` to `t` changes neither the roster, the time, the mutexes, the
quantum nor the ready queue, and of every PCB neither the work left nor the arrival and
finish times; the state of a PCB is unchanged or becomes `READY`. -/
def Eases (s t : Sim) : Prop :=
  t.processes = s.processes ∧ t.current_time = s.current_time ∧ t.mutexes = s.mutexes ∧
  t.scheduler.quantum = s.scheduler.quantum ∧
  t.scheduler.ready_queue.nodes = s.scheduler.ready_queue.nodes ∧
  ∀ p, (t.pcbs p).remaining_time = (s.pcbs p).remaining_time ∧
    (t.pcbs p).arrival_time = (s.pcbs p).arrival_time ∧
    (t.pcbs p).finish_time = (s.pcbs p).finish_time ∧
    ((t.pcbs p).state = (s.pcbs p).state ∨ (t.pcbs p).state = ProcessState.STATE_READY)

/-- The PCB `p` of the roster is `READY`, has work left, has arrived and is not in the
ready queue: it is about to be queued. -/
def Pending (roster : List Nat) (p : Nat) (s : Sim) : Prop :=
  Sound roster s ∧ p ∈ roster ∧ (s.pcbs p).state = ProcessState.STATE_READY ∧
  0 < (s.pcbs p).remaining_time ∧ (s.pcbs p).arrival_time ≤ s.current_time ∧
  p ∉ s.scheduler.ready_queue.nodes

/-- The PCB `c` of the roster is current, with `r` ticks of work left, and has arrived;
it is `RUNNING`, or `BLOCKED` with work left. -/
def Slice (roster : List Nat) (c : Nat) (r : Int) (s : Sim) : Prop :=
  Sound roster s ∧ s.scheduler.current_process = some c ∧ c ∈ roster ∧
  (s.pcbs c).remaining_time = r ∧ (s.pcbs c).arrival_time ≤ s.current_time ∧
  ((s.pcbs c).state = ProcessState.STATE_RUNNING ∨
    ((s.pcbs c).state = ProcessState.STATE_BLOCKED ∧ 0 < r))

/-- The PCB record `r2` differs from `r1` neither in the work left nor in the arrival,
finish and start times; its state is that of `r1` or `READY`. -/
def Readied (r1 r2 : PCB) : Prop :=
  r2.remaining_time = r1.remaining_time ∧ r2.arrival_time = r1.arrival_time ∧
  r2.finish_time = r1.finish_time ∧ r2.start_time = r1.start_time ∧
  (r2.state = r1.state ∨ r2.state = ProcessState.STATE_READY)

/-- The PCB record `r2` differs from `r1` neither in the work left nor in the arrival,
finish and start times; its state is that of `r1` or `BLOCKED`. -/
def Stalled (r1 r2 : PCB) : Prop :=
  r2.remaining_time = r1.remaining_time ∧ r2.arrival_time = r1.arrival_time ∧
  r2.finish_time = r1.finish_time ∧ r2.start_time = r1.start_time ∧
  (r2.state = r1.state ∨ r2.state = ProcessState.STATE_BLOCKED)

/-- The step from `s` to `t` is one that the running process `c` makes on itself: the
roster, the time and the scheduler are unchanged, no other PCB changes, the PCB of `c`
is at most stalled, and a mutex that changes gets the owner `c`. -/
def Acts (c : Nat) (s t : Sim) : Prop :=
  t.processes = s.processes ∧ t.current_time = s.current_time ∧ t.scheduler = s.scheduler ∧
  t.io_manager.device_count = s.io_manager.device_count ∧
  (∀ q, q ≠ c → t.pcbs q = s.pcbs q) ∧ Stalled (s.pcbs c) (t.pcbs c) ∧
  ∀ m ∈ t.mutexes, m ∈ s.mutexes ∨ m.owner = some c

/-- What holds between two turns of the loop: `Sound`, and no process is current or
`RUNNING`. -/
def Settled (roster : List Nat) (s : Sim) : Prop := Sound roster s ∧ Idle s

/-- The state in which the turn of the loop that starts in `s` calls
`scheduler_get_next` (line 234 of `main`). -/
def before_dispatch (s : Sim) : Sim :=
  final
    (block [fun s => for_each admission s.processes s, check_and_unblock_processes] s) s

/-- The state after the call of `scheduler_get_next` in the turn of the loop that starts
in `s`. -/
def at_dispatch (s : Sim) : Sim :=
  { before_dispatch s with
    scheduler :=
      (scheduler_get_next (before_dispatch s).scheduler (before_dispatch s).pcbs
        (before_dispatch s).current_time).2.1
    pcbs :=
      (scheduler_get_next (before_dispatch s).scheduler (before_dispatch s).pcbs
        (before_dispatch s).current_time).2.2 }

/-- The process that the turn of the loop that starts in `s` executes: the PCB that
`scheduler_get_next` returns, when it is `RUNNING` (line 236 of `main`). -/
def dispatched (s : Sim) : Option Nat :=
  match (scheduler_get_next (before_dispatch s).scheduler (before_dispatch s).pcbs
      (before_dispatch s).current_time).1 with
  | none => none
  | some current =>
    if ((at_dispatch s).pcbs current).state = ProcessState.STATE_RUNNING then some current
    else none

/-- The states passed by the call `simulate_process_execution(current, time_slice)` of
the turn of the loop that starts in `s` (line 246 of `main`). -/
def slice_run (rand : Nat → Nat) (current : Nat) (s : Sim) : List Sim :=
  simulate_process_execution rand current
    (time_slice (at_dispatch s).scheduler ((at_dispatch s).pcbs current).remaining_time)
    (at_dispatch s)

/-- A stream of `rand()` results that are all 25: every slice that leaves work draws the
action 25, a request for the mutex `mutexes[25 % 3]`, that is `mutexes[1]`. -/
def rand_lock : Nat → Nat := fun _ => 25

/-- The roster of one PCB, at address 1, with pid 1, 4 ticks of work and arrival at
tick 0. -/
def pcbs_short : PCBStore := fun a => pcb_create a 1 4 0

/-- The state in which the loop starts under Round Robin with quantum 2 on the roster
`pcbs_short`. -/
def sim_short : Sim :=
  main_init SchedulerType.SCHED_RR 2 DEFAULT_TIME [1] pcbs_short memory_example

/-- What a run under FCFS depends on: the roster, the time, the policy, the current
process, the PCBs of the ready queue, the number of devices and which are busy, and of
each PCB the state and the start and arrival times. -/
structure View where
  processes : List Nat
  now : Int
  type : SchedulerType
  current : Option Nat
  nodes : List Nat
  count : Int
  busy : Nat → Bool
  state : Nat → ProcessState
  start : Nat → Int
  arrival : Nat → Int

/-- The view of a state of the simulation. -/
def view (s : Sim) : View :=
  { processes := s.processes
    now := s.current_time
    type := s.scheduler.type
    current := s.scheduler.current_process
    nodes := s.scheduler.ready_queue.nodes
    count := s.io_manager.device_count
    busy := fun i => (s.io_manager.devices i).is_busy
    state := fun p => (s.pcbs p).state
    start := fun p => (s.pcbs p).start_time
    arrival := fun p => (s.pcbs p).arrival_time }

/-- The view after one turn of the admission loop under FCFS: a `NEW` PCB that has
arrived becomes `READY` and goes to the tail of the ready queue. -/
def view_admission (p : Nat) (v : View) : View :=
  if v.state p = ProcessState.STATE_NEW ∧ v.arrival p ≤ v.now then
    { v with
      state := Function.update v.state p ProcessState.STATE_READY
      nodes := v.nodes ++ [p] }
  else v

/-- The view after the admission loop over the PCBs of the list. -/
def view_admissions : List Nat → View → View
  | [], v => v
  | p :: rest, v => view_admissions rest (view_admission p v)

/-- The view after the dispatch of a turn under FCFS when no process is current: the
head of the ready queue, if any, gets its start time, if it has none, and runs to its
end. -/
def view_dispatch (v : View) : View :=
  match v.nodes with
  | [] => v
  | c :: rest =>
    { v with
      nodes := rest
      state := Function.update v.state c ProcessState.STATE_TERMINATED
      start := Function.update v.start c (if v.start c = -1 then v.now else v.start c) }

/-- The view after a whole turn of the loop under FCFS. -/
def view_turn (v : View) : View :=
  { view_dispatch (view_admissions v.processes v) with
    now := (view_dispatch (view_admissions v.processes v)).now + 1 }

/-- The order of C28 on the roster, for the arrival times `arr`: `a` arrives before
`b`, or at the same time and `a` stands before `b` in the roster. -/
def Before (roster : List Nat) (arr : Nat → Int) (a b : Nat) : Prop :=
  arr a < arr b ∨ (arr a = arr b ∧ roster.indexOf a < roster.indexOf b)

/-- What a run under FCFS keeps true, in the course of the admission loop of a turn
when the PCBs of `pre` have been visited and those of `rest` are still to be visited
(`pre` is empty between two turns): no process is current, no device is busy, every PCB
of the roster is `NEW`, `READY` or `TERMINATED`; a `NEW` PCB has not started and has not
arrived before this turn, nor in it when it has been visited; a `READY` PCB has not
started and is in the ready queue; a `TERMINATED` PCB has started, before this turn;
the ready queue holds `READY` PCBs that have arrived, in the order `Before`, and ahead
in that order of every PCB that this turn has still to take in; the PCBs that have started
did so in the order `Before`, and before every PCB that has not. -/
structure Adm (roster : List Nat) (arr : Nat → Int) (pre rest : List Nat) (v : View) :
    Prop where
  policy : v.type = SchedulerType.SCHED_FCFS
  idle : v.current = none
  devices : ∀ i : Nat, (i : Int) < v.count → v.busy i = false
  roster_eq : v.processes = roster
  now_nonneg : 0 ≤ v.now
  arrival : ∀ p ∈ roster, v.arrival p = arr p
  states : ∀ p ∈ roster, v.state p = ProcessState.STATE_NEW ∨
    v.state p = ProcessState.STATE_READY ∨ v.state p = ProcessState.STATE_TERMINATED
  fresh : ∀ p ∈ roster, v.state p = ProcessState.STATE_NEW →
    v.start p = -1 ∧ v.now ≤ arr p ∧ (p ∈ pre → v.now < arr p)
  ready : ∀ p ∈ roster, v.state p = ProcessState.STATE_READY → v.start p = -1 ∧ p ∈ v.nodes
  finished : ∀ p ∈ roster, v.state p = ProcessState.STATE_TERMINATED →
    v.start p ≠ -1 ∧ v.start p < v.now
  queued : ∀ q ∈ v.nodes, q ∈ roster ∧ v.state q = ProcessState.STATE_READY ∧ arr q ≤ v.now
  sorted : v.nodes.Pairwise (Before roster arr)
  ahead : ∀ q ∈ v.nodes, ∀ p ∈ rest, v.state p = ProcessState.STATE_NEW → arr p ≤ v.now →
    Before roster arr q p
  order : ∀ a ∈ roster, ∀ b ∈ roster, v.start a ≠ -1 → v.start b ≠ -1 →
    Before roster arr a b → v.start a < v.start b
  closed : ∀ a ∈ roster, ∀ b ∈ roster, v.start b ≠ -1 → Before roster arr a b →
    v.start a ≠ -1

/-- The view after `scheduler_get_next` has taken `c` from the head of the ready queue,
`rest` being left in the queue, when no process was current. -/
def view_running (c : Nat) (rest : List Nat) (v : View) : View :=
  { v with
    nodes := rest
    current := some c
    state := Function.update v.state c ProcessState.STATE_RUNNING
    start := Function.update v.start c (if v.start c = -1 then v.now else v.start c) }

/-- One line of the summary of `trace_print_summary`: the values printed for a PCB whose
`finish_time` is positive. -/
structure SummaryLine where
  pid : Int
  arrival : Int
  start : Int
  finish : Int
  turnaround : Int
  response : Int
  wait : Int
deriving DecidableEq, Repr

/-- What `trace_print_summary` computes and prints: the lines of the completed PCBs, the
sums `total_turnaround`, `total_response` and `total_wait` (doubles in the source, which
hold sums of `int` values), the counter `completed`, and the figure printed after
`Changements de contexte`, which is `none` when the block of global statistics is not
printed.  The three means printed are the sums divided by `completed`. -/
structure Summary where
  lines : List SummaryLine
  total_turnaround : Int
  total_response : Int
  total_wait : Int
  completed : Int
  context_switches : Option Int
deriving DecidableEq, Repr

/-- The loop of `trace_print_summary` (lines 107-123) over the roster. -/
def summary_loop (pcbs : PCBStore) : List Nat → Summary → Summary
  | [], acc => acc
  | pcb :: rest, acc =>
    if (pcbs pcb).finish_time > 0 then
      summary_loop pcbs rest
        { acc with
          lines := acc.lines ++
            [{ pid := (pcbs pcb).pid
               arrival := (pcbs pcb).arrival_time
               start := (pcbs pcb).start_time
               finish := (pcbs pcb).finish_time
               turnaround := (pcbs pcb).finish_time - (pcbs pcb).arrival_time
               response := (pcbs pcb).start_time - (pcbs pcb).arrival_time
               wait := (pcbs pcb).wait_time }]
          total_turnaround :=
            acc.total_turnaround + ((pcbs pcb).finish_time - (pcbs pcb).arrival_time)
          total_response :=
            acc.total_response + ((pcbs pcb).start_time - (pcbs pcb).arrival_time)
          total_wait := acc.total_wait + (pcbs pcb).wait_time
          completed := acc.completed + 1 }
    else summary_loop pcbs rest acc

/-- The function `trace_print_summary(tm, processes, process_count)` for non-null
arguments: what it prints. -/
def trace_print_summary (tm : TraceManager) (pcbs : PCBStore) (processes : List Nat) :
    Summary :=
  if (summary_loop pcbs processes
      { lines := [], total_turnaround := 0, total_response := 0, total_wait := 0,
        completed := 0, context_switches := none }).completed > 0 then
    { summary_loop pcbs processes
        { lines := [], total_turnaround := 0, total_response := 0, total_wait := 0,
          completed := 0, context_switches := none } with
      context_switches := some tm.event_count }
  else
    summary_loop pcbs processes
      { lines := [], total_turnaround := 0, total_response := 0, total_wait := 0,
        completed := 0, context_switches := none }

/-- The manager reached from the fresh heap of 256 bytes by `memory_allocate(mm, 64)`
and `memory_allocate(mm, SIZE_MAX)`: the second request, rounded to zero, split the free
block and left an in-use node of size zero between the two others. -/
def heap_zero_middle : MemoryManager :=
  heap_with [⟨4096, 64, false⟩, ⟨4160, 0, false⟩, ⟨4160, 192, true⟩] 2 0

/-- No two nodes of the list are both free and physically adjacent, one ending where the
other starts. -/
def NoAdjacentFree (l : List MemoryBlock) : Prop :=
  l.Pairwise (fun b c =>
    ¬ (b.is_free = true ∧ c.is_free = true ∧
      (b.start + b.size = c.start ∨ c.start + c.size = b.start)))

/-- The calls `memory_allocate(mm, n)` for the sizes `n` of the list, in order, the
metadata allocations succeeding: the pointers returned and the manager after the
calls. -/
def allocate_all : MemoryManager → List Nat → List Nat × MemoryManager
  | mm, [] => ([], mm)
  | mm, n :: rest =>
    ((memory_allocate mm n true).1 :: (allocate_all (memory_allocate mm n true).2 rest).1,
      (allocate_all (memory_allocate mm n true).2 rest).2)

/-- The calls `memory_free(mm, p)` for the pointers `p` of the list, in order: the flags
returned and the manager after the calls. -/
def free_all : MemoryManager → List Nat → Option (List Bool × MemoryManager)
  | mm, [] => some ([], mm)
  | mm, p :: rest =>
    match memory_free mm p with
    | none => none
    | some (ok, mm1) =>
      match free_all mm1 rest with
      | none => none
      | some (oks, mm2) => some (ok :: oks, mm2)

/-- At most one node of the list is free. -/
def OneFree (l : List MemoryBlock) : Prop :=
  (l.filter (fun b => b.is_free)).length ≤ 1

/-- The states of the I/O manager and of the PCBs that can follow `st` while the PCB `p`
issues no I/O request: calls of `io_update`, calls of `io_request` for other PCBs, and
whatever the rest of the program does to the PCBs. -/
inductive IOLater (p : Nat) (st : IOManager × PCBStore) : IOManager × PCBStore → Prop where
  | start : IOLater p st st
  | update (st1 : IOManager × PCBStore) (now : Int) :
      IOLater p st st1 → IOLater p st (io_update st1.1 st1.2 now)
  | request (st1 : IOManager × PCBStore) (q : Nat) (device_id duration now : Int) :
      IOLater p st st1 → q ≠ p →
      IOLater p st (io_request st1.1 st1.2 q device_id duration now).2
  | store (st1 : IOManager × PCBStore) (pcbs : PCBStore) :
      IOLater p st st1 → IOLater p st (st1.1, pcbs)

/-- A stream of `rand()` results that starts with 0, 1, 9, 0, 0, 4, 0, 1, 0, 0, 1, 9 and
goes on with 40: the first four slices request device 1 for 14 ticks, device 0 for 9
ticks, device 1 for 5 ticks and device 1 for 14 ticks. -/
def rand_requeue : Nat → Nat := fun k => [0, 1, 9, 0, 0, 4, 0, 1, 0, 0, 1, 9].getD k 40

/-- The run under Round Robin with quantum 2 and at most 100 ticks on the roster of the
PCBs at addresses 1, 2 and 3 (10 ticks of work each, arrival at tick 0) with the stream
`rand_requeue`, at the head of tick `n`. -/
def sim_requeue (n : Nat) : Sim :=
  main_loop rand_requeue n
    (main_init SchedulerType.SCHED_RR 2 100 [1, 2, 3] pcbs_example memory_example)

/-- The PCB at address 1 holds device 0 until tick 5 and, having then requested the busy
device 1, is also the head of the wait queue; the PCB at address 2 holds device 1. -/
def io_holder_queued : Bool × IOManager × PCBStore :=
  io_request
    (io_request (io_request (io_init 4 memory_example) pcbs_example 1 0 5 0).2.1
      (io_request (io_init 4 memory_example) pcbs_example 1 0 5 0).2.2 2 1 9 0).2.1
    (io_request (io_request (io_init 4 memory_example) pcbs_example 1 0 5 0).2.1
      (io_request (io_init 4 memory_example) pcbs_example 1 0 5 0).2.2 2 1 9 0).2.2 1 1 3 1

/-- The PCB at address 1 holds device 0 until tick 5, the PCB at address 2 holds device 1
until tick 9, and the PCB at address 3, which requested device 1, is the wait queue. -/
def io_other_device : Bool × IOManager × PCBStore :=
  io_request
    (io_request (io_request (io_init 4 memory_example) pcbs_example 1 0 5 0).2.1
      (io_request (io_init 4 memory_example) pcbs_example 1 0 5 0).2.2 2 1 9 0).2.1
    (io_request (io_request (io_init 4 memory_example) pcbs_example 1 0 5 0).2.1
      (io_request (io_init 4 memory_example) pcbs_example 1 0 5 0).2.2 2 1 9 0).2.2 3 1 3 0

/-- The trace holds no `IO_REQUEST`, `MUTEX_LOCK` or `SEM_WAIT` record. -/
def QuietTrace (tm : TraceManager) : Prop :=
  ∀ e ∈ tm.events, e.event_type ≠ EventType.IO_REQUEST ∧
    e.event_type ≠ EventType.MUTEX_LOCK ∧ e.event_type ≠ EventType.SEM_WAIT

/-- The policy is not Round Robin, the time is `T` and the trace holds no `IO_REQUEST`,
`MUTEX_LOCK` or `SEM_WAIT` record. -/
def Whole (T : Int) (s : Sim) : Prop :=
  s.scheduler.type ≠ SchedulerType.SCHED_RR ∧ s.current_time = T ∧
  QuietTrace s.trace_manager

/-- `Whole`, and the PCB `c` has no work left. -/
def Spent (T : Int) (c : Nat) (s : Sim) : Prop :=
  Whole T s ∧ (s.pcbs c).remaining_time = 0

/-- `Whole`, and the PCB `c` is `TERMINATED` with no work left and `finish_time = T + 1`. -/
def Ended (T : Int) (c : Nat) (s : Sim) : Prop :=
  Whole T s ∧ (s.pcbs c).state = ProcessState.STATE_TERMINATED ∧
  (s.pcbs c).remaining_time = 0 ∧ (s.pcbs c).finish_time = T + 1

/-- A Priority scheduler with quantum 5 after the calls `scheduler_add_process` for the
PCBs at addresses 1, 2 and 3 (priorities 2, 3 and 4), `scheduler_get_next` at tick 0,
`scheduler_add_process` for the PCBs at addresses 5 and 4 (priorities 1 and 5), and
`scheduler_preempt`, with the PCBs after these calls. -/
def sched_priority_calls : Scheduler × PCBStore :=
  scheduler_preempt
    (scheduler_add_process
      (scheduler_add_process
        (scheduler_get_next
          (scheduler_add_process
            (scheduler_add_process
              (scheduler_add_process (scheduler_create SchedulerType.SCHED_PRIORITY 5)
                pcbs_example 1)
              pcbs_example 2)
            pcbs_example 3)
          pcbs_example 0).2.1
        (scheduler_get_next
          (scheduler_add_process
            (scheduler_add_process
              (scheduler_add_process (scheduler_create SchedulerType.SCHED_PRIORITY 5)
                pcbs_example 1)
              pcbs_example 2)
            pcbs_example 3)
          pcbs_example 0).2.2 5)
      (scheduler_get_next
        (scheduler_add_process
          (scheduler_add_process
            (scheduler_add_process (scheduler_create SchedulerType.SCHED_PRIORITY 5)
              pcbs_example 1)
            pcbs_example 2)
          pcbs_example 3)
        pcbs_example 0).2.2 4)
    (scheduler_get_next
      (scheduler_add_process
        (scheduler_add_process
          (scheduler_add_process (scheduler_create SchedulerType.SCHED_PRIORITY 5)
            pcbs_example 1)
          pcbs_example 2)
        pcbs_example 3)
      pcbs_example 0).2.2

/-- The semaphore created with count 1 after `semaphore_wait` for the PCB at address 1,
which takes the count to 0, with the PCBs after the call. -/
def sem_taken : Bool × Semaphore × PCBStore :=
  semaphore_wait (semaphore_create 0 1) pcbs_example 1

/-- The semaphore `sem_taken` after `semaphore_wait` for the PCBs at addresses 2 and 3,
which both wait in its queue, with the PCBs after the calls. -/
def sem_two_waiters : Bool × Semaphore × PCBStore :=
  semaphore_wait
    (semaphore_wait sem_taken.2.1 sem_taken.2.2 2).2.1
    (semaphore_wait sem_taken.2.1 sem_taken.2.2 2).2.2 3

/-! ### Lists of blocks -/

theorem total_sizes_append (l1 l2 : List MemoryBlock) :
    total_sizes (l1 ++ l2) = total_sizes l1 + total_sizes l2 := by
  induction l1 with
  | nil => simp [total_sizes]
  | cons b rest ih => simp [total_sizes, ih, Nat.add_assoc]

theorem Chained_append (a : Nat) (l1 l2 : List MemoryBlock) :
    Chained a (l1 ++ l2) ↔ Chained a l1 ∧ Chained (a + total_sizes l1) l2 := by
  induction l1 generalizing a with
  | nil => simp [Chained, total_sizes]
  | cons b rest ih =>
    simp only [List.cons_append, Chained, total_sizes, ih, Nat.add_assoc, and_assoc,
      List.append_eq]

theorem NoZeroRun_append (z : Bool) (l1 l2 : List MemoryBlock) :
    NoZeroRun z (l1 ++ l2) ↔ NoZeroRun z l1 ∧ NoZeroRun (last_zero z l1) l2 := by
  induction l1 generalizing z with
  | nil => simp [NoZeroRun, last_zero]
  | cons b rest ih =>
    simp only [List.cons_append, NoZeroRun, last_zero, ih, and_assoc, List.append_eq]

theorem NoZeroRun_weaken (z : Bool) (l : List MemoryBlock) (h : NoZeroRun z l) :
    NoZeroRun false l := by
  cases l with
  | nil => trivial
  | cons b rest => exact ⟨by simp, h.2⟩

theorem last_zero_append (z : Bool) (l1 l2 : List MemoryBlock) :
    last_zero z (l1 ++ l2) = last_zero (last_zero z l1) l2 := by
  induction l1 generalizing z with
  | nil => rfl
  | cons b rest ih => simp only [List.cons_append, last_zero, ih, List.append_eq]

theorem splice_append (X Y Z repl : List MemoryBlock) :
    splice (X ++ Y ++ Z) X.length (X.length + Y.length) repl = X ++ repl ++ Z := by
  unfold splice
  have h1 : (X ++ Y ++ Z).take X.length = X := by
    rw [List.append_assoc, List.take_left]
  have h2 : (X ++ Y ++ Z).drop (X.length + Y.length) = Z := by
    have : X.length + Y.length = (X ++ Y).length := by simp
    rw [this, List.drop_left]
  rw [h1, h2]

theorem splice_one (X Z repl : List MemoryBlock) (b : MemoryBlock) :
    splice (X ++ b :: Z) X.length (X.length + 1) repl = X ++ repl ++ Z := by
  have := splice_append X [b] Z repl
  simpa using this

theorem Chained_replace (a : Nat) (X Y Z repl : List MemoryBlock)
    (h : Chained a (X ++ Y ++ Z)) (hr : Chained (a + total_sizes X) repl)
    (ht : total_sizes repl = total_sizes Y) : Chained a (X ++ repl ++ Z) := by
  rw [List.append_assoc, Chained_append, Chained_append] at h ⊢
  exact ⟨h.1, hr, ht ▸ h.2.2⟩

theorem total_sizes_replace (X Y Z repl : List MemoryBlock)
    (ht : total_sizes repl = total_sizes Y) :
    total_sizes (X ++ repl ++ Z) = total_sizes (X ++ Y ++ Z) := by
  simp only [total_sizes_append, ht]

theorem NoZeroRun_replace (z : Bool) (X Y Z repl : List MemoryBlock)
    (h : NoZeroRun z (X ++ Y ++ Z)) (hr : NoZeroRun (last_zero z X) repl)
    (hl : last_zero (last_zero z X) repl = true → last_zero (last_zero z X) Y = true) :
    NoZeroRun z (X ++ repl ++ Z) := by
  rw [List.append_assoc, NoZeroRun_append, NoZeroRun_append] at h ⊢
  refine ⟨h.1, hr, ?_⟩
  cases hz : last_zero (last_zero z X) repl with
  | false => exact NoZeroRun_weaken _ _ h.2.2
  | true => rw [hl hz] at h; exact h.2.2

theorem Chained_start (a : Nat) (X Z : List MemoryBlock) (b : MemoryBlock)
    (h : Chained a (X ++ b :: Z)) : b.start = a + total_sizes X := by
  rw [Chained_append] at h
  exact h.2.1

theorem split_two (X Z X1 Z1 : List MemoryBlock) (b c : MemoryBlock)
    (h : X ++ b :: Z = X1 ++ c :: Z1) (hlt : X1.length < X.length) :
    ∃ M, X = X1 ++ c :: M ∧ Z1 = M ++ b :: Z := by
  rcases List.append_eq_append_iff.mp h with ⟨M, hM, hM2⟩ | ⟨M, hM, hM2⟩
  · cases M with
    | nil => simp at hM; rw [hM] at hlt; exact absurd hlt (lt_irrefl _)
    | cons m M =>
      rw [hM, List.length_append] at hlt
      simp at hlt
  · cases M with
    | nil => simp at hM; rw [hM] at hlt; exact absurd hlt (lt_irrefl _)
    | cons m M =>
      simp only [List.cons_append, List.cons.injEq] at hM2
      obtain ⟨rfl, rfl⟩ := hM2
      exact ⟨M, hM, rfl⟩

/-! ### The loops -/

theorem find_block_from_some (ptr : Nat) (l : List MemoryBlock) (i0 k : Nat) (b : MemoryBlock)
    (h : find_block_from ptr l i0 = some (k, b)) :
    ∃ X Z, l = X ++ b :: Z ∧ k = i0 + X.length ∧ b.start = ptr ∧ ∀ c ∈ X, c.start ≠ ptr := by
  induction l generalizing i0 with
  | nil => simp [find_block_from] at h
  | cons c rest ih =>
    unfold find_block_from at h
    split at h
    · rename_i hc
      simp only [Option.some.injEq, Prod.mk.injEq] at h
      obtain ⟨rfl, rfl⟩ := h
      exact ⟨[], rest, rfl, rfl, hc, by simp⟩
    · rename_i hc
      obtain ⟨X, Z, hl, hk, hb, hX⟩ := ih (i0 + 1) h
      refine ⟨c :: X, Z, by rw [hl]; rfl, by rw [hk, List.length_cons]; omega, hb, ?_⟩
      intro d hd
      rcases List.mem_cons.mp hd with rfl | hd
      · exact hc
      · exact hX d hd

theorem find_block_from_none (ptr : Nat) (l : List MemoryBlock) (i0 : Nat) :
    find_block_from ptr l i0 = none ↔ ∀ c ∈ l, c.start ≠ ptr := by
  induction l generalizing i0 with
  | nil => simp [find_block_from]
  | cons c rest ih =>
    unfold find_block_from
    by_cases hc : c.start = ptr
    · simp [hc]
    · simp [hc, ih]

theorem merge_scan_into_current (block : MemoryBlock) (j : Nat) (l : List MemoryBlock)
    (i0 i : Nat) (cur : MemoryBlock) (h : merge_scan block j l i0 = Merge.into_current i cur) :
    ∃ X Z, l = X ++ cur :: Z ∧ i = i0 + X.length ∧ cur.is_free = true ∧ i ≠ j ∧
      ptr_add cur.start cur.size = block.start ∧
      ∀ m c, X[m]? = some c → Skipped block j (i0 + m) c := by
  induction l generalizing i0 with
  | nil => simp [merge_scan] at h
  | cons c rest ih =>
    have step : merge_scan block j rest (i0 + 1) = Merge.into_current i cur →
        Skipped block j i0 c → ∃ X Z, c :: rest = X ++ cur :: Z ∧ i = i0 + X.length ∧
          cur.is_free = true ∧ i ≠ j ∧ ptr_add cur.start cur.size = block.start ∧
          ∀ m d, X[m]? = some d → Skipped block j (i0 + m) d := by
      intro h1 hs
      obtain ⟨X, Z, hl, hi, hf, hij, he, hX⟩ := ih (i0 + 1) h1
      refine ⟨c :: X, Z, by rw [hl]; rfl, by rw [hi, List.length_cons]; omega, hf, hij, he, ?_⟩
      intro m d hm
      cases m with
      | zero => simp at hm; subst hm; exact hs
      | succ m =>
        simp only [List.getElem?_cons_succ] at hm
        have := hX m d hm
        rwa [show i0 + 1 + m = i0 + (m + 1) by omega] at this
    unfold merge_scan at h
    split at h
    · rename_i hc
      split at h
      · rename_i he
        simp only [Merge.into_current.injEq] at h
        obtain ⟨rfl, rfl⟩ := h
        exact ⟨[], rest, rfl, rfl, hc.1, hc.2, he, by simp⟩
      · rename_i he
        split at h
        · simp at h
        · rename_i he2
          exact step h (fun hh => hh.2.2.elim he he2)
    · rename_i hc
      exact step h (fun hh => hc ⟨hh.1, hh.2.1⟩)

theorem merge_scan_into_block (block : MemoryBlock) (j : Nat) (l : List MemoryBlock)
    (i0 i : Nat) (cur : MemoryBlock) (h : merge_scan block j l i0 = Merge.into_block i cur) :
    ∃ X Z, l = X ++ cur :: Z ∧ i = i0 + X.length ∧ cur.is_free = true ∧ i ≠ j ∧
      ptr_add cur.start cur.size ≠ block.start ∧ ptr_add block.start block.size = cur.start ∧
      ∀ m c, X[m]? = some c → Skipped block j (i0 + m) c := by
  induction l generalizing i0 with
  | nil => simp [merge_scan] at h
  | cons c rest ih =>
    have step : merge_scan block j rest (i0 + 1) = Merge.into_block i cur →
        Skipped block j i0 c → ∃ X Z, c :: rest = X ++ cur :: Z ∧ i = i0 + X.length ∧
          cur.is_free = true ∧ i ≠ j ∧ ptr_add cur.start cur.size ≠ block.start ∧
          ptr_add block.start block.size = cur.start ∧
          ∀ m d, X[m]? = some d → Skipped block j (i0 + m) d := by
      intro h1 hs
      obtain ⟨X, Z, hl, hi, hf, hij, he, he2, hX⟩ := ih (i0 + 1) h1
      refine ⟨c :: X, Z, by rw [hl]; rfl, by rw [hi, List.length_cons]; omega, hf, hij, he, he2, ?_⟩
      intro m d hm
      cases m with
      | zero => simp at hm; subst hm; exact hs
      | succ m =>
        simp only [List.getElem?_cons_succ] at hm
        have := hX m d hm
        rwa [show i0 + 1 + m = i0 + (m + 1) by omega] at this
    unfold merge_scan at h
    split at h
    · rename_i hc
      split at h
      · simp at h
      · rename_i he
        split at h
        · rename_i he2
          simp only [Merge.into_block.injEq] at h
          obtain ⟨rfl, rfl⟩ := h
          exact ⟨[], rest, rfl, rfl, hc.1, hc.2, he, he2, by simp⟩
        · rename_i he2
          exact step h (fun hh => hh.2.2.elim he he2)
    · rename_i hc
      exact step h (fun hh => hc ⟨hh.1, hh.2.1⟩)

theorem merge_scan_no_merge (block : MemoryBlock) (j : Nat) (l : List MemoryBlock)
    (i0 : Nat) (h : merge_scan block j l i0 = Merge.no_merge) :
    ∀ m c, l[m]? = some c → Skipped block j (i0 + m) c := by
  induction l generalizing i0 with
  | nil => simp
  | cons c rest ih =>
    have step : merge_scan block j rest (i0 + 1) = Merge.no_merge →
        Skipped block j i0 c → ∀ m d, (c :: rest)[m]? = some d → Skipped block j (i0 + m) d := by
      intro h1 hs m d hm
      cases m with
      | zero => simp at hm; subst hm; exact hs
      | succ m =>
        simp only [List.getElem?_cons_succ] at hm
        have := ih (i0 + 1) h1 m d hm
        rwa [show i0 + 1 + m = i0 + (m + 1) by omega] at this
    unfold merge_scan at h
    split at h
    · rename_i hc
      split at h
      · simp at h
      · rename_i he
        split at h
        · simp at h
        · rename_i he2
          exact step h (fun hh => hh.2.2.elim he he2)
    · rename_i hc
      exact step h (fun hh => hc ⟨hh.1, hh.2.1⟩)

theorem best_fit_loop_spec (size : Nat) (l : List MemoryBlock) (i0 : Nat)
    (best : Option (Nat × MemoryBlock)) :
    (best_fit_loop size l i0 best = best ∧
      ∀ c ∈ l, Fits size c → ∃ k b, best = some (k, b) ∧ b.size ≤ c.size) ∨
    (∃ X b Z, l = X ++ b :: Z ∧ best_fit_loop size l i0 best = some (i0 + X.length, b) ∧
      Fits size b ∧ (∀ k0 b0, best = some (k0, b0) → b.size < b0.size) ∧
      (∀ c ∈ X, Fits size c → b.size < c.size) ∧ (∀ c ∈ Z, Fits size c → b.size ≤ c.size)) := by
  induction l generalizing i0 best with
  | nil => left; simp [best_fit_loop]
  | cons c rest ih =>
    -- the loop keeps `best` at `c`
    have keep : (Fits size c → ∃ k b, best = some (k, b) ∧ b.size ≤ c.size) →
        best_fit_loop size (c :: rest) i0 best = best_fit_loop size rest (i0 + 1) best →
        (best_fit_loop size (c :: rest) i0 best = best ∧
          ∀ d ∈ c :: rest, Fits size d → ∃ k b, best = some (k, b) ∧ b.size ≤ d.size) ∨
        (∃ X b Z, c :: rest = X ++ b :: Z ∧
          best_fit_loop size (c :: rest) i0 best = some (i0 + X.length, b) ∧
          Fits size b ∧ (∀ k0 b0, best = some (k0, b0) → b.size < b0.size) ∧
          (∀ d ∈ X, Fits size d → b.size < d.size) ∧
          (∀ d ∈ Z, Fits size d → b.size ≤ d.size)) := by
      intro hc heq
      rcases ih (i0 + 1) best with ⟨h1, h2⟩ | ⟨X, b, Z, hl, hr, hb, hbest, hX, hZ⟩
      · left
        refine ⟨heq.trans h1, ?_⟩
        intro d hd hfd
        rcases List.mem_cons.mp hd with rfl | hd
        · exact hc hfd
        · exact h2 d hd hfd
      · right
        refine ⟨c :: X, b, Z, by rw [hl]; rfl, ?_, hb, hbest, ?_, hZ⟩
        · rw [heq, hr, List.length_cons]
          congr 2
          omega
        · intro d hd hfd
          rcases List.mem_cons.mp hd with rfl | hd
          · obtain ⟨k, b1, hk, hle⟩ := hc hfd
            exact lt_of_lt_of_le (hbest k b1 hk) hle
          · exact hX d hd hfd
    -- the loop takes `c` as the new candidate
    have take : Fits size c → (∀ k0 b0, best = some (k0, b0) → c.size < b0.size) →
        best_fit_loop size (c :: rest) i0 best = best_fit_loop size rest (i0 + 1) (some (i0, c)) →
        (∃ X b Z, c :: rest = X ++ b :: Z ∧
          best_fit_loop size (c :: rest) i0 best = some (i0 + X.length, b) ∧
          Fits size b ∧ (∀ k0 b0, best = some (k0, b0) → b.size < b0.size) ∧
          (∀ d ∈ X, Fits size d → b.size < d.size) ∧
          (∀ d ∈ Z, Fits size d → b.size ≤ d.size)) := by
      intro hc hlt heq
      rcases ih (i0 + 1) (some (i0, c)) with ⟨h1, h2⟩ | ⟨X, b, Z, hl, hr, hb, hbest, hX, hZ⟩
      · refine ⟨[], c, rest, rfl, by rw [heq, h1]; rfl, hc, hlt, by simp, ?_⟩
        intro d hd hfd
        obtain ⟨k, b1, hk, hle⟩ := h2 d hd hfd
        simp only [Option.some.injEq, Prod.mk.injEq] at hk
        rw [hk.2]
        exact hle
      · have hbc : b.size < c.size := hbest i0 c rfl
        refine ⟨c :: X, b, Z, by rw [hl]; rfl, ?_, hb, ?_, ?_, hZ⟩
        · rw [heq, hr, List.length_cons]
          congr 2
          omega
        · intro k0 b0 hk
          exact lt_trans hbc (hlt k0 b0 hk)
        · intro d hd hfd
          rcases List.mem_cons.mp hd with rfl | hd
          · exact hbc
          · exact hX d hd hfd
    by_cases hc : c.is_free = true ∧ c.size ≥ size
    · cases best with
      | none =>
        right
        exact take hc (by simp) (by simp [best_fit_loop, hc])
      | some kb =>
        obtain ⟨k, b0⟩ := kb
        by_cases hlt : c.size < b0.size
        · right
          refine take hc ?_ (by simp [best_fit_loop, hc, hlt])
          intro k0 b1 hk
          simp only [Option.some.injEq, Prod.mk.injEq] at hk
          rw [← hk.2]
          exact hlt
        · exact keep (fun _ => ⟨k, b0, rfl, not_lt.mp hlt⟩) (by simp [best_fit_loop, hc, hlt])
    · exact keep (fun h => absurd h hc) (by simp only [best_fit_loop, hc, if_false])

theorem best_fit_loop_none (size : Nat) (l : List MemoryBlock) :
    best_fit_loop size l 0 none = none ↔ ∀ c ∈ l, ¬ Fits size c := by
  rcases best_fit_loop_spec size l 0 none with ⟨h1, h2⟩ | ⟨X, b, Z, hl, hr, hb, -, -, -⟩
  · refine ⟨fun _ c hc hf => ?_, fun _ => h1⟩
    obtain ⟨k, b, hk, -⟩ := h2 c hc hf
    simp at hk
  · refine ⟨fun h => ?_, fun h => ?_⟩
    · rw [hr] at h; simp at h
    · exact absurd hb (h b (by rw [hl]; simp))

theorem best_fit_loop_some (size : Nat) (l : List MemoryBlock) (i : Nat) (b : MemoryBlock)
    (h : best_fit_loop size l 0 none = some (i, b)) :
    ∃ X Z, l = X ++ b :: Z ∧ i = X.length ∧ Fits size b ∧
      (∀ c ∈ X, Fits size c → b.size < c.size) ∧ (∀ c ∈ Z, Fits size c → b.size ≤ c.size) := by
  rcases best_fit_loop_spec size l 0 none with ⟨h1, -⟩ | ⟨X, b1, Z, hl, hr, hb, -, hX, hZ⟩
  · rw [h1] at h; simp at h
  · rw [hr] at h
    simp only [Option.some.injEq, Prod.mk.injEq, zero_add] at h
    obtain ⟨rfl, rfl⟩ := h
    exact ⟨X, Z, hl, rfl, hb, hX, hZ⟩

/-- The paths through `memory_allocate`. -/
theorem memory_allocate_cases (mm : MemoryManager) (size : Nat) (ok : Bool) :
    (size = 0 ∧ memory_allocate mm size ok = (0, mm)) ∨
    (size ≠ 0 ∧ best_fit_loop (align8 size) mm.free_list 0 none = none ∧
      memory_allocate mm size ok = (0, mm)) ∨
    (∃ i best, size ≠ 0 ∧ best_fit_loop (align8 size) mm.free_list 0 none = some (i, best) ∧
      ((best.size > (align8 size + SIZEOF_MEMORYBLOCK) % SIZE_MOD ∧ ok = false ∧
          memory_allocate mm size ok = (0, mm)) ∨
       (best.size > (align8 size + SIZEOF_MEMORYBLOCK) % SIZE_MOD ∧ ok = true ∧
          memory_allocate mm size ok = (best.start, after_split mm i (align8 size) best)) ∨
       (¬ best.size > (align8 size + SIZEOF_MEMORYBLOCK) % SIZE_MOD ∧
          memory_allocate mm size ok = (best.start, after_take mm i best)))) := by
  by_cases h0 : size = 0
  · left; exact ⟨h0, by simp [memory_allocate, h0]⟩
  · right
    cases hb : best_fit_loop (align8 size) mm.free_list 0 none with
    | none => left; exact ⟨h0, rfl, by simp [memory_allocate, h0, hb]⟩
    | some ib =>
      obtain ⟨i, best⟩ := ib
      right
      refine ⟨i, best, h0, rfl, ?_⟩
      by_cases hs : best.size > (align8 size + SIZEOF_MEMORYBLOCK) % SIZE_MOD
      · cases ok with
        | false => left; exact ⟨hs, rfl, by simp [memory_allocate, h0, hb, hs]⟩
        | true =>
          right; left
          exact ⟨hs, rfl, by simp [memory_allocate, h0, hb, hs, after_split]⟩
      · right; right
        exact ⟨hs, by simp [memory_allocate, h0, hb, hs, after_take]⟩

/-! ### Preservation of well-formedness -/

theorem HeapInv_replace (mm mm1 : MemoryManager) (h : HeapInv mm) (X Y Z repl : List MemoryBlock)
    (hl : mm.free_list = X ++ Y ++ Z) (hne : repl ≠ [])
    (hc : Chained (mm.heap + total_sizes X) repl) (ht : total_sizes repl = total_sizes Y)
    (hz : NoZeroRun (last_zero false X) repl)
    (hlz : last_zero (last_zero false X) repl = true → last_zero (last_zero false X) Y = true)
    (h1 : mm1.heap = mm.heap) (h2 : mm1.total_size = mm.total_size)
    (h3 : mm1.free_list = X ++ repl ++ Z) : HeapInv mm1 := by
  have hch := h.chained
  have htot := h.total
  have hnz := h.no_zero_run
  rw [hl] at hch htot hnz
  refine ⟨by rw [h1, h2]; exact h.region, ?_, ?_, ?_, ?_⟩
  · rw [h3]
    cases repl with
    | nil => exact absurd rfl hne
    | cons r rs => simp
  · rw [h3, h1]
    exact Chained_replace _ X Y Z repl hch hc ht
  · rw [h3, h2, total_sizes_replace X Y Z repl ht]
    exact htot
  · rw [h3]
    exact NoZeroRun_replace false X Y Z repl hnz hz hlz

/-- Where a node of a well-formed list lies: it starts after the nodes before it and
ends inside the region. -/
theorem HeapInv_block (mm : MemoryManager) (h : HeapInv mm) (X Z : List MemoryBlock)
    (b : MemoryBlock) (hl : mm.free_list = X ++ b :: Z) :
    b.start = mm.heap + total_sizes X ∧
      total_sizes X + b.size + total_sizes Z = mm.total_size ∧
      mm.heap + mm.total_size + SIZEOF_MEMORYBLOCK ≤ SIZE_MOD ∧ 0 < mm.heap := by
  have hch := h.chained
  have htot := h.total
  rw [hl] at hch htot
  refine ⟨Chained_start _ X Z b hch, ?_, h.region.2, Nat.pos_of_ne_zero h.region.1⟩
  rw [total_sizes_append] at htot
  simp only [total_sizes] at htot
  omega

theorem ptr_add_eq (p n : Nat) (h : p + n < SIZE_MOD) : ptr_add p n = p + n :=
  Nat.mod_eq_of_lt h

theorem HeapInv_init (heap size : Nat) (hv : ValidRegion heap size) (mm : MemoryManager)
    (h : memory_init heap size = some mm) : HeapInv mm := by
  unfold memory_init at h
  rw [if_neg hv.1] at h
  simp only [Option.some.injEq] at h
  subst h
  exact ⟨hv, by simp, by simp [Chained], by simp [total_sizes], by simp [NoZeroRun]⟩

theorem HeapInv_after_take (mm : MemoryManager) (h : HeapInv mm) (X Z : List MemoryBlock)
    (best : MemoryBlock) (hl : mm.free_list = X ++ best :: Z) :
    HeapInv (after_take mm X.length best) := by
  obtain ⟨hs, -, -, -⟩ := HeapInv_block mm h X Z best hl
  refine HeapInv_replace mm _ h X [best] Z [{ best with is_free := false }] (by simpa using hl)
    (by simp) ?_ (by simp [total_sizes]) ?_ ?_ rfl rfl ?_
  · simp [Chained, hs]
  · simp [NoZeroRun]
  · simp [last_zero]
  · simp only [after_take]
    rw [hl, splice_one]

theorem HeapInv_after_split (mm : MemoryManager) (h : HeapInv mm) (X Z : List MemoryBlock)
    (best : MemoryBlock) (hl : mm.free_list = X ++ best :: Z) (r : Nat) (hr : r ≤ best.size)
    (hsplit : best.size > (r + SIZEOF_MEMORYBLOCK) % SIZE_MOD) :
    HeapInv (after_split mm X.length r best) := by
  obtain ⟨hs, ht, hreg, hpos⟩ := HeapInv_block mm h X Z best hl
  have hmod : (r + SIZEOF_MEMORYBLOCK) % SIZE_MOD = r + SIZEOF_MEMORYBLOCK :=
    Nat.mod_eq_of_lt (by omega)
  rw [hmod] at hsplit
  have hp : ptr_add best.start r = best.start + r := ptr_add_eq _ _ (by omega)
  refine HeapInv_replace mm _ h X [best] Z
    [{ start := best.start, size := r, is_free := false },
     { start := ptr_add best.start r, size := best.size - r, is_free := true }]
    (by simpa using hl) (by simp) ?_ ?_ ?_ ?_ rfl rfl ?_
  · refine ⟨hs, ?_, trivial⟩
    show ptr_add best.start r = mm.heap + total_sizes X + r
    rw [hp, hs]
  · simp only [total_sizes]
    omega
  · have : best.size - r ≠ 0 := by unfold SIZEOF_MEMORYBLOCK at hsplit; omega
    simp [NoZeroRun, this]
  · have : best.size - r ≠ 0 := by unfold SIZEOF_MEMORYBLOCK at hsplit; omega
    simp [last_zero, this]
  · simp only [after_split]
    rw [hl, splice_one]

theorem HeapInv_allocate (mm : MemoryManager) (size : Nat) (ok : Bool) (h : HeapInv mm) :
    HeapInv (memory_allocate mm size ok).2 := by
  rcases memory_allocate_cases mm size ok with ⟨-, he⟩ | ⟨-, -, he⟩ | ⟨i, best, -, hb, hc⟩
  · rw [he]; exact h
  · rw [he]; exact h
  · obtain ⟨X, Z, hl, rfl, hf, -, -⟩ := best_fit_loop_some _ _ _ _ hb
    rcases hc with ⟨-, -, he⟩ | ⟨hs, -, he⟩ | ⟨-, he⟩
    · rw [he]; exact h
    · rw [he]; exact HeapInv_after_split mm h X Z best hl _ hf.2 hs
    · rw [he]; exact HeapInv_after_take mm h X Z best hl

/-- The paths through `memory_free`. -/
theorem memory_free_cases (mm : MemoryManager) (ptr : Nat) :
    (ptr = 0 ∧ memory_free mm ptr = some (false, mm)) ∨
    (ptr ≠ 0 ∧ find_block mm ptr = none ∧ memory_free mm ptr = some (false, mm)) ∨
    (∃ j found, ptr ≠ 0 ∧ find_block mm ptr = some (j, found) ∧
      ((found.is_free = true ∧ memory_free mm ptr = some (false, mm)) ∨
       (found.is_free = false ∧
        ((merge_scan (freed found) j (marked_list mm j found) 0 = Merge.no_merge ∧
            memory_free mm ptr = some (true, after_free mm (marked_list mm j found))) ∨
         (∃ i cur, merge_scan (freed found) j (marked_list mm j found) 0
              = Merge.into_current i cur ∧
            ((i < j ∧ memory_free mm ptr = some (true, after_free mm
                (splice (marked_list mm j found) i (j + 1) [grown cur (freed found)]))) ∨
             (¬ i < j ∧ memory_free mm ptr = none))) ∨
         (∃ i cur, merge_scan (freed found) j (marked_list mm j found) 0
              = Merge.into_block i cur ∧
            ((j < i ∧ memory_free mm ptr = some (true, after_free mm
                (splice (marked_list mm j found) j (i + 1) [grown (freed found) cur]))) ∨
             (¬ j < i ∧ memory_free mm ptr = none))))))) := by
  by_cases h0 : ptr = 0
  · left; exact ⟨h0, by simp [memory_free, h0]⟩
  · right
    cases hf : find_block mm ptr with
    | none => left; exact ⟨h0, rfl, by simp [memory_free, h0, hf]⟩
    | some jf =>
      obtain ⟨j, found⟩ := jf
      right
      refine ⟨j, found, h0, rfl, ?_⟩
      cases hfree : found.is_free with
      | true => left; exact ⟨rfl, by simp [memory_free, h0, hf, hfree]⟩
      | false =>
        right
        refine ⟨rfl, ?_⟩
        cases hm : merge_scan (freed found) j (marked_list mm j found) 0 with
        | no_merge =>
          left
          refine ⟨rfl, ?_⟩
          simp only [freed, marked_list] at hm
          simp [memory_free, h0, hf, hfree, hm, after_free, marked_list, freed]
        | into_current i cur =>
          right; left
          refine ⟨i, cur, rfl, ?_⟩
          simp only [freed, marked_list] at hm
          by_cases hij : i < j
          · left
            refine ⟨hij, ?_⟩
            simp [memory_free, h0, hf, hfree, hm, hij, after_free, marked_list, freed, grown]
          · right
            refine ⟨hij, ?_⟩
            simp [memory_free, h0, hf, hfree, hm, hij]
        | into_block i cur =>
          right; right
          refine ⟨i, cur, rfl, ?_⟩
          simp only [freed, marked_list] at hm
          by_cases hij : j < i
          · left
            refine ⟨hij, ?_⟩
            simp [memory_free, h0, hf, hfree, hm, hij, after_free, marked_list, freed, grown]
          · right
            refine ⟨hij, ?_⟩
            simp [memory_free, h0, hf, hfree, hm, hij]

theorem last_zero_snoc (z : Bool) (L : List MemoryBlock) (b : MemoryBlock) :
    last_zero z (L ++ [b]) = decide (b.size = 0) := by
  rw [last_zero_append]
  rfl

theorem last_zero_of_total_zero (M : List MemoryBlock) (h : total_sizes M = 0) :
    last_zero true M = true := by
  induction M with
  | nil => rfl
  | cons b rest ih =>
    simp only [total_sizes] at h
    have hb : b.size = 0 := by omega
    have hr : total_sizes rest = 0 := by omega
    simp only [last_zero, hb, decide_True]
    exact ih hr

theorem last_zero_true (z : Bool) (A : List MemoryBlock) (h : last_zero z A = true) :
    (A = [] ∧ z = true) ∨ ∃ A1 p, A = A1 ++ [p] ∧ p.size = 0 := by
  induction A generalizing z with
  | nil => left; exact ⟨rfl, h⟩
  | cons b rest ih =>
    right
    rcases ih _ h with ⟨rfl, hz⟩ | ⟨A1, p, rfl, hp⟩
    · exact ⟨[], b, rfl, by simpa using hz⟩
    · exact ⟨b :: A1, p, rfl, hp⟩

/-- Two nodes of a well-formed list, `b` before `c`: where they lie and what the
list invariant says of each. -/
theorem HeapInv_two_blocks (mm : MemoryManager) (h : HeapInv mm) (X M Z : List MemoryBlock)
    (b c : MemoryBlock) (hl : mm.free_list = X ++ b :: M ++ c :: Z) :
    b.start = mm.heap + total_sizes X ∧
      c.start = mm.heap + total_sizes X + b.size + total_sizes M ∧
      total_sizes X + b.size + total_sizes M + c.size + total_sizes Z = mm.total_size ∧
      mm.heap + mm.total_size + SIZEOF_MEMORYBLOCK ≤ SIZE_MOD ∧
      ¬ (last_zero false X = true ∧ b.is_free = true ∧ b.size = 0) ∧
      ¬ (last_zero (decide (b.size = 0)) M = true ∧ c.is_free = true ∧ c.size = 0) := by
  have hch := h.chained
  have htot := h.total
  have hnz := h.no_zero_run
  rw [hl] at hch htot hnz
  rw [Chained_append, Chained_append] at hch
  obtain ⟨⟨-, hb, -⟩, hc, -⟩ := hch
  rw [NoZeroRun_append, NoZeroRun_append] at hnz
  obtain ⟨⟨-, hnb, -⟩, hnc, -⟩ := hnz
  rw [last_zero_append] at hnc
  simp only [total_sizes_append, total_sizes] at htot hc
  refine ⟨hb, ?_, ?_, h.region.2, hnb, hnc⟩
  · rw [hc]; omega
  · omega

theorem HeapInv_marked (mm : MemoryManager) (h : HeapInv mm) (ptr : Nat)
    (A B : List MemoryBlock) (found : MemoryBlock) (hl : mm.free_list = A ++ found :: B)
    (hp : found.start = ptr) (hA : ∀ c ∈ A, c.start ≠ ptr) :
    HeapInv (after_free mm (A ++ freed found :: B)) := by
  obtain ⟨hs, -, -, -⟩ := HeapInv_block mm h A B found hl
  refine HeapInv_replace mm _ h A [found] B [freed found] (by simpa using hl)
    (by simp) ?_ (by simp [total_sizes, freed]) ?_ ?_ rfl rfl (by simp [after_free])
  · simp [Chained, hs, freed]
  · refine ⟨?_, trivial⟩
    rintro ⟨hz, -, -⟩
    rcases last_zero_true _ _ hz with ⟨-, hf⟩ | ⟨A1, p, rfl, hp0⟩
    · simp at hf
    · have hch := h.chained
      rw [hl, Chained_append, Chained_append] at hch
      have h1 : p.start = mm.heap + total_sizes A1 := hch.1.2.1
      have h2 : found.start = mm.heap + total_sizes (A1 ++ [p]) := hch.2.1
      simp only [total_sizes_append, total_sizes] at h2
      refine hA p (by simp) ?_
      rw [← hp, h1, h2, hp0]
      omega
  · simp [last_zero, freed]

/-- Merging a free node `b` with a later node `c` that starts where `b` ends, and
unlinking the nodes from `b` to `c`, keeps the list well formed. -/
theorem HeapInv_merge (mm mm1 : MemoryManager) (h : HeapInv mm) (X M Z : List MemoryBlock)
    (b c : MemoryBlock) (hl : mm.free_list = X ++ b :: M ++ c :: Z)
    (hadj : ptr_add b.start b.size = c.start) (hfree : b.is_free = true)
    (h1 : mm1.heap = mm.heap) (h2 : mm1.total_size = mm.total_size)
    (h3 : mm1.free_list = X ++ [grown b c] ++ Z) : HeapInv mm1 := by
  obtain ⟨hb, hc, ht, hreg, hnb, -⟩ := HeapInv_two_blocks mm h X M Z b c hl
  have hpos : 0 < mm.heap := Nat.pos_of_ne_zero h.region.1
  have h32 : SIZEOF_MEMORYBLOCK = 32 := rfl
  rw [ptr_add_eq _ _ (by omega)] at hadj
  have hM : total_sizes M = 0 := by omega
  have hg : (b.size + c.size) % SIZE_MOD = b.size + c.size := Nat.mod_eq_of_lt (by omega)
  refine HeapInv_replace mm mm1 h X (b :: M ++ [c]) Z [grown b c] (by simp [hl])
    (by simp) ?_ ?_ ?_ ?_ h1 h2 h3
  · simp [Chained, grown, hb]
  · simp only [grown, total_sizes, total_sizes_append, List.cons_append, hg, List.append_eq]
    omega
  · refine ⟨?_, trivial⟩
    rintro ⟨hz, -, hs⟩
    simp only [grown, hg] at hs
    exact hnb ⟨hz, hfree, by omega⟩
  · intro hz
    simp only [last_zero, grown, hg, decide_eq_true_eq] at hz
    rw [show b :: M ++ [c] = (b :: M) ++ [c] by simp, last_zero_snoc]
    simp only [decide_eq_true_eq]
    omega

/-- In a well-formed list a free node never ends where an earlier node starts. -/
theorem HeapInv_no_backward_end (mm : MemoryManager) (h : HeapInv mm)
    (A M D : List MemoryBlock) (block cur : MemoryBlock)
    (hl : mm.free_list = A ++ block :: M ++ cur :: D) (hfree : cur.is_free = true)
    (hadj : ptr_add cur.start cur.size = block.start) : False := by
  obtain ⟨hb, hc, ht, hreg, -, hnc⟩ := HeapInv_two_blocks mm h A M D block cur hl
  have hpos : 0 < mm.heap := Nat.pos_of_ne_zero h.region.1
  have h32 : SIZEOF_MEMORYBLOCK = 32 := rfl
  rw [ptr_add_eq _ _ (by omega)] at hadj
  have hb0 : block.size = 0 := by omega
  have hM : total_sizes M = 0 := by omega
  have hc0 : cur.size = 0 := by omega
  refine hnc ⟨?_, hfree, hc0⟩
  simp only [hb0, decide_True]
  exact last_zero_of_total_zero M hM

/-- In a well-formed list a node that starts where a later node ends also ends where
that node starts. -/
theorem HeapInv_backward_start (mm : MemoryManager) (h : HeapInv mm)
    (C M B : List MemoryBlock) (cur block : MemoryBlock)
    (hl : mm.free_list = C ++ cur :: M ++ block :: B)
    (hadj : ptr_add block.start block.size = cur.start) :
    ptr_add cur.start cur.size = block.start := by
  obtain ⟨hb, hc, ht, hreg, -, -⟩ := HeapInv_two_blocks mm h C M B cur block hl
  have hpos : 0 < mm.heap := Nat.pos_of_ne_zero h.region.1
  have h32 : SIZEOF_MEMORYBLOCK = 32 := rfl
  rw [ptr_add_eq _ _ (by omega)] at hadj
  rw [ptr_add_eq _ _ (by omega)]
  omega

theorem after_free_heap (mm : MemoryManager) (l : List MemoryBlock) :
    (after_free mm l).heap = mm.heap ∧ (after_free mm l).total_size = mm.total_size ∧
      (after_free mm l).free_list = l ∧ (after_free mm l).allocations = mm.allocations ∧
      (after_free mm l).deallocations = mm.deallocations + 1 :=
  ⟨rfl, rfl, rfl, rfl, rfl⟩

/-- On a well-formed manager `memory_free` returns, and the manager it leaves is
well formed. -/
theorem HeapInv_free (mm : MemoryManager) (ptr : Nat) (h : HeapInv mm) :
    ∃ ok mm1, memory_free mm ptr = some (ok, mm1) ∧ HeapInv mm1 := by
  rcases memory_free_cases mm ptr with ⟨-, he⟩ | ⟨-, -, he⟩ | ⟨j, found, -, hf, hc⟩
  · exact ⟨false, mm, he, h⟩
  · exact ⟨false, mm, he, h⟩
  · rcases hc with ⟨-, he⟩ | ⟨-, hc⟩
    · exact ⟨false, mm, he, h⟩
    · obtain ⟨A, B, hl, hj, hp, hA⟩ := find_block_from_some _ _ _ _ _ hf
      rw [Nat.zero_add] at hj
      subst hj
      have hmk : marked_list mm A.length found = A ++ freed found :: B := by
        unfold marked_list
        rw [hl, splice_one]
        simp
      have hI : HeapInv (after_free mm (A ++ freed found :: B)) :=
        HeapInv_marked mm h ptr A B found hl hp hA
      rw [hmk] at hc
      rcases hc with ⟨-, he⟩ | ⟨i, cur, hm, hc⟩ | ⟨i, cur, hm, hc⟩
      · exact ⟨true, _, he, hI⟩
      · obtain ⟨C, D, hdec, hi, hfree, hne, hadj, -⟩ := merge_scan_into_current _ _ _ _ _ _ hm
        rw [Nat.zero_add] at hi
        subst hi
        rcases hc with ⟨hlt, he⟩ | ⟨hnlt, -⟩
        · obtain ⟨M, hAeq, hDeq⟩ := split_two A B C D (freed found) cur hdec hlt
          refine ⟨true, _, he, ?_⟩
          have hfl : (after_free mm (A ++ freed found :: B)).free_list
              = C ++ cur :: M ++ freed found :: B := by
            simp [after_free, hAeq]
          refine HeapInv_merge _ _ hI C M B cur (freed found) hfl hadj hfree rfl rfl ?_
          show splice (A ++ freed found :: B) C.length (A.length + 1) _ = _
          have := splice_append C (cur :: M ++ [freed found]) B [grown cur (freed found)]
          rw [hAeq]
          simp only [List.length_append, List.length_cons, List.length_nil,
            List.append_assoc, List.cons_append, List.nil_append, List.singleton_append] at this ⊢
          rw [← this]
          congr 1
        · exfalso
          have hlt : A.length < C.length := by omega
          obtain ⟨M, hCeq, hBeq⟩ := split_two C D A B cur (freed found) hdec.symm hlt
          have hfl : (after_free mm (A ++ freed found :: B)).free_list
              = A ++ freed found :: M ++ cur :: D := by
            simp [after_free, hBeq]
          exact HeapInv_no_backward_end _ hI A M D (freed found) cur hfl hfree hadj
      · obtain ⟨C, D, hdec, hi, hfree, hne, hnadj, hadj, -⟩ :=
          merge_scan_into_block _ _ _ _ _ _ hm
        rw [Nat.zero_add] at hi
        subst hi
        rcases hc with ⟨hlt, he⟩ | ⟨hnlt, -⟩
        · obtain ⟨M, hCeq, hBeq⟩ := split_two C D A B cur (freed found) hdec.symm hlt
          refine ⟨true, _, he, ?_⟩
          have hfl : (after_free mm (A ++ freed found :: B)).free_list
              = A ++ freed found :: M ++ cur :: D := by
            simp [after_free, hBeq]
          refine HeapInv_merge _ _ hI A M D (freed found) cur hfl hadj rfl rfl rfl ?_
          show splice (A ++ freed found :: B) A.length (C.length + 1) _ = _
          have := splice_append A (freed found :: M ++ [cur]) D [grown (freed found) cur]
          rw [hBeq, hCeq]
          simp only [List.length_append, List.length_cons, List.length_nil,
            List.append_assoc, List.cons_append, List.nil_append, List.singleton_append] at this ⊢
          rw [← this]
          congr 1
        · exfalso
          have hlt : C.length < A.length := by omega
          obtain ⟨M, hAeq, hDeq⟩ := split_two A B C D (freed found) cur hdec hlt
          have hfl : (after_free mm (A ++ freed found :: B)).free_list
              = C ++ cur :: M ++ freed found :: B := by
            simp [after_free, hAeq]
          exact hnadj (HeapInv_backward_start _ hI C M B cur (freed found) hfl hadj)

theorem HeapInv_reachable (heap total : Nat) (hv : ValidRegion heap total)
    (mm : MemoryManager) (hr : Reachable heap total mm) : HeapInv mm := by
  induction hr with
  | init mm h => exact HeapInv_init heap total hv mm h
  | allocate mm size ok _ ih => exact HeapInv_allocate mm size ok ih
  | free mm ptr ok mm1 _ hf ih =>
    obtain ⟨ok1, mm2, he, hI⟩ := HeapInv_free mm ptr ih
    rw [he] at hf
    simp only [Option.some.injEq, Prod.mk.injEq] at hf
    rw [← hf.2]
    exact hI

theorem memory_allocate_region (mm : MemoryManager) (size : Nat) (ok : Bool) :
    (memory_allocate mm size ok).2.heap = mm.heap ∧
      (memory_allocate mm size ok).2.total_size = mm.total_size := by
  rcases memory_allocate_cases mm size ok with ⟨-, he⟩ | ⟨-, -, he⟩ | ⟨i, best, -, -, hc⟩
  · rw [he]; exact ⟨rfl, rfl⟩
  · rw [he]; exact ⟨rfl, rfl⟩
  · rcases hc with ⟨-, -, he⟩ | ⟨-, -, he⟩ | ⟨-, he⟩ <;> rw [he] <;> exact ⟨rfl, rfl⟩

theorem memory_free_region (mm mm1 : MemoryManager) (ptr : Nat) (ok : Bool)
    (h : memory_free mm ptr = some (ok, mm1)) :
    mm1.heap = mm.heap ∧ mm1.total_size = mm.total_size := by
  have key : ∀ r : Bool × MemoryManager, memory_free mm ptr = some r →
      r.2.heap = mm.heap ∧ r.2.total_size = mm.total_size →
      mm1.heap = mm.heap ∧ mm1.total_size = mm.total_size := by
    intro r hr hh
    rw [hr] at h
    simp only [Option.some.injEq] at h
    rw [h] at hh
    exact hh
  rcases memory_free_cases mm ptr with ⟨-, he⟩ | ⟨-, -, he⟩ | ⟨j, found, -, -, hc⟩
  · exact key _ he ⟨rfl, rfl⟩
  · exact key _ he ⟨rfl, rfl⟩
  · rcases hc with ⟨-, he⟩ | ⟨-, ⟨-, he⟩ | ⟨i, cur, -, ⟨-, he⟩ | ⟨-, he⟩⟩ |
      ⟨i, cur, -, ⟨-, he⟩ | ⟨-, he⟩⟩⟩
    · exact key _ he ⟨rfl, rfl⟩
    · exact key _ he ⟨rfl, rfl⟩
    · exact key _ he ⟨rfl, rfl⟩
    · rw [he] at h; simp at h
    · exact key _ he ⟨rfl, rfl⟩
    · rw [he] at h; simp at h

theorem Reachable_region (heap total : Nat) (mm : MemoryManager)
    (hr : Reachable heap total mm) : mm.heap = heap ∧ mm.total_size = total := by
  induction hr with
  | init mm h =>
    unfold memory_init at h
    split at h
    · simp at h
    · simp only [Option.some.injEq] at h
      subst h
      exact ⟨rfl, rfl⟩
  | allocate mm size ok _ ih =>
    obtain ⟨h1, h2⟩ := memory_allocate_region mm size ok
    exact ⟨h1.trans ih.1, h2.trans ih.2⟩
  | free mm ptr ok mm1 _ hf ih =>
    obtain ⟨h1, h2⟩ := memory_free_region mm mm1 ptr ok hf
    exact ⟨h1.trans ih.1, h2.trans ih.2⟩

/-! ### Positions in a chained list -/

theorem getElem_decomp (l : List MemoryBlock) (i : Nat) (b : MemoryBlock)
    (h : l[i]? = some b) : ∃ X Z, l = X ++ b :: Z ∧ X.length = i := by
  induction l generalizing i with
  | nil => simp at h
  | cons c rest ih =>
    cases i with
    | zero =>
      simp only [List.getElem?_cons_zero, Option.some.injEq] at h
      exact ⟨[], rest, by rw [h]; rfl, rfl⟩
    | succ i =>
      simp only [List.getElem?_cons_succ] at h
      obtain ⟨X, Z, hl, hi⟩ := ih i h
      exact ⟨c :: X, Z, by rw [hl]; rfl, by simp [hi]⟩

theorem getElem_decomp_two (l : List MemoryBlock) (i j : Nat) (b c : MemoryBlock)
    (hij : i < j) (hb : l[i]? = some b) (hc : l[j]? = some c) :
    ∃ X M Z, l = X ++ b :: M ++ c :: Z ∧ X.length = i ∧ (X ++ b :: M).length = j := by
  obtain ⟨X, Z1, hl1, hi⟩ := getElem_decomp l i b hb
  obtain ⟨X2, Z, hl2, hj⟩ := getElem_decomp l j c hc
  have heq : X2 ++ c :: Z = X ++ b :: Z1 := by rw [← hl1, ← hl2]
  obtain ⟨M, hX2, -⟩ := split_two X2 Z X Z1 c b heq (by omega)
  exact ⟨X, M, Z, by rw [hl2, hX2], hi, by rw [← hX2, hj]⟩

/-! ### C1 -/

theorem heap_fresh_reachable : Reachable 4096 256 heap_fresh :=
  Reachable.init heap_fresh (by decide)

theorem heap_one_alloc_reachable : Reachable 4096 256 heap_one_alloc := by
  have h := Reachable.allocate heap_fresh 64 true heap_fresh_reachable
  have e : (memory_allocate heap_fresh 64 true).2 = heap_one_alloc := by decide
  rwa [e] at h

theorem valid_region_example : ValidRegion 4096 256 := by
  unfold ValidRegion SIZEOF_MEMORYBLOCK SIZE_MOD
  decide

/-- C1: in every manager reachable from `memory_init(total)` by calls of
`memory_allocate` and `memory_free` the block list tiles the heap: the first block
starts at the heap base, every block starts where its list predecessor ends, the
sizes sum to `total_size`; hence an earlier block ends before a later one starts,
every block lies inside the heap and the last block ends at the end of the heap.
Moreover `memory_free` returns on every such manager for every pointer. -/
theorem C1_blocks_tile_heap (heap total : Nat) (hv : ValidRegion heap total)
    (mm : MemoryManager) (hr : Reachable heap total mm) :
    mm.heap = heap ∧ mm.total_size = total ∧
    (∃ b rest, mm.free_list = b :: rest ∧ b.start = mm.heap) ∧
    (∀ (i : Nat) (b c : MemoryBlock), mm.free_list[i]? = some b →
      mm.free_list[i + 1]? = some c → c.start = b.start + b.size) ∧
    total_sizes mm.free_list = mm.total_size ∧
    (∀ (i j : Nat) (b c : MemoryBlock), i < j → mm.free_list[i]? = some b →
      mm.free_list[j]? = some c → b.start + b.size ≤ c.start) ∧
    (∀ (i : Nat) (b : MemoryBlock), mm.free_list[i]? = some b →
      mm.heap ≤ b.start ∧ b.start + b.size ≤ mm.heap + mm.total_size) ∧
    (∀ b : MemoryBlock, mm.free_list.getLast? = some b → b.start + b.size = mm.heap + mm.total_size) ∧
    (∀ ptr, ∃ ok mm1, memory_free mm ptr = some (ok, mm1)) := by
  have hI := HeapInv_reachable heap total hv mm hr
  obtain ⟨hh, ht⟩ := Reachable_region heap total mm hr
  refine ⟨hh, ht, ?_, ?_, hI.total, ?_, ?_, ?_, ?_⟩
  · cases hl : mm.free_list with
    | nil => exact absurd hl hI.nonempty
    | cons b rest =>
      have hch := hI.chained
      rw [hl] at hch
      exact ⟨b, rest, rfl, hch.1⟩
  · intro i b c hb hc
    obtain ⟨X, M, Z, hl, hi, hj⟩ := getElem_decomp_two _ i (i + 1) b c (by omega) hb hc
    obtain ⟨h1, h2, -, -, -, -⟩ := HeapInv_two_blocks mm hI X M Z b c hl
    have hM : M = [] := by
      rw [List.length_append, List.length_cons, hi] at hj
      exact List.length_eq_zero.mp (by omega)
    rw [hM] at h2
    simp only [total_sizes] at h2
    omega
  · intro i j b c hij hb hc
    obtain ⟨X, M, Z, hl, -, -⟩ := getElem_decomp_two _ i j b c hij hb hc
    obtain ⟨h1, h2, -, -, -, -⟩ := HeapInv_two_blocks mm hI X M Z b c hl
    omega
  · intro i b hb
    obtain ⟨X, Z, hl, -⟩ := getElem_decomp _ i b hb
    obtain ⟨h1, h2, -, -⟩ := HeapInv_block mm hI X Z b hl
    omega
  · intro b hb
    obtain ⟨X, hl⟩ : ∃ X, mm.free_list = X ++ [b] := by
      rcases List.eq_nil_or_concat mm.free_list with hn | ⟨X, c, hc⟩
      · rw [hn] at hb; simp at hb
      · rw [hc] at hb
        simp only [List.concat_eq_append, List.getLast?_append, List.getLast?_singleton,
          Option.or, Option.some.injEq] at hb
        exact ⟨X, by rw [hc, hb]; simp⟩
    obtain ⟨h1, h2, -, -⟩ := HeapInv_block mm hI X [] b hl
    simp only [total_sizes] at h2
    omega
  · intro ptr
    obtain ⟨ok, mm1, he, -⟩ := HeapInv_free mm ptr hI
    exact ⟨ok, mm1, he⟩

/-- C1 at the manager obtained by one allocation of 64 bytes in a fresh heap of 256
bytes. -/
theorem C1_blocks_tile_heap_witness :
    ValidRegion 4096 256 ∧ Reachable 4096 256 heap_one_alloc ∧
      total_sizes heap_one_alloc.free_list = heap_one_alloc.total_size :=
  ⟨valid_region_example, heap_one_alloc_reachable,
    (C1_blocks_tile_heap 4096 256 valid_region_example heap_one_alloc
      heap_one_alloc_reachable).2.2.2.2.1⟩

/-! ### C2 -/

theorem find_block_from_eq (ptr : Nat) (l : List MemoryBlock) (i0 j : Nat) (b : MemoryBlock)
    (hb : l[j]? = some b) (hp : b.start = ptr)
    (hfirst : ∀ (i : Nat) (c : MemoryBlock), i < j → l[i]? = some c → c.start ≠ ptr) :
    find_block_from ptr l i0 = some (i0 + j, b) := by
  induction l generalizing i0 j with
  | nil => simp at hb
  | cons c rest ih =>
    cases j with
    | zero =>
      simp only [List.getElem?_cons_zero, Option.some.injEq] at hb
      subst hb
      simp [find_block_from, hp]
    | succ j =>
      have hc : c.start ≠ ptr := hfirst 0 c (by omega) (by simp)
      simp only [List.getElem?_cons_succ] at hb
      have := ih (i0 + 1) j hb (fun i d hi hd => hfirst (i + 1) d (by omega) (by simpa using hd))
      simp only [find_block_from, hc, if_false, this]
      congr 2
      omega

theorem find_block_iff (mm : MemoryManager) (ptr j : Nat) (b : MemoryBlock) :
    find_block mm ptr = some (j, b) ↔
      (mm.free_list[j]? = some b ∧ b.start = ptr ∧
        ∀ (i : Nat) (c : MemoryBlock), i < j → mm.free_list[i]? = some c → c.start ≠ ptr) := by
  constructor
  · intro h
    obtain ⟨X, Z, hl, hj, hp, hX⟩ := find_block_from_some _ _ _ _ _ h
    rw [Nat.zero_add] at hj
    subst hj
    refine ⟨by rw [hl, List.getElem?_append_right (le_refl _)]; simp, hp, ?_⟩
    intro i c hi hc
    rw [hl, List.getElem?_append_left hi] at hc
    exact hX c (List.getElem?_mem hc)
  · rintro ⟨hb, hp, hfirst⟩
    have := find_block_from_eq ptr mm.free_list 0 j b hb hp hfirst
    rwa [Nat.zero_add] at this

theorem heap_zero_alloc_reachable : Reachable 4096 256 heap_zero_alloc := by
  have h := Reachable.allocate heap_fresh (2 ^ 64 - 1) true heap_fresh_reachable
  have e : (memory_allocate heap_fresh (2 ^ 64 - 1) true).2 = heap_zero_alloc := by decide
  rwa [e] at h

/-- C2 fails on the code: after `memory_allocate(mm, SIZE_MAX)` on the fresh heap of
256 bytes the list holds an in-use block of size 0 at 4096 in front of the free block of
256 bytes that starts at 4096 as well.  The pointer 4096 is then the start of a block
that is already free, yet `memory_free` of it returns true, changes the list and counts
a deallocation: `find_block` stops at the block of size 0.  Such blocks come from the
wrapping of the rounding in `memory_allocate` only; on well-formed lists without them
`memory_free` returns false at the start of every free block (`memory_free_result`). -/
theorem C2_free_of_free_block_succeeds :
    memory_init 4096 256 = some heap_fresh ∧
    Reachable 4096 256 heap_zero_alloc ∧
      memory_allocate heap_fresh (2 ^ 64 - 1) true = (4096, heap_zero_alloc) ∧
      (∃ b ∈ heap_zero_alloc.free_list, b.start = 4096 ∧ b.is_free = true) ∧
      memory_free heap_zero_alloc 4096 = some (true,
        { heap := 4096
          total_size := 256
          free_list := [{ start := 4096, size := 256, is_free := true }]
          allocations := 1
          deallocations := 1 }) :=
  ⟨by decide, heap_zero_alloc_reachable, by decide, by decide, by decide⟩

/-- On a well-formed manager `memory_free` returns false and leaves the whole manager
unchanged whenever the pointer is null, is the start of no block, or the
block that `find_block` returns for it, the first block in list order that starts at
the pointer, is already free; in every other case it returns true and increments
`deallocations` by exactly one.  When every block has a positive size, a pointer that
is the start of any free block falls in the first case. -/
theorem memory_free_result (mm : MemoryManager) (ptr : Nat) (h : HeapInv mm) :
    ((ptr = 0 ∨ (∀ b ∈ mm.free_list, b.start ≠ ptr) ∨
        (∃ j b, find_block mm ptr = some (j, b) ∧ b.is_free = true)) →
      memory_free mm ptr = some (false, mm)) ∧
    (¬ (ptr = 0 ∨ (∀ b ∈ mm.free_list, b.start ≠ ptr) ∨
        (∃ j b, find_block mm ptr = some (j, b) ∧ b.is_free = true)) →
      ∃ mm1, memory_free mm ptr = some (true, mm1) ∧
        mm1.deallocations = mm.deallocations + 1 ∧ mm1.allocations = mm.allocations) ∧
    (∀ (j : Nat) (b : MemoryBlock), find_block mm ptr = some (j, b) ↔
      (mm.free_list[j]? = some b ∧ b.start = ptr ∧
        ∀ (i : Nat) (c : MemoryBlock), i < j → mm.free_list[i]? = some c → c.start ≠ ptr)) ∧
    ((∀ b ∈ mm.free_list, 0 < b.size) →
      (∃ b ∈ mm.free_list, b.start = ptr ∧ b.is_free = true) →
      memory_free mm ptr = some (false, mm)) := by
  have hfalse : (ptr = 0 ∨ (∀ b ∈ mm.free_list, b.start ≠ ptr) ∨
        (∃ j b, find_block mm ptr = some (j, b) ∧ b.is_free = true)) →
      memory_free mm ptr = some (false, mm) := by
    intro hc
    rcases memory_free_cases mm ptr with ⟨-, he⟩ | ⟨-, -, he⟩ | ⟨j, found, h0, hf, hd⟩
    · exact he
    · exact he
    · rcases hd with ⟨-, he⟩ | ⟨hnf, -⟩
      · exact he
      · exfalso
        rcases hc with h1 | h1 | ⟨j1, b1, h1, h2⟩
        · exact h0 h1
        · obtain ⟨X, Z, hl, -, hp, -⟩ := find_block_from_some _ _ _ _ _ hf
          exact h1 found (by rw [hl]; simp) hp
        · rw [hf] at h1
          simp only [Option.some.injEq, Prod.mk.injEq] at h1
          rw [h1.2, h2] at hnf
          exact Bool.noConfusion hnf
  refine ⟨hfalse, ?_, fun j b => find_block_iff mm ptr j b, ?_⟩
  · intro hc
    obtain ⟨ok, mm1, he, -⟩ := HeapInv_free mm ptr h
    have hd : ∀ l, (after_free mm l).deallocations = mm.deallocations + 1 ∧
        (after_free mm l).allocations = mm.allocations := fun l => ⟨rfl, rfl⟩
    rcases memory_free_cases mm ptr with ⟨h0, -⟩ | ⟨-, hn, -⟩ | ⟨j, found, h0, hf, hd1⟩
    · exact absurd (Or.inl h0) hc
    · exfalso
      apply hc
      right; left
      exact (find_block_from_none ptr mm.free_list 0).mp hn
    · rcases hd1 with ⟨hfr, -⟩ | ⟨-, ⟨-, he1⟩ | ⟨i, cur, -, ⟨-, he1⟩ | ⟨-, he1⟩⟩ |
        ⟨i, cur, -, ⟨-, he1⟩ | ⟨-, he1⟩⟩⟩
      · exact absurd (Or.inr (Or.inr ⟨j, found, hf, hfr⟩)) hc
      · exact ⟨_, he1, hd _⟩
      · exact ⟨_, he1, hd _⟩
      · rw [he1] at he; simp at he
      · exact ⟨_, he1, hd _⟩
      · rw [he1] at he; simp at he
  · rintro hpos ⟨b, hb, hbp, hbf⟩
    apply hfalse
    right; right
    cases hf : find_block mm ptr with
    | none =>
      exact absurd hbp ((find_block_from_none ptr mm.free_list 0).mp hf b hb)
    | some jf =>
      obtain ⟨j, found⟩ := jf
      refine ⟨j, found, rfl, ?_⟩
      obtain ⟨A, B, hl, -, hp, hA⟩ := find_block_from_some _ _ _ _ _ hf
      rw [hl] at hb
      rcases List.mem_append.mp hb with hbA | hbB
      · exact absurd hbp (hA b hbA)
      · rcases List.mem_cons.mp hbB with rfl | hbB
        · exact hbf
        · exfalso
          obtain ⟨M, Z, hB⟩ := List.append_of_mem hbB
          have hl2 : mm.free_list = A ++ found :: M ++ b :: Z := by rw [hl, hB]; simp
          obtain ⟨h1, h2, -, -, -, -⟩ := HeapInv_two_blocks mm h A M Z found b hl2
          have := hpos found (by rw [hl]; simp)
          omega

/-- The lemma `memory_free_result` at the manager with one allocated block, freed at its
start. -/
theorem memory_free_result_example :
    HeapInv heap_one_alloc ∧
      ∃ mm1, memory_free heap_one_alloc 4096 = some (true, mm1) ∧
        mm1.deallocations = heap_one_alloc.deallocations + 1 ∧
        mm1.allocations = heap_one_alloc.allocations :=
  ⟨HeapInv_reachable 4096 256 valid_region_example _ heap_one_alloc_reachable,
    (memory_free_result heap_one_alloc 4096
      (HeapInv_reachable 4096 256 valid_region_example _ heap_one_alloc_reachable)).2.1
      (by
        have hf : find_block heap_one_alloc 4096
            = some (0, { start := 4096, size := 64, is_free := false }) := by decide
        rintro (h | h | ⟨j, b, h1, h2⟩)
        · exact absurd h (by decide)
        · exact h { start := 4096, size := 64, is_free := false } (by decide) rfl
        · rw [hf] at h1
          simp only [Option.some.injEq, Prod.mk.injEq] at h1
          rw [← h1.2] at h2
          exact Bool.noConfusion h2)⟩

/-! ### C3 -/

theorem align8_eq (n r : Nat) (h8 : 8 ∣ r) (hle : n ≤ r) (hlt : r < n + 8)
    (hno : r < SIZE_MOD) : align8 n = r := by
  unfold align8
  unfold SIZE_MOD at hno ⊢
  obtain ⟨k, rfl⟩ := h8
  have hm : (n + 7) % 2 ^ 64 = n + 7 := Nat.mod_eq_of_lt (by omega)
  rw [hm]
  omega

/-- A successful `memory_allocate`: the node taken, its place in the list, and the
list after the call. -/
theorem memory_allocate_success (mm : MemoryManager) (n : Nat) (ok : Bool)
    (hs : (memory_allocate mm n ok).1 ≠ 0 ∨ (memory_allocate mm n ok).2 ≠ mm) :
    ∃ X best Z, mm.free_list = X ++ best :: Z ∧
      best_fit_loop (align8 n) mm.free_list 0 none = some (X.length, best) ∧
      (memory_allocate mm n ok).1 = best.start ∧
      (memory_allocate mm n ok).2.allocations = mm.allocations + 1 ∧
      (memory_allocate mm n ok).2.deallocations = mm.deallocations ∧
      ((best.size > (align8 n + SIZEOF_MEMORYBLOCK) % SIZE_MOD ∧
          (memory_allocate mm n ok).2.free_list = X ++
            [{ start := best.start, size := align8 n, is_free := false },
             { start := ptr_add best.start (align8 n), size := best.size - align8 n,
               is_free := true }] ++ Z) ∨
       (¬ best.size > (align8 n + SIZEOF_MEMORYBLOCK) % SIZE_MOD ∧
          (memory_allocate mm n ok).2.free_list = X ++ [{ best with is_free := false }] ++ Z)) := by
  rcases memory_allocate_cases mm n ok with ⟨-, he⟩ | ⟨-, -, he⟩ | ⟨i, best, -, hb, hc⟩
  · rw [he] at hs; simp at hs
  · rw [he] at hs; simp at hs
  · obtain ⟨X, Z, hl, rfl, -, -, -⟩ := best_fit_loop_some _ _ _ _ hb
    rcases hc with ⟨-, -, he⟩ | ⟨hsp, -, he⟩ | ⟨hsp, he⟩
    · rw [he] at hs; simp at hs
    · refine ⟨X, best, Z, hl, hb, by rw [he], by rw [he]; rfl, by rw [he]; rfl, Or.inl ⟨hsp, ?_⟩⟩
      rw [he]
      show splice mm.free_list X.length (X.length + 1) _ = _
      rw [hl, splice_one]
    · refine ⟨X, best, Z, hl, hb, by rw [he], by rw [he]; rfl, by rw [he]; rfl, Or.inr ⟨hsp, ?_⟩⟩
      rw [he]
      show splice mm.free_list X.length (X.length + 1) _ = _
      rw [hl, splice_one]

/-- C3: for a request size `n` whose rounding up to a multiple of 8, `r`, does not
overflow, and with the metadata allocation succeeding, `memory_allocate` on a
well-formed manager returns `NULL` exactly when `n = 0` or no free block has size at
least `r`; when it returns `NULL` the manager is unchanged; when it succeeds the
returned address is the start of a block inside the heap that was free before the call
and is in use after it, and `allocations` has increased by exactly one. -/
theorem C3_memory_allocate_result (mm : MemoryManager) (n r : Nat) (h : HeapInv mm)
    (h8 : 8 ∣ r) (hle : n ≤ r) (hlt : r < n + 8) (hno : r < SIZE_MOD) :
    ((memory_allocate mm n true).1 = 0 ↔
      (n = 0 ∨ ∀ b ∈ mm.free_list, ¬ (b.is_free = true ∧ r ≤ b.size))) ∧
    ((memory_allocate mm n true).1 = 0 → (memory_allocate mm n true).2 = mm) ∧
    ((memory_allocate mm n true).1 ≠ 0 →
      ∃ (i : Nat) (b b1 : MemoryBlock), mm.free_list[i]? = some b ∧
        b.start = (memory_allocate mm n true).1 ∧ b.is_free = true ∧
        (memory_allocate mm n true).2.free_list[i]? = some b1 ∧
        b1.start = (memory_allocate mm n true).1 ∧ b1.is_free = false ∧
        mm.heap ≤ b1.start ∧ b1.start + b1.size ≤ mm.heap + mm.total_size ∧
        r ≤ b1.size ∧
        (memory_allocate mm n true).2.allocations = mm.allocations + 1) := by
  have hr : align8 n = r := align8_eq n r h8 hle hlt hno
  have hpos : 0 < mm.heap := Nat.pos_of_ne_zero h.region.1
  -- the three outcomes
  have key : ((n = 0 ∨ ∀ b ∈ mm.free_list, ¬ (b.is_free = true ∧ r ≤ b.size)) ∧
        memory_allocate mm n true = (0, mm)) ∨
      (¬ (n = 0 ∨ ∀ b ∈ mm.free_list, ¬ (b.is_free = true ∧ r ≤ b.size)) ∧
        ∃ X best Z, mm.free_list = X ++ best :: Z ∧ Fits r best ∧
          (memory_allocate mm n true).1 = best.start ∧
          (memory_allocate mm n true).2.allocations = mm.allocations + 1 ∧
          ((memory_allocate mm n true).2.free_list = X ++
              [{ start := best.start, size := r, is_free := false },
               { start := ptr_add best.start r, size := best.size - r,
                 is_free := true }] ++ Z ∨
            (memory_allocate mm n true).2.free_list
              = X ++ [{ best with is_free := false }] ++ Z)) := by
    rcases memory_allocate_cases mm n true with ⟨h0, he⟩ | ⟨-, hb, he⟩ | ⟨i, best, h0, hb, hc⟩
    · exact Or.inl ⟨Or.inl h0, he⟩
    · rw [hr] at hb
      exact Or.inl ⟨Or.inr ((best_fit_loop_none r mm.free_list).mp hb), he⟩
    · right
      rw [hr] at hb hc
      obtain ⟨X, Z, hl, rfl, hf, -, -⟩ := best_fit_loop_some _ _ _ _ hb
      constructor
      · rintro (h1 | h1)
        · exact h0 h1
        · exact h1 best (by rw [hl]; simp) hf
      · have hne : memory_allocate mm n true ≠ (0, mm) := by
          intro hz
          rcases hc with ⟨-, hf1, -⟩ | ⟨-, -, he⟩ | ⟨-, he⟩
          · exact Bool.noConfusion hf1
          · rw [he] at hz
            have := congrArg (fun x => x.2.allocations) hz
            simp [after_split] at this
          · rw [he] at hz
            have := congrArg (fun x => x.2.allocations) hz
            simp [after_take] at this
        have hs : (memory_allocate mm n true).1 ≠ 0 ∨ (memory_allocate mm n true).2 ≠ mm := by
          by_contra hcon
          push_neg at hcon
          exact hne (Prod.ext hcon.1 hcon.2)
        obtain ⟨X1, best1, Z1, hl1, hb1, hret, hal, -, hfl⟩ := memory_allocate_success mm n true hs
        rw [hr, hb] at hb1
        simp only [Option.some.injEq, Prod.mk.injEq] at hb1
        obtain ⟨hlen, rfl⟩ := hb1
        have hXX : X1 = X := by
          have := hl.symm.trans hl1
          exact ((List.append_inj this hlen).1).symm
        subst hXX
        have hZZ : Z1 = Z := by
          have := hl.symm.trans hl1
          simpa using this.symm
        subst hZZ
        rw [hr] at hfl
        refine ⟨X1, best, Z1, hl, hf, hret, hal, ?_⟩
        rcases hfl with ⟨-, hfl⟩ | ⟨-, hfl⟩
        · exact Or.inl hfl
        · exact Or.inr hfl
  rcases key with ⟨hcond, he⟩ | ⟨hcond, X, best, Z, hl, hf, hret, hal, hfl⟩
  · refine ⟨⟨fun _ => hcond, fun _ => by rw [he]⟩, fun _ => by rw [he], fun hne => ?_⟩
    rw [he] at hne
    exact absurd rfl hne
  · obtain ⟨hs, ht, hreg, -⟩ := HeapInv_block mm h X Z best hl
    have hret0 : (memory_allocate mm n true).1 ≠ 0 := by rw [hret, hs]; omega
    refine ⟨⟨fun h0 => absurd h0 hret0, fun hc => absurd hc hcond⟩,
      fun h0 => absurd h0 hret0, fun _ => ?_⟩
    have hget : mm.free_list[X.length]? = some best := by
      rw [hl, List.getElem?_append_right (le_refl _)]; simp
    rcases hfl with hfl | hfl
    · refine ⟨X.length, best, { start := best.start, size := r, is_free := false }, hget,
        hret.symm, hf.1, ?_, hret.symm, rfl, ?_, ?_, le_refl _, hal⟩
      · rw [hfl, List.append_assoc, List.getElem?_append_right (le_refl _)]; simp
      · show mm.heap ≤ best.start
        omega
      · show best.start + r ≤ _
        have := hf.2
        omega
    · refine ⟨X.length, best, { best with is_free := false }, hget,
        hret.symm, hf.1, ?_, hret.symm, rfl, ?_, ?_, hf.2, hal⟩
      · rw [hfl, List.append_assoc, List.getElem?_append_right (le_refl _)]; simp
      · show mm.heap ≤ best.start
        omega
      · show best.start + best.size ≤ _
        omega

theorem heap_fresh_inv : HeapInv heap_fresh :=
  HeapInv_reachable 4096 256 valid_region_example _ heap_fresh_reachable

/-- C3 at a request of 64 bytes on the fresh heap of 256 bytes. -/
theorem C3_memory_allocate_result_witness :
    HeapInv heap_fresh ∧ 8 ∣ 64 ∧ 64 ≤ 64 ∧ 64 < 64 + 8 ∧ 64 < SIZE_MOD ∧
      ((memory_allocate heap_fresh 64 true).1 = 0 ↔
        (64 = 0 ∨ ∀ b ∈ heap_fresh.free_list, ¬ (b.is_free = true ∧ 64 ≤ b.size))) :=
  ⟨heap_fresh_inv, by decide, by decide, by decide, by decide,
    (C3_memory_allocate_result heap_fresh 64 64 heap_fresh_inv (by decide) (by decide)
      (by decide) (by decide)).1⟩

/-! ### C4 -/

/-- Whenever `memory_allocate(n)` succeeds, the block it takes is free, has size at
least the aligned request `align8 n`, no free block of at least that size is smaller,
and every such block before it in the list is strictly larger, so that it is the first
block of the minimum size.  The aligned request is the rounding of `n` up to a multiple
of 8 whenever that does not overflow. -/
theorem best_fit_aligned (mm : MemoryManager) (n : Nat) (ok : Bool)
    (hs : (memory_allocate mm n ok).1 ≠ 0) :
    (∃ (i : Nat) (best b1 : MemoryBlock), mm.free_list[i]? = some best ∧
      (memory_allocate mm n ok).1 = best.start ∧
      (memory_allocate mm n ok).2.free_list[i]? = some b1 ∧
      b1.start = best.start ∧ b1.is_free = false ∧
      best.is_free = true ∧ align8 n ≤ best.size ∧
      (∀ c ∈ mm.free_list, c.is_free = true → align8 n ≤ c.size → best.size ≤ c.size) ∧
      (∀ (k : Nat) (c : MemoryBlock), k < i → mm.free_list[k]? = some c →
        c.is_free = true → align8 n ≤ c.size → best.size < c.size)) ∧
    (∀ r, 8 ∣ r → n ≤ r → r < n + 8 → r < SIZE_MOD → align8 n = r) := by
  refine ⟨?_, fun r h8 hle hlt hno => align8_eq n r h8 hle hlt hno⟩
  obtain ⟨X, best, Z, hl, hb, hret, -, -, hfl⟩ := memory_allocate_success mm n ok (Or.inl hs)
  obtain ⟨X1, Z1, hl1, hlen, hf, hX, hZ⟩ := best_fit_loop_some _ _ _ _ hb
  have hXX : X1 = X := ((List.append_inj (hl.symm.trans hl1) hlen).1).symm
  subst hXX
  have hZZ : Z1 = Z := by simpa using (hl.symm.trans hl1).symm
  subst hZZ
  have hget : mm.free_list[X1.length]? = some best := by
    rw [hl, List.getElem?_append_right (le_refl _)]; simp
  have hmin : ∀ c ∈ mm.free_list, c.is_free = true → align8 n ≤ c.size → best.size ≤ c.size := by
    intro c hc hcf hcs
    rw [hl] at hc
    rcases List.mem_append.mp hc with hcX | hcZ
    · exact le_of_lt (hX c hcX ⟨hcf, hcs⟩)
    · rcases List.mem_cons.mp hcZ with rfl | hcZ
      · exact le_refl _
      · exact hZ c hcZ ⟨hcf, hcs⟩
  have hfirst : ∀ (k : Nat) (c : MemoryBlock), k < X1.length → mm.free_list[k]? = some c →
      c.is_free = true → align8 n ≤ c.size → best.size < c.size := by
    intro k c hk hc hcf hcs
    rw [hl, List.getElem?_append_left hk] at hc
    exact hX c (List.getElem?_mem hc) ⟨hcf, hcs⟩
  rcases hfl with ⟨-, hfl⟩ | ⟨-, hfl⟩
  · refine ⟨X1.length, best, { start := best.start, size := align8 n, is_free := false },
      hget, hret, ?_, rfl, rfl, hf.1, hf.2, hmin, hfirst⟩
    rw [hfl, List.append_assoc, List.getElem?_append_right (le_refl _)]; simp
  · refine ⟨X1.length, best, { best with is_free := false },
      hget, hret, ?_, rfl, rfl, hf.1, hf.2, hmin, hfirst⟩
    rw [hfl, List.append_assoc, List.getElem?_append_right (le_refl _)]; simp

/-- The lemma `best_fit_aligned` at a request of 64 bytes on the fresh heap of 256
bytes. -/
theorem best_fit_aligned_example :
    (memory_allocate heap_fresh 64 true).1 ≠ 0 ∧
      ∃ (i : Nat) (best b1 : MemoryBlock), heap_fresh.free_list[i]? = some best ∧
        (memory_allocate heap_fresh 64 true).1 = best.start ∧
        (memory_allocate heap_fresh 64 true).2.free_list[i]? = some b1 ∧
        b1.start = best.start ∧ b1.is_free = false ∧
        best.is_free = true ∧ align8 64 ≤ best.size ∧
        (∀ c ∈ heap_fresh.free_list, c.is_free = true → align8 64 ≤ c.size →
          best.size ≤ c.size) ∧
        (∀ (k : Nat) (c : MemoryBlock), k < i → heap_fresh.free_list[k]? = some c →
          c.is_free = true → align8 64 ≤ c.size → best.size < c.size) :=
  ⟨by decide, (best_fit_aligned heap_fresh 64 true (by decide)).1⟩

/-- Whenever `memory_allocate(n)` succeeds and the rounding `r` of `n` up to a multiple
of 8 is less than 2^64, the block taken is a free block of minimum size among the free
blocks of size at least `r`, and the first of that size in list order. -/
theorem best_fit_roundup (mm : MemoryManager) (n r : Nat) (ok : Bool)
    (hs : (memory_allocate mm n ok).1 ≠ 0)
    (h8 : 8 ∣ r) (hle : n ≤ r) (hlt : r < n + 8) (hno : r < SIZE_MOD) :
    ∃ (i : Nat) (best b1 : MemoryBlock), mm.free_list[i]? = some best ∧
      (memory_allocate mm n ok).1 = best.start ∧
      (memory_allocate mm n ok).2.free_list[i]? = some b1 ∧
      b1.start = best.start ∧ b1.is_free = false ∧
      best.is_free = true ∧ r ≤ best.size ∧
      (∀ c ∈ mm.free_list, c.is_free = true → r ≤ c.size → best.size ≤ c.size) ∧
      (∀ (k : Nat) (c : MemoryBlock), k < i → mm.free_list[k]? = some c →
        c.is_free = true → r ≤ c.size → best.size < c.size) := by
  have e := align8_eq n r h8 hle hlt hno
  rw [← e]
  exact (best_fit_aligned mm n ok hs).1

/-- C4 fails on the code: on the fresh heap of 256 bytes `memory_allocate(mm, SIZE_MAX)`
succeeds and takes the free block of 256 bytes at 4096.  Every multiple of 8 that is at
least `SIZE_MAX` is at least 2^64, so the block taken is smaller than the rounded
request and no free block of the list is large enough for it: the search ran with the
wrapped size `align8 SIZE_MAX`, which is 0. -/
theorem C4_takes_block_below_request :
    memory_init 4096 256 = some heap_fresh ∧
    heap_fresh.free_list = [⟨4096, 256, true⟩] ∧
    (memory_allocate heap_fresh (2 ^ 64 - 1) true).1 = 4096 ∧
    (memory_allocate heap_fresh (2 ^ 64 - 1) true).2.free_list
      = [⟨4096, 0, false⟩, ⟨4096, 256, true⟩] ∧
    best_fit_loop (align8 (2 ^ 64 - 1)) heap_fresh.free_list 0 none
      = some (0, ⟨4096, 256, true⟩) ∧
    (∀ r, 8 ∣ r → 2 ^ 64 - 1 ≤ r →
      2 ^ 64 ≤ r ∧ ∀ b ∈ heap_fresh.free_list, ¬ (b.is_free = true ∧ r ≤ b.size)) := by
  refine ⟨by decide, rfl, by decide, by decide, by decide, ?_⟩
  intro r h8 hr
  have h64 : 2 ^ 64 ≤ r := by omega
  refine ⟨h64, ?_⟩
  intro b hb
  have hb1 : b = ⟨4096, 256, true⟩ := by simpa [heap_fresh] using hb
  rw [hb1]
  rintro ⟨-, h⟩
  have h2 : r ≤ 256 := h
  omega

/-! ### C5 -/

/-- In a successful `memory_allocate(n)` on a well-formed manager, with `r` the
aligned request `align8 n`: if the chosen block is larger than `r + sizeof(MemoryBlock)`, where
`sizeof(MemoryBlock)` is 32, it is replaced by an in-use block of size `r` at the same
start followed immediately by a new free block at `start + r` holding the remaining
size; otherwise it is marked in use with its size unchanged and no block is added.
The blocks before and after it are unchanged in both cases. -/
theorem split_aligned (mm : MemoryManager) (n : Nat) (ok : Bool) (h : HeapInv mm)
    (hs : (memory_allocate mm n ok).1 ≠ 0) :
    SIZEOF_MEMORYBLOCK = 32 ∧
    ∃ X best Z, mm.free_list = X ++ best :: Z ∧
      (memory_allocate mm n ok).1 = best.start ∧ best.is_free = true ∧
      (best.size > align8 n + SIZEOF_MEMORYBLOCK →
        (memory_allocate mm n ok).2.free_list = X ++
          [{ start := best.start, size := align8 n, is_free := false },
           { start := best.start + align8 n, size := best.size - align8 n,
             is_free := true }] ++ Z) ∧
      (¬ best.size > align8 n + SIZEOF_MEMORYBLOCK →
        (memory_allocate mm n ok).2.free_list = X ++ [{ best with is_free := false }] ++ Z) := by
  refine ⟨rfl, ?_⟩
  obtain ⟨X, best, Z, hl, hb, hret, -, -, hfl⟩ := memory_allocate_success mm n ok (Or.inl hs)
  obtain ⟨-, -, -, -, hf, -, -⟩ := best_fit_loop_some _ _ _ _ hb
  obtain ⟨hst, ht, hreg, hpos⟩ := HeapInv_block mm h X Z best hl
  have hle := hf.2
  have h32 : SIZEOF_MEMORYBLOCK = 32 := rfl
  have hmod : (align8 n + SIZEOF_MEMORYBLOCK) % SIZE_MOD = align8 n + SIZEOF_MEMORYBLOCK :=
    Nat.mod_eq_of_lt (by omega)
  have hp : ptr_add best.start (align8 n) = best.start + align8 n :=
    ptr_add_eq _ _ (by omega)
  rw [hmod, hp] at hfl
  refine ⟨X, best, Z, hl, hret, hf.1, ?_, ?_⟩
  · intro hgt
    rcases hfl with ⟨-, hfl⟩ | ⟨hn, -⟩
    · exact hfl
    · exact absurd hgt hn
  · intro hngt
    rcases hfl with ⟨hg, -⟩ | ⟨-, hfl⟩
    · exact absurd hg hngt
    · exact hfl

/-- The lemma `split_aligned` at a request of 64 bytes on the fresh heap of 256 bytes,
which splits. -/
theorem split_aligned_example :
    HeapInv heap_fresh ∧ (memory_allocate heap_fresh 64 true).1 ≠ 0 ∧
      ∃ X best Z, heap_fresh.free_list = X ++ best :: Z ∧
        (memory_allocate heap_fresh 64 true).1 = best.start ∧ best.is_free = true ∧
        (best.size > align8 64 + SIZEOF_MEMORYBLOCK →
          (memory_allocate heap_fresh 64 true).2.free_list = X ++
            [{ start := best.start, size := align8 64, is_free := false },
             { start := best.start + align8 64, size := best.size - align8 64,
               is_free := true }] ++ Z) ∧
        (¬ best.size > align8 64 + SIZEOF_MEMORYBLOCK →
          (memory_allocate heap_fresh 64 true).2.free_list
            = X ++ [{ best with is_free := false }] ++ Z) :=
  ⟨heap_fresh_inv, by decide, (split_aligned heap_fresh 64 true heap_fresh_inv (by decide)).2⟩

/-- In a successful `memory_allocate(n)` on a well-formed manager, when the rounding `r`
of `n` up to a multiple of 8 is less than 2^64: if the chosen block is larger than
`r + sizeof(MemoryBlock)` it is split into an in-use block of size `r` and a free block
with the remaining size; otherwise it is marked in use with its size unchanged and no
block is added. -/
theorem split_roundup (mm : MemoryManager) (n r : Nat) (ok : Bool) (h : HeapInv mm)
    (hs : (memory_allocate mm n ok).1 ≠ 0)
    (h8 : 8 ∣ r) (hle : n ≤ r) (hlt : r < n + 8) (hno : r < SIZE_MOD) :
    ∃ X best Z, mm.free_list = X ++ best :: Z ∧
      (memory_allocate mm n ok).1 = best.start ∧ best.is_free = true ∧
      (best.size > r + SIZEOF_MEMORYBLOCK →
        (memory_allocate mm n ok).2.free_list = X ++
          [{ start := best.start, size := r, is_free := false },
           { start := best.start + r, size := best.size - r, is_free := true }] ++ Z) ∧
      (¬ best.size > r + SIZEOF_MEMORYBLOCK →
        (memory_allocate mm n ok).2.free_list = X ++ [{ best with is_free := false }] ++ Z) := by
  have e := align8_eq n r h8 hle hlt hno
  rw [← e]
  exact (split_aligned mm n ok h hs).2

/-- C5 fails on the code: on the fresh heap of 256 bytes `memory_allocate(mm, SIZE_MAX)`
chooses the free block of 256 bytes at 4096.  With `r` the rounding of `SIZE_MAX` up to
a multiple of 8, at least 2^64, the size 256 is not greater than
`r + sizeof(MemoryBlock)`, so the block should be marked in use with its size unchanged
and no block added.  The code splits it instead, at the wrapped size 0: the list goes
from one block to two, an in-use block of size 0 followed by a free block of 256
bytes. -/
theorem C5_splits_at_wrapped_size :
    memory_init 4096 256 = some heap_fresh ∧
    heap_fresh.free_list = [⟨4096, 256, true⟩] ∧
    best_fit_loop (align8 (2 ^ 64 - 1)) heap_fresh.free_list 0 none
      = some (0, ⟨4096, 256, true⟩) ∧
    (memory_allocate heap_fresh (2 ^ 64 - 1) true).1 = 4096 ∧
    (∀ r, 8 ∣ r → 2 ^ 64 - 1 ≤ r → ¬ (256 > r + SIZEOF_MEMORYBLOCK)) ∧
    (memory_allocate heap_fresh (2 ^ 64 - 1) true).2.free_list
      = [⟨4096, 0, false⟩, ⟨4096, 256, true⟩] ∧
    (memory_allocate heap_fresh (2 ^ 64 - 1) true).2.free_list ≠ [⟨4096, 256, false⟩] ∧
    (memory_allocate heap_fresh (2 ^ 64 - 1) true).2.free_list.length
      = heap_fresh.free_list.length + 1 := by
  refine ⟨by decide, rfl, by decide, by decide, ?_, by decide, by decide, by decide⟩
  intro r h8 hr
  have h32 : SIZEOF_MEMORYBLOCK = 32 := rfl
  omega

/-! ### C6 and C7 -/

/-- C6 fails on the code: in a fresh heap of 256 bytes allocate A and B of 64 bytes
each, free A, then free B.  Freeing B merges it into A and returns at once, so the
free block of 128 bytes that ends at 4224 and the free block that starts at 4224 are
both left in the list. -/
theorem C6_adjacent_free_blocks_remain :
    memory_init 4096 256 = some heap_fresh ∧
    memory_allocate heap_fresh 64 true
      = (4096, heap_with [⟨4096, 64, false⟩, ⟨4160, 192, true⟩] 1 0) ∧
    memory_allocate (heap_with [⟨4096, 64, false⟩, ⟨4160, 192, true⟩] 1 0) 64 true
      = (4160, heap_with [⟨4096, 64, false⟩, ⟨4160, 64, false⟩, ⟨4224, 128, true⟩] 2 0) ∧
    memory_free (heap_with [⟨4096, 64, false⟩, ⟨4160, 64, false⟩, ⟨4224, 128, true⟩] 2 0) 4096
      = some (true,
          heap_with [⟨4096, 64, true⟩, ⟨4160, 64, false⟩, ⟨4224, 128, true⟩] 2 1) ∧
    memory_free (heap_with [⟨4096, 64, true⟩, ⟨4160, 64, false⟩, ⟨4224, 128, true⟩] 2 1) 4160
      = some (true, heap_with [⟨4096, 128, true⟩, ⟨4224, 128, true⟩] 2 2) :=
  ⟨by decide, by decide, by decide, by decide, by decide⟩

/-- C7 fails on the code: in a fresh heap of 256 bytes allocate A, B and C of 64 bytes
each and free B, A, C in that order.  The last free merges C into the block of A and B
and returns at once; the list is left with two free blocks, of 192 and of 64 bytes. -/
theorem C7_free_all_leaves_two_blocks :
    memory_init 4096 256 = some heap_fresh ∧
    memory_allocate heap_fresh 64 true
      = (4096, heap_with [⟨4096, 64, false⟩, ⟨4160, 192, true⟩] 1 0) ∧
    memory_allocate (heap_with [⟨4096, 64, false⟩, ⟨4160, 192, true⟩] 1 0) 64 true
      = (4160, heap_with [⟨4096, 64, false⟩, ⟨4160, 64, false⟩, ⟨4224, 128, true⟩] 2 0) ∧
    memory_allocate
        (heap_with [⟨4096, 64, false⟩, ⟨4160, 64, false⟩, ⟨4224, 128, true⟩] 2 0) 64 true
      = (4224, heap_with
          [⟨4096, 64, false⟩, ⟨4160, 64, false⟩, ⟨4224, 64, false⟩, ⟨4288, 64, true⟩] 3 0) ∧
    memory_free (heap_with
        [⟨4096, 64, false⟩, ⟨4160, 64, false⟩, ⟨4224, 64, false⟩, ⟨4288, 64, true⟩] 3 0) 4160
      = some (true, heap_with
          [⟨4096, 64, false⟩, ⟨4160, 64, true⟩, ⟨4224, 64, false⟩, ⟨4288, 64, true⟩] 3 1) ∧
    memory_free (heap_with
        [⟨4096, 64, false⟩, ⟨4160, 64, true⟩, ⟨4224, 64, false⟩, ⟨4288, 64, true⟩] 3 1) 4096
      = some (true, heap_with
          [⟨4096, 128, true⟩, ⟨4224, 64, false⟩, ⟨4288, 64, true⟩] 3 2) ∧
    memory_free (heap_with
        [⟨4096, 128, true⟩, ⟨4224, 64, false⟩, ⟨4288, 64, true⟩] 3 2) 4224
      = some (true, heap_with [⟨4096, 192, true⟩, ⟨4288, 64, true⟩] 3 3) :=
  ⟨by decide, by decide, by decide, by decide, by decide, by decide, by decide⟩

/-! ### The scheduler -/

theorem scheduler_add_process_fields (sched : Scheduler) (pcbs : PCBStore) (pcb : Nat) :
    (scheduler_add_process sched pcbs pcb).type = sched.type ∧
    (scheduler_add_process sched pcbs pcb).quantum = sched.quantum ∧
    (scheduler_add_process sched pcbs pcb).quantum_remaining = sched.quantum_remaining ∧
    (scheduler_add_process sched pcbs pcb).current_process = sched.current_process ∧
    (scheduler_add_process sched pcbs pcb).total_context_switches
      = sched.total_context_switches := by
  unfold scheduler_add_process
  split <;> exact ⟨rfl, rfl, rfl, rfl, rfl⟩

theorem scheduler_add_process_fifo (sched : Scheduler) (pcbs : PCBStore) (pcb : Nat)
    (h : sched.type ≠ SchedulerType.SCHED_PRIORITY) :
    (scheduler_add_process sched pcbs pcb).ready_queue = queue_enqueue sched.ready_queue pcb := by
  unfold scheduler_add_process
  rw [if_neg h]

theorem save_previous_spec (sched : Scheduler) (pcbs : PCBStore) (next : Nat) :
    (save_previous sched pcbs next).1.type = sched.type ∧
    (save_previous sched pcbs next).1.quantum = sched.quantum ∧
    (save_previous sched pcbs next).1.total_context_switches = sched.total_context_switches ∧
    (save_previous sched pcbs next).2 next = pcbs next ∧
    (∀ p, ((save_previous sched pcbs next).2 p).priority = (pcbs p).priority) ∧
    ((save_previous sched pcbs next).1.ready_queue = sched.ready_queue ∨
      (sched.type = SchedulerType.SCHED_RR ∧ ∃ cur, sched.current_process = some cur ∧
        cur ≠ next ∧ (pcbs cur).state = ProcessState.STATE_RUNNING ∧
        (pcbs cur).remaining_time > 0 ∧
        (save_previous sched pcbs next).1.ready_queue = queue_enqueue sched.ready_queue cur)) := by
  unfold save_previous
  cases hcur : sched.current_process with
  | none => exact ⟨rfl, rfl, rfl, rfl, fun _ => rfl, Or.inl rfl⟩
  | some cur =>
    simp only
    by_cases hc : cur ≠ next ∧ (pcbs cur).state = ProcessState.STATE_RUNNING
    · rw [if_pos hc]
      have hupd : Function.update pcbs cur
          { pcbs cur with context_switches := (pcbs cur).context_switches + 1 } next
          = pcbs next := Function.update_noteq (Ne.symm hc.1) _ _
      have hprio : ∀ p, (Function.update pcbs cur
          { pcbs cur with context_switches := (pcbs cur).context_switches + 1 } p).priority
          = (pcbs p).priority := by
        intro p
        by_cases hp : p = cur
        · subst hp; simp
        · rw [Function.update_noteq hp]
      by_cases hrr : sched.type = SchedulerType.SCHED_RR ∧ (pcbs cur).remaining_time > 0
      · rw [if_pos hrr]
        obtain ⟨h1, h2, -, -, h5⟩ := scheduler_add_process_fields sched pcbs cur
        refine ⟨h1, h2, h5, hupd, hprio, Or.inr ⟨hrr.1, cur, rfl, hc.1, hc.2, hrr.2, ?_⟩⟩
        exact scheduler_add_process_fifo sched pcbs cur (by rw [hrr.1]; decide)
      · rw [if_neg hrr]
        exact ⟨rfl, rfl, rfl, hupd, hprio, Or.inl rfl⟩
    · rw [if_neg hc]
      exact ⟨rfl, rfl, rfl, rfl, fun _ => rfl, Or.inl rfl⟩

/-- The result of `scheduler_get_next` when the slice is not continued and the queue
holds `head :: rest`. -/
theorem scheduler_get_next_dispatch (sched : Scheduler) (pcbs : PCBStore) (now : Int)
    (head : Nat) (rest : List Nat) (hq : sched.ready_queue.nodes = head :: rest)
    (hc : continues_slice sched pcbs = false) :
    scheduler_get_next sched pcbs now =
      (some head,
        { (save_previous { sched with
              ready_queue := { nodes := rest, size := sched.ready_queue.size - 1 } }
            pcbs head).1 with
          current_process := some head
          quantum_remaining := sched.quantum
          total_context_switches := sched.total_context_switches + 1 },
        pcb_set_state
          (if ((save_previous { sched with
                  ready_queue := { nodes := rest, size := sched.ready_queue.size - 1 } }
                pcbs head).2 head).start_time = -1 then
            Function.update (save_previous { sched with
                  ready_queue := { nodes := rest, size := sched.ready_queue.size - 1 } }
                pcbs head).2 head
              { (save_previous { sched with
                  ready_queue := { nodes := rest, size := sched.ready_queue.size - 1 } }
                pcbs head).2 head with start_time := now }
          else (save_previous { sched with
                  ready_queue := { nodes := rest, size := sched.ready_queue.size - 1 } }
                pcbs head).2)
          head ProcessState.STATE_RUNNING) := by
  have hd : queue_dequeue sched.ready_queue
      = (some head, { nodes := rest, size := sched.ready_queue.size - 1 }) := by
    unfold queue_dequeue
    rw [hq]
  obtain ⟨-, h2, h3, -, -, -⟩ := save_previous_spec { sched with
    ready_queue := { nodes := rest, size := sched.ready_queue.size - 1 } } pcbs head
  unfold scheduler_get_next
  rw [hc, hd]
  simp only [Bool.false_eq_true, if_false, h2, h3]

theorem continues_slice_iff (sched : Scheduler) (pcbs : PCBStore) :
    continues_slice sched pcbs = true ↔
      ∃ cur, sched.current_process = some cur ∧ sched.type = SchedulerType.SCHED_RR ∧
        sched.quantum_remaining > 0 ∧ (pcbs cur).remaining_time > 0 ∧
        (pcbs cur).state = ProcessState.STATE_RUNNING := by
  unfold continues_slice
  cases sched.current_process with
  | none => simp
  | some cur => simp [and_assoc]

/-! ### C8 -/

/-- C8: when `scheduler_get_next(now)` does not continue a Round Robin slice and the
ready queue is `head :: rest`, it returns `head`, makes it `current_process`, sets its
state to `RUNNING`, resets `quantum_remaining` to `quantum`, increments
`total_context_switches` by one, sets its `start_time` to `now` if it was -1 and leaves
it unchanged otherwise.  The head is removed from the queue: the queue becomes `rest`,
or, under Round Robin with a previous process still running and unfinished, `rest`
followed by that process. -/
theorem C8_get_next_dispatch (sched : Scheduler) (pcbs : PCBStore) (now : Int)
    (head : Nat) (rest : List Nat) (hq : sched.ready_queue.nodes = head :: rest)
    (hc : ¬ ∃ cur, sched.current_process = some cur ∧ sched.type = SchedulerType.SCHED_RR ∧
        sched.quantum_remaining > 0 ∧ (pcbs cur).remaining_time > 0 ∧
        (pcbs cur).state = ProcessState.STATE_RUNNING) :
    (scheduler_get_next sched pcbs now).1 = some head ∧
    (scheduler_get_next sched pcbs now).2.1.current_process = some head ∧
    ((scheduler_get_next sched pcbs now).2.2 head).state = ProcessState.STATE_RUNNING ∧
    (scheduler_get_next sched pcbs now).2.1.quantum_remaining = sched.quantum ∧
    (scheduler_get_next sched pcbs now).2.1.total_context_switches
      = sched.total_context_switches + 1 ∧
    ((pcbs head).start_time = -1 →
      ((scheduler_get_next sched pcbs now).2.2 head).start_time = now) ∧
    ((pcbs head).start_time ≠ -1 →
      ((scheduler_get_next sched pcbs now).2.2 head).start_time = (pcbs head).start_time) ∧
    (((scheduler_get_next sched pcbs now).2.1.ready_queue.nodes = rest ∧
        (scheduler_get_next sched pcbs now).2.1.ready_queue.size
          = sched.ready_queue.size - 1) ∨
      (sched.type = SchedulerType.SCHED_RR ∧ ∃ cur, sched.current_process = some cur ∧
        cur ≠ head ∧ (pcbs cur).state = ProcessState.STATE_RUNNING ∧
        (pcbs cur).remaining_time > 0 ∧
        (scheduler_get_next sched pcbs now).2.1.ready_queue.nodes = rest ++ [cur] ∧
        (scheduler_get_next sched pcbs now).2.1.ready_queue.size
          = sched.ready_queue.size - 1 + 1)) := by
  have hcs : continues_slice sched pcbs = false := by
    cases h : continues_slice sched pcbs with
    | false => rfl
    | true => exact absurd ((continues_slice_iff sched pcbs).mp h) hc
  rw [scheduler_get_next_dispatch sched pcbs now head rest hq hcs]
  obtain ⟨-, -, -, hnext, -, hqueue⟩ := save_previous_spec { sched with
    ready_queue := { nodes := rest, size := sched.ready_queue.size - 1 } } pcbs head
  refine ⟨rfl, rfl, ?_, rfl, rfl, ?_, ?_, ?_⟩
  · simp [pcb_set_state]
  · intro hst
    simp [pcb_set_state, hnext, hst]
  · intro hst
    simp [pcb_set_state, hnext, hst]
  · rcases hqueue with hqe | ⟨hrr, cur, hcur, hne, hrun, hrem, hqe⟩
    · left
      exact ⟨congrArg Queue.nodes hqe, congrArg Queue.size hqe⟩
    · right
      exact ⟨hrr, cur, hcur, hne, hrun, hrem, congrArg Queue.nodes hqe,
        congrArg Queue.size hqe⟩

/-- C8 at a FCFS scheduler with ready queue 1, 2 and no current process, at time 7. -/
theorem C8_get_next_dispatch_witness :
    (sched_example SchedulerType.SCHED_FCFS).ready_queue.nodes = 1 :: [2] ∧
    (scheduler_get_next (sched_example SchedulerType.SCHED_FCFS) pcbs_example 7).1 = some 1 ∧
    (scheduler_get_next (sched_example SchedulerType.SCHED_FCFS) pcbs_example 7).2.1.current_process
      = some 1 ∧
    ((scheduler_get_next (sched_example SchedulerType.SCHED_FCFS) pcbs_example 7).2.2 1).state
      = ProcessState.STATE_RUNNING :=
  ⟨rfl,
    (C8_get_next_dispatch (sched_example SchedulerType.SCHED_FCFS) pcbs_example 7 1 [2] rfl
      (by rintro ⟨cur, h, -⟩; exact Option.noConfusion h)).1,
    (C8_get_next_dispatch (sched_example SchedulerType.SCHED_FCFS) pcbs_example 7 1 [2] rfl
      (by rintro ⟨cur, h, -⟩; exact Option.noConfusion h)).2.1,
    (C8_get_next_dispatch (sched_example SchedulerType.SCHED_FCFS) pcbs_example 7 1 [2] rfl
      (by rintro ⟨cur, h, -⟩; exact Option.noConfusion h)).2.2.1⟩

/-! ### C9 -/

theorem insert_by_priority_spec (pcbs : PCBStore) (pcb : Nat) (l : List Nat) :
    ∃ A B, l = A ++ B ∧ insert_by_priority pcbs pcb l = A ++ pcb :: B ∧
      (∀ q ∈ A, (pcbs q).priority ≥ (pcbs pcb).priority) ∧
      (∀ q, B.head? = some q → (pcbs q).priority < (pcbs pcb).priority) := by
  induction l with
  | nil => exact ⟨[], [], rfl, rfl, by simp, by simp⟩
  | cons c rest ih =>
    unfold insert_by_priority
    by_cases hc : (pcbs c).priority ≥ (pcbs pcb).priority
    · rw [if_pos hc]
      obtain ⟨A, B, hl, hi, hA, hB⟩ := ih
      refine ⟨c :: A, B, by rw [hl]; rfl, by rw [hi]; rfl, ?_, hB⟩
      intro q hq
      rcases List.mem_cons.mp hq with rfl | hq
      · exact hc
      · exact hA q hq
    · rw [if_neg hc]
      refine ⟨[], c :: rest, rfl, rfl, by simp, ?_⟩
      intro q hq
      simp only [List.head?_cons, Option.some.injEq] at hq
      subst hq
      exact not_le.mp hc

/-- C9: `scheduler_add_process(pcb)` increases the length of the ready queue, and its
`size` counter, by one and keeps the PCBs already queued in their order; under FCFS and
Round Robin the new PCB is at the tail; under Priority it stands after PCBs of priority
at least its own and immediately before the first queued PCB of strictly smaller
priority, at the tail if there is none; in a queue sorted by priority every PCB behind
it has a strictly smaller priority, so it comes after every queued PCB of equal
priority. -/
theorem C9_add_process (sched : Scheduler) (pcbs : PCBStore) (pcb : Nat) :
    (scheduler_add_process sched pcbs pcb).ready_queue.nodes.length
      = sched.ready_queue.nodes.length + 1 ∧
    (scheduler_add_process sched pcbs pcb).ready_queue.size = sched.ready_queue.size + 1 ∧
    ∃ A B, sched.ready_queue.nodes = A ++ B ∧
      (scheduler_add_process sched pcbs pcb).ready_queue.nodes = A ++ pcb :: B ∧
      (sched.type ≠ SchedulerType.SCHED_PRIORITY → B = []) ∧
      (sched.type = SchedulerType.SCHED_PRIORITY →
        (∀ q ∈ A, (pcbs q).priority ≥ (pcbs pcb).priority) ∧
        (∀ q, B.head? = some q → (pcbs q).priority < (pcbs pcb).priority) ∧
        (PrioritySorted pcbs sched.ready_queue.nodes →
          ∀ q ∈ B, (pcbs q).priority < (pcbs pcb).priority)) := by
  by_cases ht : sched.type = SchedulerType.SCHED_PRIORITY
  · obtain ⟨A, B, hl, hi, hA, hB⟩ := insert_by_priority_spec pcbs pcb sched.ready_queue.nodes
    have hn : (scheduler_add_process sched pcbs pcb).ready_queue.nodes = A ++ pcb :: B := by
      unfold scheduler_add_process
      rw [if_pos ht]
      exact hi
    have hsz : (scheduler_add_process sched pcbs pcb).ready_queue.size
        = sched.ready_queue.size + 1 := by
      unfold scheduler_add_process
      rw [if_pos ht]
    refine ⟨by rw [hn, hl]; simp; omega, hsz, A, B, hl, hn, fun h => absurd ht h,
      fun _ => ⟨hA, hB, ?_⟩⟩
    intro hsorted q hq
    cases B with
    | nil => simp at hq
    | cons b B1 =>
      have hb := hB b rfl
      rcases List.mem_cons.mp hq with rfl | hq1
      · exact hb
      · rw [hl] at hsorted
        have hp := (List.pairwise_append.mp hsorted).2.1
        have := List.rel_of_pairwise_cons hp hq1
        exact lt_of_le_of_lt this hb
  · have hq := scheduler_add_process_fifo sched pcbs pcb ht
    refine ⟨?_, ?_, sched.ready_queue.nodes, [], by simp, ?_, fun _ => rfl, fun h => absurd h ht⟩
    · rw [hq]; simp [queue_enqueue]
    · rw [hq]; rfl
    · rw [hq]; rfl

/-! ### C10 -/

theorem PrioritySorted_congr (pcbs pcbs1 : PCBStore) (l : List Nat)
    (h : ∀ p ∈ l, (pcbs1 p).priority = (pcbs p).priority) (hs : PrioritySorted pcbs l) :
    PrioritySorted pcbs1 l := by
  unfold PrioritySorted at hs ⊢
  induction l with
  | nil => exact List.Pairwise.nil
  | cons a rest ih =>
    rw [List.pairwise_cons] at hs ⊢
    refine ⟨?_, ih (fun p hp => h p (List.mem_cons_of_mem _ hp)) hs.2⟩
    intro b hb
    rw [h a (List.mem_cons_self _ _), h b (List.mem_cons_of_mem _ hb)]
    exact hs.1 b hb

theorem insert_by_priority_sorted (pcbs : PCBStore) (pcb : Nat) (l : List Nat)
    (hs : PrioritySorted pcbs l) : PrioritySorted pcbs (insert_by_priority pcbs pcb l) := by
  unfold PrioritySorted at hs ⊢
  induction l with
  | nil => simp [insert_by_priority]
  | cons c rest ih =>
    rw [List.pairwise_cons] at hs
    unfold insert_by_priority
    by_cases hc : (pcbs c).priority ≥ (pcbs pcb).priority
    · rw [if_pos hc, List.pairwise_cons]
      refine ⟨?_, ih hs.2⟩
      intro b hb
      obtain ⟨A, B, hl, hi, -, -⟩ := insert_by_priority_spec pcbs pcb rest
      rw [hi] at hb
      rcases List.mem_append.mp hb with hbA | hbB
      · exact hs.1 b (by rw [hl]; exact List.mem_append_left _ hbA)
      · rcases List.mem_cons.mp hbB with rfl | hbB
        · exact hc
        · exact hs.1 b (by rw [hl]; exact List.mem_append_right _ hbB)
    · rw [if_neg hc, List.pairwise_cons]
      refine ⟨?_, List.pairwise_cons.mpr hs⟩
      intro b hb
      have hlt : (pcbs c).priority < (pcbs pcb).priority := not_le.mp hc
      rcases List.mem_cons.mp hb with rfl | hb
      · exact le_of_lt hlt
      · exact le_trans (hs.1 b hb) (le_of_lt hlt)

/-- What `scheduler_get_next` does to the policy, the priorities and, when the policy
is not Round Robin, the ready queue. -/
theorem scheduler_get_next_queue (sched : Scheduler) (pcbs : PCBStore) (now : Int) :
    (scheduler_get_next sched pcbs now).2.1.type = sched.type ∧
    (∀ p, ((scheduler_get_next sched pcbs now).2.2 p).priority = (pcbs p).priority) ∧
    (sched.type ≠ SchedulerType.SCHED_RR →
      (scheduler_get_next sched pcbs now).2.1.ready_queue.nodes = sched.ready_queue.nodes ∨
      ∃ head, sched.ready_queue.nodes
        = head :: (scheduler_get_next sched pcbs now).2.1.ready_queue.nodes) := by
  cases hc : continues_slice sched pcbs with
  | true =>
    have : scheduler_get_next sched pcbs now = (sched.current_process, sched, pcbs) := by
      unfold scheduler_get_next
      rw [hc, if_pos rfl]
    rw [this]
    exact ⟨rfl, fun _ => rfl, fun _ => Or.inl rfl⟩
  | false =>
    cases hq : sched.ready_queue.nodes with
    | nil =>
      have hd : queue_dequeue sched.ready_queue = (none, sched.ready_queue) := by
        unfold queue_dequeue
        rw [hq]
      have : scheduler_get_next sched pcbs now
          = (none, { sched with ready_queue := sched.ready_queue }, pcbs) := by
        unfold scheduler_get_next
        rw [hc, hd]
        simp
      rw [this]
      exact ⟨rfl, fun _ => rfl, fun _ => Or.inl hq⟩
    | cons head rest =>
      rw [scheduler_get_next_dispatch sched pcbs now head rest hq hc]
      obtain ⟨h1, -, -, -, hprio, hqueue⟩ := save_previous_spec { sched with
        ready_queue := { nodes := rest, size := sched.ready_queue.size - 1 } } pcbs head
      refine ⟨h1, ?_, ?_⟩
      · intro p
        have hp := hprio p
        have hh := hprio head
        simp only [pcb_set_state]
        by_cases hph : p = head
        · subst hph
          rw [Function.update_same]
          split
          · rw [Function.update_same]; exact hp
          · exact hp
        · rw [Function.update_noteq hph]
          split
          · rw [Function.update_noteq hph]; exact hp
          · exact hp
      · intro hrr
        right
        refine ⟨head, ?_⟩
        rcases hqueue with hqe | ⟨hrr1, -⟩
        · have := congrArg Queue.nodes hqe
          exact congrArg (List.cons head) this.symm
        · exact absurd hrr1 hrr

theorem scheduler_preempt_other (sched : Scheduler) (pcbs : PCBStore)
    (h : sched.type ≠ SchedulerType.SCHED_RR) : scheduler_preempt sched pcbs = (sched, pcbs) := by
  unfold scheduler_preempt
  cases sched.current_process with
  | none => rfl
  | some pcb => simp only [if_neg h]

theorem SchedReachable_priority (quantum : Int) (sched : Scheduler) (pcbs : PCBStore)
    (hr : SchedReachable SchedulerType.SCHED_PRIORITY quantum sched pcbs) :
    sched.type = SchedulerType.SCHED_PRIORITY ∧ PrioritySorted pcbs sched.ready_queue.nodes := by
  induction hr with
  | create pcbs => exact ⟨rfl, List.Pairwise.nil⟩
  | add sched pcbs pcb _ ih =>
    obtain ⟨ht, hs⟩ := ih
    refine ⟨(scheduler_add_process_fields sched pcbs pcb).1.trans ht, ?_⟩
    have : (scheduler_add_process sched pcbs pcb).ready_queue.nodes
        = insert_by_priority pcbs pcb sched.ready_queue.nodes := by
      unfold scheduler_add_process
      rw [if_pos ht]
    rw [this]
    exact insert_by_priority_sorted pcbs pcb _ hs
  | get_next sched pcbs now _ ih =>
    obtain ⟨ht, hs⟩ := ih
    obtain ⟨h1, h2, h3⟩ := scheduler_get_next_queue sched pcbs now
    refine ⟨h1.trans ht, ?_⟩
    apply PrioritySorted_congr pcbs _ _ (fun p _ => h2 p)
    rcases h3 (by rw [ht]; decide) with hq | ⟨head, hq⟩
    · rw [hq]; exact hs
    · unfold PrioritySorted at hs ⊢
      rw [hq] at hs
      exact (List.pairwise_cons.mp hs).2
  | preempt sched pcbs _ ih =>
    obtain ⟨ht, hs⟩ := ih
    rw [scheduler_preempt_other sched pcbs (by rw [ht]; decide)]
    exact ⟨ht, hs⟩
  | driver sched pcbs pcbs1 cur remaining _ hp ih =>
    obtain ⟨ht, hs⟩ := ih
    exact ⟨ht, PrioritySorted_congr pcbs pcbs1 _ hp hs⟩

/-- C10: under the Priority policy, after `scheduler_create` and any sequence of
`scheduler_add_process`, `scheduler_get_next` and `scheduler_preempt` calls, between
which the priority of no queued PCB is modified, the ready queue is sorted in
non-increasing priority; hence whenever it is not empty its head has the maximum
priority among the queued PCBs. -/
theorem C10_priority_queue_sorted (quantum : Int) (sched : Scheduler) (pcbs : PCBStore)
    (hr : SchedReachable SchedulerType.SCHED_PRIORITY quantum sched pcbs) :
    PrioritySorted pcbs sched.ready_queue.nodes ∧
    (∀ (i j : Nat) (a b : Nat), i < j → sched.ready_queue.nodes[i]? = some a →
      sched.ready_queue.nodes[j]? = some b → (pcbs a).priority ≥ (pcbs b).priority) ∧
    (∀ head rest, sched.ready_queue.nodes = head :: rest →
      ∀ q ∈ sched.ready_queue.nodes, (pcbs q).priority ≤ (pcbs head).priority) := by
  obtain ⟨-, hs⟩ := SchedReachable_priority quantum sched pcbs hr
  refine ⟨hs, ?_, ?_⟩
  · intro i j a b hij ha hb
    unfold PrioritySorted at hs
    rw [List.pairwise_iff_getElem] at hs
    obtain ⟨hi, ha1⟩ := List.getElem?_eq_some.mp ha
    obtain ⟨hj, hb1⟩ := List.getElem?_eq_some.mp hb
    have := hs i j hi hj hij
    rwa [ha1, hb1] at this
  · intro head rest hq q hmem
    unfold PrioritySorted at hs
    rw [hq] at hs hmem
    rcases List.mem_cons.mp hmem with rfl | hmem
    · exact le_refl _
    · exact (List.pairwise_cons.mp hs).1 q hmem

/-- C10 at the Priority scheduler after five additions, a `scheduler_get_next` and a
`scheduler_preempt`: the PCBs 1, 2 and 3, added in increasing priority, are queued as
3, 2, 1; the PCB 3 is dispatched; the PCBs 5 and 4, of priorities 1 and 5, go to the tail
and to the head. -/
theorem C10_priority_queue_sorted_witness :
    SchedReachable SchedulerType.SCHED_PRIORITY 5
        sched_priority_calls.1 sched_priority_calls.2 ∧
      (scheduler_add_process
        (scheduler_add_process
          (scheduler_add_process (scheduler_create SchedulerType.SCHED_PRIORITY 5)
            pcbs_example 1)
          pcbs_example 2)
        pcbs_example 3).ready_queue.nodes = [3, 2, 1] ∧
      sched_priority_calls.1.current_process = some 3 ∧
      sched_priority_calls.1.ready_queue.nodes = [4, 2, 1, 5] ∧
      (sched_priority_calls.2 4).priority = 5 ∧ (sched_priority_calls.2 2).priority = 3 ∧
      (sched_priority_calls.2 1).priority = 2 ∧ (sched_priority_calls.2 5).priority = 1 ∧
      PrioritySorted sched_priority_calls.2 sched_priority_calls.1.ready_queue.nodes ∧
      (∀ (i j : Nat) (a b : Nat), i < j →
        sched_priority_calls.1.ready_queue.nodes[i]? = some a →
        sched_priority_calls.1.ready_queue.nodes[j]? = some b →
        (sched_priority_calls.2 a).priority ≥ (sched_priority_calls.2 b).priority) ∧
      (∀ head rest, sched_priority_calls.1.ready_queue.nodes = head :: rest →
        ∀ q ∈ sched_priority_calls.1.ready_queue.nodes,
          (sched_priority_calls.2 q).priority ≤ (sched_priority_calls.2 head).priority) :=
  have hr : SchedReachable SchedulerType.SCHED_PRIORITY 5
      sched_priority_calls.1 sched_priority_calls.2 :=
    SchedReachable.preempt _ _
      (SchedReachable.add _ _ 4
        (SchedReachable.add _ _ 5
          (SchedReachable.get_next _ _ 0
            (SchedReachable.add _ _ 3
              (SchedReachable.add _ _ 2
                (SchedReachable.add _ _ 1 (SchedReachable.create pcbs_example)))))))
  ⟨hr, by decide, by decide, by decide, by decide, by decide, by decide, by decide,
    C10_priority_queue_sorted 5 sched_priority_calls.1 sched_priority_calls.2 hr⟩

/-! ### C11 -/

/-- C11: under Round Robin, with a current process whose `remaining_time` is positive
and `quantum_remaining <= 0`, `scheduler_preempt` sets the current process to `READY`,
appends it to the tail of the ready queue and clears `current_process`, changing
nothing else; in every other case it leaves the scheduler and every PCB unchanged. -/
theorem C11_preempt (sched : Scheduler) (pcbs : PCBStore) :
    (∀ cur, sched.type = SchedulerType.SCHED_RR → sched.current_process = some cur →
      sched.quantum_remaining ≤ 0 → (pcbs cur).remaining_time > 0 →
      (scheduler_preempt sched pcbs).2 cur
          = { pcbs cur with state := ProcessState.STATE_READY } ∧
        (∀ q, q ≠ cur → (scheduler_preempt sched pcbs).2 q = pcbs q) ∧
        (scheduler_preempt sched pcbs).1.ready_queue.nodes = sched.ready_queue.nodes ++ [cur] ∧
        (scheduler_preempt sched pcbs).1.ready_queue.size = sched.ready_queue.size + 1 ∧
        (scheduler_preempt sched pcbs).1.current_process = none ∧
        (scheduler_preempt sched pcbs).1.type = sched.type ∧
        (scheduler_preempt sched pcbs).1.quantum = sched.quantum ∧
        (scheduler_preempt sched pcbs).1.quantum_remaining = sched.quantum_remaining ∧
        (scheduler_preempt sched pcbs).1.total_context_switches
          = sched.total_context_switches) ∧
    ((sched.type ≠ SchedulerType.SCHED_RR ∨ sched.current_process = none ∨
        sched.quantum_remaining > 0 ∨
        (∃ cur, sched.current_process = some cur ∧ (pcbs cur).remaining_time ≤ 0)) →
      scheduler_preempt sched pcbs = (sched, pcbs)) := by
  constructor
  · intro cur hrr hcur hq hrem
    have he : scheduler_preempt sched pcbs
        = ({ scheduler_add_process sched
              (pcb_set_state pcbs cur ProcessState.STATE_READY) cur with
              current_process := none },
            pcb_set_state pcbs cur ProcessState.STATE_READY) := by
      unfold scheduler_preempt
      rw [hcur]
      simp only [hrr, if_true, hq, hrem, and_self]
    have hfifo := scheduler_add_process_fifo sched
      (pcb_set_state pcbs cur ProcessState.STATE_READY) cur (by rw [hrr]; decide)
    obtain ⟨h1, h2, h3, -, h5⟩ := scheduler_add_process_fields sched
      (pcb_set_state pcbs cur ProcessState.STATE_READY) cur
    rw [he]
    refine ⟨?_, ?_, ?_, ?_, rfl, h1, h2, h3, h5⟩
    · simp [pcb_set_state]
    · intro q hq1
      simp [pcb_set_state, Function.update_noteq hq1]
    · exact congrArg Queue.nodes hfifo
    · exact congrArg Queue.size hfifo
  · intro h
    unfold scheduler_preempt
    cases hcur : sched.current_process with
    | none => rfl
    | some cur =>
      simp only
      by_cases hrr : sched.type = SchedulerType.SCHED_RR
      · rw [if_pos hrr]
        have hn : ¬ (sched.quantum_remaining ≤ 0 ∧ (pcbs cur).remaining_time > 0) := by
          rintro ⟨hq, hrem⟩
          rcases h with h | h | h | ⟨c, hc, hle⟩
          · exact h hrr
          · rw [hcur] at h; exact Option.noConfusion h
          · omega
          · rw [hcur] at hc
            simp only [Option.some.injEq] at hc
            subst hc
            omega
        rw [if_neg hn]
      · rw [if_neg hrr]

/-! ### C13 to C16 -/

/-- C13: a mutex returned by `mutex_create` is locked exactly when it has an owner, and
`mutex_lock` and `mutex_unlock` keep this true, whatever the wait queue holds. -/
theorem C13_mutex_invariant (self : Nat) (id : Int) (mutex : Mutex) (pcbs : PCBStore)
    (pcb : Nat) (h : MutexInv mutex) :
    MutexInv (mutex_create id) ∧ MutexInv (mutex_lock self mutex pcbs pcb).2.1 ∧
      MutexInv (mutex_unlock self mutex pcbs).2.1 := by
  unfold MutexInv at h ⊢
  refine ⟨by simp [mutex_create], ?_, ?_⟩
  · unfold mutex_lock
    split
    · simp
    · exact h
  · unfold mutex_unlock
    split
    · exact h
    · cases hq : queue_dequeue mutex.wait_queue with
      | mk next queue =>
        cases next with
        | none => simp
        | some n => simp

/-- C13 at a fresh mutex and the PCB at address 1. -/
theorem C13_mutex_invariant_witness :
    MutexInv (mutex_create 0) ∧
      MutexInv (mutex_lock 0 (mutex_create 0) pcbs_example 1).2.1 :=
  ⟨(C13_mutex_invariant 0 0 (mutex_create 0) pcbs_example 1 (by simp [MutexInv, mutex_create])).1,
    (C13_mutex_invariant 0 0 (mutex_create 0) pcbs_example 1
      (by simp [MutexInv, mutex_create])).2.1⟩

/-- C14: on an unlocked mutex `mutex_lock(m, p)` sets `locked`, makes `p` the owner,
records `m` in `p.mutex_held`, returns true and changes nothing else, in particular
neither the state of `p` nor the wait queue; on a locked mutex it appends `p` to the
tail of the wait queue, sets the state of `p` to `BLOCKED`, returns false and changes
nothing else, in particular neither `locked`, `owner` nor `p.mutex_held`. -/
theorem C14_mutex_lock (self : Nat) (mutex : Mutex) (pcbs : PCBStore) (p : Nat) :
    (mutex.locked = false →
      (mutex_lock self mutex pcbs p).1 = true ∧
      (mutex_lock self mutex pcbs p).2.1 = { mutex with locked := true, owner := some p } ∧
      (mutex_lock self mutex pcbs p).2.2 p = { pcbs p with mutex_held := some self } ∧
      ((mutex_lock self mutex pcbs p).2.2 p).state = (pcbs p).state ∧
      (mutex_lock self mutex pcbs p).2.1.wait_queue = mutex.wait_queue ∧
      (∀ q, q ≠ p → (mutex_lock self mutex pcbs p).2.2 q = pcbs q)) ∧
    (mutex.locked = true →
      (mutex_lock self mutex pcbs p).1 = false ∧
      (mutex_lock self mutex pcbs p).2.1.wait_queue.nodes = mutex.wait_queue.nodes ++ [p] ∧
      (mutex_lock self mutex pcbs p).2.1.wait_queue.size = mutex.wait_queue.size + 1 ∧
      (mutex_lock self mutex pcbs p).2.2 p
        = { pcbs p with state := ProcessState.STATE_BLOCKED } ∧
      (mutex_lock self mutex pcbs p).2.1.locked = true ∧
      (mutex_lock self mutex pcbs p).2.1.owner = mutex.owner ∧
      (mutex_lock self mutex pcbs p).2.1.id = mutex.id ∧
      ((mutex_lock self mutex pcbs p).2.2 p).mutex_held = (pcbs p).mutex_held ∧
      (∀ q, q ≠ p → (mutex_lock self mutex pcbs p).2.2 q = pcbs q)) := by
  constructor
  · intro hl
    have he : mutex_lock self mutex pcbs p
        = (true, { mutex with locked := true, owner := some p },
            Function.update pcbs p { pcbs p with mutex_held := some self }) := by
      unfold mutex_lock
      rw [if_pos hl]
    rw [he]
    refine ⟨rfl, rfl, by simp, by simp, rfl, ?_⟩
    intro q hq
    simp [Function.update_noteq hq]
  · intro hl
    have he : mutex_lock self mutex pcbs p
        = (false, { mutex with wait_queue := queue_enqueue mutex.wait_queue p },
            pcb_set_state pcbs p ProcessState.STATE_BLOCKED) := by
      unfold mutex_lock
      rw [if_neg (by rw [hl]; decide)]
    rw [he]
    refine ⟨rfl, rfl, rfl, by simp [pcb_set_state], hl, rfl, rfl, by simp [pcb_set_state], ?_⟩
    intro q hq
    simp [pcb_set_state, Function.update_noteq hq]

theorem clear_owner_other (mutex : Mutex) (pcbs : PCBStore) (q : Nat)
    (h : mutex.owner ≠ some q) : clear_owner mutex pcbs q = pcbs q := by
  unfold clear_owner
  cases ho : mutex.owner with
  | none => rfl
  | some o =>
    have hne : q ≠ o := fun hq => h (by rw [ho, hq])
    simp [Function.update_noteq hne]

theorem clear_owner_owner (mutex : Mutex) (pcbs : PCBStore) (o : Nat)
    (h : mutex.owner = some o) : clear_owner mutex pcbs o = { pcbs o with mutex_held := none } := by
  unfold clear_owner
  rw [h]
  simp

theorem clear_owner_state (mutex : Mutex) (pcbs : PCBStore) (q : Nat) :
    (clear_owner mutex pcbs q).state = (pcbs q).state := by
  unfold clear_owner
  cases mutex.owner with
  | none => rfl
  | some o =>
    by_cases hq : q = o
    · subst hq; simp
    · simp [Function.update_noteq hq]

/-- C15: on an unlocked mutex `mutex_unlock` returns false and changes nothing.  On a
locked mutex it returns true and clears `mutex_held` of the previous owner; then, when
the wait queue is `w :: rest`, it removes `w`, makes it the owner with the mutex still
locked, sets `w.mutex_held` to the mutex and the state of `w` to `READY`; when the wait
queue is empty it leaves the mutex unlocked with no owner.  No other PCB is changed. -/
theorem C15_mutex_unlock (self : Nat) (mutex : Mutex) (pcbs : PCBStore) :
    (mutex.locked = false → mutex_unlock self mutex pcbs = (false, mutex, pcbs)) ∧
    (mutex.locked = true →
      (mutex_unlock self mutex pcbs).1 = true ∧
      (mutex_unlock self mutex pcbs).2.1.id = mutex.id ∧
      (∀ w rest, mutex.wait_queue.nodes = w :: rest →
        (mutex_unlock self mutex pcbs).2.1.wait_queue.nodes = rest ∧
        (mutex_unlock self mutex pcbs).2.1.wait_queue.size = mutex.wait_queue.size - 1 ∧
        (mutex_unlock self mutex pcbs).2.1.owner = some w ∧
        (mutex_unlock self mutex pcbs).2.1.locked = true ∧
        ((mutex_unlock self mutex pcbs).2.2 w).mutex_held = some self ∧
        ((mutex_unlock self mutex pcbs).2.2 w).state = ProcessState.STATE_READY ∧
        (∀ o, mutex.owner = some o → o ≠ w →
          (mutex_unlock self mutex pcbs).2.2 o = { pcbs o with mutex_held := none }) ∧
        (∀ q, q ≠ w → mutex.owner ≠ some q → (mutex_unlock self mutex pcbs).2.2 q = pcbs q)) ∧
      (mutex.wait_queue.nodes = [] →
        (mutex_unlock self mutex pcbs).2.1.locked = false ∧
        (mutex_unlock self mutex pcbs).2.1.owner = none ∧
        (mutex_unlock self mutex pcbs).2.1.wait_queue = mutex.wait_queue ∧
        (∀ o, mutex.owner = some o →
          (mutex_unlock self mutex pcbs).2.2 o = { pcbs o with mutex_held := none }) ∧
        (∀ q, mutex.owner ≠ some q → (mutex_unlock self mutex pcbs).2.2 q = pcbs q))) := by
  constructor
  · intro hl
    unfold mutex_unlock
    rw [if_pos hl]
  · intro hl
    have hnl : ¬ mutex.locked = false := by rw [hl]; decide
    cases hq : mutex.wait_queue.nodes with
    | nil =>
      have hd : queue_dequeue mutex.wait_queue = (none, mutex.wait_queue) := by
        unfold queue_dequeue
        rw [hq]
      have he : mutex_unlock self mutex pcbs
          = (true, { mutex with locked := false, owner := none, wait_queue := mutex.wait_queue },
              clear_owner mutex pcbs) := by
        unfold mutex_unlock
        rw [if_neg hnl, hd]
      rw [he]
      refine ⟨rfl, rfl, fun w rest h => List.noConfusion h, fun _ => ⟨rfl, rfl, rfl, ?_, ?_⟩⟩
      · intro o ho
        exact clear_owner_owner mutex pcbs o ho
      · intro q hq1
        exact clear_owner_other mutex pcbs q hq1
    | cons w rest =>
      have hd : queue_dequeue mutex.wait_queue
          = (some w, { nodes := rest, size := mutex.wait_queue.size - 1 }) := by
        unfold queue_dequeue
        rw [hq]
      have he : mutex_unlock self mutex pcbs
          = (true, { mutex with locked := true, owner := some w,
                                wait_queue := { nodes := rest, size := mutex.wait_queue.size - 1 } },
              pcb_set_state
                (Function.update (clear_owner mutex pcbs) w
                  { clear_owner mutex pcbs w with mutex_held := some self })
                w ProcessState.STATE_READY) := by
        unfold mutex_unlock
        rw [if_neg hnl, hd]
      rw [he]
      refine ⟨rfl, rfl, ?_, fun h => List.noConfusion h⟩
      intro w1 rest1 h1
      simp only [List.cons.injEq] at h1
      obtain ⟨rfl, rfl⟩ := h1
      refine ⟨rfl, rfl, rfl, rfl, by simp [pcb_set_state], by simp [pcb_set_state], ?_, ?_⟩
      · intro o ho hne
        simp only [pcb_set_state, Function.update_noteq hne]
        exact clear_owner_owner mutex pcbs o ho
      · intro q hne ho
        simp only [pcb_set_state, Function.update_noteq hne]
        exact clear_owner_other mutex pcbs q ho

/-- C16: on an unlocked mutex with an empty wait queue, `mutex_lock(m, p)` followed by
`mutex_unlock(m)` leaves the mutex unlocked, without owner and with its wait queue as
it was, so exactly as it was when it had no owner before; the PCB `p` ends with
`mutex_held` none and every other field, its state among them, as before, so exactly as
it was when it held no mutex before; no other PCB is changed. -/
theorem C16_lock_unlock (self : Nat) (mutex : Mutex) (pcbs : PCBStore) (p : Nat)
    (hl : mutex.locked = false) (hq : mutex.wait_queue.nodes = []) :
    (mutex_lock self mutex pcbs p).1 = true ∧
    (mutex_unlock self (mutex_lock self mutex pcbs p).2.1 (mutex_lock self mutex pcbs p).2.2).1
      = true ∧
    (mutex_unlock self (mutex_lock self mutex pcbs p).2.1
        (mutex_lock self mutex pcbs p).2.2).2.1 = { mutex with owner := none } ∧
    (mutex.owner = none →
      (mutex_unlock self (mutex_lock self mutex pcbs p).2.1
        (mutex_lock self mutex pcbs p).2.2).2.1 = mutex) ∧
    (mutex_unlock self (mutex_lock self mutex pcbs p).2.1
        (mutex_lock self mutex pcbs p).2.2).2.2 p = { pcbs p with mutex_held := none } ∧
    ((mutex_unlock self (mutex_lock self mutex pcbs p).2.1
        (mutex_lock self mutex pcbs p).2.2).2.2 p).state = (pcbs p).state ∧
    (∀ q, q ≠ p → (mutex_unlock self (mutex_lock self mutex pcbs p).2.1
        (mutex_lock self mutex pcbs p).2.2).2.2 q = pcbs q) ∧
    ((pcbs p).mutex_held = none →
      (mutex_unlock self (mutex_lock self mutex pcbs p).2.1
        (mutex_lock self mutex pcbs p).2.2).2.2 = pcbs) := by
  have he : mutex_lock self mutex pcbs p
      = (true, { mutex with locked := true, owner := some p },
          Function.update pcbs p { pcbs p with mutex_held := some self }) := by
    unfold mutex_lock
    rw [if_pos hl]
  have hd : queue_dequeue mutex.wait_queue = (none, mutex.wait_queue) := by
    unfold queue_dequeue
    rw [hq]
  have hu : mutex_unlock self { mutex with locked := true, owner := some p }
      (Function.update pcbs p { pcbs p with mutex_held := some self })
      = (true, { mutex with owner := none },
          Function.update pcbs p { pcbs p with mutex_held := none }) := by
    unfold mutex_unlock
    simp only [hd, clear_owner, Bool.true_eq_false, if_false]
    refine Prod.ext rfl (Prod.ext ?_ ?_)
    · cases mutex
      simp only at hl
      simp [hl]
    · simp
  have hall : mutex_unlock self (mutex_lock self mutex pcbs p).2.1
      (mutex_lock self mutex pcbs p).2.2
      = (true, { mutex with owner := none },
          Function.update pcbs p { pcbs p with mutex_held := none }) := by
    rw [he]
    exact hu
  rw [hall, he]
  refine ⟨rfl, rfl, rfl, ?_, by simp, by simp, ?_, ?_⟩
  · intro ho
    cases mutex
    simp only at ho
    simp [ho]
  · intro q hne
    simp [Function.update_noteq hne]
  · intro hm
    funext q
    by_cases hqp : q = p
    · subst hqp
      simp only [Function.update_same]
      cases hp : pcbs q
      rw [hp] at hm
      simp only at hm
      simp [hm]
    · simp [Function.update_noteq hqp]

/-- C16 at a fresh mutex and the PCB at address 1. -/
theorem C16_lock_unlock_witness :
    (mutex_create 0).locked = false ∧ (mutex_create 0).wait_queue.nodes = [] ∧
      (mutex_unlock 0 (mutex_lock 0 (mutex_create 0) pcbs_example 1).2.1
        (mutex_lock 0 (mutex_create 0) pcbs_example 1).2.2).2.1
        = { mutex_create 0 with owner := none } :=
  ⟨rfl, rfl, (C16_lock_unlock 0 (mutex_create 0) pcbs_example 1 rfl rfl).2.2.1⟩

/-! ### C17 to C20 -/

/-- The paths through `semaphore_wait`. -/
theorem semaphore_wait_cases (sem : Semaphore) (pcbs : PCBStore) (p : Nat) :
    (sem.count > 0 ∧ semaphore_wait sem pcbs p
        = (true, { sem with count := sem.count - 1 },
            Function.update pcbs p { pcbs p with semaphore_id := sem.id })) ∨
    (sem.count ≤ 0 ∧ semaphore_wait sem pcbs p
        = (false, { sem with wait_queue := queue_enqueue sem.wait_queue p },
            Function.update pcbs p
              { pcbs p with state := ProcessState.STATE_BLOCKED, semaphore_id := sem.id })) := by
  unfold semaphore_wait
  by_cases hc : sem.count > 0
  · left
    exact ⟨hc, by rw [if_pos hc]⟩
  · right
    refine ⟨not_lt.mp hc, ?_⟩
    rw [if_neg hc]
    simp [pcb_set_state]

/-- The paths through `semaphore_signal` on a semaphore whose queue counter is right. -/
theorem semaphore_signal_cases (sem : Semaphore) (pcbs : PCBStore)
    (hq : QueueWF sem.wait_queue) :
    (∃ w rest, sem.wait_queue.nodes = w :: rest ∧ semaphore_signal sem pcbs
        = (true, { sem with wait_queue := { nodes := rest, size := sem.wait_queue.size - 1 } },
            Function.update pcbs w
              { pcbs w with state := ProcessState.STATE_READY, semaphore_id := -1 })) ∨
    (sem.wait_queue.nodes = [] ∧ sem.count < sem.max_count ∧
      semaphore_signal sem pcbs = (true, { sem with count := sem.count + 1 }, pcbs)) ∨
    (sem.wait_queue.nodes = [] ∧ ¬ sem.count < sem.max_count ∧
      semaphore_signal sem pcbs = (true, sem, pcbs)) := by
  unfold QueueWF at hq
  cases hn : sem.wait_queue.nodes with
  | nil =>
    right
    have he : queue_is_empty sem.wait_queue = true := by
      unfold queue_is_empty
      rw [hq, hn]
      rfl
    by_cases hc : sem.count < sem.max_count
    · left
      refine ⟨rfl, hc, ?_⟩
      unfold semaphore_signal
      rw [he]
      simp [hc]
    · right
      refine ⟨rfl, hc, ?_⟩
      unfold semaphore_signal
      rw [he]
      simp [hc]
  | cons w rest =>
    left
    refine ⟨w, rest, rfl, ?_⟩
    have he : queue_is_empty sem.wait_queue = false := by
      unfold queue_is_empty
      rw [hq, hn]
      simp only [List.length_cons, decide_eq_false_iff_not]
      omega
    have hd : queue_dequeue sem.wait_queue
        = (some w, { nodes := rest, size := sem.wait_queue.size - 1 }) := by
      unfold queue_dequeue
      rw [hn]
    unfold semaphore_signal
    rw [he, hd]
    simp [pcb_set_state]

theorem SemInv_wait (sem : Semaphore) (pcbs : PCBStore) (p : Nat) (h : SemInv sem) :
    SemInv (semaphore_wait sem pcbs p).2.1 := by
  obtain ⟨h0, h1, h2, h3⟩ := h
  unfold QueueWF at h3
  rcases semaphore_wait_cases sem pcbs p with ⟨hc, he⟩ | ⟨hc, he⟩
  · rw [he]
    refine ⟨?_, ?_, ?_, h3⟩
    · show 0 ≤ sem.count - 1
      omega
    · show sem.count - 1 ≤ sem.max_count
      omega
    · intro hne
      have := h2 hne
      omega
  · rw [he]
    refine ⟨h0, h1, fun _ => ?_, ?_⟩
    · show sem.count = 0
      omega
    · show sem.wait_queue.size + 1 = ((sem.wait_queue.nodes ++ [p]).length : Int)
      rw [h3]
      simp

theorem SemInv_signal (sem : Semaphore) (pcbs : PCBStore) (h : SemInv sem) :
    SemInv (semaphore_signal sem pcbs).2.1 := by
  obtain ⟨h0, h1, h2, h3⟩ := h
  rcases semaphore_signal_cases sem pcbs h3 with ⟨w, rest, hn, he⟩ | ⟨hn, hc, he⟩ | ⟨hn, hc, he⟩
  · rw [he]
    have hz : sem.count = 0 := h2 (by rw [hn]; simp)
    refine ⟨h0, h1, fun _ => hz, ?_⟩
    unfold QueueWF at h3 ⊢
    show sem.wait_queue.size - 1 = (rest.length : Int)
    rw [h3, hn]
    simp
  · rw [he]
    refine ⟨?_, ?_, ?_, h3⟩
    · show 0 ≤ sem.count + 1
      omega
    · show sem.count + 1 ≤ sem.max_count
      omega
    · intro hne
      exact absurd hn hne
  · rw [he]
    exact ⟨h0, h1, h2, h3⟩

theorem SemInv_reachable (id initial_count : Int) (h0 : 0 ≤ initial_count) (sem : Semaphore)
    (hr : SemReachable id initial_count sem) : SemInv sem := by
  induction hr with
  | create =>
    exact ⟨h0, le_refl _, fun h => absurd rfl h, rfl⟩
  | wait sem pcbs p _ ih => exact SemInv_wait sem pcbs p ih
  | signal sem pcbs _ ih => exact SemInv_signal sem pcbs ih

/-- C17: for a semaphore created with `initial_count >= 0`, after any sequence of
`semaphore_wait` and `semaphore_signal` calls the count lies between 0 and `max_count`
and the wait queue is non-empty, by its nodes as by the test `queue_is_empty`, only
when the count is 0. -/
theorem C17_semaphore_invariant (id initial_count : Int) (h0 : 0 ≤ initial_count)
    (sem : Semaphore) (hr : SemReachable id initial_count sem) :
    0 ≤ sem.count ∧ sem.count ≤ sem.max_count ∧ sem.max_count = initial_count ∧
      (sem.wait_queue.nodes ≠ [] → sem.count = 0) ∧
      (queue_is_empty sem.wait_queue = false → sem.count = 0) := by
  obtain ⟨h1, h2, h3, h4⟩ := SemInv_reachable id initial_count h0 sem hr
  refine ⟨h1, h2, ?_, h3, ?_⟩
  · clear h1 h2 h3 h4
    induction hr with
    | create => rfl
    | wait sem pcbs p _ ih =>
      rcases semaphore_wait_cases sem pcbs p with ⟨-, he⟩ | ⟨-, he⟩ <;> rw [he] <;> exact ih
    | signal sem pcbs hr1 ih =>
      have hwf := (SemInv_reachable id initial_count h0 sem hr1).queue_wf
      rcases semaphore_signal_cases sem pcbs hwf with
        ⟨w, rest, -, he⟩ | ⟨-, -, he⟩ | ⟨-, -, he⟩ <;> rw [he] <;> exact ih
  · intro he
    apply h3
    intro hn
    unfold QueueWF at h4
    unfold queue_is_empty at he
    rw [h4, hn] at he
    simp at he

/-- C17 at the semaphore created with count 2 after one wait by the PCB at address 1. -/
theorem C17_semaphore_invariant_witness :
    (0 : Int) ≤ 2 ∧
      SemReachable 0 2 (semaphore_wait (semaphore_create 0 2) pcbs_example 1).2.1 ∧
      0 ≤ (semaphore_wait (semaphore_create 0 2) pcbs_example 1).2.1.count :=
  ⟨by decide, SemReachable.wait _ pcbs_example 1 SemReachable.create,
    (C17_semaphore_invariant 0 2 (by decide) _
      (SemReachable.wait _ pcbs_example 1 SemReachable.create)).1⟩

/-- C18: when `count > 0`, `semaphore_wait(s, p)` decrements the count by one, returns
true and leaves the state of `p` and the wait queue unchanged; otherwise it appends `p`
to the tail of the wait queue, sets the state of `p` to `BLOCKED`, returns false and
leaves the count unchanged.  In both cases it records the id of the semaphore in
`p.semaphore_id` and changes no other PCB. -/
theorem C18_semaphore_wait (sem : Semaphore) (pcbs : PCBStore) (p : Nat) :
    (sem.count > 0 →
      (semaphore_wait sem pcbs p).1 = true ∧
      (semaphore_wait sem pcbs p).2.1 = { sem with count := sem.count - 1 } ∧
      (semaphore_wait sem pcbs p).2.1.wait_queue = sem.wait_queue ∧
      ((semaphore_wait sem pcbs p).2.2 p).state = (pcbs p).state ∧
      (semaphore_wait sem pcbs p).2.2 p = { pcbs p with semaphore_id := sem.id } ∧
      (∀ q, q ≠ p → (semaphore_wait sem pcbs p).2.2 q = pcbs q)) ∧
    (¬ sem.count > 0 →
      (semaphore_wait sem pcbs p).1 = false ∧
      (semaphore_wait sem pcbs p).2.1.wait_queue.nodes = sem.wait_queue.nodes ++ [p] ∧
      (semaphore_wait sem pcbs p).2.1.wait_queue.size = sem.wait_queue.size + 1 ∧
      ((semaphore_wait sem pcbs p).2.2 p).state = ProcessState.STATE_BLOCKED ∧
      (semaphore_wait sem pcbs p).2.1.count = sem.count ∧
      (semaphore_wait sem pcbs p).2.1.max_count = sem.max_count ∧
      (semaphore_wait sem pcbs p).2.2 p
        = { pcbs p with state := ProcessState.STATE_BLOCKED, semaphore_id := sem.id } ∧
      (∀ q, q ≠ p → (semaphore_wait sem pcbs p).2.2 q = pcbs q)) := by
  constructor
  · intro hc
    rcases semaphore_wait_cases sem pcbs p with ⟨-, he⟩ | ⟨hn, -⟩
    · rw [he]
      refine ⟨rfl, rfl, rfl, by simp, by simp, ?_⟩
      intro q hq
      simp [Function.update_noteq hq]
    · omega
  · intro hc
    rcases semaphore_wait_cases sem pcbs p with ⟨hp, -⟩ | ⟨-, he⟩
    · exact absurd hp hc
    · rw [he]
      refine ⟨rfl, rfl, rfl, by simp, rfl, rfl, by simp, ?_⟩
      intro q hq
      simp [Function.update_noteq hq]

/-- C19: on a semaphore whose count is at most `max_count` and whose queue counter is
right, `semaphore_signal` returns true; when the wait queue is `w :: rest` it removes
`w`, sets it to `READY` with `semaphore_id = -1`, and leaves the count and every other
PCB unchanged; when the wait queue is empty it sets the count to
`min (count + 1) max_count` and changes no PCB. -/
theorem C19_semaphore_signal (sem : Semaphore) (pcbs : PCBStore)
    (hq : QueueWF sem.wait_queue) (hc : sem.count ≤ sem.max_count) :
    (semaphore_signal sem pcbs).1 = true ∧
    (∀ w rest, sem.wait_queue.nodes = w :: rest →
      (semaphore_signal sem pcbs).2.1.wait_queue.nodes = rest ∧
      (semaphore_signal sem pcbs).2.1.wait_queue.size = sem.wait_queue.size - 1 ∧
      (semaphore_signal sem pcbs).2.2 w
        = { pcbs w with state := ProcessState.STATE_READY, semaphore_id := -1 } ∧
      (semaphore_signal sem pcbs).2.1.count = sem.count ∧
      (semaphore_signal sem pcbs).2.1.max_count = sem.max_count ∧
      (∀ q, q ≠ w → (semaphore_signal sem pcbs).2.2 q = pcbs q)) ∧
    (sem.wait_queue.nodes = [] →
      (semaphore_signal sem pcbs).2.1.count = min (sem.count + 1) sem.max_count ∧
      (semaphore_signal sem pcbs).2.1.max_count = sem.max_count ∧
      (semaphore_signal sem pcbs).2.1.wait_queue = sem.wait_queue ∧
      (semaphore_signal sem pcbs).2.2 = pcbs) := by
  rcases semaphore_signal_cases sem pcbs hq with ⟨w, rest, hn, he⟩ | ⟨hn, hlt, he⟩ | ⟨hn, hlt, he⟩
  · rw [he]
    refine ⟨rfl, ?_, fun h => by rw [hn] at h; exact List.noConfusion h⟩
    intro w1 rest1 h1
    rw [hn] at h1
    simp only [List.cons.injEq] at h1
    obtain ⟨rfl, rfl⟩ := h1
    refine ⟨rfl, rfl, by simp, rfl, rfl, ?_⟩
    intro q hne
    simp [Function.update_noteq hne]
  · rw [he]
    refine ⟨rfl, fun w rest h => by rw [hn] at h; exact List.noConfusion h, fun _ => ?_⟩
    refine ⟨?_, rfl, rfl, rfl⟩
    show sem.count + 1 = min (sem.count + 1) sem.max_count
    rw [min_eq_left (by omega)]
  · rw [he]
    refine ⟨rfl, fun w rest h => by rw [hn] at h; exact List.noConfusion h, fun _ => ?_⟩
    refine ⟨?_, rfl, rfl, rfl⟩
    show sem.count = min (sem.count + 1) sem.max_count
    rw [min_eq_right (by omega)]
    omega

/-- C19 at the semaphore of count 0 with the PCBs 2 and 3 waiting, both `BLOCKED`:
`semaphore_signal` returns true, removes the PCB 2 from the head of the queue, sets it
to `READY` with `semaphore_id = -1` and leaves the count at 0 and the PCB 3 as it is;
and at the semaphore of count 0 and maximum 1 with nobody waiting, where the count
becomes 1. -/
theorem C19_semaphore_signal_witness :
    QueueWF sem_two_waiters.2.1.wait_queue ∧
      sem_two_waiters.2.1.count ≤ sem_two_waiters.2.1.max_count ∧
      sem_two_waiters.2.1.wait_queue.nodes = [2, 3] ∧
      sem_two_waiters.2.1.count = 0 ∧
      (sem_two_waiters.2.2 2).state = ProcessState.STATE_BLOCKED ∧
      (sem_two_waiters.2.2 2).semaphore_id = 0 ∧
      (semaphore_signal sem_two_waiters.2.1 sem_two_waiters.2.2).1 = true ∧
      ((semaphore_signal sem_two_waiters.2.1 sem_two_waiters.2.2).2.1.wait_queue.nodes = [3] ∧
        (semaphore_signal sem_two_waiters.2.1 sem_two_waiters.2.2).2.1.wait_queue.size
          = sem_two_waiters.2.1.wait_queue.size - 1 ∧
        (semaphore_signal sem_two_waiters.2.1 sem_two_waiters.2.2).2.2 2
          = { sem_two_waiters.2.2 2 with
              state := ProcessState.STATE_READY, semaphore_id := -1 } ∧
        (semaphore_signal sem_two_waiters.2.1 sem_two_waiters.2.2).2.1.count
          = sem_two_waiters.2.1.count ∧
        (semaphore_signal sem_two_waiters.2.1 sem_two_waiters.2.2).2.1.max_count
          = sem_two_waiters.2.1.max_count ∧
        (∀ q, q ≠ 2 →
          (semaphore_signal sem_two_waiters.2.1 sem_two_waiters.2.2).2.2 q
            = sem_two_waiters.2.2 q)) ∧
      (QueueWF sem_taken.2.1.wait_queue ∧ sem_taken.2.1.count ≤ sem_taken.2.1.max_count ∧
        sem_taken.2.1.wait_queue.nodes = [] ∧ sem_taken.2.1.count = 0 ∧
        sem_taken.2.1.max_count = 1 ∧
        (semaphore_signal sem_taken.2.1 sem_taken.2.2).2.1.count
          = min (sem_taken.2.1.count + 1) sem_taken.2.1.max_count ∧
        (semaphore_signal sem_taken.2.1 sem_taken.2.2).2.1.count = 1 ∧
        (semaphore_signal sem_taken.2.1 sem_taken.2.2).2.2 = sem_taken.2.2) :=
  have h := C19_semaphore_signal sem_two_waiters.2.1 sem_two_waiters.2.2 rfl (by decide)
  have g := C19_semaphore_signal sem_taken.2.1 sem_taken.2.2 rfl (by decide)
  ⟨rfl, by decide, by decide, by decide, by decide, by decide, h.1,
    h.2.1 2 [3] (by decide),
    rfl, by decide, by decide, by decide, by decide,
    (g.2.2 (by decide)).1, by decide, (g.2.2 (by decide)).2.2.2⟩

/-- C20: on a semaphore with `0 <= count <= max_count`, whose wait queue is non-empty
only when the count is 0 and whose queue counter is right, `semaphore_wait(s, p)`
followed at once by `semaphore_signal(s)` leaves the count as it was before the wait. -/
theorem C20_wait_signal (sem : Semaphore) (pcbs : PCBStore) (p : Nat)
    (h0 : 0 ≤ sem.count) (h1 : sem.count ≤ sem.max_count)
    (h2 : sem.wait_queue.nodes ≠ [] → sem.count = 0) (hq : QueueWF sem.wait_queue) :
    (semaphore_signal (semaphore_wait sem pcbs p).2.1
      (semaphore_wait sem pcbs p).2.2).2.1.count = sem.count := by
  have hI : SemInv (semaphore_wait sem pcbs p).2.1 := SemInv_wait sem pcbs p ⟨h0, h1, h2, hq⟩
  rcases semaphore_wait_cases sem pcbs p with ⟨hc, he⟩ | ⟨hc, he⟩
  · have hn : sem.wait_queue.nodes = [] := by
      by_contra hne
      have := h2 hne
      omega
    rw [he] at hI ⊢
    rcases semaphore_signal_cases { sem with count := sem.count - 1 }
      (Function.update pcbs p { pcbs p with semaphore_id := sem.id }) hI.queue_wf with
      ⟨w, rest, hw, -⟩ | ⟨-, hlt, hs⟩ | ⟨-, hlt, hs⟩
    · rw [hn] at hw
      exact List.noConfusion hw
    · simp only [hs]
      omega
    · exfalso
      apply hlt
      show sem.count - 1 < sem.max_count
      omega
  · rw [he] at hI ⊢
    rcases semaphore_signal_cases { sem with wait_queue := queue_enqueue sem.wait_queue p }
      (Function.update pcbs p
        { pcbs p with state := ProcessState.STATE_BLOCKED, semaphore_id := sem.id })
      hI.queue_wf with ⟨w, rest, -, hs⟩ | ⟨hw, -, -⟩ | ⟨hw, -, -⟩
    · simp only [hs]
    · simp [queue_enqueue] at hw
    · simp [queue_enqueue] at hw

/-- C20 at the semaphore created with count 2 and the PCB at address 1. -/
theorem C20_wait_signal_witness :
    (0 : Int) ≤ (semaphore_create 0 2).count ∧
      (semaphore_create 0 2).count ≤ (semaphore_create 0 2).max_count ∧
      QueueWF (semaphore_create 0 2).wait_queue ∧
      (semaphore_signal (semaphore_wait (semaphore_create 0 2) pcbs_example 1).2.1
        (semaphore_wait (semaphore_create 0 2) pcbs_example 1).2.2).2.1.count
        = (semaphore_create 0 2).count :=
  ⟨by decide, le_refl _, rfl,
    C20_wait_signal (semaphore_create 0 2) pcbs_example 1 (by decide) (le_refl _)
      (fun h => absurd rfl h) rfl⟩

/-! ### Pieces of code -/

theorem final_append (h1 h2 : List Sim) (s : Sim) :
    final (h1 ++ h2) s = final h2 (final h1 s) := by
  induction h1 generalizing s with
  | nil => rfl
  | cons t rest ih => exact ih t

theorem final_seq (a b : Block) (s : Sim) :
    final (seq a b s) s = final (b (final (a s) s)) (final (a s) s) :=
  final_append _ _ s

theorem mem_seq (a b : Block) (s t : Sim) :
    t ∈ seq a b s ↔ t ∈ a s ∨ t ∈ b (final (a s) s) :=
  List.mem_append

theorem Triple_atom (I P Q : Sim → Prop) (f : Sim → Sim)
    (h : ∀ s, P s → I (f s) ∧ Q (f s)) : Triple I P Q (atom f) := by
  intro s hs
  refine ⟨?_, (h s hs).2⟩
  intro t ht
  simp only [atom, List.mem_singleton] at ht
  rw [ht]
  exact (h s hs).1

theorem Triple_skip (I P Q : Sim → Prop) (h : ∀ s, P s → Q s) : Triple I P Q skip :=
  fun s hs => ⟨fun t ht => absurd ht (List.not_mem_nil t), h s hs⟩

theorem Triple_seq (I P R Q : Sim → Prop) (a b : Block) (ha : Triple I P R a)
    (hb : Triple I R Q b) : Triple I P Q (seq a b) := by
  intro s hs
  obtain ⟨ha1, ha2⟩ := ha s hs
  obtain ⟨hb1, hb2⟩ := hb _ ha2
  refine ⟨?_, by rw [final_seq]; exact hb2⟩
  intro t ht
  rcases (mem_seq a b s t).mp ht with h | h
  · exact ha1 t h
  · exact hb1 t h

theorem Triple_cons (I P R Q : Sim → Prop) (a : Block) (rest : List Block)
    (ha : Triple I P R a) (hb : Triple I R Q (block rest)) : Triple I P Q (block (a :: rest)) :=
  Triple_seq I P R Q a (block rest) ha hb

theorem Triple_nil (I P : Sim → Prop) : Triple I P P (block []) :=
  Triple_skip I P P (fun _ h => h)

theorem Triple_for_each (I P : Sim → Prop) (body : Nat → Block) (l : List Nat)
    (h : ∀ p, Triple I P P (body p)) : Triple I P P (for_each body l) := by
  induction l with
  | nil => exact Triple_skip I P P (fun _ hs => hs)
  | cons p rest ih => exact Triple_seq I P P P (body p) (for_each body rest) (h p) ih

theorem Triple_pre (I P P1 Q : Sim → Prop) (b : Block) (hp : ∀ s, P1 s → P s)
    (h : Triple I P Q b) : Triple I P1 Q b :=
  fun s hs => h s (hp s hs)

/-! ### C12: the states of the roster -/

theorem RunningOk_of_Idle (s : Sim) (h : Idle s) : RunningOk s :=
  ⟨fun p hp _ _ hr _ => absurd hr (h.2 p hp), fun p hp hr => absurd hr (h.2 p hp)⟩

theorem RunningOk_of_Exec (c : Nat) (s : Sim) (h : Exec c s) : RunningOk s := by
  constructor
  · intro p hp q hq hrp hrq
    have h1 : p = c := by
      by_contra hne
      exact h.2 p hp hne hrp
    have h2 : q = c := by
      by_contra hne
      exact h.2 q hq hne hrq
    rw [h1, h2]
  · intro p hp hr
    have h1 : p = c := by
      by_contra hne
      exact h.2 p hp hne hr
    rw [h1]
    exact h.1

theorem Idle_of_Calm (s t : Sim) (hc : Calm s t) (h : Idle s) : Idle t := by
  obtain ⟨h1, h2, h3⟩ := hc
  refine ⟨by rw [h2]; exact h.1, ?_⟩
  intro p hp hr
  rw [h1] at hp
  exact h.2 p hp (h3 p hr)

theorem final_mem (h : List Sim) (s : Sim) : final h s = s ∨ final h s ∈ h := by
  induction h generalizing s with
  | nil => left; rfl
  | cons t rest ih =>
    right
    rcases ih t with h1 | h1
    · show final rest t ∈ t :: rest
      rw [h1]
      exact List.mem_cons_self _ _
    · exact List.mem_cons_of_mem _ h1

theorem Keeps_final (J : Sim → Prop) (b : Block) (h : Keeps J b) (s : Sim) (hs : J s) :
    J (final (b s) s) := by
  rcases final_mem (b s) s with h1 | h1
  · rw [h1]; exact hs
  · exact h s hs _ h1

theorem Keeps_atom (J : Sim → Prop) (f : Sim → Sim) (h : ∀ s, J s → J (f s)) :
    Keeps J (atom f) := by
  intro s hs t ht
  simp only [atom, List.mem_singleton] at ht
  rw [ht]
  exact h s hs

theorem Keeps_seq (J : Sim → Prop) (a b : Block) (ha : Keeps J a) (hb : Keeps J b) :
    Keeps J (seq a b) := by
  intro s hs t ht
  rcases (mem_seq a b s t).mp ht with h | h
  · exact ha s hs t h
  · exact hb _ (Keeps_final J a ha s hs) t h

theorem Keeps_block (J : Sim → Prop) (l : List Block) (h : ∀ b ∈ l, Keeps J b) :
    Keeps J (block l) := by
  induction l with
  | nil => exact fun s _ t ht => absurd ht (List.not_mem_nil t)
  | cons a rest ih =>
    exact Keeps_seq J a (block rest) (h a (List.mem_cons_self _ _))
      (ih (fun b hb => h b (List.mem_cons_of_mem _ hb)))

theorem Keeps_for_each (J : Sim → Prop) (body : Nat → Block) (l : List Nat)
    (h : ∀ p, Keeps J (body p)) : Keeps J (for_each body l) := by
  induction l with
  | nil => exact fun s _ t ht => absurd ht (List.not_mem_nil t)
  | cons p rest ih => exact Keeps_seq J (body p) (for_each body rest) (h p) ih

theorem Triple_of_Keeps (I J : Sim → Prop) (b : Block) (hI : ∀ s, J s → I s)
    (h : Keeps J b) : Triple I J J b :=
  fun s hs => ⟨fun t ht => hI t (h s hs t ht), Keeps_final J b h s hs⟩

theorem Keeps_calm (f : Sim → Sim) (h : ∀ s, Calm s (f s)) : Keeps Idle (atom f) :=
  Keeps_atom Idle f (fun s hs => Idle_of_Calm s (f s) (h s) hs)

theorem Calm_set_state (s : Sim) (p : Nat) (st : ProcessState)
    (hst : st ≠ ProcessState.STATE_RUNNING) :
    Calm s { s with pcbs := pcb_set_state s.pcbs p st } := by
  refine ⟨rfl, rfl, ?_⟩
  intro q hq
  by_cases hqp : q = p
  · subst hqp
    simp [pcb_set_state] at hq
    exact absurd hq hst
  · simpa [pcb_set_state, Function.update_noteq hqp] using hq

theorem Calm_add_process (s : Sim) (p : Nat) :
    Calm s { s with scheduler := scheduler_add_process s.scheduler s.pcbs p } :=
  ⟨rfl, (scheduler_add_process_fields s.scheduler s.pcbs p).2.2.2.1, fun _ h => h⟩

theorem Calm_trace (s : Sim) (time : Int) (p : Nat) (e : EventType) (r : Int) :
    Calm s (trace_pcb time p e r s) :=
  ⟨rfl, rfl, fun _ h => h⟩

theorem Calm_assign (s : Sim) (p : Nat) (f : PCB → PCB)
    (hf : ∀ r, (f r).state = r.state) : Calm s (assign_pcb p f s) := by
  refine ⟨rfl, rfl, ?_⟩
  intro q hq
  by_cases hqp : q = p
  · subst hqp
    simpa [assign_pcb, hf] using hq
  · simpa [assign_pcb, Function.update_noteq hqp] using hq

theorem admission_idle (p : Nat) : Keeps Idle (admission p) := by
  intro s hs
  unfold admission
  split
  · refine Keeps_block Idle _ ?_ s hs
    intro b hb
    simp only [List.mem_cons, List.mem_singleton, List.not_mem_nil, or_false] at hb
    rcases hb with rfl | rfl | rfl
    · exact Keeps_calm _ (fun t => Calm_set_state t p ProcessState.STATE_READY (by decide))
    · exact Keeps_calm _ (fun t => Calm_add_process t p)
    · exact Keeps_calm _ (fun t => Calm_trace t _ p _ _)
  · exact fun t ht => absurd ht (List.not_mem_nil t)

theorem unblock_idle (p : Nat) : Keeps Idle (unblock p) := by
  intro s hs
  unfold unblock
  split
  · split
    · refine Keeps_block Idle _ ?_ s hs
      intro b hb
      simp only [List.mem_cons, List.mem_singleton, List.not_mem_nil, or_false] at hb
      rcases hb with rfl | rfl | rfl | rfl | rfl
      · exact Keeps_calm _ (fun t => Calm_assign t p _ (fun _ => rfl))
      · exact Keeps_calm _ (fun t => Calm_assign t p _ (fun _ => rfl))
      · exact Keeps_calm _ (fun t => Calm_set_state t p ProcessState.STATE_READY (by decide))
      · exact Keeps_calm _ (fun t => Calm_add_process t p)
      · exact Keeps_calm _ (fun t => Calm_trace t _ p _ _)
    · exact fun t ht => absurd ht (List.not_mem_nil t)
  · exact fun t ht => absurd ht (List.not_mem_nil t)

theorem io_complete_state (pcbs : PCBStore) (holder : Option Nat) (q : Nat)
    (h : (io_complete pcbs holder q).state = ProcessState.STATE_RUNNING) :
    (pcbs q).state = ProcessState.STATE_RUNNING := by
  unfold io_complete at h
  cases holder with
  | none => exact h
  | some p =>
    by_cases hqp : q = p
    · subst hqp
      simp [pcb_set_state] at h
    · simpa [pcb_set_state, Function.update_noteq hqp] using h

theorem io_update_device_state (now : Int) (i : Nat) (st : IOManager × PCBStore) (q : Nat)
    (h : ((io_update_device now i st).2 q).state = ProcessState.STATE_RUNNING) :
    (st.2 q).state = ProcessState.STATE_RUNNING := by
  unfold io_update_device at h
  split at h
  · apply io_complete_state st.2 (st.1.devices i).current_process q
    cases hd : queue_dequeue st.1.io_queue with
    | mk next queue =>
      rw [hd] at h
      cases next with
      | none => exact h
      | some n =>
        simp only at h
        split at h <;> exact h
  · exact h

theorem io_update_state (io : IOManager) (pcbs : PCBStore) (now : Int) (q : Nat)
    (h : ((io_update io pcbs now).2 q).state = ProcessState.STATE_RUNNING) :
    (pcbs q).state = ProcessState.STATE_RUNNING := by
  unfold io_update at h
  have key : ∀ (l : List Nat) (st : IOManager × PCBStore),
      ((l.foldl (fun st i => io_update_device now i st) st).2 q).state
        = ProcessState.STATE_RUNNING → (st.2 q).state = ProcessState.STATE_RUNNING := by
    intro l
    induction l with
    | nil => exact fun st h => h
    | cons i rest ih =>
      intro st h
      exact io_update_device_state now i st q (ih _ h)
  exact key _ (io, pcbs) h

theorem Keeps_seq_at (J : Sim → Prop) (a b : Block) (ha : Keeps J a) (hb : Keeps J b)
    (s : Sim) (hs : J s) : ∀ t ∈ seq a b s, J t :=
  Keeps_seq J a b ha hb s hs

theorem Idle_atom (f : Sim → Sim) (s : Sim) (hs : Idle s) (h : Calm s (f s)) :
    ∀ t ∈ atom f s, Idle t := by
  intro t ht
  simp only [atom, List.mem_singleton] at ht
  rw [ht]
  exact Idle_of_Calm s (f s) h hs

theorem check_and_unblock_processes_idle : Keeps Idle check_and_unblock_processes := by
  intro s hs
  unfold check_and_unblock_processes
  refine Keeps_seq_at Idle _ _ ?_ ?_ s hs
  · intro t ht
    refine Idle_atom _ t ht ⟨rfl, rfl, ?_⟩
    intro q hq
    exact io_update_state t.io_manager t.pcbs t.current_time q hq
  · intro t ht
    exact Keeps_for_each Idle unblock t.processes unblock_idle t ht

theorem update_wait_times_idle : Keeps Idle update_wait_times := by
  intro s hs
  unfold update_wait_times
  refine Keeps_for_each Idle update_wait_time s.processes ?_ s hs
  intro p t ht
  unfold update_wait_time
  split
  · exact Idle_atom _ t ht (Calm_assign t p _ (fun _ => rfl))
  · split
    · exact Idle_atom _ t ht (Calm_assign t p _ (fun _ => rfl))
    · exact fun u hu => absurd hu (List.not_mem_nil u)

/-! ### C12: the dispatch -/

theorem scheduler_get_next_empty (sched : Scheduler) (pcbs : PCBStore) (now : Int)
    (hc : continues_slice sched pcbs = false) (hq : sched.ready_queue.nodes = []) :
    scheduler_get_next sched pcbs now = (none, sched, pcbs) := by
  have hd : queue_dequeue sched.ready_queue = (none, sched.ready_queue) := by
    unfold queue_dequeue
    rw [hq]
  unfold scheduler_get_next
  rw [hc, hd]
  simp

/-- The call of `scheduler_get_next` when no process is current: either nothing is
returned and nothing changes, or the head of the ready queue is returned, is made
current and `RUNNING`, and no other PCB changes. -/
theorem scheduler_get_next_idle (sched : Scheduler) (pcbs : PCBStore) (now : Int)
    (hn : sched.current_process = none) :
    scheduler_get_next sched pcbs now = (none, sched, pcbs) ∨
    ∃ c, (scheduler_get_next sched pcbs now).1 = some c ∧
      (scheduler_get_next sched pcbs now).2.1.current_process = some c ∧
      ((scheduler_get_next sched pcbs now).2.2 c).state = ProcessState.STATE_RUNNING ∧
      ∀ q, q ≠ c → (scheduler_get_next sched pcbs now).2.2 q = pcbs q := by
  have hc : continues_slice sched pcbs = false := by
    unfold continues_slice
    rw [hn]
  cases hq : sched.ready_queue.nodes with
  | nil => left; exact scheduler_get_next_empty sched pcbs now hc hq
  | cons head rest =>
    right
    refine ⟨head, ?_⟩
    rw [scheduler_get_next_dispatch sched pcbs now head rest hq hc]
    have hs : save_previous { sched with
        ready_queue := { nodes := rest, size := sched.ready_queue.size - 1 } } pcbs head
        = ({ sched with
              ready_queue := { nodes := rest, size := sched.ready_queue.size - 1 } }, pcbs) := by
      unfold save_previous
      simp only [hn]
    rw [hs]
    refine ⟨rfl, rfl, by simp [pcb_set_state], ?_⟩
    intro q hne
    simp only [pcb_set_state, Function.update_noteq hne]
    split
    · rw [Function.update_noteq hne]
    · rfl

/-- The call of `scheduler_preempt` under Round Robin when the quantum is used up and
the current process has work left. -/
theorem scheduler_preempt_expired (sched : Scheduler) (pcbs : PCBStore) (cur : Nat)
    (hrr : sched.type = SchedulerType.SCHED_RR) (hcur : sched.current_process = some cur)
    (hq : sched.quantum_remaining ≤ 0) (hrem : (pcbs cur).remaining_time > 0) :
    scheduler_preempt sched pcbs
      = ({ scheduler_add_process sched
            (pcb_set_state pcbs cur ProcessState.STATE_READY) cur with
            current_process := none },
          pcb_set_state pcbs cur ProcessState.STATE_READY) := by
  unfold scheduler_preempt
  rw [hcur]
  simp only [hrr, if_true, hq, hrem, and_self]

/-! ### C12: the slice -/

theorem Triple_cons_at (I P R Q : Sim → Prop) (a : Block) (rest : List Block)
    (ha : Triple I P R a) (hb : Triple I R Q (block rest)) (s : Sim) (hs : P s) :
    (∀ t ∈ block (a :: rest) s, I t) ∧ Q (final (block (a :: rest) s) s) :=
  Triple_cons I P R Q a rest ha hb s hs

theorem ExecAt_of_Touches (c : Nat) (ty : SchedulerType) (qr r : Int) (s t : Sim)
    (h : Touches c s t) (hs : ExecAt c ty qr r s) : ExecAt c ty qr r t := by
  obtain ⟨h1, h2, h3, h4⟩ := h
  obtain ⟨⟨hc, ho⟩, hty, hqr, hrem⟩ := hs
  refine ⟨⟨by rw [h2]; exact hc, ?_⟩, by rw [h2]; exact hty, by rw [h2]; exact hqr,
    by rw [h4]; exact hrem⟩
  intro p hp hne
  rw [h1] at hp
  rw [h3 p hne]
  exact ho p hp hne

theorem RunningOk_of_ExecAt (c : Nat) (ty : SchedulerType) (qr r : Int) (s : Sim)
    (h : ExecAt c ty qr r s) : RunningOk s :=
  RunningOk_of_Exec c s h.1

theorem ExecAt_atom (c : Nat) (ty : SchedulerType) (qr r : Int) (f : Sim → Sim) (s : Sim)
    (hs : ExecAt c ty qr r s) (h : Touches c s (f s)) :
    ∀ t ∈ atom f s, ExecAt c ty qr r t := by
  intro t ht
  simp only [atom, List.mem_singleton] at ht
  rw [ht]
  exact ExecAt_of_Touches c ty qr r s (f s) h hs

theorem Touches_assign (c : Nat) (f : PCB → PCB) (s : Sim)
    (hf : ∀ r, (f r).remaining_time = r.remaining_time) : Touches c s (assign_pcb c f s) := by
  refine ⟨rfl, rfl, ?_, ?_⟩
  · intro q hq
    simp [assign_pcb, Function.update_noteq hq]
  · simp [assign_pcb, hf]

theorem Touches_trace (c : Nat) (time : Int) (e : EventType) (r : Int) (s : Sim) :
    Touches c s (trace_pcb time c e r s) :=
  ⟨rfl, rfl, fun _ _ => rfl, rfl⟩

theorem io_request_pcbs (io : IOManager) (pcbs : PCBStore) (p : Nat) (d dur now : Int) :
    (∀ q, q ≠ p → (io_request io pcbs p d dur now).2.2 q = pcbs q) ∧
    ((io_request io pcbs p d dur now).2.2 p).remaining_time = (pcbs p).remaining_time := by
  unfold io_request
  split
  · exact ⟨fun _ _ => rfl, rfl⟩
  · simp only
    split
    · refine ⟨?_, by simp [pcb_set_state]⟩
      intro q hq
      simp [pcb_set_state, Function.update_noteq hq]
    · refine ⟨?_, by simp [pcb_set_state]⟩
      intro q hq
      simp [pcb_set_state, Function.update_noteq hq]

theorem mutex_lock_pcbs (self : Nat) (mutex : Mutex) (pcbs : PCBStore) (p : Nat) :
    (∀ q, q ≠ p → (mutex_lock self mutex pcbs p).2.2 q = pcbs q) ∧
    ((mutex_lock self mutex pcbs p).2.2 p).remaining_time = (pcbs p).remaining_time := by
  unfold mutex_lock
  split
  · refine ⟨?_, by simp⟩
    intro q hq
    simp [Function.update_noteq hq]
  · refine ⟨?_, by simp [pcb_set_state]⟩
    intro q hq
    simp [pcb_set_state, Function.update_noteq hq]

theorem semaphore_wait_pcbs (sem : Semaphore) (pcbs : PCBStore) (p : Nat) :
    (∀ q, q ≠ p → (semaphore_wait sem pcbs p).2.2 q = pcbs q) ∧
    ((semaphore_wait sem pcbs p).2.2 p).remaining_time = (pcbs p).remaining_time := by
  rcases semaphore_wait_cases sem pcbs p with ⟨-, he⟩ | ⟨-, he⟩
  · rw [he]
    refine ⟨?_, by simp⟩
    intro q hq
    simp [Function.update_noteq hq]
  · rw [he]
    refine ⟨?_, by simp⟩
    intro q hq
    simp [Function.update_noteq hq]

theorem simulate_io_keeps (rand : Nat → Nat) (c : Nat) (ty : SchedulerType) (qr r : Int) :
    Keeps (ExecAt c ty qr r) (simulate_io rand c) := by
  intro s hs
  unfold simulate_io
  refine Keeps_block _ _ ?_ s hs
  intro b hb
  simp only [List.mem_cons, List.mem_singleton, List.not_mem_nil, or_false] at hb
  rcases hb with rfl | rfl | rfl | rfl
  · exact fun t ht => ExecAt_atom c ty qr r _ t ht ⟨rfl, rfl, fun _ _ => rfl, rfl⟩
  · exact fun t ht => ExecAt_atom c ty qr r _ t ht ⟨rfl, rfl, fun _ _ => rfl, rfl⟩
  · intro t ht
    refine ExecAt_atom c ty qr r _ t ht ⟨rfl, rfl, ?_, ?_⟩
    · exact (io_request_pcbs _ _ _ _ _ _).1
    · exact (io_request_pcbs _ _ _ _ _ _).2
  · exact fun t ht => ExecAt_atom c ty qr r _ t ht (Touches_trace c _ _ _ t)

theorem simulate_mutex_keeps (rand : Nat → Nat) (c : Nat) (ty : SchedulerType) (qr r : Int) :
    Keeps (ExecAt c ty qr r) (simulate_mutex rand c) := by
  intro s hs
  unfold simulate_mutex
  refine Keeps_seq_at _ _ _ ?_ ?_ s hs
  · exact fun t ht => ExecAt_atom c ty qr r _ t ht ⟨rfl, rfl, fun _ _ => rfl, rfl⟩
  · intro t ht
    beta_reduce
    split
    · exact fun u hu => absurd hu (List.not_mem_nil u)
    · split
      · refine Keeps_block _ _ ?_ t ht
        intro b hb
        simp only [List.mem_cons, List.mem_singleton, List.not_mem_nil, or_false] at hb
        rcases hb with rfl | rfl
        · intro u hu
          refine ExecAt_atom c ty qr r _ u hu ⟨rfl, rfl, ?_, ?_⟩
          · exact (mutex_lock_pcbs _ _ _ _).1
          · exact (mutex_lock_pcbs _ _ _ _).2
        · exact fun u hu => ExecAt_atom c ty qr r _ u hu (Touches_trace c _ _ _ u)
      · exact fun u hu => absurd hu (List.not_mem_nil u)

theorem simulate_semaphore_keeps (rand : Nat → Nat) (c : Nat) (ty : SchedulerType)
    (qr r : Int) : Keeps (ExecAt c ty qr r) (simulate_semaphore rand c) := by
  intro s hs
  unfold simulate_semaphore
  refine Keeps_seq_at _ _ _ ?_ ?_ s hs
  · exact fun t ht => ExecAt_atom c ty qr r _ t ht ⟨rfl, rfl, fun _ _ => rfl, rfl⟩
  · intro t ht
    beta_reduce
    split
    · exact fun u hu => absurd hu (List.not_mem_nil u)
    · refine Keeps_block _ _ ?_ t ht
      intro b hb
      simp only [List.mem_cons, List.mem_singleton, List.not_mem_nil, or_false] at hb
      rcases hb with rfl | rfl
      · intro u hu
        refine ExecAt_atom c ty qr r _ u hu ⟨rfl, rfl, ?_, ?_⟩
        · exact (semaphore_wait_pcbs _ _ _).1
        · exact (semaphore_wait_pcbs _ _ _).2
      · exact fun u hu => ExecAt_atom c ty qr r _ u hu (Touches_trace c _ _ _ u)

theorem simulate_action_keeps (rand : Nat → Nat) (c : Nat) (ty : SchedulerType) (qr r : Int) :
    Keeps (ExecAt c ty qr r) (simulate_action rand c) := by
  intro s hs
  unfold simulate_action
  refine Keeps_seq_at _ _ _ ?_ ?_ s hs
  · exact fun t ht => ExecAt_atom c ty qr r _ t ht ⟨rfl, rfl, fun _ _ => rfl, rfl⟩
  · intro t ht
    beta_reduce
    split
    · exact simulate_io_keeps rand c ty qr r t ht
    · split
      · exact simulate_mutex_keeps rand c ty qr r t ht
      · split
        · exact simulate_semaphore_keeps rand c ty qr r t ht
        · exact fun u hu => absurd hu (List.not_mem_nil u)

theorem Triple_atom_at (I Q : Sim → Prop) (f : Sim → Sim) (s : Sim) (h : I (f s) ∧ Q (f s)) :
    (∀ t ∈ atom f s, I t) ∧ Q (final (atom f s) s) :=
  Triple_atom I (fun u => u = s) Q f (fun u hu => by rw [hu]; exact h) s rfl

theorem ExecAt_assign_remaining (c : Nat) (ty : SchedulerType) (qr r0 r1 : Int)
    (f : PCB → PCB) (u : Sim) (hu : ExecAt c ty qr r0 u)
    (hf : (f (u.pcbs c)).remaining_time = r1) : ExecAt c ty qr r1 (assign_pcb c f u) := by
  obtain ⟨⟨hc, ho⟩, hty, hqr, -⟩ := hu
  refine ⟨⟨hc, ?_⟩, hty, hqr, ?_⟩
  · intro p hp hne
    show ((Function.update u.pcbs c (f (u.pcbs c))) p).state ≠ ProcessState.STATE_RUNNING
    rw [Function.update_noteq hne]
    exact ho p hp hne
  · show ((Function.update u.pcbs c (f (u.pcbs c))) c).remaining_time = r1
    rw [Function.update_same]
    exact hf

theorem simulate_process_execution_triple (rand : Nat → Nat) (c : Nat) (ts : Int)
    (ty : SchedulerType) (qr r0 : Int) :
    Triple RunningOk (ExecAt c ty qr r0) (ExecAt c ty qr (r0 - execution ts r0))
      (simulate_process_execution rand c ts) := by
  intro s hs
  have hr : (s.pcbs c).remaining_time = r0 := hs.2.2.2
  unfold simulate_process_execution
  rw [hr]
  refine Triple_cons_at RunningOk (ExecAt c ty qr r0)
    (ExecAt c ty qr (r0 - execution ts r0)) _ _ _ ?_ ?_ s hs
  · refine Triple_atom _ _ _ _ ?_
    intro u hu
    have h1 := ExecAt_assign_remaining c ty qr r0 (r0 - execution ts r0)
      (fun r => { r with remaining_time := r.remaining_time - execution ts r0 }) u hu
      (by rw [← hu.2.2.2])
    exact ⟨RunningOk_of_ExecAt c ty qr _ _ h1, h1⟩
  · refine Triple_of_Keeps _ _ _ (RunningOk_of_ExecAt c ty qr _) ?_
    refine Keeps_block _ _ ?_
    intro b hb
    simp only [List.mem_cons, List.mem_singleton, List.not_mem_nil, or_false] at hb
    rcases hb with rfl | rfl
    · intro u hu t ht
      refine ExecAt_atom c ty qr _ _ u hu ?_ t ht
      exact Touches_assign c _ u (fun _ => rfl)
    · exact simulate_action_keeps rand c ty qr _

theorem slice_ends (sched : Scheduler) (r0 : Int) :
    r0 - execution (time_slice sched r0) r0 ≤ 0 ∨
    (sched.type = SchedulerType.SCHED_RR ∧
      sched.quantum_remaining - time_slice sched r0 ≤ 0) := by
  unfold execution time_slice
  by_cases hrr : sched.type = SchedulerType.SCHED_RR
  · simp only [hrr, if_true]
    split_ifs <;> first | (left; omega) | (right; exact ⟨trivial, by omega⟩)
  · simp only [hrr, if_false]
    left
    split_ifs <;> omega

theorem quantum_step_triple (c : Nat) (ts : Int) (ty : SchedulerType) (qr r1 : Int) :
    Triple RunningOk (ExecAt c ty qr r1)
      (ExecAt c ty (if ty = SchedulerType.SCHED_RR then qr - ts else qr) r1)
      (fun t =>
        if t.scheduler.type = SchedulerType.SCHED_RR then
          atom (fun u =>
            { u with
              scheduler :=
                { u.scheduler with
                  quantum_remaining := u.scheduler.quantum_remaining - ts } }) t
        else []) := by
  intro t ht
  obtain ⟨⟨hc, ho⟩, hty, hqr, hrem⟩ := ht
  beta_reduce
  split
  · rename_i hrr
    have hrr2 : ty = SchedulerType.SCHED_RR := by rw [← hty]; exact hrr
    rw [if_pos hrr2]
    refine Triple_atom_at _ _ _ _ ?_
    have h1 : ExecAt c ty (qr - ts) r1
        { t with
          scheduler :=
            { t.scheduler with quantum_remaining := t.scheduler.quantum_remaining - ts } } :=
      ⟨⟨hc, ho⟩, hty, by rw [← hqr], hrem⟩
    exact ⟨RunningOk_of_ExecAt c ty _ _ _ h1, h1⟩
  · rename_i hrr
    have hrr2 : ¬ ty = SchedulerType.SCHED_RR := by rw [← hty]; exact hrr
    rw [if_neg hrr2]
    exact ⟨fun u hu => absurd hu (List.not_mem_nil u), ⟨⟨hc, ho⟩, hty, hqr, hrem⟩⟩

theorem RunningOk_of_Stopped (c : Nat) (s : Sim) (h : Stopped c s) : RunningOk s :=
  ⟨fun p hp _ _ hr _ => absurd hr (h.2 p hp), fun p hp hr => absurd hr (h.2 p hp)⟩

theorem Stopped_of_Calm (c : Nat) (s t : Sim) (hc : Calm s t) (h : Stopped c s) :
    Stopped c t := by
  obtain ⟨h1, h2, h3⟩ := hc
  refine ⟨by rw [h2]; exact h.1, ?_⟩
  intro p hp hr
  rw [h1] at hp
  exact h.2 p hp (h3 p hr)

theorem Stopped_atom (c : Nat) (f : Sim → Sim) (h : ∀ s, Calm s (f s)) :
    Triple RunningOk (Stopped c) (Stopped c) (atom f) :=
  Triple_atom _ _ _ _ (fun s hs =>
    ⟨RunningOk_of_Stopped c _ (Stopped_of_Calm c s (f s) (h s) hs),
      Stopped_of_Calm c s (f s) (h s) hs⟩)

theorem Idle_set_state (c : Nat) (s : Sim) (st : ProcessState)
    (hst : st ≠ ProcessState.STATE_RUNNING) (hs : Exec c s) :
    ∀ p ∈ s.processes, (pcb_set_state s.pcbs c st p).state ≠ ProcessState.STATE_RUNNING := by
  intro p hp
  by_cases hpc : p = c
  · subst hpc
    simp [pcb_set_state, hst]
  · simp only [pcb_set_state, Function.update_noteq hpc]
    exact hs.2 p hp hpc

theorem after_slice_idle (c : Nat) (ty : SchedulerType) (qr r : Int)
    (harith : r ≤ 0 ∨ (ty = SchedulerType.SCHED_RR ∧ qr ≤ 0)) :
    Triple RunningOk (ExecAt c ty qr r) Idle (after_slice c) := by
  intro s hs
  obtain ⟨hex, hty, hqr, hrem⟩ := hs
  unfold after_slice
  by_cases h1 : (s.pcbs c).remaining_time ≤ 0
  · simp only [h1, if_true]
    refine Triple_cons_at RunningOk (Exec c) (Stopped c) Idle _ _ ?_ ?_ s hex
    · refine Triple_atom _ _ _ _ ?_
      intro u hu
      have hst : Stopped c
          { u with pcbs := pcb_set_state u.pcbs c ProcessState.STATE_TERMINATED } :=
        ⟨hu.1, Idle_set_state c u _ (by decide) hu⟩
      exact ⟨RunningOk_of_Stopped c _ hst, hst⟩
    · refine Triple_cons RunningOk _ (Stopped c) Idle _ _ (Stopped_atom c _ ?_) ?_
      · intro u
        exact Calm_assign u c _ (fun _ => rfl)
      refine Triple_cons RunningOk _ (Stopped c) Idle _ _ (Stopped_atom c _ ?_) ?_
      · intro u
        exact ⟨rfl, rfl, fun _ h => h⟩
      refine Triple_cons RunningOk _ (Stopped c) Idle _ _ (Stopped_atom c _ ?_) ?_
      · intro u
        exact Calm_trace u _ c _ _
      refine Triple_cons RunningOk _ Idle Idle _ _ ?_ (Triple_nil _ _)
      refine Triple_atom _ _ _ _ ?_
      intro u hu
      have hi : Idle { u with scheduler := { u.scheduler with current_process := none } } :=
        ⟨rfl, hu.2⟩
      exact ⟨RunningOk_of_Idle _ hi, hi⟩
  · simp only [h1, if_false]
    by_cases h2 : (s.pcbs c).state = ProcessState.STATE_BLOCKED
    · simp only [h2, if_true]
      refine Triple_atom_at _ _ _ _ ?_
      have hi : Idle { s with scheduler := { s.scheduler with current_process := none } } := by
        refine ⟨rfl, ?_⟩
        intro p hp
        by_cases hpc : p = c
        · subst hpc
          show (s.pcbs p).state ≠ ProcessState.STATE_RUNNING
          rw [h2]
          decide
        · exact hex.2 p hp hpc
      exact ⟨RunningOk_of_Idle _ hi, hi⟩
    · simp only [h2, if_false]
      by_cases h3 : s.scheduler.type = SchedulerType.SCHED_RR ∧
          s.scheduler.quantum_remaining ≤ 0
      · rw [if_pos h3]
        refine Triple_atom_at _ _ _ _ ?_
        have hp := scheduler_preempt_expired s.scheduler s.pcbs c h3.1 hex.1 h3.2
          (by omega)
        have hi : Idle
            { s with
              scheduler := (scheduler_preempt s.scheduler s.pcbs).1
              pcbs := (scheduler_preempt s.scheduler s.pcbs).2 } := by
          rw [hp]
          exact ⟨rfl, Idle_set_state c s _ (by decide) hex⟩
        exact ⟨RunningOk_of_Idle _ hi, hi⟩
      · exfalso
        rcases harith with h | ⟨h, h4⟩
        · exact h1 (by rw [hrem]; exact h)
        · exact h3 ⟨by rw [hty]; exact h, by rw [hqr]; exact h4⟩

theorem run_current_idle (rand : Nat → Nat) (c : Nat) (s : Sim) (hs : Exec c s) :
    (∀ t ∈ run_current rand c s, RunningOk t) ∧ Idle (final (run_current rand c s) s) := by
  have h0 : ExecAt c s.scheduler.type s.scheduler.quantum_remaining
      (s.pcbs c).remaining_time s := ⟨hs, rfl, rfl, rfl⟩
  have harith : (s.pcbs c).remaining_time
        - execution (time_slice s.scheduler (s.pcbs c).remaining_time)
            (s.pcbs c).remaining_time ≤ 0 ∨
      (s.scheduler.type = SchedulerType.SCHED_RR ∧
        (if s.scheduler.type = SchedulerType.SCHED_RR then
          s.scheduler.quantum_remaining - time_slice s.scheduler (s.pcbs c).remaining_time
         else s.scheduler.quantum_remaining) ≤ 0) := by
    rcases slice_ends s.scheduler (s.pcbs c).remaining_time with h | ⟨hrr, h⟩
    · exact Or.inl h
    · exact Or.inr ⟨hrr, by rw [if_pos hrr]; exact h⟩
  unfold run_current
  refine Triple_cons_at RunningOk _ _ Idle _ _
    (simulate_process_execution_triple rand c
      (time_slice s.scheduler (s.pcbs c).remaining_time) s.scheduler.type
      s.scheduler.quantum_remaining (s.pcbs c).remaining_time) ?_ s h0
  refine Triple_cons RunningOk _ _ Idle _ _
    (quantum_step_triple c (time_slice s.scheduler (s.pcbs c).remaining_time)
      s.scheduler.type s.scheduler.quantum_remaining _) ?_
  refine Triple_cons RunningOk _ _ Idle _ _
    (Triple_of_Keeps _ _ _ (RunningOk_of_ExecAt c _ _ _) ?_)
    (Triple_cons RunningOk _ Idle Idle _ _ (after_slice_idle c _ _ _ harith)
      (Triple_nil _ _))
  intro u hu t ht
  refine ExecAt_atom c _ _ _ _ u hu ?_ t ht
  exact Touches_trace c _ _ _ u

theorem Triple_seq_at (I R Q : Sim → Prop) (a b : Block) (s : Sim)
    (ha : (∀ t ∈ a s, I t) ∧ R (final (a s) s)) (hb : Triple I R Q b) :
    (∀ t ∈ seq a b s, I t) ∧ Q (final (seq a b s) s) :=
  Triple_seq I (fun u => u = s) R Q a b (fun u hu => by rw [hu]; exact ha) hb s rfl

theorem dispatch_idle (rand : Nat → Nat) : Triple RunningOk Idle Idle (dispatch rand) := by
  intro s hs
  unfold dispatch
  rcases scheduler_get_next_idle s.scheduler s.pcbs s.current_time hs.1 with
    h | ⟨c, h1, h2, h3, h4⟩
  · refine Triple_seq_at RunningOk Idle Idle _ _ s ?_ ?_
    · refine Triple_atom_at _ _ _ _ ?_
      have hi : Idle
          { s with
            scheduler := (scheduler_get_next s.scheduler s.pcbs s.current_time).2.1
            pcbs := (scheduler_get_next s.scheduler s.pcbs s.current_time).2.2 } := by
        rw [h]
        exact hs
      exact ⟨RunningOk_of_Idle _ hi, hi⟩
    · rw [h]
      intro t ht
      exact ⟨fun u hu => absurd hu (List.not_mem_nil u), ht⟩
  · refine Triple_seq_at RunningOk
      (fun t => Exec c t ∧ (t.pcbs c).state = ProcessState.STATE_RUNNING) Idle _ _ s ?_ ?_
    · refine Triple_atom_at RunningOk
        (fun t => Exec c t ∧ (t.pcbs c).state = ProcessState.STATE_RUNNING) _ _ ?_
      have he : Exec c
          { s with
            scheduler := (scheduler_get_next s.scheduler s.pcbs s.current_time).2.1
            pcbs := (scheduler_get_next s.scheduler s.pcbs s.current_time).2.2 } := by
        refine ⟨h2, ?_⟩
        intro p hp hne
        show ((scheduler_get_next s.scheduler s.pcbs s.current_time).2.2 p).state
          ≠ ProcessState.STATE_RUNNING
        rw [h4 p hne]
        exact hs.2 p hp
      exact ⟨RunningOk_of_Exec c _ he, he, h3⟩
    · rw [h1]
      intro t ht
      show (∀ u ∈ (if (t.pcbs c).state = ProcessState.STATE_RUNNING then
          run_current rand c t else []), RunningOk u) ∧
        Idle (final (if (t.pcbs c).state = ProcessState.STATE_RUNNING then
          run_current rand c t else []) t)
      rw [if_pos ht.2]
      exact run_current_idle rand c t ht.1

theorem loop_body_idle (rand : Nat → Nat) : Triple RunningOk Idle Idle (loop_body rand) := by
  unfold loop_body
  refine Triple_cons RunningOk _ Idle Idle _ _
    (Triple_of_Keeps _ _ _ RunningOk_of_Idle ?_) ?_
  · exact fun s hs => Keeps_for_each Idle admission s.processes admission_idle s hs
  refine Triple_cons RunningOk _ Idle Idle _ _
    (Triple_of_Keeps _ _ _ RunningOk_of_Idle check_and_unblock_processes_idle) ?_
  refine Triple_cons RunningOk _ Idle Idle _ _ (dispatch_idle rand) ?_
  refine Triple_cons RunningOk _ Idle Idle _ _
    (Triple_of_Keeps _ _ _ RunningOk_of_Idle update_wait_times_idle) ?_
  refine Triple_cons RunningOk _ Idle Idle _ _
    (Triple_of_Keeps _ _ _ RunningOk_of_Idle (Keeps_calm _ ?_)) (Triple_nil _ _)
  exact fun s => ⟨rfl, rfl, fun _ h => h⟩

theorem main_loop_idle (rand : Nat → Nat) (n : Nat) (s : Sim) (hs : Idle s) :
    Idle (main_loop rand n s) := by
  induction n generalizing s with
  | zero => exact hs
  | succ n ih =>
    unfold main_loop
    split
    · exact ih _ (loop_body_idle rand s hs).2
    · exact hs

theorem main_init_idle (type : SchedulerType) (quantum max_time : Int)
    (processes : List Nat) (pcbs : PCBStore) (memory : Nat → IODevice)
    (hnew : ∀ p ∈ processes, (pcbs p).state = ProcessState.STATE_NEW) :
    Idle (main_init type quantum max_time processes pcbs memory) := by
  refine ⟨rfl, ?_⟩
  intro p hp
  show (pcbs p).state ≠ ProcessState.STATE_RUNNING
  rw [hnew p hp]
  decide

/-- C12: in the tick loop of `main`, for every policy, every quantum (at least 1 or
not), every stream of `rand()` results and every roster whose PCBs are all `NEW`, the
state at the head of each turn of the loop and every state passed in the turn (after
each statement of `main`, `check_and_unblock_processes`, `simulate_process_execution`
and `update_wait_times`, a call of a scheduler, I/O, mutex, semaphore or trace function
being one statement) have at most one PCB of the roster in state `RUNNING`, and a PCB
of the roster that is `RUNNING` is the `current_process` of the scheduler. -/
theorem C12_at_most_one_running (type : SchedulerType) (quantum max_time : Int)
    (processes : List Nat) (pcbs : PCBStore) (memory : Nat → IODevice) (rand : Nat → Nat)
    (hnew : ∀ p ∈ processes, (pcbs p).state = ProcessState.STATE_NEW) (n : Nat) :
    RunningOk (main_loop rand n (main_init type quantum max_time processes pcbs memory)) ∧
    ∀ t ∈ loop_body rand
        (main_loop rand n (main_init type quantum max_time processes pcbs memory)),
      RunningOk t :=
  have hi := main_loop_idle rand n _
    (main_init_idle type quantum max_time processes pcbs memory hnew)
  ⟨RunningOk_of_Idle _ hi, (loop_body_idle rand _ hi).1⟩

theorem C12_at_most_one_running_witness :
    (∀ p ∈ [1, 2, 3], (pcbs_example p).state = ProcessState.STATE_NEW) ∧
    RunningOk (main_loop rand_example 2
      (main_init SchedulerType.SCHED_RR 2 50 [1, 2, 3] pcbs_example memory_example)) ∧
    ∀ t ∈ loop_body rand_example
        (main_loop rand_example 2
          (main_init SchedulerType.SCHED_RR 2 50 [1, 2, 3] pcbs_example memory_example)),
      RunningOk t :=
  ⟨fun _ _ => rfl,
    C12_at_most_one_running SchedulerType.SCHED_RR 2 50 [1, 2, 3] pcbs_example
      memory_example rand_example (fun _ _ => rfl) 2⟩

/-! ### C21-C24: the I/O manager and the queue -/

theorem QueueWF_reachable (queue : Queue) (h : QueueReachable queue) : QueueWF queue := by
  induction h with
  | create => rfl
  | enqueue queue pcb _ ih =>
    unfold QueueWF at ih ⊢
    simp only [queue_enqueue, List.length_append, List.length_singleton, Nat.cast_add,
      Nat.cast_one, ih]
  | dequeue queue _ ih =>
    unfold QueueWF at ih ⊢
    unfold queue_dequeue
    cases hq : queue.nodes with
    | nil => simpa [hq] using ih
    | cons x rest =>
      simp only [hq, List.length_cons, Nat.cast_add, Nat.cast_one] at ih ⊢
      omega
  | remove queue pcb _ ih =>
    unfold QueueWF at ih ⊢
    unfold queue_remove
    split
    · rename_i hm
      have hpos : 0 < queue.nodes.length := List.length_pos_of_mem hm
      simp only [List.length_erase_of_mem hm]
      omega
    · exact ih

theorem dequeue_times_enqueued (xs : List Nat) (size : Int) :
    dequeue_times xs.length { nodes := xs, size := size }
      = (xs.map some, { nodes := [], size := size - xs.length }) := by
  induction xs generalizing size with
  | nil => simp [dequeue_times]
  | cons x rest ih =>
    simp only [dequeue_times, queue_dequeue, List.length_cons, List.map_cons, ih]
    refine Prod.ext rfl ?_
    simp only [Nat.cast_add, Nat.cast_one, Queue.mk.injEq, true_and]
    omega

theorem foldl_enqueue (xs : List Nat) (queue : Queue) :
    xs.foldl queue_enqueue queue
      = { nodes := queue.nodes ++ xs, size := queue.size + xs.length } := by
  induction xs generalizing queue with
  | nil => simp
  | cons x rest ih =>
    simp only [List.foldl_cons, ih, queue_enqueue, List.append_assoc, List.singleton_append,
      List.length_cons, Nat.cast_add, Nat.cast_one, Queue.mk.injEq, true_and]
    omega

/-- C24: a queue produced by the queue functions is a FIFO sequence (allocation
succeeding): `queue_enqueue` appends at the tail; `queue_dequeue` returns nothing and
leaves an empty queue unchanged, and otherwise removes and returns the head;
`queue_peek` returns what the next `queue_dequeue` would return; `queue_size` is the
number of stored elements and `queue_is_empty` holds exactly when it is 0, that is when
nothing is stored; and after enqueuing `xs` into a new queue, as many dequeues as `xs`
has elements return the elements of `xs` in order and leave the queue empty. -/
theorem C24_queue_fifo (queue : Queue) (h : QueueReachable queue) (pcb : Nat)
    (xs : List Nat) :
    (queue_enqueue queue pcb).nodes = queue.nodes ++ [pcb] ∧
    (queue.nodes = [] → queue_dequeue queue = (none, queue)) ∧
    (∀ x rest, queue.nodes = x :: rest →
      (queue_dequeue queue).1 = some x ∧ (queue_dequeue queue).2.nodes = rest) ∧
    queue_peek queue = (queue_dequeue queue).1 ∧
    queue_size queue = queue.nodes.length ∧
    (queue_is_empty queue = true ↔ queue_size queue = 0) ∧
    (queue_is_empty queue = true ↔ queue.nodes = []) ∧
    dequeue_times xs.length (xs.foldl queue_enqueue queue_create)
      = (xs.map some, queue_create) := by
  have hwf : queue.size = queue.nodes.length := QueueWF_reachable queue h
  refine ⟨rfl, ?_, ?_, ?_, hwf, ?_, ?_, ?_⟩
  · intro hn
    unfold queue_dequeue
    rw [hn]
  · intro x rest hn
    unfold queue_dequeue
    rw [hn]
    exact ⟨rfl, rfl⟩
  · unfold queue_peek queue_dequeue
    cases queue.nodes <;> rfl
  · simp [queue_is_empty, queue_size]
  · simp only [queue_is_empty, decide_eq_true_eq, hwf]
    constructor
    · intro h0
      exact List.length_eq_zero.mp (by exact_mod_cast h0)
    · intro hn
      rw [hn]
      rfl
  · rw [foldl_enqueue, queue_create]
    simp only [List.nil_append, zero_add]
    rw [dequeue_times_enqueued]
    simp

theorem C24_queue_fifo_witness :
    QueueReachable (queue_enqueue (queue_enqueue queue_create 7) 9) ∧
    (queue_dequeue (queue_enqueue (queue_enqueue queue_create 7) 9)).1 = some 7 ∧
    queue_size (queue_enqueue (queue_enqueue queue_create 7) 9) = 2 ∧
    dequeue_times 3 ([4, 5, 6].foldl queue_enqueue queue_create)
      = ([some 4, some 5, some 6], queue_create) :=
  have hr : QueueReachable (queue_enqueue (queue_enqueue queue_create 7) 9) :=
    QueueReachable.enqueue _ 9 (QueueReachable.enqueue _ 7 QueueReachable.create)
  have h := C24_queue_fifo (queue_enqueue (queue_enqueue queue_create 7) 9) hr 1 [4, 5, 6]
  ⟨hr, (h.2.2.1 7 [9] rfl).1, h.2.2.2.2.1, h.2.2.2.2.2.2.2⟩

/-- C21: `io_request(io, p, d, duration, now)` with `d < 0` or `d >= device_count`
returns false and changes neither the PCBs nor the manager.  Otherwise, when the `int`
sum `now + duration` does not overflow (it lies between `INT_MIN` and `INT_MAX`), it sets
`p.io_device = d`, `p.io_end_time = now + duration` and `p.state = BLOCKED`, changing
no other field of `p` and no other PCB; if the device `d` is idle, the device becomes
busy with holder `p` and `end_time = now + duration`, the other devices, the wait queue
and `device_count` are unchanged and the call returns true; if the device `d` is busy,
`p` is appended to the tail of the wait queue, every device slot and `device_count`
are unchanged and the call returns false. -/
theorem C21_io_request (io : IOManager) (pcbs : PCBStore) (p : Nat)
    (d duration now : Int) :
    ((d < 0 ∨ d ≥ io.device_count) → io_request io pcbs p d duration now = (false, io, pcbs)) ∧
    (¬ (d < 0 ∨ d ≥ io.device_count) → INT_MIN ≤ now + duration → now + duration ≤ INT_MAX →
      (io_request io pcbs p d duration now).2.2 p
        = { pcbs p with
            io_device := d, io_end_time := now + duration,
            state := ProcessState.STATE_BLOCKED } ∧
      (∀ q, q ≠ p → (io_request io pcbs p d duration now).2.2 q = pcbs q) ∧
      (io_request io pcbs p d duration now).2.1.device_count = io.device_count ∧
      ((io.devices d.toNat).is_busy = false →
        (io_request io pcbs p d duration now).1 = true ∧
        (io_request io pcbs p d duration now).2.1.devices d.toNat
          = { io.devices d.toNat with
              is_busy := true, current_process := some p, end_time := now + duration } ∧
        (∀ j, j ≠ d.toNat →
          (io_request io pcbs p d duration now).2.1.devices j = io.devices j) ∧
        (io_request io pcbs p d duration now).2.1.io_queue = io.io_queue) ∧
      ((io.devices d.toNat).is_busy = true →
        (io_request io pcbs p d duration now).1 = false ∧
        (io_request io pcbs p d duration now).2.1.io_queue.nodes = io.io_queue.nodes ++ [p] ∧
        (io_request io pcbs p d duration now).2.1.io_queue.size = io.io_queue.size + 1 ∧
        (io_request io pcbs p d duration now).2.1.devices = io.devices)) := by
  constructor
  · intro hd
    unfold io_request
    rw [if_pos hd]
  · intro hd _ _
    cases hb : (io.devices d.toNat).is_busy with
    | false =>
      have he : io_request io pcbs p d duration now
          = (true,
              { io with
                devices := Function.update io.devices d.toNat
                  { io.devices d.toNat with
                    is_busy := true
                    current_process := some p
                    end_time := now + duration } },
              pcb_set_state
                (Function.update pcbs p
                  { pcbs p with io_device := d, io_end_time := now + duration })
                p ProcessState.STATE_BLOCKED) := by
        unfold io_request
        rw [if_neg hd]
        simp only [hb, if_true]
      rw [he]
      refine ⟨by simp [pcb_set_state], ?_, rfl, ?_, ?_⟩
      · intro q hq
        simp [pcb_set_state, Function.update_noteq hq]
      · intro _
        refine ⟨rfl, by simp [hb], ?_, rfl⟩
        intro j hj
        simp [Function.update_noteq hj]
      · intro hc
        exact absurd hc (by decide)
    | true =>
      have he : io_request io pcbs p d duration now
          = (false, { io with io_queue := queue_enqueue io.io_queue p },
              pcb_set_state
                (Function.update pcbs p
                  { pcbs p with io_device := d, io_end_time := now + duration })
                p ProcessState.STATE_BLOCKED) := by
        unfold io_request
        rw [if_neg hd]
        simp only [hb]
        rfl
      rw [he]
      refine ⟨by simp [pcb_set_state], ?_, rfl, ?_, ?_⟩
      · intro q hq
        simp [pcb_set_state, Function.update_noteq hq]
      · intro hc
        exact absurd hc (by decide)
      · intro _
        exact ⟨rfl, rfl, rfl, rfl⟩

/-- C21 at the manager of four idle devices: the request of the PCB 1 for the device 0
at tick 0 with duration 5 returns true, blocks the PCB until tick 5 and makes the device
busy until tick 5; the request of the PCB 2 for the same device at tick 3 with duration
7 then returns false, blocks the PCB until tick 10 and appends it to the wait queue; a
request for the device 4, which does not exist, returns false and changes nothing. -/
theorem C21_io_request_witness :
    (¬ ((0 : Int) < 0 ∨ (0 : Int) ≥ (io_init 4 memory_example).device_count) ∧
      INT_MIN ≤ (0 : Int) + 5 ∧ (0 : Int) + 5 ≤ INT_MAX ∧
      ((io_init 4 memory_example).devices (0 : Int).toNat).is_busy = false ∧
      (io_request (io_init 4 memory_example) pcbs_example 1 0 5 0).1 = true ∧
      (io_request (io_init 4 memory_example) pcbs_example 1 0 5 0).2.2 1
        = { pcbs_example 1 with
            io_device := 0, io_end_time := 5, state := ProcessState.STATE_BLOCKED } ∧
      (pcbs_example 1).state = ProcessState.STATE_NEW ∧
      (io_request (io_init 4 memory_example) pcbs_example 1 0 5 0).2.1.devices (0 : Int).toNat
        = { device_id := 0, is_busy := true, current_process := some 1, end_time := 5 } ∧
      (io_request (io_init 4 memory_example) pcbs_example 1 0 5 0).2.1.io_queue
        = (io_init 4 memory_example).io_queue) ∧
    (¬ ((0 : Int) < 0 ∨
        (0 : Int) ≥ (io_request (io_init 4 memory_example) pcbs_example 1 0 5 0).2.1.device_count) ∧
      INT_MIN ≤ (3 : Int) + 7 ∧ (3 : Int) + 7 ≤ INT_MAX ∧
      ((io_request (io_init 4 memory_example) pcbs_example 1 0 5 0).2.1.devices
        (0 : Int).toNat).is_busy = true ∧
      (io_request (io_request (io_init 4 memory_example) pcbs_example 1 0 5 0).2.1
        (io_request (io_init 4 memory_example) pcbs_example 1 0 5 0).2.2 2 0 7 3).1 = false ∧
      ((io_request (io_request (io_init 4 memory_example) pcbs_example 1 0 5 0).2.1
        (io_request (io_init 4 memory_example) pcbs_example 1 0 5 0).2.2 2 0 7 3).2.2
          2).io_end_time = 10 ∧
      ((io_request (io_request (io_init 4 memory_example) pcbs_example 1 0 5 0).2.1
        (io_request (io_init 4 memory_example) pcbs_example 1 0 5 0).2.2 2 0 7 3).2.2
          2).state = ProcessState.STATE_BLOCKED ∧
      (io_request (io_request (io_init 4 memory_example) pcbs_example 1 0 5 0).2.1
        (io_request (io_init 4 memory_example) pcbs_example 1 0 5 0).2.2 2 0 7 3).2.1.io_queue.nodes
        = [2] ∧
      (io_request (io_request (io_init 4 memory_example) pcbs_example 1 0 5 0).2.1
        (io_request (io_init 4 memory_example) pcbs_example 1 0 5 0).2.2 2 0 7 3).2.1.devices
        = (io_request (io_init 4 memory_example) pcbs_example 1 0 5 0).2.1.devices) ∧
    io_request (io_init 4 memory_example) pcbs_example 1 4 5 0
      = (false, io_init 4 memory_example, pcbs_example) :=
  have h := (C21_io_request (io_init 4 memory_example) pcbs_example 1 0 5 0).2
    (by decide) (by decide) (by decide)
  have g := (C21_io_request (io_request (io_init 4 memory_example) pcbs_example 1 0 5 0).2.1
    (io_request (io_init 4 memory_example) pcbs_example 1 0 5 0).2.2 2 0 7 3).2
    (by decide) (by decide) (by decide)
  ⟨⟨by decide, by decide, by decide, rfl, (h.2.2.2.1 rfl).1, h.1, rfl,
      (h.2.2.2.1 rfl).2.1, (h.2.2.2.1 rfl).2.2.2⟩,
    ⟨by decide, by decide, by decide, rfl, (g.2.2.2.2 rfl).1,
      congrArg PCB.io_end_time g.1, congrArg PCB.state g.1,
      (g.2.2.2.2 rfl).2.1, (g.2.2.2.2 rfl).2.2.2⟩,
    (C21_io_request (io_init 4 memory_example) pcbs_example 1 4 5 0).1 (by decide)⟩

theorem io_update_device_idle (now : Int) (i : Nat) (st : IOManager × PCBStore)
    (h : (st.1.devices i).is_busy = false ∨ (st.1.devices i).end_time > now) :
    io_update_device now i st = st := by
  unfold io_update_device
  rw [if_neg]
  rintro ⟨hb, he⟩
  rcases h with h | h
  · rw [h] at hb
    exact absurd hb (by decide)
  · omega

theorem io_update_device_due (now : Int) (i : Nat) (st : IOManager × PCBStore)
    (hb : (st.1.devices i).is_busy = true) (he : (st.1.devices i).end_time ≤ now) :
    (io_update_device now i st).2 = io_complete st.2 (st.1.devices i).current_process ∧
    (io_update_device now i st).1.io_queue = (queue_dequeue st.1.io_queue).2 ∧
    (io_update_device now i st).1.device_count = st.1.device_count ∧
    (∀ j, j ≠ i → (io_update_device now i st).1.devices j = st.1.devices j) ∧
    (io_update_device now i st).1.devices i
      = (match (queue_dequeue st.1.io_queue).1 with
        | none =>
          { device_id := (st.1.devices i).device_id, is_busy := false,
            current_process := none, end_time := -1 }
        | some next =>
          if (io_complete st.2 (st.1.devices i).current_process next).io_device = i then
            { device_id := (st.1.devices i).device_id, is_busy := true,
              current_process := some next,
              end_time :=
                (io_complete st.2 (st.1.devices i).current_process next).io_end_time }
          else
            { device_id := (st.1.devices i).device_id, is_busy := false,
              current_process := none, end_time := -1 }) := by
  unfold io_update_device
  rw [if_pos ⟨hb, he⟩]
  simp only
  rcases hq : queue_dequeue st.1.io_queue with ⟨_ | next, queue⟩
  · simp only
    refine ⟨trivial, trivial, trivial, ?_, by simp⟩
    intro j hj
    simp [Function.update_noteq hj]
  · simp only
    split
    · refine ⟨rfl, rfl, rfl, ?_, by simp⟩
      intro j hj
      simp [Function.update_noteq hj]
    · refine ⟨rfl, rfl, rfl, ?_, by simp⟩
      intro j hj
      simp [Function.update_noteq hj]

theorem io_update_device_other (now : Int) (i j : Nat) (st : IOManager × PCBStore)
    (hj : j ≠ i) : (io_update_device now i st).1.devices j = st.1.devices j := by
  by_cases h : (st.1.devices i).is_busy = true ∧ (st.1.devices i).end_time ≤ now
  · exact (io_update_device_due now i st h.1 h.2).2.2.2.1 j hj
  · rw [io_update_device_idle now i st]
    by_cases hb : (st.1.devices i).is_busy = true
    · exact Or.inr (not_le.mp (fun he => h ⟨hb, he⟩))
    · exact Or.inl (by simpa using hb)

theorem io_update_fold_idle (now : Int) (j : Nat) (io : IOManager) (pcbs : PCBStore)
    (h : (io.devices j).is_busy = false ∨ (io.devices j).end_time > now) (n : Nat) :
    ((List.range n).foldl (fun st i => io_update_device now i st) (io, pcbs)).1.devices j
      = io.devices j := by
  induction n with
  | zero => rfl
  | succ n ih =>
    rw [List.range_succ, List.foldl_append]
    simp only [List.foldl_cons, List.foldl_nil]
    by_cases hn : j = n
    · subst hn
      rw [io_update_device_idle now j _ (by rw [ih]; exact h)]
      exact ih
    · rw [io_update_device_other now n j _ hn]
      exact ih

theorem io_complete_other (pcbs : PCBStore) (holder : Option Nat) (q : Nat)
    (h : holder ≠ some q) : io_complete pcbs holder q = pcbs q := by
  unfold io_complete
  cases holder with
  | none => rfl
  | some p =>
    have hne : q ≠ p := fun e => h (by rw [e])
    simp [pcb_set_state, Function.update_noteq hne]

theorem io_complete_holder (pcbs : PCBStore) (p : Nat) :
    io_complete pcbs (some p) p
      = { pcbs p with io_device := -1, io_end_time := -1, state := ProcessState.STATE_READY } := by
  simp [io_complete, pcb_set_state]

/-- C22: `io_update(io, now)` visits the devices in index order.  A device that is idle
or has `end_time > now` is left unchanged and nothing is popped for it.  For a busy
device `i` with `end_time <= now`: the holder becomes `READY` with `io_device = -1` and
`io_end_time = -1` and no other PCB changes; the head of the wait queue, if any, is
removed; no other device changes; if the `io_device` of that head is then `i`, the head
becomes the holder of device `i`, busy until the head's own stored `io_end_time`, and
the PCB of the head is left as it was (so `BLOCKED` stays `BLOCKED`); otherwise the
device is idle.  When two PCBs requested device 0 at tick 0, for 5 and 7 ticks, the
update at tick 5 makes the first `READY` and the second, still `BLOCKED`, the holder
until tick 7. -/
theorem C22_io_update (io : IOManager) (pcbs : PCBStore) (now : Int) :
    io_update io pcbs now
      = (List.range io.device_count.toNat).foldl
          (fun st i => io_update_device now i st) (io, pcbs) ∧
    (∀ (i : Nat) (st : IOManager × PCBStore),
      ((st.1.devices i).is_busy = false ∨ (st.1.devices i).end_time > now) →
      io_update_device now i st = st) ∧
    (∀ j : Nat, ((io.devices j).is_busy = false ∨ (io.devices j).end_time > now) →
      (io_update io pcbs now).1.devices j = io.devices j) ∧
    (∀ (i : Nat) (st : IOManager × PCBStore),
      (st.1.devices i).is_busy = true → (st.1.devices i).end_time ≤ now →
      (∀ h, (st.1.devices i).current_process = some h →
        (io_update_device now i st).2 h
          = { st.2 h with
              io_device := -1, io_end_time := -1, state := ProcessState.STATE_READY }) ∧
      (∀ q, (st.1.devices i).current_process ≠ some q →
        (io_update_device now i st).2 q = st.2 q) ∧
      (io_update_device now i st).1.io_queue = (queue_dequeue st.1.io_queue).2 ∧
      (∀ j, j ≠ i → (io_update_device now i st).1.devices j = st.1.devices j) ∧
      (∀ next, (queue_dequeue st.1.io_queue).1 = some next →
        ((io_update_device now i st).2 next).io_device = i →
        (io_update_device now i st).1.devices i
          = { device_id := (st.1.devices i).device_id, is_busy := true,
              current_process := some next, end_time := (st.2 next).io_end_time } ∧
        (io_update_device now i st).2 next = st.2 next ∧
        ((st.2 next).state = ProcessState.STATE_BLOCKED →
          ((io_update_device now i st).2 next).state = ProcessState.STATE_BLOCKED)) ∧
      (((queue_dequeue st.1.io_queue).1 = none ∨
          ∃ next, (queue_dequeue st.1.io_queue).1 = some next ∧
            ((io_update_device now i st).2 next).io_device ≠ i) →
        (io_update_device now i st).1.devices i
          = { device_id := (st.1.devices i).device_id, is_busy := false,
              current_process := none, end_time := -1 })) ∧
    ((io_update io_two_requests.2.1 io_two_requests.2.2 5).2 1
        = { pcbs_example 1 with
            io_device := -1, io_end_time := -1, state := ProcessState.STATE_READY } ∧
      (io_update io_two_requests.2.1 io_two_requests.2.2 5).1.devices 0
        = { device_id := 0, is_busy := true, current_process := some 2, end_time := 7 } ∧
      (io_update io_two_requests.2.1 io_two_requests.2.2 5).2 2
        = { pcbs_example 2 with
            io_device := 0, io_end_time := 7, state := ProcessState.STATE_BLOCKED } ∧
      (io_update io_two_requests.2.1 io_two_requests.2.2 5).1.io_queue.nodes = []) := by
  refine ⟨rfl, io_update_device_idle now, ?_, ?_, ?_⟩
  · intro j hj
    exact io_update_fold_idle now j io pcbs hj _
  · intro i st hb he
    obtain ⟨h1, h2, -, h4, h5⟩ := io_update_device_due now i st hb he
    refine ⟨?_, ?_, h2, h4, ?_, ?_⟩
    · intro h hh
      rw [h1, hh]
      exact io_complete_holder st.2 h
    · intro q hq
      rw [h1]
      exact io_complete_other st.2 _ q hq
    · intro next hn hd
      have hne : (st.1.devices i).current_process ≠ some next := by
        intro hh
        rw [h1, hh, io_complete_holder] at hd
        simp only at hd
        omega
      have hsame : (io_update_device now i st).2 next = st.2 next := by
        rw [h1]
        exact io_complete_other st.2 _ next hne
      rw [h1] at hd
      rw [h5, hn]
      simp only [hd, if_true]
      rw [io_complete_other st.2 _ next hne]
      refine ⟨rfl, hsame, ?_⟩
      intro hs
      rw [hsame]
      exact hs
    · rintro (hn | ⟨next, hn, hd⟩)
      · rw [h5, hn]
      · rw [h1] at hd
        rw [h5, hn]
        simp only [hd, if_false]
  · decide

/-- C23 fails on the code: at the head of tick 5 of the run `sim_io_due` the PCB at
address 1 is `BLOCKED` and holds device 0, whose `end_time` is 5.  At the end of
`check_and_unblock_processes` the PCB is `READY`, but the ready queue is empty and the
trace holds no `IO_COMPLETE` record; the PCB is never dispatched again: when the loop
stops at tick 100 it is still `READY` with 8 ticks of work left. -/
theorem C23_holder_not_requeued :
    (sim_io_due.current_time = 5 ∧
      sim_io_due.io_manager.devices 0
        = { device_id := 0, is_busy := true, current_process := some 1, end_time := 5 } ∧
      (sim_io_due.pcbs 1).state = ProcessState.STATE_BLOCKED ∧
      sim_io_due.processes = [1]) ∧
    ((final (check_and_unblock_processes sim_io_due) sim_io_due).pcbs 1).state
        = ProcessState.STATE_READY ∧
    (final (check_and_unblock_processes sim_io_due) sim_io_due).scheduler.ready_queue.nodes
        = [] ∧
    (final (check_and_unblock_processes sim_io_due) sim_io_due).scheduler.current_process
        = none ∧
    (final (check_and_unblock_processes sim_io_due) sim_io_due).trace_manager.events.map
        (fun e => e.event_type)
      = [EventType.ARRIVAL, EventType.IO_REQUEST, EventType.EXECUTE] ∧
    ((main_loop rand_zero 95 sim_io_due).current_time = 100 ∧
      ((main_loop rand_zero 95 sim_io_due).pcbs 1).state = ProcessState.STATE_READY ∧
      ((main_loop rand_zero 95 sim_io_due).pcbs 1).remaining_time = 8 ∧
      (main_loop rand_zero 95 sim_io_due).trace_manager.events.map (fun e => e.event_type)
        = [EventType.ARRIVAL, EventType.IO_REQUEST, EventType.EXECUTE]) := by
  decide!

/-! ### The policy and the quantum never change -/

theorem scheduler_get_next_const (sched : Scheduler) (pcbs : PCBStore) (now : Int) :
    (scheduler_get_next sched pcbs now).2.1.type = sched.type ∧
    (scheduler_get_next sched pcbs now).2.1.quantum = sched.quantum := by
  unfold scheduler_get_next
  split
  · exact ⟨rfl, rfl⟩
  · rcases hq : queue_dequeue sched.ready_queue with ⟨_ | next, queue⟩
    · exact ⟨rfl, rfl⟩
    · simp only
      have h := save_previous_spec { sched with ready_queue := queue } pcbs next
      exact ⟨h.1, h.2.1⟩

theorem scheduler_preempt_const (sched : Scheduler) (pcbs : PCBStore) :
    (scheduler_preempt sched pcbs).1.type = sched.type ∧
    (scheduler_preempt sched pcbs).1.quantum = sched.quantum := by
  unfold scheduler_preempt
  cases sched.current_process with
  | none => exact ⟨rfl, rfl⟩
  | some pcb =>
    simp only
    split
    · split
      · have h := scheduler_add_process_fields sched
          (pcb_set_state pcbs pcb ProcessState.STATE_READY) pcb
        exact ⟨h.1, h.2.1⟩
      · exact ⟨rfl, rfl⟩
    · exact ⟨rfl, rfl⟩

theorem SchedConst_atom (ty : SchedulerType) (q : Int) (f : Sim → Sim) (s : Sim)
    (hs : SchedConst ty q s)
    (h : (f s).scheduler.type = s.scheduler.type ∧ (f s).scheduler.quantum = s.scheduler.quantum) :
    ∀ t ∈ atom f s, SchedConst ty q t := by
  intro t ht
  simp only [atom, List.mem_singleton] at ht
  rw [ht]
  exact ⟨h.1.trans hs.1, h.2.trans hs.2⟩

theorem SchedConst_add (ty : SchedulerType) (q : Int) (p : Nat) :
    Keeps (SchedConst ty q)
      (atom (fun t => { t with scheduler := scheduler_add_process t.scheduler t.pcbs p })) := by
  intro s hs
  refine SchedConst_atom ty q _ s hs ?_
  have h := scheduler_add_process_fields s.scheduler s.pcbs p
  exact ⟨h.1, h.2.1⟩

theorem admission_const (ty : SchedulerType) (q : Int) (p : Nat) :
    Keeps (SchedConst ty q) (admission p) := by
  intro s hs
  unfold admission
  split
  · refine Keeps_block _ _ ?_ s hs
    intro b hb
    simp only [List.mem_cons, List.mem_singleton, List.not_mem_nil, or_false] at hb
    rcases hb with rfl | rfl | rfl
    · exact fun u hu => SchedConst_atom ty q _ u hu ⟨rfl, rfl⟩
    · exact SchedConst_add ty q p
    · exact fun u hu => SchedConst_atom ty q _ u hu ⟨rfl, rfl⟩
  · exact fun t ht => absurd ht (List.not_mem_nil t)

theorem unblock_const (ty : SchedulerType) (q : Int) (p : Nat) :
    Keeps (SchedConst ty q) (unblock p) := by
  intro s hs
  unfold unblock
  split
  · split
    · refine Keeps_block _ _ ?_ s hs
      intro b hb
      simp only [List.mem_cons, List.mem_singleton, List.not_mem_nil, or_false] at hb
      rcases hb with rfl | rfl | rfl | rfl | rfl
      · exact fun u hu => SchedConst_atom ty q _ u hu ⟨rfl, rfl⟩
      · exact fun u hu => SchedConst_atom ty q _ u hu ⟨rfl, rfl⟩
      · exact fun u hu => SchedConst_atom ty q _ u hu ⟨rfl, rfl⟩
      · exact SchedConst_add ty q p
      · exact fun u hu => SchedConst_atom ty q _ u hu ⟨rfl, rfl⟩
    · exact fun t ht => absurd ht (List.not_mem_nil t)
  · exact fun t ht => absurd ht (List.not_mem_nil t)

theorem check_and_unblock_processes_const (ty : SchedulerType) (q : Int) :
    Keeps (SchedConst ty q) check_and_unblock_processes := by
  intro s hs
  unfold check_and_unblock_processes
  refine Keeps_seq_at _ _ _ ?_ ?_ s hs
  · exact fun u hu => SchedConst_atom ty q _ u hu ⟨rfl, rfl⟩
  · exact fun u hu => Keeps_for_each _ unblock u.processes (unblock_const ty q) u hu

theorem update_wait_times_const (ty : SchedulerType) (q : Int) :
    Keeps (SchedConst ty q) update_wait_times := by
  intro s hs
  unfold update_wait_times
  refine Keeps_for_each _ update_wait_time s.processes ?_ s hs
  intro p u hu
  unfold update_wait_time
  split
  · exact SchedConst_atom ty q _ u hu ⟨rfl, rfl⟩
  · split
    · exact SchedConst_atom ty q _ u hu ⟨rfl, rfl⟩
    · exact fun t ht => absurd ht (List.not_mem_nil t)

theorem simulate_action_const (rand : Nat → Nat) (c : Nat) (ty : SchedulerType) (q : Int) :
    Keeps (SchedConst ty q) (simulate_action rand c) := by
  intro s hs
  unfold simulate_action
  refine Keeps_seq_at _ _ _ ?_ ?_ s hs
  · exact fun u hu => SchedConst_atom ty q _ u hu ⟨rfl, rfl⟩
  · intro t ht
    beta_reduce
    split
    · unfold simulate_io
      refine Keeps_block _ _ ?_ t ht
      intro b hb
      simp only [List.mem_cons, List.mem_singleton, List.not_mem_nil, or_false] at hb
      rcases hb with rfl | rfl | rfl | rfl <;>
        exact fun u hu => SchedConst_atom ty q _ u hu ⟨rfl, rfl⟩
    · split
      · unfold simulate_mutex
        refine Keeps_seq_at _ _ _ ?_ ?_ t ht
        · exact fun u hu => SchedConst_atom ty q _ u hu ⟨rfl, rfl⟩
        · intro u hu
          beta_reduce
          split
          · exact fun v hv => absurd hv (List.not_mem_nil v)
          · split
            · refine Keeps_block _ _ ?_ u hu
              intro b hb
              simp only [List.mem_cons, List.mem_singleton, List.not_mem_nil, or_false] at hb
              rcases hb with rfl | rfl <;>
                exact fun v hv => SchedConst_atom ty q _ v hv ⟨rfl, rfl⟩
            · exact fun v hv => absurd hv (List.not_mem_nil v)
      · split
        · unfold simulate_semaphore
          refine Keeps_seq_at _ _ _ ?_ ?_ t ht
          · exact fun u hu => SchedConst_atom ty q _ u hu ⟨rfl, rfl⟩
          · intro u hu
            beta_reduce
            split
            · exact fun v hv => absurd hv (List.not_mem_nil v)
            · refine Keeps_block _ _ ?_ u hu
              intro b hb
              simp only [List.mem_cons, List.mem_singleton, List.not_mem_nil, or_false] at hb
              rcases hb with rfl | rfl <;>
                exact fun v hv => SchedConst_atom ty q _ v hv ⟨rfl, rfl⟩
        · exact fun u hu => absurd hu (List.not_mem_nil u)

theorem after_slice_const (c : Nat) (ty : SchedulerType) (q : Int) :
    Keeps (SchedConst ty q) (after_slice c) := by
  intro s hs
  unfold after_slice
  split
  · refine Keeps_block _ _ ?_ s hs
    intro b hb
    simp only [List.mem_cons, List.mem_singleton, List.not_mem_nil, or_false] at hb
    rcases hb with rfl | rfl | rfl | rfl | rfl <;>
      exact fun u hu => SchedConst_atom ty q _ u hu ⟨rfl, rfl⟩
  · split
    · exact SchedConst_atom ty q _ s hs ⟨rfl, rfl⟩
    · split
      · exact SchedConst_atom ty q _ s hs (scheduler_preempt_const s.scheduler s.pcbs)
      · exact fun t ht => absurd ht (List.not_mem_nil t)

theorem run_current_const (rand : Nat → Nat) (c : Nat) (ty : SchedulerType) (q : Int) :
    Keeps (SchedConst ty q) (run_current rand c) := by
  intro s hs
  unfold run_current
  refine Keeps_block _ _ ?_ s hs
  intro b hb
  simp only [List.mem_cons, List.mem_singleton, List.not_mem_nil, or_false] at hb
  rcases hb with rfl | rfl | rfl | rfl
  · intro u hu
    unfold simulate_process_execution
    refine Keeps_block _ _ ?_ u hu
    intro b hb
    simp only [List.mem_cons, List.mem_singleton, List.not_mem_nil, or_false] at hb
    rcases hb with rfl | rfl | rfl
    · exact fun v hv => SchedConst_atom ty q _ v hv ⟨rfl, rfl⟩
    · exact fun v hv => SchedConst_atom ty q _ v hv ⟨rfl, rfl⟩
    · exact simulate_action_const rand c ty q
  · intro u hu
    beta_reduce
    split
    · exact SchedConst_atom ty q _ u hu ⟨rfl, rfl⟩
    · exact fun t ht => absurd ht (List.not_mem_nil t)
  · exact fun u hu => SchedConst_atom ty q _ u hu ⟨rfl, rfl⟩
  · exact after_slice_const c ty q

theorem dispatch_const (rand : Nat → Nat) (ty : SchedulerType) (q : Int) :
    Keeps (SchedConst ty q) (dispatch rand) := by
  intro s hs
  unfold dispatch
  refine Keeps_seq_at _ _ _ ?_ ?_ s hs
  · intro u hu
    exact SchedConst_atom ty q _ u hu
      (scheduler_get_next_const u.scheduler u.pcbs u.current_time)
  · intro u hu
    beta_reduce
    split
    · exact fun t ht => absurd ht (List.not_mem_nil t)
    · split
      · exact run_current_const rand _ ty q u hu
      · exact fun t ht => absurd ht (List.not_mem_nil t)

theorem loop_body_const (rand : Nat → Nat) (ty : SchedulerType) (q : Int) :
    Keeps (SchedConst ty q) (loop_body rand) := by
  unfold loop_body
  refine Keeps_block _ _ ?_
  intro b hb
  simp only [List.mem_cons, List.mem_singleton, List.not_mem_nil, or_false] at hb
  rcases hb with rfl | rfl | rfl | rfl | rfl
  · exact fun s hs => Keeps_for_each _ admission s.processes (admission_const ty q) s hs
  · exact check_and_unblock_processes_const ty q
  · exact dispatch_const rand ty q
  · exact update_wait_times_const ty q
  · exact fun u hu => SchedConst_atom ty q _ u hu ⟨rfl, rfl⟩

theorem main_loop_const (rand : Nat → Nat) (ty : SchedulerType) (q : Int) (n : Nat) (s : Sim)
    (hs : SchedConst ty q s) : SchedConst ty q (main_loop rand n s) := by
  induction n generalizing s with
  | zero => exact hs
  | succ n ih =>
    unfold main_loop
    split
    · exact ih _ (Keeps_final _ _ (loop_body_const rand ty q) s hs)
    · exact hs

/-! ### Runs in which no random event fires -/

theorem simulate_action_quiet (rand : Nat → Nat) (c : Nat) (s : Sim)
    (h : (s.pcbs c).remaining_time ≤ 0 ∨ 40 ≤ rand s.rand_calls % 100) :
    simulate_action rand c s = [{ s with rand_calls := s.rand_calls + 1 }] := by
  simp only [simulate_action, seq, atom, final, List.singleton_append, List.cons.injEq,
    true_and]
  rw [if_neg, if_neg, if_neg]
  · rintro ⟨h1, -, h2⟩
    rcases h with h | h <;> omega
  · rintro ⟨h1, -, h2⟩
    rcases h with h | h <;> omega
  · rintro ⟨h1, h2⟩
    rcases h with h | h <;> omega

theorem simulate_process_execution_congr (rand rand2 : Nat → Nat) (c : Nat) (s : Sim)
    (h : s.scheduler.type ≠ SchedulerType.SCHED_RR ∨
      (40 ≤ rand s.rand_calls % 100 ∧ 40 ≤ rand2 s.rand_calls % 100)) :
    simulate_process_execution rand c (time_slice s.scheduler (s.pcbs c).remaining_time) s
      = simulate_process_execution rand2 c
          (time_slice s.scheduler (s.pcbs c).remaining_time) s := by
  have hq : ∀ r : Nat → Nat, (s.scheduler.type ≠ SchedulerType.SCHED_RR ∨
      40 ≤ r s.rand_calls % 100) →
      ((s.pcbs c).remaining_time
          - execution (time_slice s.scheduler (s.pcbs c).remaining_time)
              (s.pcbs c).remaining_time ≤ 0 ∨
        40 ≤ r s.rand_calls % 100) := by
    intro r hr
    rcases hr with hr | hr
    · rcases slice_ends s.scheduler (s.pcbs c).remaining_time with h1 | ⟨h1, -⟩
      · exact Or.inl h1
      · exact absurd h1 hr
    · exact Or.inr hr
  simp only [simulate_process_execution, block, seq, atom, final, skip]
  rw [simulate_action_quiet rand c, simulate_action_quiet rand2 c]
  · simpa [assign_pcb] using hq rand2 (h.imp id (fun h => h.2))
  · simpa [assign_pcb] using hq rand (h.imp id (fun h => h.1))

theorem run_current_congr (rand rand2 : Nat → Nat) (c : Nat) (s : Sim)
    (h : s.scheduler.type ≠ SchedulerType.SCHED_RR ∨
      (40 ≤ rand s.rand_calls % 100 ∧ 40 ≤ rand2 s.rand_calls % 100)) :
    run_current rand c s = run_current rand2 c s := by
  unfold run_current
  show seq _ _ s = seq _ _ s
  unfold seq
  rw [simulate_process_execution_congr rand rand2 c s h]

theorem dispatch_congr (rand rand2 : Nat → Nat) (s : Sim)
    (h : s.scheduler.type ≠ SchedulerType.SCHED_RR ∨
      ∀ k, 40 ≤ rand k % 100 ∧ 40 ≤ rand2 k % 100) :
    dispatch rand s = dispatch rand2 s := by
  unfold dispatch seq
  congr 1
  beta_reduce
  cases (scheduler_get_next s.scheduler s.pcbs s.current_time).1 with
  | none => rfl
  | some c =>
    simp only
    split
    · refine run_current_congr rand rand2 c _ ?_
      rcases h with h | h
      · left
        show (scheduler_get_next s.scheduler s.pcbs s.current_time).2.1.type ≠ _
        rw [(scheduler_get_next_const s.scheduler s.pcbs s.current_time).1]
        exact h
      · exact Or.inr (h _)
    · rfl

theorem loop_body_congr (rand rand2 : Nat → Nat) (s : Sim)
    (h : s.scheduler.type ≠ SchedulerType.SCHED_RR ∨
      ∀ k, 40 ≤ rand k % 100 ∧ 40 ≤ rand2 k % 100) :
    loop_body rand s = loop_body rand2 s := by
  have hadm : Keeps (SchedConst s.scheduler.type s.scheduler.quantum)
      (fun u => for_each admission u.processes u) :=
    fun u hu => Keeps_for_each _ admission u.processes (admission_const _ _) u hu
  have h1 := Keeps_final _ _ hadm s ⟨rfl, rfl⟩
  have h2 := Keeps_final _ _
    (check_and_unblock_processes_const s.scheduler.type s.scheduler.quantum) _ h1
  simp only [loop_body, block, seq]
  rw [dispatch_congr rand rand2]
  rcases h with h | h
  · left
    rw [h2.1]
    exact h
  · exact Or.inr h

theorem main_loop_congr (rand rand2 : Nat → Nat) (n : Nat) (s : Sim)
    (h : s.scheduler.type ≠ SchedulerType.SCHED_RR ∨
      ∀ k, 40 ≤ rand k % 100 ∧ 40 ≤ rand2 k % 100) :
    main_loop rand n s = main_loop rand2 n s := by
  induction n generalizing s with
  | zero => rfl
  | succ n ih =>
    unfold main_loop
    rw [loop_body_congr rand rand2 s h]
    split
    · refine ih _ ?_
      rcases h with h | h
      · left
        rw [(Keeps_final _ _
          (loop_body_const rand2 s.scheduler.type s.scheduler.quantum) s ⟨rfl, rfl⟩).1]
        exact h
      · exact Or.inr h
    · rfl

theorem calls_atom (k : Nat) (f : Sim → Sim) (s : Sim) (hs : s.rand_calls = k)
    (h : (f s).rand_calls = s.rand_calls) : ∀ t ∈ atom f s, t.rand_calls = k := by
  intro t ht
  simp only [atom, List.mem_singleton] at ht
  rw [ht]
  exact h.trans hs

theorem admission_calls (k : Nat) (p : Nat) :
    Keeps (fun t => t.rand_calls = k) (admission p) := by
  intro s hs
  unfold admission
  split
  · refine Keeps_block _ _ ?_ s hs
    intro b hb
    simp only [List.mem_cons, List.mem_singleton, List.not_mem_nil, or_false] at hb
    rcases hb with rfl | rfl | rfl <;> exact fun u hu => calls_atom k _ u hu rfl
  · exact fun t ht => absurd ht (List.not_mem_nil t)

theorem check_and_unblock_processes_calls (k : Nat) :
    Keeps (fun t => t.rand_calls = k) check_and_unblock_processes := by
  intro s hs
  unfold check_and_unblock_processes
  refine Keeps_seq_at _ _ _ ?_ ?_ s hs
  · exact fun u hu => calls_atom k _ u hu rfl
  · intro u hu
    refine Keeps_for_each _ unblock u.processes ?_ u hu
    intro p v hv
    unfold unblock
    split
    · split
      · refine Keeps_block _ _ ?_ v hv
        intro b hb
        simp only [List.mem_cons, List.mem_singleton, List.not_mem_nil, or_false] at hb
        rcases hb with rfl | rfl | rfl | rfl | rfl <;>
          exact fun u hu => calls_atom k _ u hu rfl
      · exact fun t ht => absurd ht (List.not_mem_nil t)
    · exact fun t ht => absurd ht (List.not_mem_nil t)

theorem dispatch_congr_at (rand rand2 : Nat → Nat) (s : Sim)
    (h : 40 ≤ rand s.rand_calls % 100 ∧ 40 ≤ rand2 s.rand_calls % 100) :
    dispatch rand s = dispatch rand2 s := by
  unfold dispatch seq
  congr 1
  beta_reduce
  cases (scheduler_get_next s.scheduler s.pcbs s.current_time).1 with
  | none => rfl
  | some c =>
    simp only
    split
    · exact run_current_congr rand rand2 c _ (Or.inr h)
    · rfl

theorem loop_body_congr_at (rand rand2 : Nat → Nat) (s : Sim)
    (h : 40 ≤ rand s.rand_calls % 100 ∧ 40 ≤ rand2 s.rand_calls % 100) :
    loop_body rand s = loop_body rand2 s := by
  have hadm : Keeps (fun t => t.rand_calls = s.rand_calls)
      (fun u => for_each admission u.processes u) :=
    fun u hu => Keeps_for_each _ admission u.processes (admission_calls _) u hu
  have h1 := Keeps_final _ _ hadm s rfl
  have h2 := Keeps_final _ _ (check_and_unblock_processes_calls s.rand_calls) _ h1
  simp only [loop_body, block, seq]
  rw [dispatch_congr_at rand rand2]
  rw [h2]
  exact h

theorem main_loop_congr_at (rand rand2 : Nat → Nat) (n : Nat) (s : Sim)
    (h : ∀ j, j < n → loop_test (main_loop rand2 j s) = true →
      40 ≤ rand (main_loop rand2 j s).rand_calls % 100 ∧
      40 ≤ rand2 (main_loop rand2 j s).rand_calls % 100) :
    main_loop rand n s = main_loop rand2 n s := by
  induction n generalizing s with
  | zero => rfl
  | succ n ih =>
    unfold main_loop
    by_cases ht : loop_test s = true
    · rw [if_pos ht, if_pos ht, loop_body_congr_at rand rand2 s (h 0 (Nat.succ_pos n) ht)]
      refine ih _ ?_
      intro j hj hl
      have h1 := h (j + 1) (Nat.succ_lt_succ hj)
      have h2 : main_loop rand2 (j + 1) s
          = main_loop rand2 j (final (loop_body rand2 s) s) := by
        show (if loop_test s = true then main_loop rand2 j (final (loop_body rand2 s) s)
          else s) = _
        rw [if_pos ht]
      rw [h2] at h1
      exact h1 hl
    · rw [if_neg ht, if_neg ht]

/-! ### C25-C27: three runs -/

/-- C25 fails on the code as stated: with every `rand()` result 0, the run under FCFS
with at most 20 ticks on the roster `pcbs_single` ends with `finish_time = 1` and one
`EXECUTE` record, not with `finish_time = 5` and five `EXECUTE` records. -/
theorem C25_counterexample :
    ((main_loop rand_zero 20 sim_single).pcbs 1).finish_time = 1 ∧
    trace_count (main_loop rand_zero 20 sim_single).trace_manager EventType.EXECUTE = 1 ∧
    ¬ (((main_loop rand_zero 20 sim_single).pcbs 1).start_time = 0 ∧
      ((main_loop rand_zero 20 sim_single).pcbs 1).finish_time = 5 ∧
      ((main_loop rand_zero 20 sim_single).pcbs 1).wait_time = 0 ∧
      trace_count (main_loop rand_zero 20 sim_single).trace_manager EventType.ARRIVAL = 1 ∧
      trace_count (main_loop rand_zero 20 sim_single).trace_manager EventType.EXECUTE = 5 ∧
      trace_count (main_loop rand_zero 20 sim_single).trace_manager EventType.TERMINATE
        = 1) := by
  decide!

/-- C25, amended: for every stream of `rand()` results, the loop run under FCFS (default
quantum) with at most 20 ticks on the roster of the one PCB with pid 1, priority 1,
5 ticks of work and arrival at tick 0 has ended after 20 turns, the PCB is `TERMINATED`
with `start_time = 0`, `finish_time = 1`, `wait_time = 0` and no work left, and the
trace holds exactly one `ARRIVAL`, one `EXECUTE` and one `TERMINATE` record: the records
`ARRIVAL` and `EXECUTE` of tick 0 and `TERMINATE` of tick 1. -/
theorem C25_single_run (rand : Nat → Nat) :
    loop_test (main_loop rand 20 sim_single) = false ∧
    ((main_loop rand 20 sim_single).pcbs 1).state = ProcessState.STATE_TERMINATED ∧
    ((main_loop rand 20 sim_single).pcbs 1).start_time = 0 ∧
    ((main_loop rand 20 sim_single).pcbs 1).finish_time = 1 ∧
    ((main_loop rand 20 sim_single).pcbs 1).wait_time = 0 ∧
    ((main_loop rand 20 sim_single).pcbs 1).remaining_time = 0 ∧
    trace_count (main_loop rand 20 sim_single).trace_manager EventType.ARRIVAL = 1 ∧
    trace_count (main_loop rand 20 sim_single).trace_manager EventType.EXECUTE = 1 ∧
    trace_count (main_loop rand 20 sim_single).trace_manager EventType.TERMINATE = 1 ∧
    trace_log (main_loop rand 20 sim_single).trace_manager
      = [(0, 1, EventType.ARRIVAL), (0, 1, EventType.EXECUTE), (1, 1, EventType.TERMINATE)] := by
  rw [main_loop_congr rand rand_zero 20 sim_single (Or.inl (by decide))]
  decide!

/-- C26 fails on the code as stated: with every `rand()` result 0, the run under the
Priority policy on the roster `pcbs_pair` ends with `finish_time = 3` for PCB 2 and
`finish_time = 1` for PCB 1, not 5 and 12. -/
theorem C26_counterexample :
    ((main_loop rand_zero 100 sim_pair).pcbs 2).finish_time = 3 ∧
    ((main_loop rand_zero 100 sim_pair).pcbs 1).finish_time = 1 ∧
    ¬ (((main_loop rand_zero 100 sim_pair).pcbs 2).finish_time = 5 ∧
      ((main_loop rand_zero 100 sim_pair).pcbs 1).finish_time = 12) := by
  decide!

/-- C26, amended: for every stream of `rand()` results, in the loop run under the
Priority policy (default quantum and time limit) on the roster of PCB 1 (priority 1,
10 ticks of work, arrival 0) and PCB 2 (priority 5, 3 ticks of work, arrival 2): PCB 1
has `start_time = 0` and `finish_time = 1`; PCB 2 is admitted at tick 2, is the next
PCB dispatched after its admission, at tick 2, and has `finish_time = 3`; both are
`TERMINATED` and the loop has ended. -/
theorem C26_priority_run (rand : Nat → Nat) :
    loop_test (main_loop rand 100 sim_pair) = false ∧
    ((main_loop rand 100 sim_pair).pcbs 1).state = ProcessState.STATE_TERMINATED ∧
    ((main_loop rand 100 sim_pair).pcbs 2).state = ProcessState.STATE_TERMINATED ∧
    ((main_loop rand 100 sim_pair).pcbs 1).start_time = 0 ∧
    ((main_loop rand 100 sim_pair).pcbs 1).finish_time = 1 ∧
    ((main_loop rand 100 sim_pair).pcbs 2).start_time = 2 ∧
    ((main_loop rand 100 sim_pair).pcbs 2).finish_time = 3 ∧
    trace_log (main_loop rand 100 sim_pair).trace_manager
      = [(0, 1, EventType.ARRIVAL), (0, 1, EventType.EXECUTE), (1, 1, EventType.TERMINATE),
         (2, 2, EventType.ARRIVAL), (2, 2, EventType.EXECUTE),
         (3, 2, EventType.TERMINATE)] := by
  rw [main_loop_congr rand rand_zero 100 sim_pair (Or.inl (by decide))]
  decide!

theorem rand_quiet_ge (k : Nat) : 40 ≤ rand_quiet k % 100 := by
  show 40 ≤ 40 % 100
  decide

/-- C27: in the loop run under Round Robin with quantum 2 (default time limit) on three
PCBs with pids 1, 2, 3, arrival at tick 0 and 6 ticks of work each, on any stream of
`rand()` results whose first 9 values, the action values that the run draws, are all at
least 40 (no I/O, mutex or semaphore event fires): the `EXECUTE` records have
the pids 1, 2, 3, 1, 2, 3, 1, 2, 3; each PCB is `TERMINATED`, its `TERMINATE` record
following at once the third `EXECUTE` record of its pid (ticks 6, 7 and 8); and
`total_context_switches` is 9, which is at least 8, when the loop has ended. -/
theorem C27_round_robin_run (rand : Nat → Nat) (h : ∀ k, k < 9 → 40 ≤ rand k % 100) :
    loop_test (main_loop rand 100 sim_trio) = false ∧
    execute_pids (main_loop rand 100 sim_trio).trace_manager = [1, 2, 3, 1, 2, 3, 1, 2, 3] ∧
    trace_log (main_loop rand 100 sim_trio).trace_manager
      = [(0, 1, EventType.ARRIVAL), (0, 2, EventType.ARRIVAL), (0, 3, EventType.ARRIVAL),
         (0, 1, EventType.EXECUTE), (1, 2, EventType.EXECUTE), (2, 3, EventType.EXECUTE),
         (3, 1, EventType.EXECUTE), (4, 2, EventType.EXECUTE), (5, 3, EventType.EXECUTE),
         (6, 1, EventType.EXECUTE), (7, 1, EventType.TERMINATE),
         (7, 2, EventType.EXECUTE), (8, 2, EventType.TERMINATE),
         (8, 3, EventType.EXECUTE), (9, 3, EventType.TERMINATE)] ∧
    ((main_loop rand 100 sim_trio).pcbs 1).state = ProcessState.STATE_TERMINATED ∧
    ((main_loop rand 100 sim_trio).pcbs 2).state = ProcessState.STATE_TERMINATED ∧
    ((main_loop rand 100 sim_trio).pcbs 3).state = ProcessState.STATE_TERMINATED ∧
    (main_loop rand 100 sim_trio).scheduler.total_context_switches = 9 ∧
    (main_loop rand 100 sim_trio).scheduler.total_context_switches ≥ 8 := by
  have hb : ∀ j, j < 100 → loop_test (main_loop rand_quiet j sim_trio) = true →
      (main_loop rand_quiet j sim_trio).rand_calls < 9 := by
    decide!
  rw [main_loop_congr_at rand rand_quiet 100 sim_trio
    (fun j hj hl => ⟨h _ (hb j hj hl), rand_quiet_ge _⟩)]
  decide!

theorem C27_round_robin_run_witness :
    (∀ k, k < 9 → 40 ≤ rand_quiet k % 100) ∧
    execute_pids (main_loop rand_quiet 100 sim_trio).trace_manager
      = [1, 2, 3, 1, 2, 3, 1, 2, 3] ∧
    (main_loop rand_quiet 100 sim_trio).scheduler.total_context_switches ≥ 8 :=
  have h := C27_round_robin_run rand_quiet (fun k _ => rand_quiet_ge k)
  ⟨fun k _ => rand_quiet_ge k, h.2.1, h.2.2.2.2.2.2.2⟩

/-! ### C29, C30: what the run keeps true -/

theorem Sound_of_Eases (roster : List Nat) (s t : Sim) (h : Eases s t)
    (hs : Sound roster s) : Sound roster t := by
  obtain ⟨h1, h2, h3, h4, h5, h6⟩ := h
  refine ⟨h1.trans hs.roster_eq, by rw [h4]; exact hs.quantum_pos, ?_, ?_, ?_, ?_, ?_,
    by rw [h5]; exact hs.nodup, ?_⟩
  · intro p hp
    rw [(h6 p).1]
    exact hs.rem_nonneg p hp
  · intro p hp hst
    rw [(h6 p).1, (h6 p).2.1, (h6 p).2.2.1]
    rcases (h6 p).2.2.2 with he | he
    · exact hs.done p hp (he ▸ hst)
    · rw [he] at hst
      exact absurd hst (by decide)
  · intro p hp hst
    rw [(h6 p).1]
    rcases (h6 p).2.2.2 with he | he
    · exact hs.waiting p hp (he ▸ hst)
    · rw [he] at hst
      rcases hst with hst | hst <;> exact absurd hst (by decide)
  · intro p hp hst
    rw [(h6 p).2.1, h2]
    rcases (h6 p).2.2.2 with he | he
    · exact hs.blocked p hp (he ▸ hst)
    · rw [he] at hst
      exact absurd hst (by decide)
  · intro q hq
    rw [h5] at hq
    obtain ⟨q1, q2, q3, q4⟩ := hs.queued q hq
    refine ⟨q1, ?_, by rw [(h6 q).1]; exact q3, by rw [(h6 q).2.1, h2]; exact q4⟩
    rcases (h6 q).2.2.2 with he | he
    · rw [he]; exact q2
    · exact he
  · intro m hm hl
    rw [h3] at hm
    obtain ⟨p, hp1, hp2, hp3⟩ := hs.owners m hm hl
    refine ⟨p, hp1, hp2, ?_⟩
    rcases (h6 p).2.2.2 with he | he
    · rw [he]; exact hp3
    · rw [he]; decide

theorem Eases_refl_fields (s t : Sim) (h1 : t.processes = s.processes)
    (h2 : t.current_time = s.current_time) (h3 : t.mutexes = s.mutexes)
    (h4 : t.scheduler.quantum = s.scheduler.quantum)
    (h5 : t.scheduler.ready_queue.nodes = s.scheduler.ready_queue.nodes)
    (h6 : t.pcbs = s.pcbs) : Eases s t :=
  ⟨h1, h2, h3, h4, h5, fun p => by rw [h6]; exact ⟨rfl, rfl, rfl, Or.inl rfl⟩⟩

theorem Eases_trace (s : Sim) (time : Int) (p : Nat) (e : EventType) (r : Int) :
    Eases s (trace_pcb time p e r s) :=
  Eases_refl_fields _ _ rfl rfl rfl rfl rfl rfl

theorem Eases_assign (s : Sim) (p : Nat) (f : PCB → PCB)
    (hf : ∀ r, (f r).remaining_time = r.remaining_time ∧
      (f r).arrival_time = r.arrival_time ∧ (f r).finish_time = r.finish_time ∧
      (f r).state = r.state) :
    Eases s (assign_pcb p f s) := by
  refine ⟨rfl, rfl, rfl, rfl, rfl, ?_⟩
  intro q
  by_cases hq : q = p
  · subst hq
    simp [assign_pcb, hf]
  · simp [assign_pcb, Function.update_noteq hq]

theorem Eases_set_ready (s : Sim) (p : Nat) :
    Eases s { s with pcbs := pcb_set_state s.pcbs p ProcessState.STATE_READY } := by
  refine ⟨rfl, rfl, rfl, rfl, rfl, ?_⟩
  intro q
  by_cases hq : q = p
  · subst hq
    simp [pcb_set_state]
  · simp [pcb_set_state, Function.update_noteq hq]

theorem Sound_tick (roster : List Nat) (s : Sim) (hs : Sound roster s) :
    Sound roster { s with current_time := s.current_time + 1 } := by
  refine ⟨hs.roster_eq, hs.quantum_pos, hs.rem_nonneg, hs.done, hs.waiting, ?_, ?_,
    hs.nodup, hs.owners⟩
  · intro p hp hst
    have := hs.blocked p hp hst
    show (s.pcbs p).arrival_time ≤ s.current_time + 1
    omega
  · intro q hq
    obtain ⟨q1, q2, q3, q4⟩ := hs.queued q hq
    refine ⟨q1, q2, q3, ?_⟩
    show (s.pcbs q).arrival_time ≤ s.current_time + 1
    omega

theorem Triple_for_each_mem (I P : Sim → Prop) (body : Nat → Block) (l : List Nat)
    (h : ∀ p ∈ l, Triple I P P (body p)) : Triple I P P (for_each body l) := by
  induction l with
  | nil => exact Triple_skip I P P (fun _ hs => hs)
  | cons p rest ih =>
    exact Triple_seq I P P P (body p) (for_each body rest) (h p (List.mem_cons_self p rest))
      (ih (fun q hq => h q (List.mem_cons_of_mem p hq)))

theorem Any_atom (P Q : Sim → Prop) (f : Sim → Sim) (h : ∀ s, P s → Q (f s)) :
    Triple Any P Q (atom f) :=
  Triple_atom Any P Q f (fun s hs => ⟨trivial, h s hs⟩)

theorem Any_nothing (Q : Sim → Prop) (s : Sim) (h : Q s) :
    (∀ t ∈ ([] : List Sim), Any t) ∧ Q (final [] s) :=
  ⟨fun t ht => absurd ht (List.not_mem_nil t), h⟩

theorem insert_by_priority_perm (pcbs : PCBStore) (p : Nat) (l : List Nat) :
    (insert_by_priority pcbs p l).Perm (p :: l) := by
  induction l with
  | nil => exact List.Perm.refl _
  | cons a rest ih =>
    unfold insert_by_priority
    split
    · exact (List.Perm.cons a ih).trans (List.Perm.swap p a rest)
    · exact List.Perm.refl _

theorem scheduler_add_process_perm (sched : Scheduler) (pcbs : PCBStore) (p : Nat) :
    (scheduler_add_process sched pcbs p).ready_queue.nodes.Perm
      (p :: sched.ready_queue.nodes) := by
  unfold scheduler_add_process
  split
  · exact insert_by_priority_perm pcbs p _
  · exact List.perm_append_singleton p _

theorem Sound_add (roster : List Nat) (p : Nat) (s : Sim) (h : Pending roster p s) :
    Sound roster { s with scheduler := scheduler_add_process s.scheduler s.pcbs p } := by
  obtain ⟨hs, hp, hst, hrem, harr, hnot⟩ := h
  have hperm := scheduler_add_process_perm s.scheduler s.pcbs p
  have hf := scheduler_add_process_fields s.scheduler s.pcbs p
  refine ⟨hs.roster_eq, by rw [show _ = _ from hf.2.1]; exact hs.quantum_pos, hs.rem_nonneg,
    hs.done, hs.waiting, hs.blocked, ?_, ?_, hs.owners⟩
  · intro q hq
    have hq2 : q ∈ p :: s.scheduler.ready_queue.nodes := hperm.mem_iff.mp hq
    rcases List.mem_cons.mp hq2 with rfl | hq3
    · exact ⟨hp, hst, hrem, harr⟩
    · exact hs.queued q hq3
  · exact hperm.nodup_iff.mpr (List.nodup_cons.mpr ⟨hnot, hs.nodup⟩)

theorem Pending_set_ready (roster : List Nat) (p : Nat) (hp : p ∈ roster) (u : Sim)
    (hu : Sound roster u)
    (hst : (u.pcbs p).state = ProcessState.STATE_NEW ∨
      (u.pcbs p).state = ProcessState.STATE_BLOCKED)
    (harr : (u.pcbs p).arrival_time ≤ u.current_time) :
    Pending roster p { u with pcbs := pcb_set_state u.pcbs p ProcessState.STATE_READY } := by
  refine ⟨Sound_of_Eases roster u _ (Eases_set_ready u p) hu, hp, by simp [pcb_set_state],
    ?_, by simpa [pcb_set_state] using harr, ?_⟩
  · have := hu.waiting p hp hst
    simpa [pcb_set_state] using this
  · intro hq
    have h2 := (hu.queued p hq).2.1
    rw [h2] at hst
    rcases hst with hst | hst <;> exact absurd hst (by decide)

theorem Sound_atom (roster : List Nat) (f : Sim → Sim) (h : ∀ s, Eases s (f s)) :
    Triple Any (Sound roster) (Sound roster) (atom f) :=
  Any_atom _ _ _ (fun s hs => Sound_of_Eases roster s (f s) (h s) hs)

theorem admission_sound (roster : List Nat) (p : Nat) (hp : p ∈ roster) :
    Triple Any (Sound roster) (Sound roster) (admission p) := by
  intro s hs
  unfold admission
  split
  · rename_i hg
    refine Triple_cons_at Any
      (fun u => Sound roster u ∧ (u.pcbs p).state = ProcessState.STATE_NEW ∧
        (u.pcbs p).arrival_time ≤ u.current_time)
      (Pending roster p) (Sound roster) _ _ ?_ ?_ s ⟨hs, hg⟩
    · refine Any_atom _ _ _ ?_
      intro u hu
      exact Pending_set_ready roster p hp u hu.1 (Or.inl hu.2.1) hu.2.2
    · refine Triple_cons Any _ (Sound roster) _ _ _ (Any_atom _ _ _ (Sound_add roster p)) ?_
      refine Triple_cons Any _ (Sound roster) _ _ _ (Sound_atom roster _ ?_) (Triple_nil _ _)
      exact fun u => Eases_trace u _ _ _ _
  · exact Any_nothing _ s hs

theorem admissions_sound (roster : List Nat) :
    Triple Any (Sound roster) (Sound roster) (fun s => for_each admission s.processes s) := by
  intro s hs
  have h := Triple_for_each_mem Any (Sound roster) admission roster
    (fun p hp => admission_sound roster p hp) s hs
  beta_reduce
  rw [hs.roster_eq]
  exact h

theorem Readied_refl (r : PCB) : Readied r r := ⟨rfl, rfl, rfl, rfl, Or.inl rfl⟩

theorem Readied_trans (r1 r2 r3 : PCB) (h1 : Readied r1 r2) (h2 : Readied r2 r3) :
    Readied r1 r3 := by
  obtain ⟨a1, a2, a3, a4, a5⟩ := h1
  obtain ⟨b1, b2, b3, b4, b5⟩ := h2
  refine ⟨b1.trans a1, b2.trans a2, b3.trans a3, b4.trans a4, ?_⟩
  rcases b5 with b5 | b5
  · rcases a5 with a5 | a5
    · exact Or.inl (b5.trans a5)
    · exact Or.inr (b5.trans a5)
  · exact Or.inr b5

theorem io_complete_readied (pcbs : PCBStore) (holder : Option Nat) (q : Nat) :
    Readied (pcbs q) (io_complete pcbs holder q) := by
  unfold io_complete
  cases holder with
  | none => exact Readied_refl _
  | some p =>
    by_cases hqp : q = p
    · subst hqp
      simp [Readied, pcb_set_state]
    · simp only [pcb_set_state, Function.update_noteq hqp]
      exact Readied_refl _

theorem io_update_device_pcbs (now : Int) (i : Nat) (st : IOManager × PCBStore) :
    (io_update_device now i st).2 = st.2 ∨
    (io_update_device now i st).2 = io_complete st.2 (st.1.devices i).current_process := by
  by_cases h : (st.1.devices i).is_busy = true ∧ (st.1.devices i).end_time ≤ now
  · exact Or.inr (io_update_device_due now i st h.1 h.2).1
  · left
    unfold io_update_device
    rw [if_neg h]

theorem io_update_readied (io : IOManager) (pcbs : PCBStore) (now : Int) (q : Nat) :
    Readied (pcbs q) ((io_update io pcbs now).2 q) := by
  unfold io_update
  have key : ∀ (l : List Nat) (st : IOManager × PCBStore),
      Readied (st.2 q) ((l.foldl (fun st i => io_update_device now i st) st).2 q) := by
    intro l
    induction l with
    | nil => exact fun st => Readied_refl _
    | cons i rest ih =>
      intro st
      rw [List.foldl_cons]
      refine Readied_trans _ _ _ ?_ (ih _)
      rcases io_update_device_pcbs now i st with h | h
      · rw [h]; exact Readied_refl _
      · rw [h]; exact io_complete_readied _ _ q
  exact key _ (io, pcbs)

theorem Eases_io_update (s : Sim) :
    Eases s
      { s with
        io_manager := (io_update s.io_manager s.pcbs s.current_time).1
        pcbs := (io_update s.io_manager s.pcbs s.current_time).2 } := by
  refine ⟨rfl, rfl, rfl, rfl, rfl, ?_⟩
  intro p
  obtain ⟨h1, h2, h3, -, h5⟩ := io_update_readied s.io_manager s.pcbs s.current_time p
  exact ⟨h1, h2, h3, h5⟩

theorem unblock_sound (roster : List Nat) (p : Nat) (hp : p ∈ roster) :
    Triple Any (Sound roster) (Sound roster) (unblock p) := by
  intro s hs
  unfold unblock
  split
  · rename_i hg
    split
    · refine Triple_cons_at Any
        (fun u => Sound roster u ∧ (u.pcbs p).state = ProcessState.STATE_BLOCKED)
        (fun u => Sound roster u ∧ (u.pcbs p).state = ProcessState.STATE_BLOCKED)
        (Sound roster) _ _ ?_ ?_ s ⟨hs, hg.1⟩
      · refine Any_atom _ _ _ ?_
        intro u hu
        refine ⟨Sound_of_Eases roster u _
          (Eases_assign u p _ (fun _ => ⟨rfl, rfl, rfl, rfl⟩)) hu.1, ?_⟩
        simpa [assign_pcb] using hu.2
      · refine Triple_cons Any _
          (fun u => Sound roster u ∧ (u.pcbs p).state = ProcessState.STATE_BLOCKED) _ _ _
          ?_ ?_
        · refine Any_atom _ _ _ ?_
          intro u hu
          refine ⟨Sound_of_Eases roster u _
            (Eases_assign u p _ (fun _ => ⟨rfl, rfl, rfl, rfl⟩)) hu.1, ?_⟩
          simpa [assign_pcb] using hu.2
        · refine Triple_cons Any _ (Pending roster p) _ _ _ ?_ ?_
          · refine Any_atom _ _ _ ?_
            intro u hu
            exact Pending_set_ready roster p hp u hu.1 (Or.inr hu.2)
              (hu.1.blocked p hp hu.2)
          · refine Triple_cons Any _ (Sound roster) _ _ _
              (Any_atom _ _ _ (Sound_add roster p)) ?_
            refine Triple_cons Any _ (Sound roster) _ _ _ (Sound_atom roster _ ?_)
              (Triple_nil _ _)
            exact fun u => Eases_trace u _ _ _ _
    · exact Any_nothing _ s hs
  · exact Any_nothing _ s hs

theorem check_and_unblock_processes_sound (roster : List Nat) :
    Triple Any (Sound roster) (Sound roster) check_and_unblock_processes := by
  intro s hs
  unfold check_and_unblock_processes
  refine Triple_seq_at Any (Sound roster) (Sound roster) _ _ s ?_ ?_
  · exact Sound_atom roster _ Eases_io_update s hs
  · intro u hu
    have h := Triple_for_each_mem Any (Sound roster) unblock roster
      (fun p hp => unblock_sound roster p hp) u hu
    beta_reduce
    rw [hu.roster_eq]
    exact h

theorem Stalled_refl (r : PCB) : Stalled r r := ⟨rfl, rfl, rfl, rfl, Or.inl rfl⟩

theorem Slice_of_Acts (roster : List Nat) (c : Nat) (r : Int) (s t : Sim) (h : Acts c s t)
    (hs : Slice roster c r s)
    (hb : (t.pcbs c).state = ProcessState.STATE_BLOCKED → 0 < r) :
    Slice roster c r t := by
  obtain ⟨a1, a2, a3, -, a4, ⟨b1, b2, b3, -, b5⟩, a6⟩ := h
  obtain ⟨hsound, hcur, hc, hrem, harr, hstate⟩ := hs
  have hcs : (s.pcbs c).state = ProcessState.STATE_RUNNING ∨
      (s.pcbs c).state = ProcessState.STATE_BLOCKED := hstate.imp id (fun h => h.1)
  have hct : (t.pcbs c).state = ProcessState.STATE_RUNNING ∨
      (t.pcbs c).state = ProcessState.STATE_BLOCKED := by
    rcases b5 with b5 | b5
    · rw [b5]; exact hcs
    · exact Or.inr b5
  have hnq : ∀ q ∈ s.scheduler.ready_queue.nodes, q ≠ c := by
    intro q hq hqc
    have := (hsound.queued q hq).2.1
    rw [hqc] at this
    rw [this] at hcs
    rcases hcs with h | h <;> exact absurd h (by decide)
  have hsound2 : Sound roster t := by
    refine ⟨a1.trans hsound.roster_eq, by rw [a3]; exact hsound.quantum_pos, ?_, ?_, ?_, ?_,
      ?_, by rw [a3]; exact hsound.nodup, ?_⟩
    · intro p hp
      by_cases hpc : p = c
      · rw [hpc, b1, hrem]
        have := hsound.rem_nonneg c hc
        rw [hrem] at this
        exact this
      · rw [a4 p hpc]
        exact hsound.rem_nonneg p hp
    · intro p hp hst
      by_cases hpc : p = c
      · rw [hpc] at hst
        rw [hst] at hct
        rcases hct with h | h <;> exact absurd h (by decide)
      · rw [a4 p hpc] at hst ⊢
        exact hsound.done p hp hst
    · intro p hp hst
      by_cases hpc : p = c
      · rw [hpc] at hst ⊢
        rw [b1, hrem]
        rcases hst with hst | hst
        · rw [hst] at hct
          rcases hct with h | h <;> exact absurd h (by decide)
        · exact hb hst
      · rw [a4 p hpc] at hst ⊢
        exact hsound.waiting p hp hst
    · intro p hp hst
      by_cases hpc : p = c
      · rw [hpc, b2, a2]
        exact harr
      · rw [a4 p hpc] at hst ⊢
        rw [a2]
        exact hsound.blocked p hp hst
    · intro q hq
      rw [a3] at hq
      rw [a4 q (hnq q hq), a2]
      exact hsound.queued q hq
    · intro m hm hl
      rcases a6 m hm with h | h
      · obtain ⟨p, hp1, hp2, hp3⟩ := hsound.owners m h hl
        refine ⟨p, hp1, hp2, ?_⟩
        by_cases hpc : p = c
        · rw [hpc]
          rcases hct with h | h <;> (rw [h]; decide)
        · rw [a4 p hpc]
          exact hp3
      · refine ⟨c, h, hc, ?_⟩
        rcases hct with h | h <;> (rw [h]; decide)
  refine ⟨hsound2, by rw [a3]; exact hcur, hc, by rw [b1]; exact hrem,
    by rw [b2, a2]; exact harr, ?_⟩
  rcases b5 with b5 | b5
  · rw [b5]
    exact hstate
  · exact Or.inr ⟨b5, hb b5⟩

theorem Acts_neutral (c : Nat) (s t : Sim) (h1 : t.processes = s.processes)
    (h2 : t.current_time = s.current_time) (h3 : t.scheduler = s.scheduler)
    (h4 : t.io_manager.device_count = s.io_manager.device_count)
    (h5 : t.pcbs = s.pcbs) (h6 : t.mutexes = s.mutexes) : Acts c s t :=
  ⟨h1, h2, h3, h4, fun q _ => by rw [h5], by rw [h5]; exact Stalled_refl _,
    fun m hm => Or.inl (by rw [← h6]; exact hm)⟩

theorem Slice_atom (roster : List Nat) (c : Nat) (r : Int) (f : Sim → Sim)
    (h : ∀ s, Acts c s (f s) ∧ (f s).pcbs c = s.pcbs c) :
    Triple Any (Slice roster c r) (Slice roster c r) (atom f) := by
  refine Any_atom _ _ _ ?_
  intro s hs
  refine Slice_of_Acts roster c r s (f s) (h s).1 hs ?_
  intro hb
  rw [(h s).2] at hb
  rcases hs.2.2.2.2.2 with h1 | h1
  · rw [h1] at hb
    exact absurd hb (by decide)
  · exact h1.2

theorem Slice_event (roster : List Nat) (c : Nat) (r : Int) (hr : 0 < r) (f : Sim → Sim)
    (h : ∀ s, Acts c s (f s)) :
    Triple Any (Slice roster c r) (Slice roster c r) (atom f) :=
  Any_atom _ _ _ (fun s hs => Slice_of_Acts roster c r s (f s) (h s) hs (fun _ => hr))

theorem Triple_block (I P : Sim → Prop) (l : List Block) (h : ∀ b ∈ l, Triple I P P b) :
    Triple I P P (block l) := by
  induction l with
  | nil => exact Triple_nil I P
  | cons a rest ih =>
    exact Triple_cons I P P P a rest (h a (List.mem_cons_self a rest))
      (ih (fun b hb => h b (List.mem_cons_of_mem a hb)))

theorem io_request_stalled (io : IOManager) (pcbs : PCBStore) (p : Nat) (d dur now : Int) :
    Stalled (pcbs p) ((io_request io pcbs p d dur now).2.2 p) ∧
    (io_request io pcbs p d dur now).2.1.device_count = io.device_count := by
  unfold io_request
  split
  · exact ⟨Stalled_refl _, rfl⟩
  · simp only
    split <;> exact ⟨by simp [Stalled, pcb_set_state], rfl⟩

theorem mutex_lock_stalled (self : Nat) (mutex : Mutex) (pcbs : PCBStore) (p : Nat) :
    Stalled (pcbs p) ((mutex_lock self mutex pcbs p).2.2 p) := by
  unfold mutex_lock
  split <;> simp [Stalled, pcb_set_state]

theorem semaphore_wait_stalled (sem : Semaphore) (pcbs : PCBStore) (p : Nat) :
    Stalled (pcbs p) ((semaphore_wait sem pcbs p).2.2 p) := by
  rcases semaphore_wait_cases sem pcbs p with ⟨-, he⟩ | ⟨-, he⟩ <;>
    (rw [he]; simp [Stalled])

theorem simulate_io_slice (rand : Nat → Nat) (roster : List Nat) (c : Nat) (r : Int)
    (hr : 0 < r) :
    Triple Any (Slice roster c r) (Slice roster c r) (simulate_io rand c) := by
  intro s hs
  unfold simulate_io
  refine Triple_block Any _ _ ?_ s hs
  intro b hb
  simp only [List.mem_cons, List.mem_singleton, List.not_mem_nil, or_false] at hb
  rcases hb with rfl | rfl | rfl | rfl
  · exact Slice_event roster c r hr _ (fun u => Acts_neutral c u _ rfl rfl rfl rfl rfl rfl)
  · exact Slice_event roster c r hr _ (fun u => Acts_neutral c u _ rfl rfl rfl rfl rfl rfl)
  · refine Slice_event roster c r hr _ ?_
    intro u
    exact ⟨rfl, rfl, rfl, (io_request_stalled _ _ _ _ _ _).2,
      (io_request_pcbs _ _ _ _ _ _).1, (io_request_stalled _ _ _ _ _ _).1,
      fun m hm => Or.inl hm⟩
  · exact Slice_event roster c r hr _ (fun u => Acts_neutral c u _ rfl rfl rfl rfl rfl rfl)

theorem simulate_mutex_slice (rand : Nat → Nat) (roster : List Nat) (c : Nat) (r : Int)
    (hr : 0 < r) :
    Triple Any (Slice roster c r) (Slice roster c r) (simulate_mutex rand c) := by
  intro s hs
  unfold simulate_mutex
  refine Triple_seq_at Any (Slice roster c r) (Slice roster c r) _ _ s ?_ ?_
  · refine Slice_event roster c r hr _ ?_ s hs
    exact fun u => Acts_neutral c u _ rfl rfl rfl rfl rfl rfl
  intro t ht
  beta_reduce
  split
  · exact Any_nothing _ t ht
  · rename_i mutex hm
    split
    · rename_i hl
      refine Triple_block Any _ _ ?_ t ht
      intro b hb
      simp only [List.mem_cons, List.mem_singleton, List.not_mem_nil, or_false] at hb
      rcases hb with rfl | rfl
      · refine Slice_event roster c r hr _ ?_
        intro u
        refine ⟨rfl, rfl, rfl, rfl, (mutex_lock_pcbs _ _ _ _).1, mutex_lock_stalled _ _ _ _,
          ?_⟩
        intro m hmem
        rcases List.mem_or_eq_of_mem_set hmem with h | h
        · exact Or.inl h
        · right
          rw [h]
          unfold mutex_lock
          rw [if_pos (by simpa [mutex_is_locked] using hl)]
      · exact Slice_event roster c r hr _
          (fun u => Acts_neutral c u _ rfl rfl rfl rfl rfl rfl)
    · exact Any_nothing _ t ht

theorem simulate_semaphore_slice (rand : Nat → Nat) (roster : List Nat) (c : Nat) (r : Int)
    (hr : 0 < r) :
    Triple Any (Slice roster c r) (Slice roster c r) (simulate_semaphore rand c) := by
  intro s hs
  unfold simulate_semaphore
  refine Triple_seq_at Any (Slice roster c r) (Slice roster c r) _ _ s ?_ ?_
  · refine Slice_event roster c r hr _ ?_ s hs
    exact fun u => Acts_neutral c u _ rfl rfl rfl rfl rfl rfl
  intro t ht
  beta_reduce
  split
  · exact Any_nothing _ t ht
  · refine Triple_block Any _ _ ?_ t ht
    intro b hb
    simp only [List.mem_cons, List.mem_singleton, List.not_mem_nil, or_false] at hb
    rcases hb with rfl | rfl
    · refine Slice_event roster c r hr _ ?_
      intro u
      exact ⟨rfl, rfl, rfl, rfl, (semaphore_wait_pcbs _ _ _).1,
        semaphore_wait_stalled _ _ _, fun m hm => Or.inl hm⟩
    · exact Slice_event roster c r hr _
        (fun u => Acts_neutral c u _ rfl rfl rfl rfl rfl rfl)

theorem simulate_action_slice (rand : Nat → Nat) (roster : List Nat) (c : Nat) (r : Int) :
    Triple Any (Slice roster c r) (Slice roster c r) (simulate_action rand c) := by
  intro s hs
  unfold simulate_action
  refine Triple_seq_at Any (Slice roster c r) (Slice roster c r) _ _ s ?_ ?_
  · refine Slice_atom roster c r _ ?_ s hs
    exact fun u => ⟨Acts_neutral c u _ rfl rfl rfl rfl rfl rfl, rfl⟩
  intro t ht
  have hrem : (t.pcbs c).remaining_time = r := ht.2.2.2.1
  beta_reduce
  split
  · rename_i hg
    exact simulate_io_slice rand roster c r (by rw [← hrem]; exact hg.2) t ht
  · split
    · rename_i hg
      exact simulate_mutex_slice rand roster c r (by rw [← hrem]; exact hg.2.2) t ht
    · split
      · rename_i hg
        exact simulate_semaphore_slice rand roster c r (by rw [← hrem]; exact hg.2.2) t ht
      · exact Any_nothing _ t ht

theorem Sound_change (roster : List Nat) (c : Nat) (s t : Sim) (hs : Sound roster s)
    (h1 : t.processes = s.processes) (h2 : t.current_time = s.current_time)
    (h3 : t.mutexes = s.mutexes) (h4 : t.scheduler.quantum = s.scheduler.quantum)
    (h5 : ∀ q ∈ t.scheduler.ready_queue.nodes, q ∈ s.scheduler.ready_queue.nodes ∧ q ≠ c)
    (h6 : t.scheduler.ready_queue.nodes.Nodup)
    (hoth : ∀ q, q ≠ c → t.pcbs q = s.pcbs q)
    (hnew : (s.pcbs c).state ≠ ProcessState.STATE_NEW →
      (t.pcbs c).state ≠ ProcessState.STATE_NEW)
    (hc : c ∈ roster →
      0 ≤ (t.pcbs c).remaining_time ∧
      ((t.pcbs c).state = ProcessState.STATE_TERMINATED →
        (t.pcbs c).remaining_time = 0 ∧ (t.pcbs c).arrival_time < (t.pcbs c).finish_time) ∧
      (((t.pcbs c).state = ProcessState.STATE_NEW ∨
          (t.pcbs c).state = ProcessState.STATE_BLOCKED) → 0 < (t.pcbs c).remaining_time) ∧
      ((t.pcbs c).state = ProcessState.STATE_BLOCKED →
        (t.pcbs c).arrival_time ≤ t.current_time)) :
    Sound roster t := by
  refine ⟨h1.trans hs.roster_eq, by rw [h4]; exact hs.quantum_pos, ?_, ?_, ?_, ?_, ?_, h6, ?_⟩
  · intro p hp
    by_cases hpc : p = c
    · rw [hpc]; exact (hc (hpc ▸ hp)).1
    · rw [hoth p hpc]; exact hs.rem_nonneg p hp
  · intro p hp hst
    by_cases hpc : p = c
    · rw [hpc] at hst ⊢; exact (hc (hpc ▸ hp)).2.1 hst
    · rw [hoth p hpc] at hst ⊢; exact hs.done p hp hst
  · intro p hp hst
    by_cases hpc : p = c
    · rw [hpc] at hst ⊢; exact (hc (hpc ▸ hp)).2.2.1 hst
    · rw [hoth p hpc] at hst ⊢; exact hs.waiting p hp hst
  · intro p hp hst
    by_cases hpc : p = c
    · rw [hpc] at hst ⊢; exact (hc (hpc ▸ hp)).2.2.2 hst
    · rw [hoth p hpc] at hst ⊢; rw [h2]; exact hs.blocked p hp hst
  · intro q hq
    obtain ⟨hq1, hq2⟩ := h5 q hq
    rw [hoth q hq2, h2]
    exact hs.queued q hq1
  · intro m hm hl
    rw [h3] at hm
    obtain ⟨p, hp1, hp2, hp3⟩ := hs.owners m hm hl
    refine ⟨p, hp1, hp2, ?_⟩
    by_cases hpc : p = c
    · rw [hpc] at hp3 ⊢; exact hnew hp3
    · rw [hoth p hpc]; exact hp3

theorem Slice_not_queued (roster : List Nat) (c : Nat) (r : Int) (s : Sim)
    (hs : Slice roster c r s) : ∀ q ∈ s.scheduler.ready_queue.nodes, q ≠ c := by
  intro q hq hqc
  have h1 := (hs.1.queued q hq).2.1
  rw [hqc] at h1
  rcases hs.2.2.2.2.2 with h | h
  · rw [h1] at h; exact absurd h (by decide)
  · rw [h1] at h; exact absurd h.1 (by decide)

theorem execution_le (ts r : Int) : execution ts r ≤ r := by
  unfold execution
  split <;> omega

theorem Slice_work (roster : List Nat) (c : Nat) (r0 r1 : Int) (f : PCB → PCB) (s : Sim)
    (hs : Slice roster c r0 s)
    (hrun : (s.pcbs c).state = ProcessState.STATE_RUNNING) (h0 : 0 ≤ r1)
    (hf : (f (s.pcbs c)).remaining_time = r1 ∧ (f (s.pcbs c)).state = (s.pcbs c).state ∧
      (f (s.pcbs c)).arrival_time = (s.pcbs c).arrival_time) :
    Slice roster c r1 (assign_pcb c f s) ∧
    ((assign_pcb c f s).pcbs c).state = ProcessState.STATE_RUNNING := by
  have hrec : (assign_pcb c f s).pcbs c = f (s.pcbs c) := by simp [assign_pcb]
  have hst : ((assign_pcb c f s).pcbs c).state = ProcessState.STATE_RUNNING := by
    rw [hrec, hf.2.1]; exact hrun
  refine ⟨⟨?_, hs.2.1, hs.2.2.1, by rw [hrec]; exact hf.1,
    by rw [hrec, hf.2.2]; exact hs.2.2.2.2.1, Or.inl hst⟩, hst⟩
  refine Sound_change roster c s _ hs.1 rfl rfl rfl rfl
    (fun q hq => ⟨hq, Slice_not_queued roster c r0 s hs q hq⟩) hs.1.nodup ?_ ?_ ?_
  · intro q hq
    simp [assign_pcb, Function.update_noteq hq]
  · intro _
    rw [hst]; decide
  · intro _
    rw [hst, hrec, hf.1]
    exact ⟨h0, fun h => absurd h (by decide),
      fun h => by rcases h with h | h <;> exact absurd h (by decide),
      fun h => absurd h (by decide)⟩

theorem Acts_assign (c : Nat) (f : PCB → PCB) (s : Sim)
    (hf : ∀ r, Stalled r (f r)) : Acts c s (assign_pcb c f s) := by
  refine ⟨rfl, rfl, rfl, rfl, ?_, ?_, fun m hm => Or.inl hm⟩
  · intro q hq
    simp [assign_pcb, Function.update_noteq hq]
  · simpa [assign_pcb] using hf (s.pcbs c)

theorem simulate_process_execution_slice (rand : Nat → Nat) (roster : List Nat) (c : Nat)
    (ts r0 : Int) :
    Triple Any
      (fun u => Slice roster c r0 u ∧ (u.pcbs c).state = ProcessState.STATE_RUNNING)
      (Slice roster c (r0 - execution ts r0))
      (simulate_process_execution rand c ts) := by
  intro s hs
  have hr : (s.pcbs c).remaining_time = r0 := hs.1.2.2.2.1
  have h0 : 0 ≤ r0 - execution ts r0 := by
    have := execution_le ts r0
    omega
  unfold simulate_process_execution
  rw [hr]
  refine Triple_cons_at Any
    (fun u => Slice roster c r0 u ∧ (u.pcbs c).state = ProcessState.STATE_RUNNING)
    (fun u => Slice roster c (r0 - execution ts r0) u ∧
      (u.pcbs c).state = ProcessState.STATE_RUNNING) _ _ _ ?_ ?_ s hs
  · refine Any_atom _ _ _ ?_
    intro u hu
    exact Slice_work roster c r0 _ _ u hu.1 hu.2 h0
      ⟨by rw [← hu.1.2.2.2.1], rfl, rfl⟩
  · refine Triple_cons Any _ (Slice roster c (r0 - execution ts r0)) _ _ _ ?_ ?_
    · refine Any_atom _ _ _ ?_
      intro u hu
      refine Slice_of_Acts roster c _ u _ (Acts_assign c _ u ?_) hu.1 ?_
      · intro r
        exact ⟨rfl, rfl, rfl, rfl, Or.inl rfl⟩
      · intro hb
        have : ((assign_pcb c (fun r =>
            { r with last_run_time := r.last_run_time + execution ts r0 }) u).pcbs c).state
            = (u.pcbs c).state := by simp [assign_pcb]
        rw [this, hu.2] at hb
        exact absurd hb (by decide)
    · exact Triple_cons Any _ _ _ _ _ (simulate_action_slice rand roster c _)
        (Triple_nil _ _)

theorem Slice_sched (roster : List Nat) (c : Nat) (r : Int) (s : Sim) (sched : Scheduler)
    (hs : Slice roster c r s) (h1 : sched.quantum = s.scheduler.quantum)
    (h2 : sched.ready_queue.nodes = s.scheduler.ready_queue.nodes)
    (h3 : sched.current_process = s.scheduler.current_process) :
    Slice roster c r { s with scheduler := sched } :=
  ⟨Sound_of_Eases roster s _ (Eases_refl_fields _ _ rfl rfl rfl h1 h2 rfl) hs.1,
    h3.trans hs.2.1, hs.2.2.1, hs.2.2.2.1, hs.2.2.2.2.1, hs.2.2.2.2.2⟩

theorem Sound_terminate (roster : List Nat) (c : Nat) (r : Int) (s : Sim)
    (hs : Slice roster c r s) (hr : (s.pcbs c).remaining_time ≤ 0) :
    Sound roster
      (assign_pcb c (fun x => { x with finish_time := s.current_time + 1 })
        { s with pcbs := pcb_set_state s.pcbs c ProcessState.STATE_TERMINATED }) := by
  have hrec : (assign_pcb c (fun x => { x with finish_time := s.current_time + 1 })
        { s with pcbs := pcb_set_state s.pcbs c ProcessState.STATE_TERMINATED }).pcbs c
      = { s.pcbs c with
          state := ProcessState.STATE_TERMINATED, finish_time := s.current_time + 1 } := by
    simp [assign_pcb, pcb_set_state]
  refine Sound_change roster c s _ hs.1 rfl rfl rfl rfl
    (fun q hq => ⟨hq, Slice_not_queued roster c r s hs q hq⟩) hs.1.nodup ?_ ?_ ?_
  · intro q hq
    simp [assign_pcb, pcb_set_state, Function.update_noteq hq]
  · intro _
    rw [hrec]; simp
  · intro hc
    rw [hrec]
    have h0 := hs.1.rem_nonneg c hc
    have harr := hs.2.2.2.2.1
    refine ⟨h0, fun _ => ⟨le_antisymm hr h0, ?_⟩, fun h => by simp at h,
      fun h => by simp at h⟩
    show (s.pcbs c).arrival_time < s.current_time + 1
    omega

theorem Sound_preempt (roster : List Nat) (c : Nat) (r : Int) (s : Sim)
    (hs : Slice roster c r s) (hrr : s.scheduler.type = SchedulerType.SCHED_RR)
    (hq : s.scheduler.quantum_remaining ≤ 0) (hrem : 0 < (s.pcbs c).remaining_time) :
    Sound roster
      { s with
        scheduler := (scheduler_preempt s.scheduler s.pcbs).1
        pcbs := (scheduler_preempt s.scheduler s.pcbs).2 } := by
  rw [scheduler_preempt_expired s.scheduler s.pcbs c hrr hs.2.1 hq hrem]
  have hpend : Pending roster c
      { s with pcbs := pcb_set_state s.pcbs c ProcessState.STATE_READY } := by
    refine ⟨Sound_of_Eases roster s _ (Eases_set_ready s c) hs.1, hs.2.2.1,
      by simp [pcb_set_state], by simpa [pcb_set_state] using hrem,
      by simpa [pcb_set_state] using hs.2.2.2.2.1, ?_⟩
    intro hmem
    exact Slice_not_queued roster c r s hs c hmem rfl
  have hadd := Sound_add roster c _ hpend
  refine Sound_of_Eases roster _ _ ?_ hadd
  exact Eases_refl_fields _ _ rfl rfl rfl rfl rfl rfl

theorem after_slice_sound (roster : List Nat) (c : Nat) (r : Int) :
    Triple Any (Slice roster c r) (Sound roster) (after_slice c) := by
  intro s hs
  unfold after_slice
  by_cases h1 : (s.pcbs c).remaining_time ≤ 0
  · simp only [h1, if_true]
    refine Triple_cons_at Any
      (fun u => Slice roster c r u ∧ (u.pcbs c).remaining_time ≤ 0)
      (fun u => Sound roster
        (assign_pcb c (fun x => { x with finish_time := u.current_time + 1 }) u))
      (Sound roster) _ _ ?_ ?_ s ⟨hs, h1⟩
    · refine Any_atom _ _ _ ?_
      intro u hu
      exact Sound_terminate roster c r u hu.1 hu.2
    · refine Triple_cons Any _ (Sound roster) _ _ _ (Any_atom _ _ _ (fun u hu => hu)) ?_
      refine Triple_cons Any _ (Sound roster) _ _ _ (Sound_atom roster _ ?_) ?_
      · exact fun u => Eases_refl_fields _ _ rfl rfl rfl rfl rfl rfl
      refine Triple_cons Any _ (Sound roster) _ _ _ (Sound_atom roster _ ?_) ?_
      · exact fun u => Eases_trace u _ _ _ _
      refine Triple_cons Any _ (Sound roster) _ _ _ (Sound_atom roster _ ?_) (Triple_nil _ _)
      exact fun u => Eases_refl_fields _ _ rfl rfl rfl rfl rfl rfl
  · simp only [h1, if_false]
    by_cases h2 : (s.pcbs c).state = ProcessState.STATE_BLOCKED
    · simp only [h2, if_true]
      refine Triple_atom_at Any (Sound roster) _ _ ⟨trivial, ?_⟩
      exact Sound_of_Eases roster s _ (Eases_refl_fields _ _ rfl rfl rfl rfl rfl rfl) hs.1
    · simp only [h2, if_false]
      by_cases h3 : s.scheduler.type = SchedulerType.SCHED_RR ∧
          s.scheduler.quantum_remaining ≤ 0
      · rw [if_pos h3]
        refine Triple_atom_at Any (Sound roster) _ _ ⟨trivial, ?_⟩
        exact Sound_preempt roster c r s hs h3.1 h3.2 (by omega)
      · rw [if_neg h3]
        exact Any_nothing _ s hs.1

theorem run_current_sound (rand : Nat → Nat) (roster : List Nat) (c : Nat) (r0 : Int) :
    Triple Any
      (fun u => Slice roster c r0 u ∧ (u.pcbs c).state = ProcessState.STATE_RUNNING)
      (Sound roster) (run_current rand c) := by
  intro s hs
  unfold run_current
  refine Triple_cons_at Any
    (fun u => Slice roster c r0 u ∧ (u.pcbs c).state = ProcessState.STATE_RUNNING)
    (Slice roster c
      (r0 - execution (time_slice s.scheduler (s.pcbs c).remaining_time) r0))
    (Sound roster) _ _
    (simulate_process_execution_slice rand roster c _ r0) ?_ s hs
  refine Triple_cons Any _
    (Slice roster c
      (r0 - execution (time_slice s.scheduler (s.pcbs c).remaining_time) r0)) _ _ _ ?_ ?_
  · intro u hu
    beta_reduce
    split
    · refine Triple_atom_at Any _ _ _ ⟨trivial, ?_⟩
      exact Slice_sched roster c _ u _ hu rfl rfl rfl
    · exact Any_nothing _ u hu
  · refine Triple_cons Any _
      (Slice roster c
        (r0 - execution (time_slice s.scheduler (s.pcbs c).remaining_time) r0)) _ _ _
      ?_ (Triple_cons Any _ (Sound roster) _ _ _ (after_slice_sound roster c _)
        (Triple_nil _ _))
    refine Slice_atom roster c _ _ ?_
    exact fun u => ⟨Acts_neutral c u _ rfl rfl rfl rfl rfl rfl, rfl⟩

theorem scheduler_get_next_head (sched : Scheduler) (pcbs : PCBStore) (now : Int)
    (c : Nat) (rest : List Nat) (hn : sched.current_process = none)
    (hq : sched.ready_queue.nodes = c :: rest) :
    scheduler_get_next sched pcbs now
      = (some c,
          { sched with
            ready_queue := { nodes := rest, size := sched.ready_queue.size - 1 }
            current_process := some c
            quantum_remaining := sched.quantum
            total_context_switches := sched.total_context_switches + 1 },
          pcb_set_state
            (if (pcbs c).start_time = -1 then
              Function.update pcbs c { pcbs c with start_time := now }
            else pcbs) c ProcessState.STATE_RUNNING) := by
  have hc : continues_slice sched pcbs = false := by
    unfold continues_slice
    rw [hn]
  rw [scheduler_get_next_dispatch sched pcbs now c rest hq hc]
  have hs : save_previous { sched with
      ready_queue := { nodes := rest, size := sched.ready_queue.size - 1 } } pcbs c
      = ({ sched with
            ready_queue := { nodes := rest, size := sched.ready_queue.size - 1 } }, pcbs) := by
    unfold save_previous
    simp only [hn]
  rw [hs]

theorem dispatched_pcb (pcbs : PCBStore) (now : Int) (c : Nat) :
    (∀ q, q ≠ c →
      pcb_set_state
        (if (pcbs c).start_time = -1 then
          Function.update pcbs c { pcbs c with start_time := now }
        else pcbs) c ProcessState.STATE_RUNNING q = pcbs q) ∧
    pcb_set_state
        (if (pcbs c).start_time = -1 then
          Function.update pcbs c { pcbs c with start_time := now }
        else pcbs) c ProcessState.STATE_RUNNING c
      = { pcbs c with
          state := ProcessState.STATE_RUNNING
          start_time := if (pcbs c).start_time = -1 then now else (pcbs c).start_time } := by
  constructor
  · intro q hq
    simp only [pcb_set_state, Function.update_noteq hq]
    split
    · rw [Function.update_noteq hq]
    · rfl
  · simp only [pcb_set_state, Function.update_same]
    split
    · rename_i h
      simp [h]
    · rename_i h
      simp [h]

theorem Slice_dispatch (roster : List Nat) (s : Sim) (c : Nat) (rest : List Nat)
    (hs : Sound roster s) (hn : s.scheduler.current_process = none)
    (hq : s.scheduler.ready_queue.nodes = c :: rest) :
    Slice roster c (s.pcbs c).remaining_time
      { s with
        scheduler := (scheduler_get_next s.scheduler s.pcbs s.current_time).2.1
        pcbs := (scheduler_get_next s.scheduler s.pcbs s.current_time).2.2 } ∧
    ((scheduler_get_next s.scheduler s.pcbs s.current_time).2.2 c).state
      = ProcessState.STATE_RUNNING := by
  rw [scheduler_get_next_head s.scheduler s.pcbs s.current_time c rest hn hq]
  obtain ⟨hoth, hrec⟩ := dispatched_pcb s.pcbs s.current_time c
  have hmem : c ∈ s.scheduler.ready_queue.nodes := by rw [hq]; exact List.mem_cons_self c rest
  obtain ⟨hc, -, hrem, harr⟩ := hs.queued c hmem
  have hnd : (c :: rest).Nodup := hq ▸ hs.nodup
  have hst : (pcb_set_state
      (if (s.pcbs c).start_time = -1 then
        Function.update s.pcbs c { s.pcbs c with start_time := s.current_time }
      else s.pcbs) c ProcessState.STATE_RUNNING c).state = ProcessState.STATE_RUNNING := by
    rw [hrec]
  have hrem2 : (pcb_set_state
      (if (s.pcbs c).start_time = -1 then
        Function.update s.pcbs c { s.pcbs c with start_time := s.current_time }
      else s.pcbs) c ProcessState.STATE_RUNNING c).remaining_time
      = (s.pcbs c).remaining_time := by
    rw [hrec]
  have harr2 : (pcb_set_state
      (if (s.pcbs c).start_time = -1 then
        Function.update s.pcbs c { s.pcbs c with start_time := s.current_time }
      else s.pcbs) c ProcessState.STATE_RUNNING c).arrival_time ≤ s.current_time := by
    rw [hrec]
    exact harr
  refine ⟨⟨?_, rfl, hc, hrem2, harr2, Or.inl hst⟩, hst⟩
  refine Sound_change roster c s _ hs rfl rfl rfl rfl ?_ (List.nodup_cons.mp hnd).2 hoth ?_ ?_
  · intro q hq2
    have hq3 : q ∈ rest := hq2
    refine ⟨by rw [hq]; exact List.mem_cons_of_mem c hq3, ?_⟩
    intro hqc
    exact (List.nodup_cons.mp hnd).1 (hqc ▸ hq3)
  · intro _
    show (pcb_set_state _ c ProcessState.STATE_RUNNING c).state ≠ ProcessState.STATE_NEW
    rw [hst]; decide
  · intro _
    dsimp only
    rw [hrec]
    exact ⟨le_of_lt hrem, fun h => by simp at h, fun h => by simp at h,
      fun h => by simp at h⟩

theorem dispatch_sound (rand : Nat → Nat) (roster : List Nat) :
    Triple Any (fun s => Sound roster s ∧ s.scheduler.current_process = none)
      (Sound roster) (dispatch rand) := by
  intro s hs
  obtain ⟨hs, hn⟩ := hs
  unfold dispatch
  cases hq : s.scheduler.ready_queue.nodes with
  | nil =>
    have hc : continues_slice s.scheduler s.pcbs = false := by
      unfold continues_slice
      rw [hn]
    have h := scheduler_get_next_empty s.scheduler s.pcbs s.current_time hc hq
    refine Triple_seq_at Any (Sound roster) (Sound roster) _ _ s ?_ ?_
    · refine Triple_atom_at Any (Sound roster) _ _ ⟨trivial, ?_⟩
      have hi : Sound roster
          { s with
            scheduler := (scheduler_get_next s.scheduler s.pcbs s.current_time).2.1
            pcbs := (scheduler_get_next s.scheduler s.pcbs s.current_time).2.2 } := by
        rw [h]
        exact hs
      exact hi
    · rw [h]
      intro t ht
      exact Any_nothing _ t ht
  | cons c rest =>
    obtain ⟨h1, h2⟩ := Slice_dispatch roster s c rest hs hn hq
    have h3 : (scheduler_get_next s.scheduler s.pcbs s.current_time).1 = some c := by
      rw [scheduler_get_next_head s.scheduler s.pcbs s.current_time c rest hn hq]
    refine Triple_seq_at Any
      (fun u => Slice roster c (s.pcbs c).remaining_time u ∧
        (u.pcbs c).state = ProcessState.STATE_RUNNING) (Sound roster) _ _ s ?_ ?_
    · exact Triple_atom_at Any
        (fun u => Slice roster c (s.pcbs c).remaining_time u ∧
          (u.pcbs c).state = ProcessState.STATE_RUNNING) _ _ ⟨trivial, h1, h2⟩
    · rw [h3]
      intro t ht
      show (∀ u ∈ (if (t.pcbs c).state = ProcessState.STATE_RUNNING then
          run_current rand c t else []), Any u) ∧
        Sound roster (final (if (t.pcbs c).state = ProcessState.STATE_RUNNING then
          run_current rand c t else []) t)
      rw [if_pos ht.2]
      exact run_current_sound rand roster c _ t ht

theorem Triple_both (I P1 P2 Q1 Q2 : Sim → Prop) (b : Block) (h1 : Triple Any P1 Q1 b)
    (h2 : Triple I P2 Q2 b) :
    Triple I (fun s => P1 s ∧ P2 s) (fun s => Q1 s ∧ Q2 s) b :=
  fun s hs => ⟨(h2 s hs.2).1, (h1 s hs.1).2, (h2 s hs.2).2⟩

theorem update_wait_times_sound (roster : List Nat) :
    Triple Any (Sound roster) (Sound roster) update_wait_times := by
  intro s hs
  unfold update_wait_times
  refine Triple_for_each Any (Sound roster) update_wait_time s.processes ?_ s hs
  intro p u hu
  unfold update_wait_time
  split
  · refine Triple_atom_at Any (Sound roster) _ _ ⟨trivial, ?_⟩
    exact Sound_of_Eases roster u _
      (Eases_assign u p _ (fun _ => ⟨rfl, rfl, rfl, rfl⟩)) hu
  · split
    · refine Triple_atom_at Any (Sound roster) _ _ ⟨trivial, ?_⟩
      exact Sound_of_Eases roster u _
        (Eases_assign u p _ (fun _ => ⟨rfl, rfl, rfl, rfl⟩)) hu
    · exact Any_nothing _ u hu

theorem loop_body_settled (rand : Nat → Nat) (roster : List Nat) :
    Triple RunningOk (Settled roster) (Settled roster) (loop_body rand) := by
  unfold loop_body
  refine Triple_cons RunningOk _ (Settled roster) _ _ _
    (Triple_both RunningOk _ _ _ _ _ (admissions_sound roster)
      (Triple_of_Keeps _ _ _ RunningOk_of_Idle ?_)) ?_
  · exact fun s hs => Keeps_for_each Idle admission s.processes admission_idle s hs
  refine Triple_cons RunningOk _ (Settled roster) _ _ _
    (Triple_both RunningOk _ _ _ _ _ (check_and_unblock_processes_sound roster)
      (Triple_of_Keeps _ _ _ RunningOk_of_Idle check_and_unblock_processes_idle)) ?_
  refine Triple_cons RunningOk _ (Settled roster) _ _ _ ?_ ?_
  · intro s hs
    exact ⟨(dispatch_idle rand s hs.2).1, (dispatch_sound rand roster s ⟨hs.1, hs.2.1⟩).2,
      (dispatch_idle rand s hs.2).2⟩
  refine Triple_cons RunningOk _ (Settled roster) _ _ _
    (Triple_both RunningOk _ _ _ _ _ (update_wait_times_sound roster)
      (Triple_of_Keeps _ _ _ RunningOk_of_Idle update_wait_times_idle)) ?_
  refine Triple_cons RunningOk _ (Settled roster) _ _ _ ?_ (Triple_nil _ _)
  refine Triple_atom _ _ _ _ ?_
  intro s hs
  have hi : Idle { s with current_time := s.current_time + 1 } := hs.2
  exact ⟨RunningOk_of_Idle _ hi, Sound_tick roster s hs.1, hi⟩

theorem main_loop_settled (rand : Nat → Nat) (roster : List Nat) (n : Nat) (s : Sim)
    (hs : Settled roster s) : Settled roster (main_loop rand n s) := by
  induction n generalizing s with
  | zero => exact hs
  | succ n ih =>
    unfold main_loop
    split
    · exact ih _ (loop_body_settled rand roster s hs).2
    · exact hs

theorem main_init_settled (type : SchedulerType) (quantum max_time : Int)
    (processes : List Nat) (pcbs : PCBStore) (memory : Nat → IODevice)
    (hq : 1 ≤ quantum)
    (hnew : ∀ p ∈ processes, (pcbs p).state = ProcessState.STATE_NEW ∧
      0 < (pcbs p).remaining_time) :
    Settled processes (main_init type quantum max_time processes pcbs memory) := by
  refine ⟨⟨rfl, hq, ?_, ?_, ?_, ?_, ?_, List.nodup_nil, ?_⟩,
    main_init_idle type quantum max_time processes pcbs memory (fun p hp => (hnew p hp).1)⟩
  · intro p hp
    exact le_of_lt (hnew p hp).2
  · intro p hp hst
    have h1 : (pcbs p).state = ProcessState.STATE_TERMINATED := hst
    rw [(hnew p hp).1] at h1
    exact absurd h1 (by decide)
  · intro p hp _
    exact (hnew p hp).2
  · intro p hp hst
    have h1 : (pcbs p).state = ProcessState.STATE_BLOCKED := hst
    rw [(hnew p hp).1] at h1
    exact absurd h1 (by decide)
  · intro q hq2
    exact absurd hq2 (List.not_mem_nil q)
  · intro m hm hl
    have hm2 : m ∈ [mutex_create 0, mutex_create 1, mutex_create 2] := hm
    simp only [List.mem_cons, List.mem_singleton, List.not_mem_nil, or_false] at hm2
    rcases hm2 with rfl | rfl | rfl <;> exact absurd hl (by decide)

theorem execution_pos (sched : Scheduler) (r : Int) (hr : 0 < r)
    (hq : 1 ≤ sched.quantum_remaining) : 1 ≤ execution (time_slice sched r) r := by
  unfold execution time_slice
  split_ifs <;> omega

theorem before_dispatch_settled (roster : List Nat) (s : Sim) (hs : Settled roster s) :
    Settled roster (before_dispatch s) := by
  have h : Triple RunningOk (Settled roster) (Settled roster)
      (block [fun s => for_each admission s.processes s, check_and_unblock_processes]) := by
    refine Triple_cons RunningOk _ (Settled roster) _ _ _
      (Triple_both RunningOk _ _ _ _ _ (admissions_sound roster)
        (Triple_of_Keeps _ _ _ RunningOk_of_Idle ?_)) ?_
    · exact fun s hs => Keeps_for_each Idle admission s.processes admission_idle s hs
    exact Triple_cons RunningOk _ (Settled roster) _ _ _
      (Triple_both RunningOk _ _ _ _ _ (check_and_unblock_processes_sound roster)
        (Triple_of_Keeps _ _ _ RunningOk_of_Idle check_and_unblock_processes_idle))
      (Triple_nil _ _)
  exact (h s hs).2

theorem slice_run_mem (rand : Nat → Nat) (c : Nat) (s : Sim) (h : dispatched s = some c) :
    ∀ t ∈ slice_run rand c s, t ∈ loop_body rand s := by
  intro t ht
  have hsplit : loop_body rand s
      = (fun s => for_each admission s.processes s) s ++
        (check_and_unblock_processes
            (final ((fun s => for_each admission s.processes s) s) s) ++
          (dispatch rand (before_dispatch s) ++
            block [update_wait_times,
              atom (fun t => { t with current_time := t.current_time + 1 })]
              (final (dispatch rand (before_dispatch s)) (before_dispatch s)))) := by
    simp only [loop_body, block, seq, before_dispatch, final_append, skip, List.append_nil]
  rw [hsplit]
  refine List.mem_append_right _ (List.mem_append_right _ (List.mem_append_left _ ?_))
  unfold dispatched at h
  unfold dispatch seq
  refine List.mem_append_right _ ?_
  cases hg : (scheduler_get_next (before_dispatch s).scheduler (before_dispatch s).pcbs
      (before_dispatch s).current_time).1 with
  | none =>
    rw [hg] at h
    exact absurd h (by simp)
  | some d =>
    rw [hg] at h
    simp only at h
    split at h
    · rename_i hrun
      have hd : d = c := Option.some.inj h
      subst hd
      show t ∈ (if ((at_dispatch s).pcbs d).state = ProcessState.STATE_RUNNING then
        run_current rand d (at_dispatch s) else [])
      rw [if_pos hrun]
      unfold run_current
      show t ∈ seq _ _ _
      unfold seq
      exact List.mem_append_left _ ht
    · exact absurd h (by simp)

theorem slice_decreases (rand : Nat → Nat) (roster : List Nat) (s : Sim)
    (hs : Settled roster s) (c : Nat) (h : dispatched s = some c) :
    ((final (slice_run rand c s) (at_dispatch s)).pcbs c).remaining_time
      < ((at_dispatch s).pcbs c).remaining_time := by
  have hs2 := before_dispatch_settled roster s hs
  have hn : (before_dispatch s).scheduler.current_process = none := hs2.2.1
  unfold dispatched at h
  cases hq : (before_dispatch s).scheduler.ready_queue.nodes with
  | nil =>
    have hc : continues_slice (before_dispatch s).scheduler (before_dispatch s).pcbs
        = false := by
      unfold continues_slice
      rw [hn]
    rw [scheduler_get_next_empty _ _ _ hc hq] at h
    exact absurd h (by simp)
  | cons d rest =>
    have hhead := scheduler_get_next_head (before_dispatch s).scheduler
      (before_dispatch s).pcbs (before_dispatch s).current_time d rest hn hq
    have hd : d = c := by
      rw [hhead] at h
      simp only at h
      split at h
      · exact Option.some.inj h
      · exact absurd h (by simp)
    subst hd
    obtain ⟨hslice, hrun⟩ := Slice_dispatch roster (before_dispatch s) d rest hs2.1 hn hq
    have hslice2 : Slice roster d ((before_dispatch s).pcbs d).remaining_time
        (at_dispatch s) := hslice
    have hrun2 : ((at_dispatch s).pcbs d).state = ProcessState.STATE_RUNNING := hrun
    have hrem : ((at_dispatch s).pcbs d).remaining_time
        = ((before_dispatch s).pcbs d).remaining_time := hslice2.2.2.2.1
    have hpos : 0 < ((before_dispatch s).pcbs d).remaining_time :=
      (hs2.1.queued d (by rw [hq]; exact List.mem_cons_self d rest)).2.2.1
    have hqr : (at_dispatch s).scheduler.quantum_remaining
        = (before_dispatch s).scheduler.quantum := by
      unfold at_dispatch
      rw [hhead]
    have hafter := (simulate_process_execution_slice rand roster d
      (time_slice (at_dispatch s).scheduler ((at_dispatch s).pcbs d).remaining_time)
      ((before_dispatch s).pcbs d).remaining_time (at_dispatch s) ⟨hslice2, hrun2⟩).2
    have hrem2 := hafter.2.2.2.1
    have hex := execution_pos (at_dispatch s).scheduler
      ((before_dispatch s).pcbs d).remaining_time hpos
      (by rw [hqr]; exact hs2.1.quantum_pos)
    unfold slice_run
    rw [hrem2, hrem]
    omega

/-- C29: in every run of the loop, for every policy, every quantum of at least 1 and
every stream of `rand()` results, on a roster of `NEW` PCBs whose work left is their
`total_time > 0` (whatever their arrival times): at the head of every turn every PCB of
the roster has `remaining_time >= 0`, and every `TERMINATED` PCB of the roster has
`remaining_time = 0` and `finish_time > arrival_time`; and when the turn executes a
process, the call of `simulate_process_execution`, whose states are states of the turn,
leaves that process with strictly less `remaining_time` than it had. -/
theorem C29_remaining_time (type : SchedulerType) (quantum max_time : Int)
    (processes : List Nat) (pcbs : PCBStore) (memory : Nat → IODevice) (rand : Nat → Nat)
    (hq : 1 ≤ quantum)
    (hnew : ∀ p ∈ processes, (pcbs p).state = ProcessState.STATE_NEW ∧
      (pcbs p).remaining_time = (pcbs p).total_time ∧ 0 < (pcbs p).total_time)
    (n : Nat) :
    (∀ p ∈ processes,
      0 ≤ ((main_loop rand n
        (main_init type quantum max_time processes pcbs memory)).pcbs p).remaining_time) ∧
    (∀ p ∈ processes,
      ((main_loop rand n (main_init type quantum max_time processes pcbs memory)).pcbs p).state
        = ProcessState.STATE_TERMINATED →
      ((main_loop rand n
        (main_init type quantum max_time processes pcbs memory)).pcbs p).remaining_time = 0 ∧
      ((main_loop rand n
        (main_init type quantum max_time processes pcbs memory)).pcbs p).arrival_time
        < ((main_loop rand n
          (main_init type quantum max_time processes pcbs memory)).pcbs p).finish_time) ∧
    (∀ c,
      dispatched (main_loop rand n (main_init type quantum max_time processes pcbs memory))
        = some c →
      (∀ t ∈ slice_run rand c
          (main_loop rand n (main_init type quantum max_time processes pcbs memory)),
        t ∈ loop_body rand
          (main_loop rand n (main_init type quantum max_time processes pcbs memory))) ∧
      ((final
          (slice_run rand c
            (main_loop rand n (main_init type quantum max_time processes pcbs memory)))
          (at_dispatch
            (main_loop rand n
              (main_init type quantum max_time processes pcbs memory)))).pcbs c).remaining_time
        < ((at_dispatch
            (main_loop rand n
              (main_init type quantum max_time processes pcbs memory))).pcbs c).remaining_time) := by
  have hset := main_loop_settled rand processes n _
    (main_init_settled type quantum max_time processes pcbs memory hq
      (fun p hp => ⟨(hnew p hp).1, by rw [(hnew p hp).2.1]; exact (hnew p hp).2.2⟩))
  refine ⟨hset.1.rem_nonneg, hset.1.done, ?_⟩
  intro c hc
  exact ⟨slice_run_mem rand c _ hc, slice_decreases rand processes _ hset c hc⟩

theorem C29_remaining_time_witness :
    (1 : Int) ≤ 2 ∧
    (∀ p ∈ [1, 2, 3], (pcbs_trio p).state = ProcessState.STATE_NEW ∧
      (pcbs_trio p).remaining_time = (pcbs_trio p).total_time ∧
      0 < (pcbs_trio p).total_time) ∧
    (∀ p ∈ [1, 2, 3], 0 ≤ ((main_loop rand_zero 3
        (main_init SchedulerType.SCHED_RR 2 DEFAULT_TIME [1, 2, 3] pcbs_trio
          memory_example)).pcbs p).remaining_time) ∧
    (∀ p ∈ [1, 2, 3],
      ((main_loop rand_zero 3
        (main_init SchedulerType.SCHED_RR 2 DEFAULT_TIME [1, 2, 3] pcbs_trio
          memory_example)).pcbs p).state = ProcessState.STATE_TERMINATED →
      ((main_loop rand_zero 3
        (main_init SchedulerType.SCHED_RR 2 DEFAULT_TIME [1, 2, 3] pcbs_trio
          memory_example)).pcbs p).remaining_time = 0 ∧
      ((main_loop rand_zero 3
        (main_init SchedulerType.SCHED_RR 2 DEFAULT_TIME [1, 2, 3] pcbs_trio
          memory_example)).pcbs p).arrival_time
        < ((main_loop rand_zero 3
        (main_init SchedulerType.SCHED_RR 2 DEFAULT_TIME [1, 2, 3] pcbs_trio
          memory_example)).pcbs p).finish_time) :=
  have h := C29_remaining_time SchedulerType.SCHED_RR 2 DEFAULT_TIME [1, 2, 3] pcbs_trio
    memory_example rand_zero (by decide)
    (fun _ _ => ⟨rfl, rfl, show (0 : Int) < 6 by decide⟩) 3
  ⟨by decide, fun _ _ => ⟨rfl, rfl, show (0 : Int) < 6 by decide⟩, h.1, h.2.1⟩

/-- C30 fails on the code as stated: in the run under Round Robin with quantum 2 on the
roster `pcbs_short`, with every `rand()` result 25, the PCB takes `mutexes[1]` in its
first slice and terminates in its second, so that after two turns `mutexes[1]` is
locked and its owner is `TERMINATED`. -/
theorem C30_counterexample :
    (main_loop rand_lock 2 sim_short).mutexes[1]?
      = some { id := 1, locked := true, owner := some 1, wait_queue := queue_create } ∧
    ((main_loop rand_lock 2 sim_short).pcbs 1).state = ProcessState.STATE_TERMINATED ∧
    ¬ (∀ m ∈ (main_loop rand_lock 2 sim_short).mutexes, m.locked = true →
      ∀ p, m.owner = some p →
        ((main_loop rand_lock 2 sim_short).pcbs p).state ≠ ProcessState.STATE_TERMINATED) := by
  have h1 : (main_loop rand_lock 2 sim_short).mutexes[1]?
      = some { id := 1, locked := true, owner := some 1, wait_queue := queue_create } := by
    decide!
  have h2 : ((main_loop rand_lock 2 sim_short).pcbs 1).state
      = ProcessState.STATE_TERMINATED := by
    decide!
  refine ⟨h1, h2, ?_⟩
  intro h
  exact h _ (List.getElem?_mem h1) rfl 1 rfl h2

/-- C30, amended: in every run of the loop, for every policy, every quantum of at least
1 and every stream of `rand()` results, on a roster of `NEW` PCBs with work left, at the
head of every turn every mutex that is locked has an owner, and the owner is a PCB of
the roster that is not `NEW` (it may be `TERMINATED`: the loop never unlocks). -/
theorem C30_mutex_owner (type : SchedulerType) (quantum max_time : Int)
    (processes : List Nat) (pcbs : PCBStore) (memory : Nat → IODevice) (rand : Nat → Nat)
    (hq : 1 ≤ quantum)
    (hnew : ∀ p ∈ processes, (pcbs p).state = ProcessState.STATE_NEW ∧
      0 < (pcbs p).remaining_time)
    (n : Nat) :
    ∀ m ∈ (main_loop rand n (main_init type quantum max_time processes pcbs memory)).mutexes,
      m.locked = true →
      ∃ p, m.owner = some p ∧ p ∈ processes ∧
        ((main_loop rand n (main_init type quantum max_time processes pcbs memory)).pcbs p).state
          ≠ ProcessState.STATE_NEW :=
  (main_loop_settled rand processes n _
    (main_init_settled type quantum max_time processes pcbs memory hq hnew)).1.owners

theorem C30_mutex_owner_witness :
    (1 : Int) ≤ 2 ∧
    (∀ p ∈ [1], (pcbs_short p).state = ProcessState.STATE_NEW ∧
      0 < (pcbs_short p).remaining_time) ∧
    ∀ m ∈ (main_loop rand_lock 2
        (main_init SchedulerType.SCHED_RR 2 DEFAULT_TIME [1] pcbs_short memory_example)).mutexes, m.locked = true →
      ∃ p, m.owner = some p ∧ p ∈ [1] ∧
        ((main_loop rand_lock 2
        (main_init SchedulerType.SCHED_RR 2 DEFAULT_TIME [1] pcbs_short memory_example)).pcbs p).state ≠ ProcessState.STATE_NEW :=
  ⟨by decide, fun _ _ => ⟨rfl, show (0 : Int) < 4 by decide⟩,
    C30_mutex_owner SchedulerType.SCHED_RR 2 DEFAULT_TIME [1] pcbs_short memory_example
      rand_lock (by decide) (fun _ _ => ⟨rfl, show (0 : Int) < 4 by decide⟩) 2⟩

/-! ### C28: the order of the first dispatches under FCFS -/

theorem Before_asymm (roster : List Nat) (arr : Nat → Int) (a b : Nat)
    (h1 : Before roster arr a b) (h2 : Before roster arr b a) : False := by
  rcases h1 with h1 | ⟨h1, h1'⟩ <;> rcases h2 with h2 | ⟨h2, h2'⟩ <;> omega

theorem Before_irrefl (roster : List Nat) (arr : Nat → Int) (a : Nat)
    (h : Before roster arr a a) : False :=
  Before_asymm roster arr a a h h

theorem indexOf_suffix (pre l : List Nat) (p q : Nat) (hnd : (pre ++ p :: l).Nodup)
    (hq : q ∈ l) : (pre ++ p :: l).indexOf p < (pre ++ p :: l).indexOf q := by
  have h1 := List.nodup_append.mp hnd
  have hp : p ∉ pre := fun h => h1.2.2 h (List.mem_cons_self p l)
  have hq1 : q ∉ pre := fun h => h1.2.2 h (List.mem_cons_of_mem p hq)
  have hqp : p ≠ q := fun h => (List.nodup_cons.mp h1.2.1).1 (h ▸ hq)
  rw [List.indexOf_append_of_not_mem hp, List.indexOf_append_of_not_mem hq1,
    List.indexOf_cons_self, List.indexOf_cons_ne _ hqp]
  omega

theorem Adm_skip (roster : List Nat) (arr : Nat → Int) (pre l : List Nat) (p : Nat)
    (v : View) (hp : p ∈ roster) (h : Adm roster arr pre (p :: l) v)
    (hg : ¬ (v.state p = ProcessState.STATE_NEW ∧ v.arrival p ≤ v.now)) :
    Adm roster arr (pre ++ [p]) l v := by
  refine ⟨h.policy, h.idle, h.devices, h.roster_eq, h.now_nonneg, h.arrival, h.states, ?_,
    h.ready, h.finished, h.queued, h.sorted, ?_, h.order, h.closed⟩
  · intro q hq hst
    obtain ⟨f1, f2, f3⟩ := h.fresh q hq hst
    refine ⟨f1, f2, ?_⟩
    intro hmem
    rcases List.mem_append.mp hmem with hm | hm
    · exact f3 hm
    · have hqp : q = p := List.mem_singleton.mp hm
      subst hqp
      rw [h.arrival q hq] at hg
      by_contra hc
      exact hg ⟨hst, by omega⟩
  · intro q hq x hx
    exact h.ahead q hq x (List.mem_cons_of_mem p hx)

theorem Adm_admission (roster : List Nat) (arr : Nat → Int) (pre l : List Nat) (p : Nat)
    (v : View) (hr : roster = pre ++ p :: l) (hnd : roster.Nodup)
    (h : Adm roster arr pre (p :: l) v) :
    Adm roster arr (pre ++ [p]) l (view_admission p v) := by
  have hp : p ∈ roster := by rw [hr]; exact List.mem_append_right _ (List.mem_cons_self p l)
  unfold view_admission
  split
  · rename_i hg
    obtain ⟨hst, harr⟩ := hg
    rw [h.arrival p hp] at harr
    obtain ⟨f1, f2, -⟩ := h.fresh p hp hst
    have hnq : p ∉ v.nodes := by
      intro hm
      have := (h.queued p hm).2.1
      rw [hst] at this
      exact absurd this (by decide)
    have hup : ∀ q, q ≠ p →
        Function.update v.state p ProcessState.STATE_READY q = v.state q :=
      fun q hq => Function.update_noteq hq _ _
    have hself : Function.update v.state p ProcessState.STATE_READY p
        = ProcessState.STATE_READY := Function.update_same _ _ _
    refine ⟨h.policy, h.idle, h.devices, h.roster_eq, h.now_nonneg, h.arrival, ?_, ?_, ?_, ?_,
      ?_, ?_, ?_, h.order, h.closed⟩
    · intro q hq
      dsimp only
      by_cases hqp : q = p
      · subst hqp
        exact Or.inr (Or.inl hself)
      · rw [hup q hqp]
        exact h.states q hq
    · intro q hq hs
      dsimp only at hs ⊢
      have hqp : q ≠ p := by
        intro e
        subst e
        rw [hself] at hs
        exact absurd hs (by decide)
      have hs2 : v.state q = ProcessState.STATE_NEW := by
        rw [← hup q hqp]; exact hs
      obtain ⟨g1, g2, g3⟩ := h.fresh q hq hs2
      refine ⟨g1, g2, ?_⟩
      intro hmem
      rcases List.mem_append.mp hmem with hm | hm
      · exact g3 hm
      · exact absurd (List.mem_singleton.mp hm) hqp
    · intro q hq hs
      dsimp only at hs ⊢
      by_cases hqp : q = p
      · subst hqp
        exact ⟨f1, List.mem_append_right _ (List.mem_singleton_self q)⟩
      · have hs2 : v.state q = ProcessState.STATE_READY := by
          rw [← hup q hqp]; exact hs
        exact ⟨(h.ready q hq hs2).1, List.mem_append_left _ (h.ready q hq hs2).2⟩
    · intro q hq hs
      dsimp only at hs ⊢
      have hqp : q ≠ p := by
        intro e
        subst e
        rw [hself] at hs
        exact absurd hs (by decide)
      have hs2 : v.state q = ProcessState.STATE_TERMINATED := by
        rw [← hup q hqp]; exact hs
      exact h.finished q hq hs2
    · intro q hq
      dsimp only at hq ⊢
      rcases List.mem_append.mp hq with hm | hm
      · have hqp : q ≠ p := fun e => hnq (e ▸ hm)
        obtain ⟨q1, q2, q3⟩ := h.queued q hm
        exact ⟨q1, by rw [hup q hqp]; exact q2, q3⟩
      · have hqp : q = p := List.mem_singleton.mp hm
        subst hqp
        exact ⟨hp, hself, harr⟩
    · refine List.pairwise_append.mpr ⟨h.sorted, List.pairwise_singleton _ _, ?_⟩
      intro q hq x hx
      have hxp : x = p := List.mem_singleton.mp hx
      subst hxp
      exact h.ahead q hq x (List.mem_cons_self x l) hst harr
    · intro q hq x hx hs hax
      dsimp only at hs hax hq ⊢
      have hxp : x ≠ p := by
        intro e
        subst e
        rw [hself] at hs
        exact absurd hs (by decide)
      have hs2 : v.state x = ProcessState.STATE_NEW := by
        rw [← hup x hxp]; exact hs
      rcases List.mem_append.mp hq with hm | hm
      · exact h.ahead q hm x (List.mem_cons_of_mem p hx) hs2 hax
      · have hqp : q = p := List.mem_singleton.mp hm
        subst hqp
        have hx2 : x ∈ roster := by
          rw [hr]; exact List.mem_append_right _ (List.mem_cons_of_mem q hx)
        have g2 := (h.fresh x hx2 hs2).2.1
        right
        refine ⟨by omega, ?_⟩
        rw [hr]
        exact indexOf_suffix pre l q x (hr ▸ hnd) hx
  · rename_i hg
    exact Adm_skip roster arr pre l p v hp h hg

theorem Adm_admissions (roster : List Nat) (arr : Nat → Int) (hnd : roster.Nodup)
    (l pre : List Nat) (v : View) (hr : roster = pre ++ l) (h : Adm roster arr pre l v) :
    Adm roster arr roster [] (view_admissions l v) := by
  induction l generalizing pre v with
  | nil =>
    have hpre : pre = roster := by rw [hr, List.append_nil]
    rw [hpre] at h
    exact h
  | cons p rest ih =>
    unfold view_admissions
    exact ih (pre ++ [p]) (view_admission p v) (by rw [hr]; simp)
      (Adm_admission roster arr pre rest p v hr hnd h)

theorem Adm_started (roster : List Nat) (arr : Nat → Int) (pre l : List Nat) (v : View)
    (h : Adm roster arr pre l v) (q : Nat) (hq : q ∈ roster) (hs : v.start q ≠ -1) :
    v.state q = ProcessState.STATE_TERMINATED ∧ v.start q < v.now := by
  rcases h.states q hq with h1 | h1 | h1
  · exact absurd (h.fresh q hq h1).1 hs
  · exact absurd (h.ready q hq h1).1 hs
  · exact ⟨h1, (h.finished q hq h1).2⟩

theorem Adm_turn_empty (roster : List Nat) (arr : Nat → Int) (w : View)
    (h : Adm roster arr roster [] w) :
    Adm roster arr [] roster { w with now := w.now + 1 } := by
  refine ⟨h.policy, h.idle, h.devices, h.roster_eq, ?_, h.arrival, h.states, ?_, h.ready, ?_,
    ?_, h.sorted, ?_, h.order, h.closed⟩
  · have := h.now_nonneg
    show 0 ≤ w.now + 1
    omega
  · intro p hp hs
    obtain ⟨f1, -, f3⟩ := h.fresh p hp hs
    have := f3 hp
    refine ⟨f1, ?_, fun hm => absurd hm (List.not_mem_nil p)⟩
    show w.now + 1 ≤ arr p
    omega
  · intro p hp hs
    obtain ⟨g1, g2⟩ := h.finished p hp hs
    refine ⟨g1, ?_⟩
    show w.start p < w.now + 1
    omega
  · intro q hq
    obtain ⟨q1, q2, q3⟩ := h.queued q hq
    refine ⟨q1, q2, ?_⟩
    show arr q ≤ w.now + 1
    omega
  · intro q hq p hp hs _
    have h1 := (h.queued q hq).2.2
    have h2 := (h.fresh p hp hs).2.2 hp
    exact Or.inl (by omega)

theorem Adm_turn_head (roster : List Nat) (arr : Nat → Int) (w : View) (c : Nat)
    (rest : List Nat) (h : Adm roster arr roster [] w) (hq : w.nodes = c :: rest) :
    Adm roster arr [] roster
      { w with
        nodes := rest
        state := Function.update w.state c ProcessState.STATE_TERMINATED
        start := Function.update w.start c w.now
        now := w.now + 1 } := by
  have hmem : c ∈ w.nodes := by rw [hq]; exact List.mem_cons_self c rest
  obtain ⟨hc, hcs, hca⟩ := h.queued c hmem
  have hc1 : w.start c = -1 := (h.ready c hc hcs).1
  have hsorted : (c :: rest).Pairwise (Before roster arr) := hq ▸ h.sorted
  have hnr : ∀ q ∈ rest, q ≠ c := by
    intro q hq2 e
    subst e
    exact Before_irrefl roster arr q ((List.pairwise_cons.mp hsorted).1 q hq2)
  have hst : ∀ q, q ≠ c →
      Function.update w.state c ProcessState.STATE_TERMINATED q = w.state q :=
    fun q hq2 => Function.update_noteq hq2 _ _
  have hst2 : Function.update w.state c ProcessState.STATE_TERMINATED c
      = ProcessState.STATE_TERMINATED := Function.update_same _ _ _
  have hsa : ∀ q, q ≠ c → Function.update w.start c w.now q = w.start q :=
    fun q hq2 => Function.update_noteq hq2 _ _
  have hsa2 : Function.update w.start c w.now c = w.now := Function.update_same _ _ _
  have hnow := h.now_nonneg
  refine ⟨h.policy, h.idle, h.devices, h.roster_eq, ?_, h.arrival, ?_, ?_, ?_, ?_, ?_,
    (List.pairwise_cons.mp hsorted).2, ?_, ?_, ?_⟩
  · show 0 ≤ w.now + 1
    omega
  · intro q hq2
    dsimp only
    by_cases hqc : q = c
    · subst hqc
      exact Or.inr (Or.inr hst2)
    · rw [hst q hqc]
      exact h.states q hq2
  · intro q hq2 hs
    dsimp only at hs ⊢
    have hqc : q ≠ c := by
      intro e
      subst e
      rw [hst2] at hs
      exact absurd hs (by decide)
    rw [hst q hqc] at hs
    rw [hsa q hqc]
    obtain ⟨f1, -, f3⟩ := h.fresh q hq2 hs
    have := f3 hq2
    exact ⟨f1, by omega, fun hm => absurd hm (List.not_mem_nil q)⟩
  · intro q hq2 hs
    dsimp only at hs ⊢
    have hqc : q ≠ c := by
      intro e
      subst e
      rw [hst2] at hs
      exact absurd hs (by decide)
    rw [hst q hqc] at hs
    rw [hsa q hqc]
    obtain ⟨g1, g2⟩ := h.ready q hq2 hs
    rw [hq] at g2
    rcases List.mem_cons.mp g2 with e | e
    · exact absurd e hqc
    · exact ⟨g1, e⟩
  · intro q hq2 hs
    dsimp only at hs ⊢
    by_cases hqc : q = c
    · subst hqc
      rw [hsa2]
      exact ⟨by omega, by omega⟩
    · rw [hst q hqc] at hs
      rw [hsa q hqc]
      obtain ⟨g1, g2⟩ := h.finished q hq2 hs
      exact ⟨g1, by omega⟩
  · intro q hq2
    dsimp only at hq2 ⊢
    have hqc := hnr q hq2
    obtain ⟨q1, q2, q3⟩ := h.queued q (by rw [hq]; exact List.mem_cons_of_mem c hq2)
    rw [hst q hqc]
    exact ⟨q1, q2, by omega⟩
  · intro q hq2 p hp hs _
    dsimp only at hq2 hs
    have hpc : p ≠ c := by
      intro e
      subst e
      rw [hst2] at hs
      exact absurd hs (by decide)
    rw [hst p hpc] at hs
    have h1 := (h.queued q (by rw [hq]; exact List.mem_cons_of_mem c hq2)).2.2
    have h2 := (h.fresh p hp hs).2.2 hp
    exact Or.inl (by omega)
  · intro a ha b hb hsa3 hsb3 hab
    dsimp only at hsa3 hsb3 ⊢
    by_cases hac : a = c
    · subst hac
      by_cases hbc : b = a
      · subst hbc
        exact absurd hab (Before_irrefl roster arr b)
      · rw [hsa b hbc] at hsb3
        exact absurd hc1 (h.closed a ha b hb hsb3 hab)
    · rw [hsa a hac] at hsa3 ⊢
      by_cases hbc : b = c
      · subst hbc
        rw [hsa2]
        exact (Adm_started roster arr roster [] w h a ha hsa3).2
      · rw [hsa b hbc] at hsb3 ⊢
        exact h.order a ha b hb hsa3 hsb3 hab
  · intro a ha b hb hsb3 hab
    dsimp only at hsb3 ⊢
    by_cases hac : a = c
    · subst hac
      rw [hsa2]
      omega
    · rw [hsa a hac]
      by_cases hbc : b = c
      · subst hbc
        intro hsa4
        rcases h.states a ha with h1 | h1 | h1
        · have h2 := (h.fresh a ha h1).2.2 ha
          rcases hab with h3 | ⟨h3, -⟩ <;> omega
        · have h2 := (h.ready a ha h1).2
          rw [hq] at h2
          rcases List.mem_cons.mp h2 with e | e
          · exact hac e
          · exact Before_asymm roster arr a b hab ((List.pairwise_cons.mp hsorted).1 a e)
        · exact (h.finished a ha h1).1 hsa4
      · rw [hsa b hbc] at hsb3
        exact h.closed a ha b hb hsb3 hab

theorem Adm_turn (roster : List Nat) (arr : Nat → Int) (hnd : roster.Nodup) (v : View)
    (h : Adm roster arr [] roster v) : Adm roster arr [] roster (view_turn v) := by
  have h1 : Adm roster arr roster [] (view_admissions v.processes v) := by
    rw [h.roster_eq]
    exact Adm_admissions roster arr hnd roster [] v rfl h
  unfold view_turn view_dispatch
  cases hq : (view_admissions v.processes v).nodes with
  | nil => exact Adm_turn_empty roster arr _ h1
  | cons c rest =>
    have hmem : c ∈ (view_admissions v.processes v).nodes := by
      rw [hq]; exact List.mem_cons_self c rest
    obtain ⟨hc, hcs, -⟩ := h1.queued c hmem
    have hc1 := (h1.ready c hc hcs).1
    simp only [hc1, if_true]
    exact Adm_turn_head roster arr _ c rest h1 hq

theorem View_atom (W1 W2 : View) (f : Sim → Sim) (h : ∀ t, view t = W1 → view (f t) = W2) :
    Triple Any (fun t => view t = W1) (fun t => view t = W2) (atom f) :=
  Any_atom _ _ _ h

theorem view_set_state (t : Sim) (p : Nat) (st : ProcessState) :
    view { t with pcbs := pcb_set_state t.pcbs p st }
      = { view t with state := Function.update (view t).state p st } := by
  simp only [view, View.mk.injEq, true_and]
  refine ⟨?_, ?_, ?_⟩ <;> funext q <;> by_cases hq : q = p
  · subst hq; simp [pcb_set_state]
  · simp [pcb_set_state, Function.update_noteq hq]
  · subst hq; simp [pcb_set_state]
  · simp [pcb_set_state, Function.update_noteq hq]
  · subst hq; simp [pcb_set_state]
  · simp [pcb_set_state, Function.update_noteq hq]

theorem view_assign (t : Sim) (p : Nat) (f : PCB → PCB)
    (hf : ∀ r, (f r).state = r.state ∧ (f r).start_time = r.start_time ∧
      (f r).arrival_time = r.arrival_time) :
    view (assign_pcb p f t) = view t := by
  simp only [view, assign_pcb, View.mk.injEq, true_and]
  refine ⟨?_, ?_, ?_⟩ <;> funext q <;> by_cases hq : q = p
  · subst hq; simp [(hf _).1]
  · simp [Function.update_noteq hq]
  · subst hq; simp [(hf _).2.1]
  · simp [Function.update_noteq hq]
  · subst hq; simp [(hf _).2.2]
  · simp [Function.update_noteq hq]

theorem view_add_fcfs (t : Sim) (p : Nat)
    (h : t.scheduler.type = SchedulerType.SCHED_FCFS) :
    view { t with scheduler := scheduler_add_process t.scheduler t.pcbs p }
      = { view t with nodes := (view t).nodes ++ [p] } := by
  have hf := scheduler_add_process_fields t.scheduler t.pcbs p
  have hq := scheduler_add_process_fifo t.scheduler t.pcbs p (by rw [h]; decide)
  simp only [view, View.mk.injEq, and_true, true_and]
  exact ⟨hf.1, hf.2.2.2.1, by rw [hq]; rfl⟩

theorem view_admission_type (p : Nat) (v : View) : (view_admission p v).type = v.type := by
  unfold view_admission
  split <;> rfl

theorem admission_view (p : Nat) (V : View) (hty : V.type = SchedulerType.SCHED_FCFS) :
    Triple Any (fun t => view t = V) (fun t => view t = view_admission p V) (admission p) := by
  intro s hs
  have h1 : (s.pcbs p).state = V.state p := by rw [← hs]; rfl
  have h2 : (s.pcbs p).arrival_time = V.arrival p := by rw [← hs]; rfl
  have h3 : s.current_time = V.now := by rw [← hs]; rfl
  unfold admission view_admission
  rw [h1, h2, h3]
  split
  · refine Triple_cons_at Any (fun t => view t = V)
      (fun t => view t
        = { V with state := Function.update V.state p ProcessState.STATE_READY })
      (fun t => view t
        = { V with
            state := Function.update V.state p ProcessState.STATE_READY
            nodes := V.nodes ++ [p] })
      _ _ ?_ ?_ s hs
    · refine View_atom _ _ _ ?_
      intro t ht
      rw [view_set_state, ht]
    · refine Triple_cons Any _
        (fun t => view t
          = { V with
              state := Function.update V.state p ProcessState.STATE_READY
              nodes := V.nodes ++ [p] }) _ _ _ ?_ ?_
      · refine View_atom _ _ _ ?_
        intro t ht
        have hty2 : t.scheduler.type = SchedulerType.SCHED_FCFS := by
          have : (view t).type = V.type := by rw [ht]
          exact this.trans hty
        rw [view_add_fcfs t p hty2, ht]
      · refine Triple_cons Any _ _ _ _ _ (View_atom _ _ _ ?_) (Triple_nil _ _)
        intro t ht
        exact ht
  · exact Any_nothing (fun t => view t = V) s hs

theorem admissions_view (l : List Nat) (V : View)
    (hty : V.type = SchedulerType.SCHED_FCFS) :
    Triple Any (fun t => view t = V) (fun t => view t = view_admissions l V)
      (for_each admission l) := by
  induction l generalizing V with
  | nil => exact Triple_skip _ _ _ (fun _ h => h)
  | cons p rest ih =>
    exact Triple_seq Any _ (fun t => view t = view_admission p V) _ _ _ (admission_view p V hty)
      (ih (view_admission p V) ((view_admission_type p V).trans hty))

theorem io_update_idle (io : IOManager) (pcbs : PCBStore) (now : Int)
    (h : ∀ i : Nat, (i : Int) < io.device_count → (io.devices i).is_busy = false) :
    io_update io pcbs now = (io, pcbs) := by
  unfold io_update
  have key : ∀ l : List Nat, (∀ i ∈ l, (io.devices i).is_busy = false) →
      l.foldl (fun st i => io_update_device now i st) (io, pcbs) = (io, pcbs) := by
    intro l
    induction l with
    | nil => exact fun _ => rfl
    | cons i rest ih =>
      intro hl
      rw [List.foldl_cons,
        io_update_device_idle now i (io, pcbs) (Or.inl (hl i (List.mem_cons_self i rest)))]
      exact ih (fun j hj => hl j (List.mem_cons_of_mem i hj))
  refine key _ ?_
  intro i hi
  have hi2 : i < io.device_count.toNat := List.mem_range.mp hi
  exact h i (by omega)

theorem check_and_unblock_processes_view (W : View)
    (hd : ∀ i : Nat, (i : Int) < W.count → W.busy i = false)
    (hb : ∀ p ∈ W.processes, W.state p ≠ ProcessState.STATE_BLOCKED) :
    Triple Any (fun t => view t = W) (fun t => view t = W) check_and_unblock_processes := by
  intro s hs
  unfold check_and_unblock_processes
  refine Triple_seq_at Any (fun t => view t = W) (fun t => view t = W) _ _ s ?_ ?_
  · refine Triple_atom_at Any (fun t => view t = W) _ _ ⟨trivial, ?_⟩
    have hidle : io_update s.io_manager s.pcbs s.current_time = (s.io_manager, s.pcbs) := by
      refine io_update_idle _ _ _ ?_
      intro i hi
      have h1 : (view s).busy i = false := by
        rw [hs]
        exact hd i (by
          have : (view s).count = W.count := by rw [hs]
          exact this ▸ hi)
      exact h1
    have he : ({ s with
        io_manager := (io_update s.io_manager s.pcbs s.current_time).1
        pcbs := (io_update s.io_manager s.pcbs s.current_time).2 } : Sim) = s := by
      rw [hidle]
    show view { s with
        io_manager := (io_update s.io_manager s.pcbs s.current_time).1
        pcbs := (io_update s.io_manager s.pcbs s.current_time).2 } = W
    rw [he]
    exact hs
  · intro u hu
    have hp : u.processes = W.processes := by rw [← hu]; rfl
    have h := Triple_for_each_mem Any (fun t => view t = W) unblock W.processes ?_ u hu
    · beta_reduce
      rw [hp]
      exact h
    · intro p hp2 t ht
      have hst : (t.pcbs p).state = W.state p := by rw [← ht]; rfl
      unfold unblock
      rw [if_neg]
      · exact Any_nothing (fun t => view t = W) t ht
      · rintro ⟨h1, -⟩
        rw [hst] at h1
        exact hb p hp2 h1

theorem update_wait_times_view (W : View) :
    Triple Any (fun t => view t = W) (fun t => view t = W) update_wait_times := by
  intro s hs
  unfold update_wait_times
  refine Triple_for_each Any (fun t => view t = W) update_wait_time s.processes ?_ s hs
  intro p u hu
  unfold update_wait_time
  split
  · refine Triple_atom_at Any (fun t => view t = W) _ _ ⟨trivial, ?_⟩
    show view _ = W
    refine (view_assign u p _ ?_).trans hu
    exact fun _ => ⟨rfl, rfl, rfl⟩
  · split
    · refine Triple_atom_at Any (fun t => view t = W) _ _ ⟨trivial, ?_⟩
      show view _ = W
      refine (view_assign u p _ ?_).trans hu
      exact fun _ => ⟨rfl, rfl, rfl⟩
    · exact Any_nothing (fun t => view t = W) u hu

theorem simulate_process_execution_view (rand : Nat → Nat) (c : Nat) (W : View) (s : Sim)
    (hs : view s = W) :
    (∀ t ∈ simulate_process_execution rand c (s.pcbs c).remaining_time s, Any t) ∧
    (fun t => view t = W ∧ (t.pcbs c).remaining_time ≤ 0)
      (final (simulate_process_execution rand c (s.pcbs c).remaining_time s) s) := by
  have hex : execution (s.pcbs c).remaining_time (s.pcbs c).remaining_time
      = (s.pcbs c).remaining_time := by
    unfold execution
    simp
  unfold simulate_process_execution
  rw [hex]
  refine Triple_cons_at Any
    (fun t => view t = W ∧ (t.pcbs c).remaining_time = (s.pcbs c).remaining_time)
    (fun t => view t = W ∧ (t.pcbs c).remaining_time ≤ 0)
    (fun t => view t = W ∧ (t.pcbs c).remaining_time ≤ 0) _ _ ?_ ?_ s ⟨hs, rfl⟩
  · refine Any_atom _ _ _ ?_
    intro t ht
    refine ⟨(view_assign t c _ ?_).trans ht.1, ?_⟩
    · exact fun _ => ⟨rfl, rfl, rfl⟩
    · simp only [assign_pcb, Function.update_same]
      rw [ht.2]
      omega
  · refine Triple_cons Any _ (fun t => view t = W ∧ (t.pcbs c).remaining_time ≤ 0) _ _ _
      ?_ ?_
    · refine Any_atom _ _ _ ?_
      intro t ht
      refine ⟨(view_assign t c _ ?_).trans ht.1, ?_⟩
      · exact fun _ => ⟨rfl, rfl, rfl⟩
      · simpa [assign_pcb] using ht.2
    · refine Triple_cons Any _ (fun t => view t = W ∧ (t.pcbs c).remaining_time ≤ 0) _ _ _
        ?_ (Triple_nil _ _)
      intro t ht
      rw [simulate_action_quiet rand c t (Or.inl ht.2)]
      exact ⟨fun _ _ => trivial, ht⟩

theorem after_slice_view (c : Nat) (W : View) :
    Triple Any (fun t => view t = W ∧ (t.pcbs c).remaining_time ≤ 0)
      (fun t => view t
        = { W with
            state := Function.update W.state c ProcessState.STATE_TERMINATED
            current := none })
      (after_slice c) := by
  intro s hs
  unfold after_slice
  rw [if_pos hs.2]
  refine Triple_cons_at Any (fun t => view t = W)
    (fun t => view t
      = { W with state := Function.update W.state c ProcessState.STATE_TERMINATED })
    (fun t => view t
      = { W with
          state := Function.update W.state c ProcessState.STATE_TERMINATED
          current := none }) _ _ ?_ ?_ s hs.1
  · refine View_atom _ _ _ ?_
    intro t ht
    rw [view_set_state, ht]
  · refine Triple_cons Any _
      (fun t => view t
        = { W with state := Function.update W.state c ProcessState.STATE_TERMINATED })
      _ _ _ ?_ ?_
    · refine View_atom _ _ _ ?_
      intro t ht
      refine (view_assign t c _ ?_).trans ht
      exact fun _ => ⟨rfl, rfl, rfl⟩
    refine Triple_cons Any _
      (fun t => view t
        = { W with state := Function.update W.state c ProcessState.STATE_TERMINATED })
      _ _ _ (View_atom _ _ _ (fun t ht => ht)) ?_
    refine Triple_cons Any _
      (fun t => view t
        = { W with state := Function.update W.state c ProcessState.STATE_TERMINATED })
      _ _ _ (View_atom _ _ _ (fun t ht => ht)) ?_
    refine Triple_cons Any _ _ _ _ _ (View_atom _ _ _ ?_) (Triple_nil _ _)
    intro t ht
    show { view t with current := none } = _
    rw [ht]

theorem run_current_view (rand : Nat → Nat) (c : Nat) (W : View)
    (hty : W.type = SchedulerType.SCHED_FCFS) :
    Triple Any (fun t => view t = W)
      (fun t => view t
        = { W with
            state := Function.update W.state c ProcessState.STATE_TERMINATED
            current := none })
      (run_current rand c) := by
  intro s hs
  have hty2 : s.scheduler.type = SchedulerType.SCHED_FCFS := by
    have : (view s).type = W.type := by rw [hs]
    exact this.trans hty
  have hts : time_slice s.scheduler (s.pcbs c).remaining_time = (s.pcbs c).remaining_time := by
    unfold time_slice
    simp [hty2]
  unfold run_current
  rw [hts]
  refine Triple_cons_at Any (fun t => t = s)
    (fun t => view t = W ∧ (t.pcbs c).remaining_time ≤ 0)
    (fun t => view t
      = { W with
          state := Function.update W.state c ProcessState.STATE_TERMINATED
          current := none }) _ _ ?_ ?_ s rfl
  · intro t ht
    subst ht
    exact simulate_process_execution_view rand c W t hs
  · refine Triple_cons Any _ (fun t => view t = W ∧ (t.pcbs c).remaining_time ≤ 0) _ _ _
      ?_ ?_
    · intro t ht
      have hty3 : t.scheduler.type = SchedulerType.SCHED_FCFS := by
        have : (view t).type = W.type := by rw [ht.1]
        exact this.trans hty
      beta_reduce
      rw [if_neg (by rw [hty3]; decide)]
      exact Any_nothing (fun t => view t = W ∧ (t.pcbs c).remaining_time ≤ 0) t ht
    · refine Triple_cons Any _ (fun t => view t = W ∧ (t.pcbs c).remaining_time ≤ 0) _ _ _
        (Any_atom _ _ _ (fun t ht => ht))
        (Triple_cons Any _ _ _ _ _ (after_slice_view c W) (Triple_nil _ _))

theorem view_after_get_next (s : Sim) (c : Nat) (rest : List Nat)
    (hn : s.scheduler.current_process = none)
    (hq : s.scheduler.ready_queue.nodes = c :: rest) :
    view
        { s with
          scheduler := (scheduler_get_next s.scheduler s.pcbs s.current_time).2.1
          pcbs := (scheduler_get_next s.scheduler s.pcbs s.current_time).2.2 }
      = view_running c rest (view s) := by
  rw [scheduler_get_next_head s.scheduler s.pcbs s.current_time c rest hn hq]
  obtain ⟨hoth, hrec⟩ := dispatched_pcb s.pcbs s.current_time c
  simp only [view, view_running, View.mk.injEq, true_and]
  refine ⟨?_, ?_, ?_⟩ <;> funext q <;> by_cases hqc : q = c
  · subst hqc; rw [hrec]; simp
  · rw [hoth q hqc]; simp [Function.update_noteq hqc]
  · subst hqc; rw [hrec]; simp
  · rw [hoth q hqc]; simp [Function.update_noteq hqc]
  · subst hqc; rw [hrec]
  · rw [hoth q hqc]

theorem dispatch_view_head (rand : Nat → Nat) (W : View) (c : Nat) (rest : List Nat)
    (s : Sim) (hty : W.type = SchedulerType.SCHED_FCFS) (hcur : W.current = none)
    (hs : view s = W) (hq : s.scheduler.ready_queue.nodes = c :: rest) :
    (∀ t ∈ dispatch rand s, Any t) ∧
    view (final (dispatch rand s) s)
      = { view_running c rest W with
          state := Function.update (view_running c rest W).state c
            ProcessState.STATE_TERMINATED
          current := none } := by
  have hn : s.scheduler.current_process = none := by
    have : (view s).current = W.current := by rw [hs]
    exact this.trans hcur
  have h3 : (scheduler_get_next s.scheduler s.pcbs s.current_time).1 = some c := by
    rw [scheduler_get_next_head s.scheduler s.pcbs s.current_time c rest hn hq]
  have hv := view_after_get_next s c rest hn hq
  rw [hs] at hv
  unfold dispatch
  refine Triple_seq_at Any (fun t => view t = view_running c rest W)
    (fun t => view t
      = { view_running c rest W with
          state := Function.update (view_running c rest W).state c
            ProcessState.STATE_TERMINATED
          current := none }) _ _ s ?_ ?_
  · exact Triple_atom_at Any (fun t => view t = view_running c rest W) _ _ ⟨trivial, hv⟩
  · rw [h3]
    intro t ht
    have hrun : (t.pcbs c).state = ProcessState.STATE_RUNNING := by
      have : (view t).state c = ProcessState.STATE_RUNNING := by
        rw [ht]
        exact Function.update_same _ _ _
      exact this
    show (∀ u ∈ (if (t.pcbs c).state = ProcessState.STATE_RUNNING then
        run_current rand c t else []), Any u) ∧
      view (final (if (t.pcbs c).state = ProcessState.STATE_RUNNING then
        run_current rand c t else []) t) = _
    rw [if_pos hrun]
    exact run_current_view rand c (view_running c rest W) hty t ht

theorem dispatch_view (rand : Nat → Nat) (W : View)
    (hty : W.type = SchedulerType.SCHED_FCFS) (hcur : W.current = none) :
    Triple Any (fun t => view t = W) (fun t => view t = view_dispatch W) (dispatch rand) := by
  intro s hs
  have hn : s.scheduler.current_process = none := by
    have : (view s).current = W.current := by rw [hs]
    exact this.trans hcur
  have hnodes : W.nodes = s.scheduler.ready_queue.nodes := by rw [← hs]; rfl
  show (∀ t ∈ dispatch rand s, Any t) ∧ view (final (dispatch rand s) s) = view_dispatch W
  cases hq : s.scheduler.ready_queue.nodes with
  | nil =>
    have hvd : view_dispatch W = W := by
      unfold view_dispatch
      rw [hnodes, hq]
    rw [hvd]
    have hc : continues_slice s.scheduler s.pcbs = false := by
      unfold continues_slice
      rw [hn]
    have h := scheduler_get_next_empty s.scheduler s.pcbs s.current_time hc hq
    unfold dispatch
    refine Triple_seq_at Any (fun t => view t = W) (fun t => view t = W) _ _ s ?_ ?_
    · refine Triple_atom_at Any (fun t => view t = W) _ _ ⟨trivial, ?_⟩
      show view { s with
          scheduler := (scheduler_get_next s.scheduler s.pcbs s.current_time).2.1
          pcbs := (scheduler_get_next s.scheduler s.pcbs s.current_time).2.2 } = W
      rw [h]
      exact hs
    · rw [h]
      intro t ht
      exact Any_nothing (fun t => view t = W) t ht
  | cons c rest =>
    have hvd : view_dispatch W
        = { view_running c rest W with
            state := Function.update (view_running c rest W).state c
              ProcessState.STATE_TERMINATED
            current := none } := by
      unfold view_dispatch
      rw [hnodes, hq]
      simp only [view_running, View.mk.injEq, true_and, and_true, Function.update_idem]
      exact hcur
    rw [hvd]
    exact dispatch_view_head rand W c rest s hty hcur hs hq

theorem loop_body_view (rand : Nat → Nat) (roster : List Nat) (arr : Nat → Int)
    (hnd : roster.Nodup) (V : View) (hV : Adm roster arr [] roster V) :
    Triple Any (fun t => view t = V) (fun t => view t = view_turn V) (loop_body rand) := by
  have h1 : Adm roster arr roster [] (view_admissions V.processes V) := by
    rw [hV.roster_eq]
    exact Adm_admissions roster arr hnd roster [] V rfl hV
  unfold loop_body
  refine Triple_cons Any _ (fun t => view t = view_admissions V.processes V) _ _ _ ?_ ?_
  · intro s hs
    have hp : s.processes = V.processes := by rw [← hs]; rfl
    beta_reduce
    rw [hp]
    exact admissions_view V.processes V hV.policy s hs
  refine Triple_cons Any _ (fun t => view t = view_admissions V.processes V) _ _ _
    (check_and_unblock_processes_view _ h1.devices ?_) ?_
  · intro p hp
    rw [h1.roster_eq] at hp
    rcases h1.states p hp with h | h | h <;> (rw [h]; decide)
  refine Triple_cons Any _
    (fun t => view t = view_dispatch (view_admissions V.processes V)) _ _ _
    (dispatch_view rand _ h1.policy h1.idle) ?_
  refine Triple_cons Any _
    (fun t => view t = view_dispatch (view_admissions V.processes V)) _ _ _
    (update_wait_times_view _) ?_
  refine Triple_cons Any _ _ _ _ _ (View_atom _ _ _ ?_) (Triple_nil _ _)
  intro t ht
  show { view t with now := (view t).now + 1 } = _
  rw [ht]
  rfl

theorem main_loop_fcfs (rand : Nat → Nat) (roster : List Nat) (arr : Nat → Int)
    (hnd : roster.Nodup) (n : Nat) (s : Sim) (h : Adm roster arr [] roster (view s)) :
    Adm roster arr [] roster (view (main_loop rand n s)) := by
  induction n generalizing s with
  | zero => exact h
  | succ n ih =>
    unfold main_loop
    split
    · refine ih _ ?_
      have h2 : view (final (loop_body rand s) s) = view_turn (view s) :=
        (loop_body_view rand roster arr hnd (view s) h s rfl).2
      rw [h2]
      exact Adm_turn roster arr hnd (view s) h
    · exact h

theorem main_init_fcfs (quantum max_time : Int) (processes : List Nat) (pcbs : PCBStore)
    (memory : Nat → IODevice)
    (hnew : ∀ p ∈ processes, (pcbs p).state = ProcessState.STATE_NEW ∧
      (pcbs p).start_time = -1 ∧ 0 ≤ (pcbs p).arrival_time) :
    Adm processes (fun p => (pcbs p).arrival_time) [] processes
      (view (main_init SchedulerType.SCHED_FCFS quantum max_time processes pcbs memory)) := by
  refine ⟨rfl, rfl, ?_, rfl, le_refl 0, fun _ _ => rfl, ?_, ?_, ?_, ?_, ?_, List.Pairwise.nil,
    ?_, ?_, ?_⟩
  · intro i hi
    have hi4 : (i : Int) < 4 := hi
    show (if (i : Int) < (if (4 : Int) > MAX_IO_DEVICES then MAX_IO_DEVICES else 4) then
        ({ device_id := i, is_busy := false, current_process := none, end_time := -1 } :
          IODevice)
      else memory i).is_busy = false
    have h4 : (if (4 : Int) > MAX_IO_DEVICES then MAX_IO_DEVICES else 4) = 4 := by decide
    rw [h4, if_pos hi4]
  · intro p hp
    exact Or.inl (hnew p hp).1
  · intro p hp _
    exact ⟨(hnew p hp).2.1, (hnew p hp).2.2, fun hm => absurd hm (List.not_mem_nil p)⟩
  · intro p hp hs
    have h1 : (pcbs p).state = ProcessState.STATE_READY := hs
    rw [(hnew p hp).1] at h1
    exact absurd h1 (by decide)
  · intro p hp hs
    have h1 : (pcbs p).state = ProcessState.STATE_TERMINATED := hs
    rw [(hnew p hp).1] at h1
    exact absurd h1 (by decide)
  · intro q hq
    exact absurd hq (List.not_mem_nil q)
  · intro q hq
    exact absurd hq (List.not_mem_nil q)
  · intro a ha b _ hsa
    exact absurd (hnew a ha).2.1 hsa
  · intro a _ b hb hsb
    exact absurd (hnew b hb).2.1 hsb

/-- C28: in every run of the loop under FCFS, for every quantum, time limit and stream
of `rand()` results, on a roster of distinct PCBs that are `NEW`, have not started
(`start_time = -1`, as `pcb_create` leaves it) and have arrival times of at least 0: at
the head of every turn, for any two PCBs `a` and `b` of the roster that have both been
dispatched (their `start_time` is set), if `a.arrival_time < b.arrival_time`, or the
arrival times are equal and `a` stands before `b` in the roster, then
`a.start_time < b.start_time`. -/
theorem C28_fcfs_order (quantum max_time : Int) (processes : List Nat) (pcbs : PCBStore)
    (memory : Nat → IODevice) (rand : Nat → Nat) (hnd : processes.Nodup)
    (hnew : ∀ p ∈ processes, (pcbs p).state = ProcessState.STATE_NEW ∧
      (pcbs p).start_time = -1 ∧ 0 ≤ (pcbs p).arrival_time)
    (n : Nat) (a b : Nat) (ha : a ∈ processes) (hb : b ∈ processes)
    (hsa : ((main_loop rand n
      (main_init SchedulerType.SCHED_FCFS quantum max_time processes pcbs memory)).pcbs
        a).start_time ≠ -1)
    (hsb : ((main_loop rand n
      (main_init SchedulerType.SCHED_FCFS quantum max_time processes pcbs memory)).pcbs
        b).start_time ≠ -1)
    (hab : ((main_loop rand n
        (main_init SchedulerType.SCHED_FCFS quantum max_time processes pcbs memory)).pcbs
          a).arrival_time
        < ((main_loop rand n
          (main_init SchedulerType.SCHED_FCFS quantum max_time processes pcbs memory)).pcbs
            b).arrival_time ∨
      (((main_loop rand n
        (main_init SchedulerType.SCHED_FCFS quantum max_time processes pcbs memory)).pcbs
          a).arrival_time
        = ((main_loop rand n
          (main_init SchedulerType.SCHED_FCFS quantum max_time processes pcbs memory)).pcbs
            b).arrival_time ∧
        processes.indexOf a < processes.indexOf b)) :
    ((main_loop rand n
      (main_init SchedulerType.SCHED_FCFS quantum max_time processes pcbs memory)).pcbs
        a).start_time
      < ((main_loop rand n
        (main_init SchedulerType.SCHED_FCFS quantum max_time processes pcbs memory)).pcbs
          b).start_time := by
  have h := main_loop_fcfs rand processes (fun p => (pcbs p).arrival_time) hnd n _
    (main_init_fcfs quantum max_time processes pcbs memory hnew)
  have h1 := h.arrival a ha
  have h2 := h.arrival b hb
  refine h.order a ha b hb hsa hsb ?_
  unfold Before
  have e1 : ((main_loop rand n
      (main_init SchedulerType.SCHED_FCFS quantum max_time processes pcbs memory)).pcbs
        a).arrival_time = (pcbs a).arrival_time := h1
  have e2 : ((main_loop rand n
      (main_init SchedulerType.SCHED_FCFS quantum max_time processes pcbs memory)).pcbs
        b).arrival_time = (pcbs b).arrival_time := h2
  rw [e1, e2] at hab
  exact hab

theorem C28_fcfs_order_witness :
    ([1, 2] : List Nat).Nodup ∧
    (∀ p ∈ [1, 2], (pcbs_pair p).state = ProcessState.STATE_NEW ∧
      (pcbs_pair p).start_time = -1 ∧ 0 ≤ (pcbs_pair p).arrival_time) ∧
    ((main_loop rand_zero 5
      (main_init SchedulerType.SCHED_FCFS DEFAULT_QUANTUM DEFAULT_TIME [1, 2] pcbs_pair
        memory_example)).pcbs 1).start_time ≠ -1 ∧
    ((main_loop rand_zero 5
      (main_init SchedulerType.SCHED_FCFS DEFAULT_QUANTUM DEFAULT_TIME [1, 2] pcbs_pair
        memory_example)).pcbs 2).start_time ≠ -1 ∧
    ((main_loop rand_zero 5
      (main_init SchedulerType.SCHED_FCFS DEFAULT_QUANTUM DEFAULT_TIME [1, 2] pcbs_pair
        memory_example)).pcbs 1).arrival_time
      < ((main_loop rand_zero 5
        (main_init SchedulerType.SCHED_FCFS DEFAULT_QUANTUM DEFAULT_TIME [1, 2] pcbs_pair
          memory_example)).pcbs 2).arrival_time ∧
    ((main_loop rand_zero 5
      (main_init SchedulerType.SCHED_FCFS DEFAULT_QUANTUM DEFAULT_TIME [1, 2] pcbs_pair
        memory_example)).pcbs 1).start_time
      < ((main_loop rand_zero 5
        (main_init SchedulerType.SCHED_FCFS DEFAULT_QUANTUM DEFAULT_TIME [1, 2] pcbs_pair
          memory_example)).pcbs 2).start_time :=
  have hnd : ([1, 2] : List Nat).Nodup := by decide
  have hnew : ∀ p ∈ [1, 2], (pcbs_pair p).state = ProcessState.STATE_NEW ∧
      (pcbs_pair p).start_time = -1 ∧ 0 ≤ (pcbs_pair p).arrival_time := by decide
  have hsa : ((main_loop rand_zero 5
      (main_init SchedulerType.SCHED_FCFS DEFAULT_QUANTUM DEFAULT_TIME [1, 2] pcbs_pair
        memory_example)).pcbs 1).start_time ≠ -1 := by decide!
  have hsb : ((main_loop rand_zero 5
      (main_init SchedulerType.SCHED_FCFS DEFAULT_QUANTUM DEFAULT_TIME [1, 2] pcbs_pair
        memory_example)).pcbs 2).start_time ≠ -1 := by decide!
  have hab : ((main_loop rand_zero 5
      (main_init SchedulerType.SCHED_FCFS DEFAULT_QUANTUM DEFAULT_TIME [1, 2] pcbs_pair
        memory_example)).pcbs 1).arrival_time
      < ((main_loop rand_zero 5
        (main_init SchedulerType.SCHED_FCFS DEFAULT_QUANTUM DEFAULT_TIME [1, 2] pcbs_pair
          memory_example)).pcbs 2).arrival_time := by decide!
  ⟨hnd, hnew, hsa, hsb, hab,
    C28_fcfs_order DEFAULT_QUANTUM DEFAULT_TIME [1, 2] pcbs_pair memory_example rand_zero
      hnd hnew 5 1 2 (by decide) (by decide) hsa hsb (Or.inl hab)⟩

/-! ### C31: the summary of the run -/

theorem summary_loop_context (pcbs : PCBStore) (l : List Nat) (acc : Summary) :
    (summary_loop pcbs l acc).context_switches = acc.context_switches := by
  induction l generalizing acc with
  | nil => rfl
  | cons p rest ih =>
    unfold summary_loop
    split
    · rw [ih]
    · rw [ih]

/-- C31 fails on the code: whenever `trace_print_summary` prints a figure after
`Changements de contexte`, the figure is `tm->event_count`, the number of records of the
trace.  In the run under FCFS (default quantum and time limit) on the roster of the one
PCB with pid 1, priority 2, 10 ticks of work and arrival at tick 0, for every stream of
`rand()` results, the trace holds the three records `ARRIVAL`, `EXECUTE` and `TERMINATE`
and the summary reports 3, while `scheduler_get_next` made one dispatch and the
scheduler's `total_context_switches` is 1. -/
theorem C31_summary_prints_event_count (rand : Nat → Nat) :
    (∀ (tm : TraceManager) (pcbs : PCBStore) (processes : List Nat) (k : Int),
      (trace_print_summary tm pcbs processes).context_switches = some k →
        k = tm.event_count) ∧
    loop_test (main_loop rand 100
      (main_init SchedulerType.SCHED_FCFS DEFAULT_QUANTUM DEFAULT_TIME [1] pcbs_example
        memory_example)) = false ∧
    (main_loop rand 100
      (main_init SchedulerType.SCHED_FCFS DEFAULT_QUANTUM DEFAULT_TIME [1] pcbs_example
        memory_example)).scheduler.total_context_switches = 1 ∧
    (trace_print_summary
      (main_loop rand 100
        (main_init SchedulerType.SCHED_FCFS DEFAULT_QUANTUM DEFAULT_TIME [1] pcbs_example
          memory_example)).trace_manager
      (main_loop rand 100
        (main_init SchedulerType.SCHED_FCFS DEFAULT_QUANTUM DEFAULT_TIME [1] pcbs_example
          memory_example)).pcbs
      (main_loop rand 100
        (main_init SchedulerType.SCHED_FCFS DEFAULT_QUANTUM DEFAULT_TIME [1] pcbs_example
          memory_example)).processes).context_switches = some 3 ∧
    trace_log (main_loop rand 100
      (main_init SchedulerType.SCHED_FCFS DEFAULT_QUANTUM DEFAULT_TIME [1] pcbs_example
        memory_example)).trace_manager
      = [(0, 1, EventType.ARRIVAL), (0, 1, EventType.EXECUTE), (1, 1, EventType.TERMINATE)] := by
  refine ⟨?_, ?_⟩
  · intro tm pcbs processes k h
    unfold trace_print_summary at h
    split at h
    · simp only [Option.some.injEq] at h
      exact h.symm
    · rw [summary_loop_context] at h
      exact absurd h (by simp)
  · rw [main_loop_congr rand rand_zero 100 _ (Or.inl (by decide))]
    decide!

/-! ### C34: the rounding of the request -/

/-- C34 fails on the code: `memory_allocate` searches for `align8 n`, the value of
`(n + 7) & ~7` in 64-bit arithmetic.  That is the least multiple of 8 that is at least
`n` as long as `n + 7` does not overflow; for the seven sizes above `2^64 - 8` it is 0.
On the fresh heap of 256 bytes `memory_allocate(mm, SIZE_MAX)` therefore searches for
size 0, succeeds with the pointer 4096 and leaves an in-use block of size 0 there, in
front of the free block of 256 bytes that starts at the same address. -/
theorem C34_rounding_wraps :
    (∀ n, n + 7 < SIZE_MOD → 8 ∣ align8 n ∧ n ≤ align8 n ∧ align8 n < n + 8) ∧
    (∀ n, SIZE_MOD ≤ n + 7 → n < SIZE_MOD → align8 n = 0) ∧
    memory_init 4096 256 = some heap_fresh ∧
    align8 (2 ^ 64 - 1) = 0 ∧
    best_fit_loop (align8 (2 ^ 64 - 1)) heap_fresh.free_list 0 none
      = some (0, ⟨4096, 256, true⟩) ∧
    memory_allocate heap_fresh (2 ^ 64 - 1) true
      = (4096, heap_with [⟨4096, 0, false⟩, ⟨4096, 256, true⟩] 1 0) := by
  refine ⟨?_, ?_, by decide, by decide, by decide, by decide⟩
  · intro n hn
    unfold align8
    rw [Nat.mod_eq_of_lt hn]
    refine ⟨Dvd.intro_left _ rfl, ?_, ?_⟩ <;> omega
  · intro n h1 h2
    unfold align8
    unfold SIZE_MOD at h1 h2 ⊢
    omega

/-! ### Freeing in a list without blocks of size zero -/

theorem total_sizes_zero (M : List MemoryBlock) (hpos : ∀ b ∈ M, 0 < b.size)
    (h : total_sizes M = 0) : M = [] := by
  cases M with
  | nil => rfl
  | cons m rest =>
    have := hpos m (List.mem_cons_self m rest)
    simp only [total_sizes] at h
    omega

/-- In a well-formed list without blocks of size zero `find_block` finds every block
from its start. -/
theorem find_block_positive (mm : MemoryManager) (h : HeapInv mm)
    (hpos : ∀ b ∈ mm.free_list, 0 < b.size) (A B : List MemoryBlock) (found : MemoryBlock)
    (hl : mm.free_list = A ++ found :: B) :
    find_block mm found.start = some (A.length, found) ∧ found.start ≠ 0 := by
  obtain ⟨hs, -, -, hheap⟩ := HeapInv_block mm h A B found hl
  refine ⟨(find_block_iff mm found.start A.length found).mpr ⟨?_, rfl, ?_⟩, by omega⟩
  · rw [hl, List.getElem?_append_right (le_refl _)]
    simp
  · intro i c hi hc
    have hget : mm.free_list[A.length]? = some found := by
      rw [hl, List.getElem?_append_right (le_refl _)]
      simp
    obtain ⟨X, M, Z, hl2, -, -⟩ := getElem_decomp_two _ i A.length c found hi hc hget
    obtain ⟨h1, h2, -, -, -, -⟩ := HeapInv_two_blocks mm h X M Z c found hl2
    have := hpos c (by rw [hl2]; simp)
    omega

/-- What `memory_free` does to an in-use block of a well-formed list without blocks of
size zero: the block is joined with the block before it in the list if that one is free,
otherwise with the block after it if that one is free, otherwise it is only marked
free. -/
theorem memory_free_positive (mm : MemoryManager) (h : HeapInv mm)
    (hpos : ∀ b ∈ mm.free_list, 0 < b.size) (A B : List MemoryBlock) (found : MemoryBlock)
    (hl : mm.free_list = A ++ found :: B) (hf : found.is_free = false) :
    ∃ l, memory_free mm found.start = some (true, after_free mm l) ∧
      ((∃ A1 cur, A = A1 ++ [cur] ∧ cur.is_free = true ∧
          l = A1 ++ [⟨cur.start, cur.size + found.size, true⟩] ++ B) ∨
       ((∀ A1 cur, A = A1 ++ [cur] → cur.is_free = false) ∧
          ∃ cur B1, B = cur :: B1 ∧ cur.is_free = true ∧
          l = A ++ [⟨found.start, found.size + cur.size, true⟩] ++ B1) ∨
       ((∀ A1 cur, A = A1 ++ [cur] → cur.is_free = false) ∧
        (∀ cur B1, B = cur :: B1 → cur.is_free = false) ∧
          l = A ++ [⟨found.start, found.size, true⟩] ++ B)) := by
  obtain ⟨hfind, hne⟩ := find_block_positive mm h hpos A B found hl
  obtain ⟨hst, htot, hreg, hheap⟩ := HeapInv_block mm h A B found hl
  have h32 : SIZEOF_MEMORYBLOCK = 32 := rfl
  have hA : ∀ c ∈ A, c.start ≠ found.start := by
    intro c hc
    obtain ⟨X, M, hX⟩ := List.append_of_mem hc
    have hl2 : mm.free_list = X ++ c :: M ++ found :: B := by rw [hl, hX]
    obtain ⟨h1, h2, -, -, -, -⟩ := HeapInv_two_blocks mm h X M B c found hl2
    have := hpos c (by rw [hl2]; simp)
    omega
  have hmk : marked_list mm A.length found = A ++ freed found :: B := by
    unfold marked_list
    rw [hl, splice_one]
    simp
  have hI : HeapInv (after_free mm (A ++ freed found :: B)) :=
    HeapInv_marked mm h found.start A B found hl rfl hA
  have hpred : ∀ A1 cur, A = A1 ++ [cur] →
      ptr_add cur.start cur.size = (freed found).start := by
    intro A1 cur hA1
    have hl2 : mm.free_list = A1 ++ cur :: [] ++ found :: B := by rw [hl, hA1]
    obtain ⟨h1, h2, h3, -, -, -⟩ := HeapInv_two_blocks mm h A1 [] B cur found hl2
    simp only [total_sizes] at h2 h3
    rw [ptr_add_eq _ _ (by omega)]
    show _ = found.start
    omega
  have hsucc : ∀ cur B1, B = cur :: B1 →
      ptr_add (freed found).start (freed found).size = cur.start := by
    intro cur B1 hB1
    have hl2 : mm.free_list = A ++ found :: [] ++ cur :: B1 := by rw [hl, hB1]; simp
    obtain ⟨h1, h2, h3, -, -, -⟩ := HeapInv_two_blocks mm h A [] B1 found cur hl2
    simp only [total_sizes] at h2 h3
    show ptr_add found.start found.size = _
    rw [ptr_add_eq _ _ (by omega)]
    omega
  have hAmem : ∀ c ∈ A, 0 < c.size := fun c hc => hpos c (by rw [hl]; simp [hc])
  have hBmem : ∀ c ∈ B, 0 < c.size := fun c hc => hpos c (by rw [hl]; simp [hc])
  rcases memory_free_cases mm found.start with ⟨h0, -⟩ | ⟨-, hn, -⟩ | ⟨j, fnd, -, hf2, hc⟩
  · exact absurd h0 hne
  · rw [hfind] at hn
    exact absurd hn (by simp)
  · rw [hfind] at hf2
    simp only [Option.some.injEq, Prod.mk.injEq] at hf2
    obtain ⟨rfl, rfl⟩ := hf2
    rcases hc with ⟨hfr, -⟩ | ⟨-, hc⟩
    · rw [hf] at hfr
      exact absurd hfr (by decide)
    rw [hmk] at hc
    rcases hc with ⟨hm, he⟩ | ⟨i, cur, hm, hc⟩ | ⟨i, cur, hm, hc⟩
    · -- no neighbour is free
      have hsk := merge_scan_no_merge _ _ _ _ hm
      refine ⟨_, he, Or.inr (Or.inr ⟨?_, ?_, by simp [freed]⟩)⟩
      · intro A1 cur hA1
        cases hcf : cur.is_free with
        | false => rfl
        | true =>
          exfalso
          have hget : (A ++ freed found :: B)[A1.length]? = some cur := by
            rw [hA1, List.append_assoc, List.getElem?_append_right (le_refl _)]
            simp
          refine hsk A1.length cur hget ⟨hcf, ?_, Or.inl (hpred A1 cur hA1)⟩
          rw [hA1]
          simp
      · intro cur B1 hB1
        cases hcf : cur.is_free with
        | false => rfl
        | true =>
          exfalso
          have hget : (A ++ freed found :: B)[A.length + 1]? = some cur := by
            rw [hB1, List.getElem?_append_right (by omega)]
            simp
          refine hsk (A.length + 1) cur hget ⟨hcf, ?_, Or.inr (hsucc cur B1 hB1)⟩
          omega
    · -- the block before is free
      obtain ⟨C, D, hdec, hi, hfree, hij, hadj, -⟩ := merge_scan_into_current _ _ _ _ _ _ hm
      rw [Nat.zero_add] at hi
      subst hi
      rcases hc with ⟨hlt, he⟩ | ⟨hnlt, -⟩
      · obtain ⟨M, hAeq, hDeq⟩ := split_two A B C D (freed found) cur hdec hlt
        have hfl : (after_free mm (A ++ freed found :: B)).free_list
            = C ++ cur :: M ++ freed found :: B := by
          simp [after_free, hAeq]
        obtain ⟨hb, hcs, ht, -, -, -⟩ :=
          HeapInv_two_blocks _ hI C M B cur (freed found) hfl
        have ht2 : total_sizes C + cur.size + total_sizes M + found.size + total_sizes B
            = mm.total_size := ht
        have hheap2 : (after_free mm (A ++ freed found :: B)).heap = mm.heap := rfl
        rw [hheap2] at hb hcs
        rw [ptr_add_eq _ _ (by omega)] at hadj
        have hM : M = [] := by
          refine total_sizes_zero M (fun b hb => hAmem b ?_) (by omega)
          rw [hAeq]
          simp [hb]
        subst hM
        refine ⟨_, he, Or.inl ⟨C, cur, hAeq, hfree, ?_⟩⟩
        show splice (A ++ freed found :: B) C.length (A.length + 1) _ = _
        have hsp := splice_append C (cur :: [freed found]) B [grown cur (freed found)]
        have hlen : A.length + 1 = C.length + (cur :: [freed found]).length := by
          rw [hAeq]
          simp
        rw [hlen, hAeq]
        simp only [List.append_assoc, List.cons_append, List.nil_append,
          List.singleton_append] at hsp ⊢
        rw [hsp]
        congr 2
        simp only [total_sizes] at ht2
        have hg : (cur.size + found.size) % SIZE_MOD = cur.size + found.size :=
          Nat.mod_eq_of_lt (by omega)
        simp only [grown, freed, hg, hfree]
      · exfalso
        have hlt : A.length < C.length := by omega
        obtain ⟨M, hCeq, hBeq⟩ := split_two C D A B cur (freed found) hdec.symm hlt
        have hfl : (after_free mm (A ++ freed found :: B)).free_list
            = A ++ freed found :: M ++ cur :: D := by
          simp [after_free, hBeq]
        exact HeapInv_no_backward_end _ hI A M D (freed found) cur hfl hfree hadj
    · -- the block after is free and the block before is not
      obtain ⟨C, D, hdec, hi, hfree, hij, hnadj, hadj, hskip⟩ :=
        merge_scan_into_block _ _ _ _ _ _ hm
      rw [Nat.zero_add] at hi
      subst hi
      rcases hc with ⟨hlt, he⟩ | ⟨hnlt, -⟩
      · obtain ⟨M, hCeq, hBeq⟩ := split_two C D A B cur (freed found) hdec.symm hlt
        have hfl : (after_free mm (A ++ freed found :: B)).free_list
            = A ++ freed found :: M ++ cur :: D := by
          simp [after_free, hBeq]
        obtain ⟨hb, hcs, ht, -, -, -⟩ :=
          HeapInv_two_blocks _ hI A M D (freed found) cur hfl
        have ht2 : total_sizes A + found.size + total_sizes M + cur.size + total_sizes D
            = mm.total_size := ht
        have hheap2 : (after_free mm (A ++ freed found :: B)).heap = mm.heap := rfl
        have hb2 : found.start = mm.heap + total_sizes A := hb
        have hcs2 : cur.start = mm.heap + total_sizes A + found.size + total_sizes M := hcs
        have hadj2 : ptr_add found.start found.size = cur.start := hadj
        rw [ptr_add_eq _ _ (by omega)] at hadj2
        have hM : M = [] := by
          refine total_sizes_zero M (fun b hb => hBmem b ?_) (by omega)
          rw [hBeq]
          simp [hb]
        subst hM
        have hBeq2 : B = cur :: D := by simpa using hBeq
        refine ⟨_, he, Or.inr (Or.inl ⟨?_, cur, D, hBeq2, hfree, ?_⟩)⟩
        · intro A1 c hA1
          cases hcf : c.is_free with
          | false => rfl
          | true =>
            exfalso
            have hget : C[A1.length]? = some c := by
              rw [hCeq, hA1, List.append_assoc, List.getElem?_append_right (le_refl _)]
              simp
            have := hskip A1.length c hget
            rw [Nat.zero_add] at this
            refine this ⟨hcf, ?_, Or.inl (hpred A1 c hA1)⟩
            rw [hA1]
            simp
        · show splice (A ++ freed found :: B) A.length (C.length + 1) _ = _
          have hsp := splice_append A (freed found :: [cur]) D [grown (freed found) cur]
          have hlen : C.length + 1 = A.length + (freed found :: [cur]).length := by
            rw [hCeq]
            simp
          rw [hlen, hBeq2]
          simp only [List.append_assoc, List.cons_append, List.nil_append,
            List.singleton_append] at hsp ⊢
          rw [hsp]
          congr 2
          simp only [total_sizes] at ht2
          have hg : (found.size + cur.size) % SIZE_MOD = found.size + cur.size :=
            Nat.mod_eq_of_lt (by omega)
          simp only [grown, freed, hg]
      · exfalso
        have hlt : C.length < A.length := by omega
        obtain ⟨M, hAeq, hDeq⟩ := split_two A B C D (freed found) cur hdec hlt
        have hfl : (after_free mm (A ++ freed found :: B)).free_list
            = C ++ cur :: M ++ freed found :: B := by
          simp [after_free, hAeq]
        exact hnadj (HeapInv_backward_start _ hI C M B cur (freed found) hfl hadj)

theorem HeapInv_congr (mm mm2 : MemoryManager) (h : HeapInv mm) (h1 : mm2.heap = mm.heap)
    (h2 : mm2.total_size = mm.total_size) (h3 : mm2.free_list = mm.free_list) :
    HeapInv mm2 :=
  ⟨by rw [h1, h2]; exact h.region, by rw [h3]; exact h.nonempty,
    by rw [h1, h3]; exact h.chained, by rw [h2, h3]; exact h.total,
    by rw [h3]; exact h.no_zero_run⟩

theorem align8_pos (n : Nat) (h0 : n ≠ 0) (hn : n + 7 < SIZE_MOD) : 0 < align8 n := by
  unfold align8
  rw [Nat.mod_eq_of_lt hn]
  omega

/-- A successful `memory_allocate` of a size whose rounding does not overflow, in a
well-formed list without blocks of size zero, leaves no block of size zero. -/
theorem memory_allocate_positive (mm : MemoryManager) (h : HeapInv mm)
    (hpos : ∀ b ∈ mm.free_list, 0 < b.size) (n : Nat) (hn : n + 7 < SIZE_MOD) (ok : Bool)
    (hs : (memory_allocate mm n ok).1 ≠ 0) :
    ∀ b ∈ (memory_allocate mm n ok).2.free_list, 0 < b.size := by
  have h0 : n ≠ 0 := by
    intro e
    rw [e] at hs
    exact hs (by simp [memory_allocate])
  have hr := align8_pos n h0 hn
  obtain ⟨X, best, Z, hl, hb, -, -, -, hfl⟩ := memory_allocate_success mm n ok (Or.inl hs)
  obtain ⟨-, -, -, -, hf, -, -⟩ := best_fit_loop_some _ _ _ _ hb
  obtain ⟨-, ht, hreg, hheap⟩ := HeapInv_block mm h X Z best hl
  have h32 : SIZEOF_MEMORYBLOCK = 32 := rfl
  have hle := hf.2
  have hmod : (align8 n + SIZEOF_MEMORYBLOCK) % SIZE_MOD = align8 n + SIZEOF_MEMORYBLOCK :=
    Nat.mod_eq_of_lt (by omega)
  have hX : ∀ b ∈ X, 0 < b.size := fun b hb => hpos b (by rw [hl]; simp [hb])
  have hZ : ∀ b ∈ Z, 0 < b.size := fun b hb => hpos b (by rw [hl]; simp [hb])
  have hbest : 0 < best.size := hpos best (by rw [hl]; simp)
  intro b hb
  rcases hfl with ⟨hsp, hfl⟩ | ⟨-, hfl⟩
  · rw [hmod] at hsp
    rw [hfl] at hb
    simp only [List.mem_append, List.mem_cons, List.mem_singleton, List.not_mem_nil,
      or_false] at hb
    rcases hb with (hb | rfl | rfl) | hb
    · exact hX b hb
    · exact hr
    · show 0 < best.size - align8 n
      omega
    · exact hZ b hb
  · rw [hfl] at hb
    simp only [List.mem_append, List.mem_singleton] at hb
    rcases hb with (hb | rfl) | hb
    · exact hX b hb
    · exact hbest
    · exact hZ b hb

/-- In a well-formed list without blocks of size zero and without two adjacent free
blocks, `memory_free` of the pointer that a successful `memory_allocate` has just
returned, the size being one whose rounding does not overflow, returns true and gives the
block list back as it was before the allocation. -/
theorem allocate_free_restores (mm : MemoryManager) (h : HeapInv mm)
    (hpos : ∀ b ∈ mm.free_list, 0 < b.size) (hadj : NoAdjacentFree mm.free_list)
    (n : Nat) (hn : n + 7 < SIZE_MOD) (ok : Bool) (hs : (memory_allocate mm n ok).1 ≠ 0)
    (mm2 : MemoryManager) (h1 : mm2.heap = mm.heap) (h2 : mm2.total_size = mm.total_size)
    (h3 : mm2.free_list = (memory_allocate mm n ok).2.free_list) :
    memory_free mm2 (memory_allocate mm n ok).1
      = some (true, after_free mm2 mm.free_list) := by
  have hI2 : HeapInv mm2 :=
    HeapInv_congr _ mm2 (HeapInv_allocate mm n ok h)
      (h1.trans (memory_allocate_region mm n ok).1.symm)
      (h2.trans (memory_allocate_region mm n ok).2.symm) h3
  have hpos2 : ∀ b ∈ mm2.free_list, 0 < b.size := by
    rw [h3]
    exact memory_allocate_positive mm h hpos n hn ok hs
  obtain ⟨X, best, Z, hl, hb, hret, -, -, hfl⟩ := memory_allocate_success mm n ok (Or.inl hs)
  obtain ⟨-, -, -, -, hf, -, -⟩ := best_fit_loop_some _ _ _ _ hb
  obtain ⟨hst, ht, hreg, hheap⟩ := HeapInv_block mm h X Z best hl
  have h32 : SIZEOF_MEMORYBLOCK = 32 := rfl
  have hle := hf.2
  have hbf := hf.1
  -- the neighbours of the chosen block are in use
  have hpred : ∀ A1 cur, X = A1 ++ [cur] → cur.is_free = true → False := by
    intro A1 cur hX hcf
    have hl2 : mm.free_list = A1 ++ cur :: [] ++ best :: Z := by rw [hl, hX]
    obtain ⟨e1, e2, -, -, -, -⟩ := HeapInv_two_blocks mm h A1 [] Z cur best hl2
    simp only [total_sizes] at e2
    unfold NoAdjacentFree at hadj
    rw [hl, hX, List.pairwise_append] at hadj
    exact hadj.2.2 cur (by simp) best (by simp) ⟨hcf, hbf, Or.inl (by omega)⟩
  have hsucc : ∀ cur B1, Z = cur :: B1 → cur.is_free = true → False := by
    intro cur B1 hZ hcf
    have hl2 : mm.free_list = X ++ best :: [] ++ cur :: B1 := by rw [hl, hZ]; simp
    obtain ⟨e1, e2, -, -, -, -⟩ := HeapInv_two_blocks mm h X [] B1 best cur hl2
    simp only [total_sizes] at e2
    unfold NoAdjacentFree at hadj
    rw [hl, hZ, List.pairwise_append] at hadj
    have hp := hadj.2.1
    rw [List.pairwise_cons] at hp
    exact hp.1 cur (by simp) ⟨hbf, hcf, Or.inl (by omega)⟩
  have hbest : best = ⟨best.start, best.size, true⟩ := by
    cases best
    simp only [MemoryBlock.mk.injEq, true_and]
    exact hbf
  rw [hret]
  rcases hfl with ⟨hsp, hfl⟩ | ⟨-, hfl⟩
  · have hl3 : mm2.free_list = X ++
        ({ start := best.start, size := align8 n, is_free := false } : MemoryBlock) ::
          ({ start := ptr_add best.start (align8 n), size := best.size - align8 n,
             is_free := true } : MemoryBlock) :: Z := by
      rw [h3, hfl]
      simp
    obtain ⟨l, he, hc⟩ := memory_free_positive mm2 hI2 hpos2 X _ _ hl3 rfl
    rw [he]
    rcases hc with ⟨A1, cur, hX, hcf, -⟩ | ⟨-, cur, B1, hB, -, hlist⟩ | ⟨-, hno, -⟩
    · exact absurd hcf (fun e => hpred A1 cur hX e)
    · simp only [List.cons.injEq] at hB
      obtain ⟨rfl, rfl⟩ := hB
      rw [hlist, hl]
      have : align8 n + (best.size - align8 n) = best.size := by omega
      simp only [this]
      rw [← hbest]
      simp
    · exact absurd (hno _ _ rfl) (by simp)
  · have hl3 : mm2.free_list = X ++ ({ best with is_free := false } : MemoryBlock) :: Z := by
      rw [h3, hfl]
      simp
    obtain ⟨l, he, hc⟩ := memory_free_positive mm2 hI2 hpos2 X _ _ hl3 rfl
    rw [he]
    rcases hc with ⟨A1, cur, hX, hcf, -⟩ | ⟨-, cur, B1, hB, hcf, -⟩ | ⟨-, -, hlist⟩
    · exact absurd hcf (fun e => hpred A1 cur hX e)
    · exact absurd hcf (fun e => hsucc cur B1 hB e)
    · rw [hlist, hl]
      show some (true, after_free mm2 (X ++ [⟨best.start, best.size, true⟩] ++ Z)) = _
      rw [← hbest]
      simp

theorem NoAdjacentFree_of_OneFree (l : List MemoryBlock) (h : OneFree l) :
    NoAdjacentFree l := by
  unfold NoAdjacentFree
  unfold OneFree at h
  induction l with
  | nil => exact List.Pairwise.nil
  | cons b rest ih =>
    rw [List.pairwise_cons]
    cases hb : b.is_free with
    | false =>
      rw [List.filter_cons_of_neg (by simp [hb])] at h
      exact ⟨fun c _ hc => by simp [hb] at hc, ih h⟩
    | true =>
      rw [List.filter_cons_of_pos (by simp [hb])] at h
      simp only [List.length_cons] at h
      have h0 : List.filter (fun b => b.is_free) rest = [] :=
        List.length_eq_zero.mp (by omega)
      refine ⟨?_, ih (by rw [h0]; simp)⟩
      intro c hc hcon
      have : c ∈ List.filter (fun b => b.is_free) rest :=
        List.mem_filter.mpr ⟨hc, by simpa using hcon.2.1⟩
      rw [h0] at this
      exact absurd this (List.not_mem_nil c)

theorem memory_allocate_one_free (mm : MemoryManager) (n : Nat) (ok : Bool)
    (h : OneFree mm.free_list) : OneFree (memory_allocate mm n ok).2.free_list := by
  rcases memory_allocate_cases mm n ok with ⟨-, he⟩ | ⟨-, -, he⟩ | ⟨i, best, -, hb, hc⟩
  · rw [he]; exact h
  · rw [he]; exact h
  · obtain ⟨X, Z, hl, rfl, hf, -, -⟩ := best_fit_loop_some _ _ _ _ hb
    have hbf := hf.1
    unfold OneFree at h ⊢
    rw [hl] at h
    simp only [List.filter_append, List.filter_cons, hbf, if_true, List.length_append,
      List.length_cons] at h
    rcases hc with ⟨-, -, he⟩ | ⟨-, -, he⟩ | ⟨-, he⟩
    · rw [he, hl]
      simp only [List.filter_append, List.filter_cons, hbf, if_true, List.length_append,
        List.length_cons]
      exact h
    · rw [he]
      show (List.filter _ (splice mm.free_list X.length (X.length + 1) _)).length ≤ 1
      rw [hl, splice_one]
      simp only [List.filter_append, List.filter_cons, List.filter_nil, List.length_append,
        List.length_cons, List.length_nil]
      simp
      omega
    · rw [he]
      show (List.filter _ (splice mm.free_list X.length (X.length + 1) _)).length ≤ 1
      rw [hl, splice_one]
      simp only [List.filter_append, List.filter_cons, List.filter_nil, List.length_append,
        List.length_cons, List.length_nil]
      simp
      omega

theorem free_all_append (mm mm1 mm2 : MemoryManager) (l1 l2 : List Nat)
    (oks1 oks2 : List Bool) (h1 : free_all mm l1 = some (oks1, mm1))
    (h2 : free_all mm1 l2 = some (oks2, mm2)) :
    free_all mm (l1 ++ l2) = some (oks1 ++ oks2, mm2) := by
  induction l1 generalizing mm oks1 with
  | nil =>
    simp only [free_all, Option.some.injEq, Prod.mk.injEq] at h1
    obtain ⟨rfl, rfl⟩ := h1
    simpa using h2
  | cons p rest ih =>
    simp only [List.cons_append, free_all] at h1 ⊢
    cases hf : memory_free mm p with
    | none => rw [hf] at h1; simp at h1
    | some r =>
      obtain ⟨ok, mm3⟩ := r
      rw [hf] at h1
      simp only at h1 ⊢
      cases hr : free_all mm3 rest with
      | none => rw [hr] at h1; simp at h1
      | some r2 =>
        obtain ⟨oks, mm4⟩ := r2
        rw [hr] at h1
        simp only [Option.some.injEq, Prod.mk.injEq] at h1
        obtain ⟨rfl, rfl⟩ := h1
        have hi := ih mm3 oks hr
        simp only [List.append_eq]
        rw [hi]
        simp

/-- Allocations from a well-formed list without blocks of size zero and with at most
one free block, all successful and of sizes whose rounding does not overflow, are undone
by freeing the returned pointers in reverse order: every `memory_free` returns true and
the block list is again what it was. -/
theorem free_reverse_restores (ns : List Nat) (mm : MemoryManager) (h : HeapInv mm)
    (hpos : ∀ b ∈ mm.free_list, 0 < b.size) (hone : OneFree mm.free_list)
    (hn : ∀ n ∈ ns, n + 7 < SIZE_MOD) (hs : ∀ p ∈ (allocate_all mm ns).1, p ≠ 0)
    (mm2 : MemoryManager) (h1 : mm2.heap = mm.heap) (h2 : mm2.total_size = mm.total_size)
    (h3 : mm2.free_list = (allocate_all mm ns).2.free_list) :
    ∃ mm3, free_all mm2 (allocate_all mm ns).1.reverse
        = some (List.replicate ns.length true, mm3) ∧
      mm3.heap = mm.heap ∧ mm3.total_size = mm.total_size ∧
      mm3.free_list = mm.free_list := by
  induction ns generalizing mm mm2 with
  | nil => exact ⟨mm2, rfl, h1, h2, h3⟩
  | cons n rest ih =>
    have hp : (memory_allocate mm n true).1 ≠ 0 :=
      hs _ (by simp [allocate_all])
    have hn1 : n + 7 < SIZE_MOD := hn n (List.mem_cons_self n rest)
    obtain ⟨r1, r2⟩ := memory_allocate_region mm n true
    obtain ⟨mm3, e1, e2, e3, e4⟩ := ih (memory_allocate mm n true).2
      (HeapInv_allocate mm n true h)
      (memory_allocate_positive mm h hpos n hn1 true hp)
      (memory_allocate_one_free mm n true hone)
      (fun m hm => hn m (List.mem_cons_of_mem n hm))
      (fun p hpm => hs p (by simp [allocate_all, hpm]))
      mm2 (h1.trans r1.symm) (h2.trans r2.symm) h3
    have hfree := allocate_free_restores mm h hpos (NoAdjacentFree_of_OneFree _ hone) n hn1
      true hp mm3 (e2.trans r1) (e3.trans r2) e4
    refine ⟨after_free mm3 mm.free_list, ?_, e2.trans r1, e3.trans r2, rfl⟩
    show free_all mm2 ((memory_allocate mm n true).1 ::
      (allocate_all (memory_allocate mm n true).2 rest).1).reverse = _
    rw [List.reverse_cons, List.length_cons, List.replicate_succ']
    refine free_all_append mm2 mm3 _ _ _ _ _ e1 ?_
    simp only [free_all, hfree]

/-- A successful `memory_free` in a well-formed list without blocks of size zero merges
with at most one neighbour: with the block before it in the list if that is free,
otherwise with the block after it if that is free; the list loses one block when one
of the two is free and keeps its length otherwise. -/
theorem memory_free_merges_one (mm : MemoryManager) (h : HeapInv mm)
    (hpos : ∀ b ∈ mm.free_list, 0 < b.size) (ptr : Nat) (mm1 : MemoryManager)
    (hfree : memory_free mm ptr = some (true, mm1)) :
    ∃ A found B, mm.free_list = A ++ found :: B ∧ found.start = ptr ∧
      found.is_free = false ∧
      ((∃ A1 cur, A = A1 ++ [cur] ∧ cur.is_free = true ∧
          cur.start + cur.size = found.start ∧
          mm1.free_list = A1 ++ [⟨cur.start, cur.size + found.size, true⟩] ++ B ∧
          mm1.free_list.length + 1 = mm.free_list.length) ∨
       ((∀ A1 cur, A = A1 ++ [cur] → cur.is_free = false) ∧
          ∃ cur B1, B = cur :: B1 ∧ cur.is_free = true ∧
          found.start + found.size = cur.start ∧
          mm1.free_list = A ++ [⟨found.start, found.size + cur.size, true⟩] ++ B1 ∧
          mm1.free_list.length + 1 = mm.free_list.length) ∨
       ((∀ A1 cur, A = A1 ++ [cur] → cur.is_free = false) ∧
        (∀ cur B1, B = cur :: B1 → cur.is_free = false) ∧
          mm1.free_list = A ++ [⟨found.start, found.size, true⟩] ++ B ∧
          mm1.free_list.length = mm.free_list.length)) := by
  have hfound : ∃ j found, find_block mm ptr = some (j, found) ∧ found.is_free = false := by
    rcases memory_free_cases mm ptr with ⟨-, he⟩ | ⟨-, -, he⟩ | ⟨j, found, -, hf, hc⟩
    · rw [he] at hfree; simp at hfree
    · rw [he] at hfree; simp at hfree
    · rcases hc with ⟨-, he⟩ | ⟨hnf, -⟩
      · rw [he] at hfree; simp at hfree
      · exact ⟨j, found, hf, hnf⟩
  obtain ⟨j, found, hf, hnf⟩ := hfound
  obtain ⟨A, B, hl, -, hp, -⟩ := find_block_from_some _ _ _ _ _ hf
  obtain ⟨l, he, hc⟩ := memory_free_positive mm h hpos A B found hl hnf
  rw [hp, hfree] at he
  simp only [Option.some.injEq, Prod.mk.injEq, true_and] at he
  have hlist : mm1.free_list = l := by rw [he]; rfl
  refine ⟨A, found, B, hl, hp, hnf, ?_⟩
  rcases hc with ⟨A1, cur, hA, hcf, hll⟩ | ⟨hpred, cur, B1, hB, hcf, hll⟩ | ⟨hpred, hsucc, hll⟩
  · left
    have hl2 : mm.free_list = A1 ++ cur :: [] ++ found :: B := by rw [hl, hA]
    obtain ⟨e1, e2, -, -, -, -⟩ := HeapInv_two_blocks mm h A1 [] B cur found hl2
    simp only [total_sizes] at e2
    refine ⟨A1, cur, hA, hcf, by omega, by rw [hlist, hll], ?_⟩
    rw [hlist, hll, hl, hA]
    simp only [List.length_append, List.length_cons, List.length_nil]
    omega
  · right; left
    have hl2 : mm.free_list = A ++ found :: [] ++ cur :: B1 := by rw [hl, hB]; simp
    obtain ⟨e1, e2, -, -, -, -⟩ := HeapInv_two_blocks mm h A [] B1 found cur hl2
    simp only [total_sizes] at e2
    refine ⟨hpred, cur, B1, hB, hcf, by omega, by rw [hlist, hll], ?_⟩
    rw [hlist, hll, hl, hB]
    simp only [List.length_append, List.length_cons, List.length_nil]
    omega
  · right; right
    refine ⟨hpred, hsucc, by rw [hlist, hll], ?_⟩
    rw [hlist, hll, hl]
    simp

theorem allocate_all_region (ns : List Nat) (mm : MemoryManager) :
    (allocate_all mm ns).2.heap = mm.heap ∧
      (allocate_all mm ns).2.total_size = mm.total_size := by
  induction ns generalizing mm with
  | nil => exact ⟨rfl, rfl⟩
  | cons n rest ih =>
    exact ⟨(ih (memory_allocate mm n true).2).1.trans (memory_allocate_region mm n true).1,
      (ih (memory_allocate mm n true).2).2.trans (memory_allocate_region mm n true).2⟩

/-- From a fresh heap, allocations that all succeed, of sizes whose rounding does not
overflow, followed by the release of the returned pointers in reverse order: every
`memory_free` returns true and a single free block of `total` bytes is left at the heap
base. -/
theorem free_reverse_fresh (heap total : Nat) (hv : ValidRegion heap total)
    (mm : MemoryManager) (hinit : memory_init heap total = some mm) (ns : List Nat)
    (hne : ns ≠ []) (hn : ∀ n ∈ ns, n + 7 < SIZE_MOD)
    (hs : ∀ p ∈ (allocate_all mm ns).1, p ≠ 0) :
    ∃ mm3, free_all (allocate_all mm ns).2 (allocate_all mm ns).1.reverse
        = some (List.replicate ns.length true, mm3) ∧
      mm3.free_list = [⟨heap, total, true⟩] := by
  have hI := HeapInv_init heap total hv mm hinit
  have hlist : mm.free_list = [⟨heap, total, true⟩] := by
    unfold memory_init at hinit
    rw [if_neg hv.1] at hinit
    simp only [Option.some.injEq] at hinit
    rw [← hinit]
  have hpos : ∀ b ∈ mm.free_list, 0 < b.size := by
    cases ns with
    | nil => exact absurd rfl hne
    | cons n rest =>
      have hp : (memory_allocate mm n true).1 ≠ 0 := hs _ (by simp [allocate_all])
      have h0 : n ≠ 0 := by
        intro e
        rw [e] at hp
        exact hp (by simp [memory_allocate])
      have hr := align8_pos n h0 (hn n (List.mem_cons_self n rest))
      obtain ⟨X, best, Z, hl, hb, -, -, -, -⟩ := memory_allocate_success mm n true (Or.inl hp)
      obtain ⟨-, -, -, -, hf, -, -⟩ := best_fit_loop_some _ _ _ _ hb
      have hbm : best ∈ mm.free_list := by rw [hl]; simp
      rw [hlist] at hbm ⊢
      simp only [List.mem_singleton] at hbm
      intro b hb2
      simp only [List.mem_singleton] at hb2
      have := hf.2
      rw [hbm] at this
      rw [hb2]
      show 0 < total
      have h2 : align8 n ≤ total := this
      omega
  have hone : OneFree mm.free_list := by
    rw [hlist]
    unfold OneFree
    simp
  obtain ⟨mm3, e1, -, -, e4⟩ := free_reverse_restores ns mm hI hpos hone hn hs
    (allocate_all mm ns).2 (allocate_all_region ns mm).1 (allocate_all_region ns mm).2 rfl
  exact ⟨mm3, e1, e4.trans hlist⟩

/-! ### C32, C35, C36: blocks of size zero -/

/-- C32 fails on the code: in a fresh heap of 256 bytes allocate 64 bytes, then
`SIZE_MAX` bytes; the second request is rounded to 0 and leaves an in-use block of size
0 at 4160 between the block of 64 bytes and the free block of 192 bytes.  Freeing the
first block joins it with the free block and unlinks both nodes after it: the list
goes from three blocks to one, and the pointer 4160, never freed, is no longer the start
of a block.  In a list without blocks of size zero the claim holds
(`memory_free_merges_one`). -/
theorem C32_free_unlinks_two :
    memory_init 4096 256 = some heap_fresh ∧
    memory_allocate heap_fresh 64 true
      = (4096, heap_with [⟨4096, 64, false⟩, ⟨4160, 192, true⟩] 1 0) ∧
    memory_allocate (heap_with [⟨4096, 64, false⟩, ⟨4160, 192, true⟩] 1 0) (2 ^ 64 - 1) true
      = (4160, heap_zero_middle) ∧
    heap_zero_middle.free_list.length = 3 ∧
    memory_free heap_zero_middle 4096 = some (true, heap_with [⟨4096, 256, true⟩] 2 1) ∧
    (heap_with [⟨4096, 256, true⟩] 2 1).free_list.length = 1 ∧
    memory_free (heap_with [⟨4096, 256, true⟩] 2 1) 4160
      = some (false, heap_with [⟨4096, 256, true⟩] 2 1) :=
  ⟨by decide, by decide, by decide, by decide, by decide, by decide, by decide⟩

/-- C35 fails on the code: the manager left by `memory_allocate(mm, SIZE_MAX)` on the
fresh heap of 256 bytes is reachable and has a single free block.  On it
`memory_allocate(mm, 64)` succeeds with the pointer 4096, which is also the start of the
in-use block of size 0; `memory_free(mm, 4096)` then returns true but frees the block of
size 0: the block list has three blocks instead of the two before the allocation.  In a list without blocks of size zero, for a size whose
rounding does not overflow, the claim holds (`allocate_free_restores`). -/
theorem C35_free_takes_other_block :
    Reachable 4096 256 heap_zero_alloc ∧
    NoAdjacentFree heap_zero_alloc.free_list ∧
    heap_zero_alloc.free_list = [⟨4096, 0, false⟩, ⟨4096, 256, true⟩] ∧
    memory_allocate heap_zero_alloc 64 true
      = (4096, heap_with [⟨4096, 0, false⟩, ⟨4096, 64, false⟩, ⟨4160, 192, true⟩] 2 0) ∧
    memory_free
        (heap_with [⟨4096, 0, false⟩, ⟨4096, 64, false⟩, ⟨4160, 192, true⟩] 2 0) 4096
      = some (true,
          heap_with [⟨4096, 0, true⟩, ⟨4096, 64, false⟩, ⟨4160, 192, true⟩] 2 1) :=
  ⟨heap_zero_alloc_reachable, by unfold NoAdjacentFree; decide, by decide, by decide,
    by decide⟩

/-- C36 fails on the code: from the fresh heap of 256 bytes `memory_allocate(mm,
SIZE_MAX)` and `memory_allocate(mm, 64)` both succeed, both with the pointer 4096.
Freeing the second pointer frees the block of size 0; freeing the first pointer then
returns false, and the list is left with three blocks, the block of 64 bytes still in
use.  For sizes whose rounding does not overflow the claim holds
(`free_reverse_fresh`). -/
theorem C36_second_free_fails :
    memory_init 4096 256 = some heap_fresh ∧
    memory_allocate heap_fresh (2 ^ 64 - 1) true = (4096, heap_zero_alloc) ∧
    memory_allocate heap_zero_alloc 64 true
      = (4096, heap_with [⟨4096, 0, false⟩, ⟨4096, 64, false⟩, ⟨4160, 192, true⟩] 2 0) ∧
    memory_free
        (heap_with [⟨4096, 0, false⟩, ⟨4096, 64, false⟩, ⟨4160, 192, true⟩] 2 0) 4096
      = some (true,
          heap_with [⟨4096, 0, true⟩, ⟨4096, 64, false⟩, ⟨4160, 192, true⟩] 2 1) ∧
    memory_free
        (heap_with [⟨4096, 0, true⟩, ⟨4096, 64, false⟩, ⟨4160, 192, true⟩] 2 1) 4096
      = some (false,
          heap_with [⟨4096, 0, true⟩, ⟨4096, 64, false⟩, ⟨4160, 192, true⟩] 2 1) :=
  ⟨by decide, by decide, by decide, by decide, by decide⟩

/-! ### C33: the head of the wait queue that asked for another device -/

theorem queue_dequeue_nodes (queue : Queue) :
    (queue.nodes = [] ∧ (queue_dequeue queue).1 = none ∧ (queue_dequeue queue).2.nodes = []) ∨
    (∃ a rest, queue.nodes = a :: rest ∧ (queue_dequeue queue).1 = some a ∧
      (queue_dequeue queue).2.nodes = rest) := by
  unfold queue_dequeue
  cases h : queue.nodes with
  | nil => left; exact ⟨rfl, rfl, h⟩
  | cons a rest => right; exact ⟨a, rest, rfl, rfl, rfl⟩

/-- A turn of the loop of `io_update` brings no PCB into the wait queue, and installs on
the device only a PCB of the wait queue. -/
theorem io_update_device_kept (now : Int) (i : Nat) (st : IOManager × PCBStore) (p : Nat)
    (hq : p ∉ st.1.io_queue.nodes) :
    p ∉ (io_update_device now i st).1.io_queue.nodes ∧
    ∀ d, ((io_update_device now i st).1.devices d).current_process = some p →
      (st.1.devices d).current_process = some p := by
  by_cases h : (st.1.devices i).is_busy = true ∧ (st.1.devices i).end_time ≤ now
  · obtain ⟨-, h2, -, h4, h5⟩ := io_update_device_due now i st h.1 h.2
    rw [h2]
    rcases queue_dequeue_nodes st.1.io_queue with ⟨hn, h1, hr⟩ | ⟨a, rest, hn, h1, hr⟩
    · refine ⟨by rw [hr]; exact List.not_mem_nil p, ?_⟩
      intro d hd
      by_cases hdi : d = i
      · subst hdi
        rw [h5, h1] at hd
        exact absurd hd (by simp)
      · rwa [h4 d hdi] at hd
    · have hpa : a ≠ p := by
        intro e
        apply hq
        rw [hn, e]
        exact List.mem_cons_self p rest
      refine ⟨?_, ?_⟩
      · rw [hr]
        intro hp
        apply hq
        rw [hn]
        exact List.mem_cons_of_mem a hp
      · intro d hd
        by_cases hdi : d = i
        · subst hdi
          rw [h5, h1] at hd
          simp only at hd
          split at hd
          · simp only [Option.some.injEq] at hd
            exact absurd hd hpa
          · exact absurd hd (by simp)
        · rwa [h4 d hdi] at hd
  · rw [io_update_device_idle now i st]
    · exact ⟨hq, fun d hd => hd⟩
    · by_cases hb : (st.1.devices i).is_busy = true
      · exact Or.inr (not_le.mp (fun he => h ⟨hb, he⟩))
      · exact Or.inl (by simpa using hb)

theorem io_update_kept (io : IOManager) (pcbs : PCBStore) (now : Int) (p : Nat)
    (hq : p ∉ io.io_queue.nodes) :
    p ∉ (io_update io pcbs now).1.io_queue.nodes ∧
    ∀ d, ((io_update io pcbs now).1.devices d).current_process = some p →
      (io.devices d).current_process = some p := by
  unfold io_update
  generalize io.device_count.toNat = n
  induction n with
  | zero => exact ⟨hq, fun d hd => hd⟩
  | succ n ih =>
    rw [List.range_succ, List.foldl_append]
    simp only [List.foldl_cons, List.foldl_nil]
    obtain ⟨h1, h2⟩ := io_update_device_kept now n _ p ih.1
    exact ⟨h1, fun d hd => ih.2 d (h2 d hd)⟩

theorem io_request_manager (io : IOManager) (pcbs : PCBStore) (q : Nat) (d dur now : Int) :
    ((d < 0 ∨ d ≥ io.device_count) → (io_request io pcbs q d dur now).2.1 = io) ∧
    (¬ (d < 0 ∨ d ≥ io.device_count) →
      ((io.devices d.toNat).is_busy = false →
        ((io_request io pcbs q d dur now).2.1.devices d.toNat).current_process = some q ∧
        (∀ j, j ≠ d.toNat → (io_request io pcbs q d dur now).2.1.devices j = io.devices j) ∧
        (io_request io pcbs q d dur now).2.1.io_queue = io.io_queue) ∧
      ((io.devices d.toNat).is_busy = true →
        (io_request io pcbs q d dur now).2.1.io_queue.nodes = io.io_queue.nodes ++ [q] ∧
        (io_request io pcbs q d dur now).2.1.devices = io.devices)) := by
  constructor
  · intro hd
    unfold io_request
    rw [if_pos hd]
  · intro hd
    constructor
    · intro hb
      unfold io_request
      rw [if_neg hd]
      simp only [hb, if_true]
      refine ⟨by simp, ?_, trivial⟩
      intro j hj
      simp [Function.update_noteq hj]
    · intro hb
      unfold io_request
      rw [if_neg hd]
      simp only [hb]
      exact ⟨rfl, rfl⟩

theorem io_request_kept (io : IOManager) (pcbs : PCBStore) (q : Nat) (d dur now : Int)
    (p : Nat) (hne : q ≠ p) (hq : p ∉ io.io_queue.nodes) :
    p ∉ (io_request io pcbs q d dur now).2.1.io_queue.nodes ∧
    ∀ j, ((io_request io pcbs q d dur now).2.1.devices j).current_process = some p →
      (io.devices j).current_process = some p := by
  obtain ⟨h1, h2⟩ := io_request_manager io pcbs q d dur now
  by_cases hd : d < 0 ∨ d ≥ io.device_count
  · rw [h1 hd]
    exact ⟨hq, fun j hj => hj⟩
  · obtain ⟨hi, hb⟩ := h2 hd
    cases hbusy : (io.devices d.toNat).is_busy with
    | false =>
      obtain ⟨e1, e2, e3⟩ := hi hbusy
      refine ⟨by rw [e3]; exact hq, ?_⟩
      intro j hj
      by_cases hjd : j = d.toNat
      · subst hjd
        rw [e1] at hj
        simp only [Option.some.injEq] at hj
        exact absurd hj hne
      · rwa [e2 j hjd] at hj
    | true =>
      obtain ⟨e1, e2⟩ := hb hbusy
      refine ⟨?_, ?_⟩
      · rw [e1]
        intro hp
        rcases List.mem_append.mp hp with hp | hp
        · exact hq hp
        · exact hne (List.mem_singleton.mp hp).symm
      · intro j hj
        rwa [e2] at hj

theorem IOLater_kept (p : Nat) (st st1 : IOManager × PCBStore) (h : IOLater p st st1)
    (hq : p ∉ st.1.io_queue.nodes) :
    p ∉ st1.1.io_queue.nodes ∧
    ∀ d, (st1.1.devices d).current_process = some p →
      (st.1.devices d).current_process = some p := by
  induction h with
  | start => exact ⟨hq, fun d hd => hd⟩
  | update st2 now _ ih =>
    obtain ⟨h1, h2⟩ := io_update_kept st2.1 st2.2 now p ih.1
    exact ⟨h1, fun d hd => ih.2 d (h2 d hd)⟩
  | request st2 q d dur now _ hne ih =>
    obtain ⟨h1, h2⟩ := io_request_kept st2.1 st2.2 q d dur now p hne ih.1
    exact ⟨h1, fun j hj => ih.2 j (h2 j hj)⟩
  | store st2 pcbs _ ih => exact ih

/-- C33, amended: in the turn of the loop of `io_update` for a device `i` that is busy
with `end_time <= now`, when the head of the wait queue is a PCB `p` that is not the
holder of device `i` and whose `io_device` differs from `i`: that entry of `p` is
removed from the wait queue, the turn makes `p` the holder of no device, the PCB of `p`
is unchanged (its state, `io_device` and `io_end_time` in particular) and device `i` is
left idle.  If moreover `p` has no other entry in the wait queue, then as long as `p`
issues no new I/O request, whatever calls of `io_update` and requests of other PCBs
follow, `p` is never in the wait queue again and never becomes the holder of a
device. -/
theorem C33_io_update_discards (now : Int) (i : Nat) (st : IOManager × PCBStore) (p : Nat)
    (rest : List Nat)
    (hb : (st.1.devices i).is_busy = true) (he : (st.1.devices i).end_time ≤ now)
    (hq : st.1.io_queue.nodes = p :: rest) (hd : (st.2 p).io_device ≠ i)
    (hh : (st.1.devices i).current_process ≠ some p) :
    (io_update_device now i st).1.io_queue.nodes = rest ∧
    (∀ d, ((io_update_device now i st).1.devices d).current_process = some p →
      d ≠ i ∧ (st.1.devices d).current_process = some p) ∧
    (io_update_device now i st).2 p = st.2 p ∧
    (io_update_device now i st).1.devices i
      = { device_id := (st.1.devices i).device_id, is_busy := false,
          current_process := none, end_time := -1 } ∧
    (p ∉ rest → ∀ st1, IOLater p (io_update_device now i st) st1 →
      p ∉ st1.1.io_queue.nodes ∧
      ∀ d, (st1.1.devices d).current_process = some p →
        d ≠ i ∧ (st.1.devices d).current_process = some p) := by
  obtain ⟨h1, h2, -, h4, h5⟩ := io_update_device_due now i st hb he
  have hdq : (queue_dequeue st.1.io_queue).1 = some p ∧
      (queue_dequeue st.1.io_queue).2.nodes = rest := by
    rcases queue_dequeue_nodes st.1.io_queue with ⟨hn, -, -⟩ | ⟨a, r, hn, e1, e2⟩
    · rw [hq] at hn
      exact absurd hn (by simp)
    · rw [hq] at hn
      simp only [List.cons.injEq] at hn
      rw [e1, e2, hn.1, hn.2]
      exact ⟨rfl, rfl⟩
  have hsame : (io_update_device now i st).2 p = st.2 p := by
    rw [h1]
    exact io_complete_other st.2 _ p hh
  have hidle : (io_update_device now i st).1.devices i
      = { device_id := (st.1.devices i).device_id, is_busy := false,
          current_process := none, end_time := -1 } := by
    rw [h5, hdq.1]
    simp only
    rw [io_complete_other st.2 _ p hh, if_neg hd]
  have hdev : ∀ d, ((io_update_device now i st).1.devices d).current_process = some p →
      d ≠ i ∧ (st.1.devices d).current_process = some p := by
    intro d hdp
    by_cases hdi : d = i
    · subst hdi
      rw [hidle] at hdp
      exact absurd hdp (by simp)
    · rw [h4 d hdi] at hdp
      exact ⟨hdi, hdp⟩
  refine ⟨by rw [h2]; exact hdq.2, hdev, hsame, hidle, ?_⟩
  intro hr st1 hl
  obtain ⟨k1, k2⟩ := IOLater_kept p _ st1 hl (by rw [h2, hdq.2]; exact hr)
  exact ⟨k1, fun d hdp => hdev d (k2 d hdp)⟩

/-- C33 fails on the code as stated, in two ways.  In the run `sim_requeue` the PCB at
address 3 requests the busy device 1 at tick 2, is made `READY` at tick 7 by the loop of
`check_and_unblock_processes` while still in the wait queue, and requests device 1 again
at tick 7: at tick 10 it is in the wait queue twice, `BLOCKED`, with `io_device = 1`.
The call of `io_update` at tick 10 completes device 0 and discards the head of the
queue; no process runs from tick 10 to tick 14, so that the PCB issues no request; yet
the call of `io_update` at tick 14 installs it on device 1.  And when the head of the
wait queue is the holder of the completing device (state `io_holder_queued`, device 0 at
tick 5), that PCB does not keep its state: it becomes `READY` with `io_device = -1`. -/
theorem C33_counterexample :
    ((sim_requeue 10).current_time = 10 ∧
      (sim_requeue 10).io_manager.io_queue.nodes = [3, 3] ∧
      (sim_requeue 10).io_manager.devices 0
        = { device_id := 0, is_busy := true, current_process := some 2, end_time := 10 } ∧
      ((sim_requeue 10).pcbs 3).io_device = 1 ∧
      ((sim_requeue 10).pcbs 3).state = ProcessState.STATE_BLOCKED ∧
      (io_update (sim_requeue 10).io_manager (sim_requeue 10).pcbs 10).1.io_queue.nodes = [3] ∧
      (io_update (sim_requeue 10).io_manager (sim_requeue 10).pcbs 10).1.devices 0
        = { device_id := 0, is_busy := false, current_process := none, end_time := -1 } ∧
      (io_update (sim_requeue 10).io_manager (sim_requeue 10).pcbs 10).1.devices 1
        = { device_id := 1, is_busy := true, current_process := some 1, end_time := 14 }) ∧
    ((sim_requeue 10).rand_calls = 12 ∧ (sim_requeue 14).rand_calls = 12 ∧
      trace_count (sim_requeue 10).trace_manager EventType.IO_REQUEST = 4 ∧
      trace_count (sim_requeue 14).trace_manager EventType.IO_REQUEST = 4 ∧
      (sim_requeue 14).current_time = 14 ∧
      (sim_requeue 14).io_manager.io_queue.nodes = [3] ∧
      (io_update (sim_requeue 14).io_manager (sim_requeue 14).pcbs 14).1.devices 1
        = { device_id := 1, is_busy := true, current_process := some 3, end_time := 21 }) ∧
    (io_holder_queued.2.1.devices 0
        = { device_id := 0, is_busy := true, current_process := some 1, end_time := 5 } ∧
      io_holder_queued.2.1.io_queue.nodes = [1] ∧
      (io_holder_queued.2.2 1).io_device = 1 ∧
      (io_holder_queued.2.2 1).state = ProcessState.STATE_BLOCKED ∧
      ((io_update_device 5 0 (io_holder_queued.2.1, io_holder_queued.2.2)).2 1).state
        = ProcessState.STATE_READY ∧
      ((io_update_device 5 0 (io_holder_queued.2.1, io_holder_queued.2.2)).2 1).io_device
        = -1) := by
  decide!

/-- C33 (amended) at the state `io_other_device`, for device 0 at tick 5: the PCB at
address 3, which waits for device 1, is popped and discarded. -/
theorem C33_io_update_discards_witness :
    (io_other_device.2.1.devices 0).is_busy = true ∧
    (io_other_device.2.1.devices 0).end_time ≤ 5 ∧
    io_other_device.2.1.io_queue.nodes = [3] ∧
    (io_other_device.2.2 3).io_device ≠ 0 ∧
    (io_other_device.2.1.devices 0).current_process ≠ some 3 ∧
    (io_update_device 5 0 (io_other_device.2.1, io_other_device.2.2)).1.io_queue.nodes = [] ∧
    (io_update_device 5 0 (io_other_device.2.1, io_other_device.2.2)).2 3
      = io_other_device.2.2 3 :=
  have h := C33_io_update_discards 5 0 (io_other_device.2.1, io_other_device.2.2) 3 []
    (by decide) (by decide) (by decide) (by decide) (by decide)
  ⟨by decide, by decide, by decide, by decide, by decide, h.1, h.2.2.1⟩

/-! ### C37: runs under FCFS and Priority -/

theorem Whole_fields (T : Int) (s t : Sim) (hs : Whole T s)
    (h1 : t.scheduler.type = s.scheduler.type) (h2 : t.current_time = s.current_time)
    (h3 : t.trace_manager = s.trace_manager) : Whole T t :=
  ⟨by rw [h1]; exact hs.1, h2.trans hs.2.1, by rw [h3]; exact hs.2.2⟩

theorem Whole_trace (T : Int) (s : Sim) (time : Int) (p : Nat) (e : EventType) (r : Int)
    (hs : Whole T s)
    (he : e ≠ EventType.IO_REQUEST ∧ e ≠ EventType.MUTEX_LOCK ∧ e ≠ EventType.SEM_WAIT) :
    Whole T (trace_pcb time p e r s) := by
  refine ⟨hs.1, hs.2.1, ?_⟩
  intro x hx
  simp only [trace_pcb, trace_event, List.mem_append, List.mem_singleton] at hx
  rcases hx with hx | hx
  · exact hs.2.2 x hx
  · rw [hx]
    exact he

theorem Whole_add (T : Int) (p : Nat) :
    Keeps (Whole T)
      (atom (fun t => { t with scheduler := scheduler_add_process t.scheduler t.pcbs p })) :=
  Keeps_atom _ _ (fun s hs =>
    Whole_fields T s _ hs (scheduler_add_process_fields s.scheduler s.pcbs p).1 rfl rfl)

theorem admission_whole (T : Int) (p : Nat) : Keeps (Whole T) (admission p) := by
  intro s hs
  unfold admission
  split
  · refine Keeps_block _ _ ?_ s hs
    intro b hb
    simp only [List.mem_cons, List.mem_singleton, List.not_mem_nil, or_false] at hb
    rcases hb with rfl | rfl | rfl
    · exact Keeps_atom _ _ (fun u hu => Whole_fields T u _ hu rfl rfl rfl)
    · exact Whole_add T p
    · exact Keeps_atom _ _ (fun u hu => Whole_trace T u _ p _ _ hu (by decide))
  · exact fun t ht => absurd ht (List.not_mem_nil t)

theorem unblock_whole (T : Int) (p : Nat) : Keeps (Whole T) (unblock p) := by
  intro s hs
  unfold unblock
  split
  · split
    · refine Keeps_block _ _ ?_ s hs
      intro b hb
      simp only [List.mem_cons, List.mem_singleton, List.not_mem_nil, or_false] at hb
      rcases hb with rfl | rfl | rfl | rfl | rfl
      · exact Keeps_atom _ _ (fun u hu => Whole_fields T u _ hu rfl rfl rfl)
      · exact Keeps_atom _ _ (fun u hu => Whole_fields T u _ hu rfl rfl rfl)
      · exact Keeps_atom _ _ (fun u hu => Whole_fields T u _ hu rfl rfl rfl)
      · exact Whole_add T p
      · exact Keeps_atom _ _ (fun u hu => Whole_trace T u _ p _ _ hu (by decide))
    · exact fun t ht => absurd ht (List.not_mem_nil t)
  · exact fun t ht => absurd ht (List.not_mem_nil t)

theorem check_and_unblock_processes_whole (T : Int) :
    Keeps (Whole T) check_and_unblock_processes := by
  intro s hs
  unfold check_and_unblock_processes
  refine Keeps_seq_at _ _ _ ?_ ?_ s hs
  · exact Keeps_atom _ _ (fun u hu => Whole_fields T u _ hu rfl rfl rfl)
  · exact fun u hu => Keeps_for_each _ unblock u.processes (unblock_whole T) u hu

theorem before_dispatch_whole (T : Int) (s : Sim) (hs : Whole T s) :
    Whole T (before_dispatch s) := by
  have h : Keeps (Whole T)
      (block [fun s => for_each admission s.processes s, check_and_unblock_processes]) := by
    refine Keeps_block _ _ ?_
    intro b hb
    simp only [List.mem_cons, List.mem_singleton, List.not_mem_nil, or_false] at hb
    rcases hb with rfl | rfl
    · exact fun u hu => Keeps_for_each _ admission u.processes (admission_whole T) u hu
    · exact check_and_unblock_processes_whole T
  exact Keeps_final _ _ h s hs

theorem time_slice_whole (sched : Scheduler) (r : Int)
    (h : sched.type ≠ SchedulerType.SCHED_RR) : execution (time_slice sched r) r = r := by
  unfold execution time_slice
  simp only [h, if_false]
  split_ifs <;> omega

theorem Spent_assign (T : Int) (c : Nat) (f : PCB → PCB)
    (h : ∀ r, (f r).remaining_time = r.remaining_time) :
    Keeps (Spent T c) (atom (assign_pcb c f)) := by
  refine Keeps_atom _ _ ?_
  intro s hs
  refine ⟨Whole_fields T s _ hs.1 rfl rfl rfl, ?_⟩
  simp only [assign_pcb, Function.update_same]
  rw [h]
  exact hs.2

/-- Outside Round Robin the call of `simulate_process_execution` made by `main` takes
all the work that the process has left, at its first statement, and draws no event. -/
theorem simulate_process_execution_whole (rand : Nat → Nat) (T : Int) (c : Nat) (s : Sim)
    (hs : Whole T s) :
    (∀ t ∈ simulate_process_execution rand c
        (time_slice s.scheduler (s.pcbs c).remaining_time) s, Spent T c t) ∧
    Spent T c (final (simulate_process_execution rand c
        (time_slice s.scheduler (s.pcbs c).remaining_time) s) s) := by
  unfold simulate_process_execution
  rw [time_slice_whole s.scheduler _ hs.1]
  refine Triple_cons_at (Spent T c) (fun t => t = s) (Spent T c) (Spent T c) _ _ ?_ ?_ s rfl
  · refine Triple_atom _ _ _ _ ?_
    intro t ht
    subst ht
    have h : Spent T c (assign_pcb c (fun r =>
        { r with remaining_time := r.remaining_time - (t.pcbs c).remaining_time }) t) := by
      refine ⟨Whole_fields T t _ hs rfl rfl rfl, ?_⟩
      simp [assign_pcb]
    exact ⟨h, h⟩
  · refine Triple_cons (Spent T c) _ (Spent T c) _ _ _
      (Triple_of_Keeps _ _ _ (fun _ h => h) (Spent_assign T c _ (fun _ => rfl))) ?_
    refine Triple_cons (Spent T c) _ (Spent T c) _ _ _ ?_ (Triple_nil _ _)
    intro t ht
    rw [simulate_action_quiet rand c t (Or.inl (le_of_eq ht.2))]
    have h : Spent T c { t with rand_calls := t.rand_calls + 1 } :=
      ⟨Whole_fields T t _ ht.1 rfl rfl rfl, ht.2⟩
    refine ⟨?_, h⟩
    intro u hu
    simp only [List.mem_singleton] at hu
    rw [hu]
    exact h

theorem Whole_of_Spent (T : Int) (c : Nat) (s : Sim) (h : Spent T c s) : Whole T s := h.1

theorem Whole_of_Ended (T : Int) (c : Nat) (s : Sim) (h : Ended T c s) : Whole T s := h.1

theorem Ended_fields (T : Int) (c : Nat) (s t : Sim) (hs : Ended T c s)
    (h1 : t.scheduler.type = s.scheduler.type) (h2 : t.current_time = s.current_time)
    (h3 : t.trace_manager = s.trace_manager) (h4 : t.pcbs = s.pcbs) : Ended T c t :=
  ⟨Whole_fields T s t hs.1 h1 h2 h3, by rw [h4]; exact hs.2⟩

theorem after_slice_whole (T : Int) (c : Nat) :
    Triple (Whole T) (Spent T c) (Ended T c) (after_slice c) := by
  intro s hs
  unfold after_slice
  rw [if_pos (le_of_eq hs.2)]
  refine Triple_cons_at (Whole T) (Spent T c)
    (fun t => Spent T c t ∧ (t.pcbs c).state = ProcessState.STATE_TERMINATED)
    (Ended T c) _ _ ?_ ?_ s hs
  · refine Triple_atom _ _ _ _ ?_
    intro t ht
    have hw : Whole T { t with pcbs := pcb_set_state t.pcbs c ProcessState.STATE_TERMINATED } :=
      Whole_fields T t _ ht.1 rfl rfl rfl
    refine ⟨hw, ⟨hw, ?_⟩, ?_⟩
    · simpa [pcb_set_state] using ht.2
    · simp [pcb_set_state]
  · refine Triple_cons (Whole T) _ (Ended T c) _ _ _ ?_ ?_
    · refine Triple_atom _ _ _ _ ?_
      intro t ht
      have hw : Whole T (assign_pcb c (fun r => { r with finish_time := t.current_time + 1 }) t) :=
        Whole_fields T t _ ht.1.1 rfl rfl rfl
      refine ⟨hw, hw, ?_, ?_, ?_⟩
      · simpa [assign_pcb] using ht.2
      · simpa [assign_pcb] using ht.1.2
      · simp only [assign_pcb, Function.update_same]
        rw [ht.1.1.2.1]
    · have hk : Keeps (Ended T c)
          (block
            [atom (fun t => { t with active_processes := t.active_processes - 1 }),
             atom (fun t => trace_pcb (t.current_time + 1) c EventType.TERMINATE 0 t),
             atom (fun t =>
              { t with scheduler := { t.scheduler with current_process := none } })]) := by
        refine Keeps_block _ _ ?_
        intro b hb
        simp only [List.mem_cons, List.mem_singleton, List.not_mem_nil, or_false] at hb
        rcases hb with rfl | rfl | rfl
        · exact Keeps_atom _ _ (fun u hu => Ended_fields T c u _ hu rfl rfl rfl rfl)
        · exact Keeps_atom _ _ (fun u hu =>
            ⟨Whole_trace T u _ c _ _ hu.1 (by decide), hu.2⟩)
        · exact Keeps_atom _ _ (fun u hu => Ended_fields T c u _ hu rfl rfl rfl rfl)
      exact Triple_of_Keeps _ _ _ (Whole_of_Ended T c) hk

theorem run_current_whole (rand : Nat → Nat) (T : Int) (c : Nat) :
    Triple (Whole T) (Whole T) (Ended T c) (run_current rand c) := by
  intro s hs
  unfold run_current
  refine Triple_cons_at (Whole T) (fun t => t = s) (Spent T c) (Ended T c) _ _ ?_ ?_ s rfl
  · intro t ht
    subst ht
    have h := simulate_process_execution_whole rand T c t hs
    exact ⟨fun u hu => (h.1 u hu).1, h.2⟩
  · refine Triple_cons (Whole T) _ (Spent T c) _ _ _ ?_ ?_
    · intro t ht
      beta_reduce
      rw [if_neg ht.1.1]
      exact ⟨fun u hu => absurd hu (List.not_mem_nil u), ht⟩
    · refine Triple_cons (Whole T) _ (Spent T c) _ _ _ ?_
        (Triple_cons (Whole T) _ _ _ _ _ (after_slice_whole T c) (Triple_nil _ _))
      refine Triple_atom _ _ _ _ ?_
      intro t ht
      have hw := Whole_trace T t t.current_time c EventType.EXECUTE
        (t.pcbs c).remaining_time ht.1 (by decide)
      exact ⟨hw, hw, ht.2⟩

theorem dispatch_whole (rand : Nat → Nat) (T : Int) (s : Sim) (hs : Whole T s) :
    (∀ t ∈ dispatch rand s, Whole T t) ∧
    (fun t => Whole T t ∧
      ∀ c, (scheduler_get_next s.scheduler s.pcbs s.current_time).1 = some c →
        ((scheduler_get_next s.scheduler s.pcbs s.current_time).2.2 c).state
          = ProcessState.STATE_RUNNING → Ended T c t)
      (final (dispatch rand s) s) := by
  unfold dispatch
  refine Triple_seq_at (Whole T)
    (fun t => t =
      { s with
        scheduler := (scheduler_get_next s.scheduler s.pcbs s.current_time).2.1
        pcbs := (scheduler_get_next s.scheduler s.pcbs s.current_time).2.2 })
    (fun t => Whole T t ∧
      ∀ c, (scheduler_get_next s.scheduler s.pcbs s.current_time).1 = some c →
        ((scheduler_get_next s.scheduler s.pcbs s.current_time).2.2 c).state
          = ProcessState.STATE_RUNNING → Ended T c t) _ _ s ?_ ?_
  · refine Triple_atom_at _ _ _ s ⟨?_, rfl⟩
    exact Whole_fields T s _ hs
      (scheduler_get_next_const s.scheduler s.pcbs s.current_time).1 rfl rfl
  · intro t ht
    have hw : Whole T t := by
      rw [ht]
      exact Whole_fields T s _ hs
        (scheduler_get_next_const s.scheduler s.pcbs s.current_time).1 rfl rfl
    beta_reduce
    cases hg : (scheduler_get_next s.scheduler s.pcbs s.current_time).1 with
    | none =>
      exact ⟨fun u hu => absurd hu (List.not_mem_nil u), hw, fun c hc => absurd hc (by simp)⟩
    | some d =>
      simp only
      split
      · obtain ⟨h1, h2⟩ := run_current_whole rand T d t hw
        refine ⟨h1, h2.1, ?_⟩
        intro c hc _
        have : d = c := Option.some.inj hc
        rw [← this]
        exact h2
      · rename_i hrun
        refine ⟨fun u hu => absurd hu (List.not_mem_nil u), hw, ?_⟩
        intro c hc hr
        have : d = c := Option.some.inj hc
        rw [← this] at hr
        rw [ht] at hrun
        exact absurd hr hrun

theorem update_wait_times_ended (T : Int) (c : Nat) :
    Keeps (Ended T c) update_wait_times := by
  intro s hs
  unfold update_wait_times
  refine Keeps_for_each _ update_wait_time s.processes ?_ s hs
  intro p u hu
  have key : ∀ f : PCB → PCB, (∀ r, (f r).state = r.state ∧
      (f r).remaining_time = r.remaining_time ∧ (f r).finish_time = r.finish_time) →
      Ended T c (assign_pcb p f u) := by
    intro f hf
    refine ⟨Whole_fields T u _ hu.1 rfl rfl rfl, ?_⟩
    by_cases hp : c = p
    · subst hp
      simp only [assign_pcb, Function.update_same]
      rw [(hf _).1, (hf _).2.1, (hf _).2.2]
      exact hu.2
    · simp only [assign_pcb, Function.update_noteq hp]
      exact hu.2
  unfold update_wait_time
  split
  · intro t ht
    simp only [atom, List.mem_singleton] at ht
    rw [ht]
    exact key _ (fun _ => ⟨rfl, rfl, rfl⟩)
  · split
    · intro t ht
      simp only [atom, List.mem_singleton] at ht
      rw [ht]
      exact key _ (fun _ => ⟨rfl, rfl, rfl⟩)
    · exact fun t ht => absurd ht (List.not_mem_nil t)

theorem update_wait_times_whole (T : Int) : Keeps (Whole T) update_wait_times := by
  intro s hs
  unfold update_wait_times
  refine Keeps_for_each _ update_wait_time s.processes ?_ s hs
  intro p u hu
  unfold update_wait_time
  split
  · intro t ht
    simp only [atom, List.mem_singleton] at ht
    rw [ht]
    exact Whole_fields T u _ hu rfl rfl rfl
  · split
    · intro t ht
      simp only [atom, List.mem_singleton] at ht
      rw [ht]
      exact Whole_fields T u _ hu rfl rfl rfl
    · exact fun t ht => absurd ht (List.not_mem_nil t)

theorem loop_body_final (rand : Nat → Nat) (s : Sim) :
    final (loop_body rand s) s
      = { final (update_wait_times (final (dispatch rand (before_dispatch s))
            (before_dispatch s))) (final (dispatch rand (before_dispatch s))
            (before_dispatch s)) with
          current_time := (final (update_wait_times (final (dispatch rand (before_dispatch s))
            (before_dispatch s))) (final (dispatch rand (before_dispatch s))
            (before_dispatch s))).current_time + 1 } := by
  simp only [loop_body, block, seq, before_dispatch, final_append, skip, List.append_nil]
  rfl

theorem loop_body_whole (rand : Nat → Nat) (T : Int) (s : Sim) (hs : Whole T s) :
    Whole (T + 1) (final (loop_body rand s) s) := by
  rw [loop_body_final]
  have h1 := before_dispatch_whole T s hs
  have h2 := (dispatch_whole rand T _ h1).2.1
  have h3 := Keeps_final _ _ (update_wait_times_whole T) _ h2
  exact ⟨h3.1, by show _ + 1 = T + 1; rw [h3.2.1], h3.2.2⟩

theorem main_loop_whole (rand : Nat → Nat) (n : Nat) (T : Int) (s : Sim) (hs : Whole T s) :
    QuietTrace (main_loop rand n s).trace_manager := by
  induction n generalizing s T with
  | zero => exact hs.2.2
  | succ n ih =>
    unfold main_loop
    split
    · exact ih (T + 1) _ (loop_body_whole rand T s hs)
    · exact hs.2.2

theorem trace_count_quiet (tm : TraceManager) (h : QuietTrace tm) :
    trace_count tm EventType.IO_REQUEST = 0 ∧ trace_count tm EventType.MUTEX_LOCK = 0 ∧
      trace_count tm EventType.SEM_WAIT = 0 := by
  unfold trace_count
  refine ⟨?_, ?_, ?_⟩ <;>
    · rw [List.length_eq_zero, List.filter_eq_nil_iff]
      intro e he
      have := h e he
      simp [this.1, this.2.1, this.2.2]

theorem dispatched_ended (rand : Nat → Nat) (T : Int) (s : Sim) (hs : Whole T s) (c : Nat)
    (h : dispatched s = some c) :
    (∀ t ∈ slice_run rand c s, (t.pcbs c).remaining_time = 0) ∧
    ((final (loop_body rand s) s).pcbs c).state = ProcessState.STATE_TERMINATED ∧
    ((final (loop_body rand s) s).pcbs c).remaining_time = 0 ∧
    ((final (loop_body rand s) s).pcbs c).finish_time = T + 1 := by
  have h1 := before_dispatch_whole T s hs
  have hat : Whole T (at_dispatch s) :=
    Whole_fields T (before_dispatch s) _ h1
      (scheduler_get_next_const _ _ _).1 rfl rfl
  have hget : (scheduler_get_next (before_dispatch s).scheduler (before_dispatch s).pcbs
        (before_dispatch s).current_time).1 = some c ∧
      ((scheduler_get_next (before_dispatch s).scheduler (before_dispatch s).pcbs
        (before_dispatch s).current_time).2.2 c).state = ProcessState.STATE_RUNNING := by
    unfold dispatched at h
    cases hg : (scheduler_get_next (before_dispatch s).scheduler (before_dispatch s).pcbs
        (before_dispatch s).current_time).1 with
    | none =>
      rw [hg] at h
      exact absurd h (by simp)
    | some d =>
      rw [hg] at h
      simp only at h
      split at h
      · rename_i hrun
        have hd : d = c := Option.some.inj h
        subst hd
        exact ⟨rfl, hrun⟩
      · exact absurd h (by simp)
  have h2 := (dispatch_whole rand T _ h1).2.2 c hget.1 hget.2
  have h3 := Keeps_final _ _ (update_wait_times_ended T c) _ h2
  refine ⟨?_, ?_⟩
  · intro t ht
    exact ((simulate_process_execution_whole rand T c (at_dispatch s) hat).1 t ht).2
  · rw [loop_body_final]
    exact h3.2

theorem main_init_whole (type : SchedulerType) (quantum max_time : Int)
    (processes : List Nat) (pcbs : PCBStore) (memory : Nat → IODevice)
    (h : type ≠ SchedulerType.SCHED_RR) :
    Whole 0 (main_init type quantum max_time processes pcbs memory) :=
  ⟨h, rfl, fun e he => absurd he (List.not_mem_nil e)⟩

theorem main_loop_time (rand : Nat → Nat) (n : Nat) (T : Int) (s : Sim) (hs : Whole T s) :
    Whole (main_loop rand n s).current_time (main_loop rand n s) := by
  induction n generalizing s T with
  | zero => exact ⟨hs.1, rfl, hs.2.2⟩
  | succ n ih =>
    unfold main_loop
    split
    · exact ih (T + 1) _ (loop_body_whole rand T s hs)
    · exact ⟨hs.1, rfl, hs.2.2⟩

/-- C37: under FCFS and under the Priority policy, for every roster, quantum and time
limit and any two streams of `rand()` results, the two runs of the loop are in the same
state after every number of turns, so that they end with the same PCBs and the same
trace; the trace never holds an `IO_REQUEST`, `MUTEX_LOCK` or `SEM_WAIT` record; and
whenever a turn executes a process, the process has no work left from the first
statement of `simulate_process_execution` on, and at the end of the turn it is
`TERMINATED` with `remaining_time = 0` and `finish_time` equal to the tick of the turn
plus 1. -/
theorem C37_random_independence (type : SchedulerType) (quantum max_time : Int)
    (processes : List Nat) (pcbs : PCBStore) (memory : Nat → IODevice)
    (rand rand2 : Nat → Nat)
    (hty : type = SchedulerType.SCHED_FCFS ∨ type = SchedulerType.SCHED_PRIORITY) (n : Nat) :
    main_loop rand n (main_init type quantum max_time processes pcbs memory)
      = main_loop rand2 n (main_init type quantum max_time processes pcbs memory) ∧
    (trace_count (main_loop rand n
        (main_init type quantum max_time processes pcbs memory)).trace_manager
        EventType.IO_REQUEST = 0 ∧
      trace_count (main_loop rand n
        (main_init type quantum max_time processes pcbs memory)).trace_manager
        EventType.MUTEX_LOCK = 0 ∧
      trace_count (main_loop rand n
        (main_init type quantum max_time processes pcbs memory)).trace_manager
        EventType.SEM_WAIT = 0) ∧
    (∀ c,
      dispatched (main_loop rand n (main_init type quantum max_time processes pcbs memory))
        = some c →
      (∀ t ∈ slice_run rand c
          (main_loop rand n (main_init type quantum max_time processes pcbs memory)),
        (t.pcbs c).remaining_time = 0) ∧
      ((final
          (loop_body rand
            (main_loop rand n (main_init type quantum max_time processes pcbs memory)))
          (main_loop rand n
            (main_init type quantum max_time processes pcbs memory))).pcbs c).state
        = ProcessState.STATE_TERMINATED ∧
      ((final
          (loop_body rand
            (main_loop rand n (main_init type quantum max_time processes pcbs memory)))
          (main_loop rand n
            (main_init type quantum max_time processes pcbs memory))).pcbs c).remaining_time
        = 0 ∧
      ((final
          (loop_body rand
            (main_loop rand n (main_init type quantum max_time processes pcbs memory)))
          (main_loop rand n
            (main_init type quantum max_time processes pcbs memory))).pcbs c).finish_time
        = (main_loop rand n
            (main_init type quantum max_time processes pcbs memory)).current_time + 1) := by
  have hne : type ≠ SchedulerType.SCHED_RR := by
    rcases hty with h | h <;> rw [h] <;> decide
  have h0 := main_init_whole type quantum max_time processes pcbs memory hne
  refine ⟨main_loop_congr rand rand2 n _ (Or.inl hne),
    trace_count_quiet _ (main_loop_whole rand n 0 _ h0), ?_⟩
  intro c hc
  exact dispatched_ended rand _ _ (main_loop_time rand n 0 _ h0) c hc

/-- C37 at the run under FCFS on the roster of two PCBs `pcbs_pair`, with the streams of
`rand()` results that are all 0 and all 40, after 3 turns. -/
theorem C37_random_independence_witness :
    (SchedulerType.SCHED_FCFS = SchedulerType.SCHED_FCFS ∨
      SchedulerType.SCHED_FCFS = SchedulerType.SCHED_PRIORITY) ∧
    main_loop rand_zero 3
        (main_init SchedulerType.SCHED_FCFS DEFAULT_QUANTUM DEFAULT_TIME [1, 2] pcbs_pair
          memory_example)
      = main_loop rand_quiet 3
        (main_init SchedulerType.SCHED_FCFS DEFAULT_QUANTUM DEFAULT_TIME [1, 2] pcbs_pair
          memory_example) ∧
    trace_count (main_loop rand_zero 3
        (main_init SchedulerType.SCHED_FCFS DEFAULT_QUANTUM DEFAULT_TIME [1, 2] pcbs_pair
          memory_example)).trace_manager EventType.IO_REQUEST = 0 :=
  have h := C37_random_independence SchedulerType.SCHED_FCFS DEFAULT_QUANTUM DEFAULT_TIME
    [1, 2] pcbs_pair memory_example rand_zero rand_quiet (Or.inl rfl) 3
  ⟨Or.inl rfl, h.1, h.2.1.1⟩

end MiniOs
